import Mathlib

/-!
# gnark R1CS solver and constraint-system codec (bn254 backend)

Shallow embedding of `internal/backend/bn254/cs/r1cs.go`,
`internal/backend/bn254/cs/solution.go` and `backend/hint/builtin.go`.

Conventions of the embedding:
* a Go `uint64` is a `Nat` below `2^64`, a Go `int` is an `Int` in
  `[-2^63, 2^63)`; conversions between the two are written with an explicit
  `% 2^64`;
* a byte is a `Nat` below `256`, a byte slice is a `List Nat`;
* a Go panic (index out of range, explicit `panic(...)`) is `none` in the
  codec functions, which have no other failure mode.
-/

namespace Gnark

/-! ## Machine integers and the little-endian helpers -/

/-- Conversion `uint64(x)` of a Go `int`. -/
def intToUint64 (x : Int) : Nat := (x % 18446744073709551616).toNat

/-- Conversion `int(x)` of a Go `uint64` (two's complement reinterpretation). -/
def uint64ToInt (x : Nat) : Int :=
  if x % 18446744073709551616 < 9223372036854775808 then ((x % 18446744073709551616 : Nat) : Int)
  else ((x % 18446744073709551616 : Nat) : Int) - 18446744073709551616

/-- Source `uint64_to_byte`: the eight little-endian bytes of `x`. -/
def uint64_to_byte (x : Nat) : List Nat :=
  [x % 256, x / 256 % 256, x / 65536 % 256, x / 16777216 % 256,
   x / 4294967296 % 256, x / 1099511627776 % 256, x / 281474976710656 % 256,
   x / 72057594037927936 % 256]

/-- Source `int_to_byte`: `PutUint64(b, uint64(x))`. -/
def int_to_byte (x : Int) : List Nat := uint64_to_byte (intToUint64 x)

/-- Source `uint32_to_byte` / `hintID_to_byte`: the four little-endian bytes of `x`. -/
def hintID_to_byte (x : Nat) : List Nat :=
  [x % 256, x / 256 % 256, x / 65536 % 256, x / 16777216 % 256]

/-- The call `binary.LittleEndian.Uint64(b[offset : offset+8])`; `none` when the
slice expression is out of range. -/
def leUint64At (b : List Nat) (offset : Nat) : Option Nat :=
  match b.drop offset with
  | b0 :: b1 :: b2 :: b3 :: b4 :: b5 :: b6 :: b7 :: _ =>
    some (b0 + 256 * b1 + 65536 * b2 + 16777216 * b3 + 4294967296 * b4
      + 1099511627776 * b5 + 281474976710656 * b6 + 72057594037927936 * b7)
  | _ => none

/-- Source `byte_to_uint64`: the value read and the number of bytes used. -/
def byte_to_uint64 (b : List Nat) (offset : Nat) : Option (Nat × Nat) :=
  (leUint64At b offset).map (fun v => (v, 8))

/-- Source `byte_to_int`: `int(LittleEndian.Uint64(b[offset:offset+8]))` and `8`. -/
def byte_to_int (b : List Nat) (offset : Nat) : Option (Int × Nat) :=
  (leUint64At b offset).map (fun v => (uint64ToInt v, 8))

/-- Source `byte_to_hintID`: `LittleEndian.Uint32(b[offset:offset+4])` and `4`. -/
def byte_to_hintID (b : List Nat) (offset : Nat) : Option (Nat × Nat) :=
  match b.drop offset with
  | b0 :: b1 :: b2 :: b3 :: _ => some (b0 + 256 * b1 + 65536 * b2 + 16777216 * b3, 4)
  | _ => none

/-! ## Constraint model -/

/-- A `compiled.Term` is a packed `uint64`. -/
abbrev Term := Nat

/-- A `compiled.LinearExpression` is a slice of terms. -/
abbrev LinearExpression := List Term

/-- A `compiled.R1C`: the triple `L · R == O`. -/
structure R1C where
  L : LinearExpression
  R : LinearExpression
  O : LinearExpression
deriving DecidableEq, Repr

/-- A term is a value of type `uint64`. -/
def Term.wf (t : Term) : Prop := t < 18446744073709551616

/-- A slice of terms: its length is a non-negative Go `int` and every term a `uint64`. -/
def LinearExpression.wf (l : LinearExpression) : Prop :=
  l.length < 9223372036854775808 ∧ ∀ t ∈ l, Term.wf t

/-- The three linear expressions of a constraint are Go slices of `uint64`. -/
def R1C.wf (r : R1C) : Prop :=
  LinearExpression.wf r.L ∧ LinearExpression.wf r.R ∧ LinearExpression.wf r.O

/-! ## Constraint block codec -/

/-- Source `encodeLinearExpression`. -/
def encodeLinearExpression (l : LinearExpression) : List Nat :=
  l.foldl (fun retBytes term => retBytes ++ uint64_to_byte (term % 18446744073709551616))
    (uint64_to_byte (l.length % 18446744073709551616))

/-- Source `encodeConstraints`. -/
def encodeConstraints (constraints : List R1C) : List Nat :=
  constraints.foldl
    (fun R1CsBytes r1c =>
      ((R1CsBytes ++ encodeLinearExpression r1c.L) ++ encodeLinearExpression r1c.R)
        ++ encodeLinearExpression r1c.O)
    (uint64_to_byte (constraints.length % 18446744073709551616))

/-- The loop `for j := 0; j < nTerm; j++` of `decodeLinearExpression`, with `n`
iterations left, the current `offset` and the terms stored so far. -/
def decodeTermsLoop (bytes : List Nat) : Nat → Nat → List Term → Option (List Term × Nat)
  | 0, offset, le => some (le, offset)
  | n + 1, offset, le =>
    match byte_to_int bytes offset with
    | none => none
    | some (term, usedN) => decodeTermsLoop bytes n (offset + usedN) (le ++ [intToUint64 term])

/-- Source `decodeLinearExpression`: the expression and the number of bytes consumed.
`make([]compiled.Term, nTerm)` panics on a negative length. -/
def decodeLinearExpression (bytes : List Nat) : Option (LinearExpression × Nat) :=
  match byte_to_int bytes 0 with
  | none => none
  | some (nTerm, usedN) =>
    if nTerm < 0 then none else decodeTermsLoop bytes nTerm.toNat usedN []

/-- The slice expression `bytes[offset:]`, which panics past the end. -/
def sliceFrom (bytes : List Nat) (offset : Nat) : Option (List Nat) :=
  if offset ≤ bytes.length then some (bytes.drop offset) else none

/-- The loop `for i := 0; i < n; i++` of `decodeConstraints`. -/
def decodeConstraintsLoop (bytes : List Nat) : Nat → Nat → List R1C → Option (List R1C)
  | 0, _, r1c => some r1c
  | n + 1, offset, r1c =>
    match (sliceFrom bytes offset).bind decodeLinearExpression with
    | none => none
    | some (L, usedL) =>
      match (sliceFrom bytes (offset + usedL)).bind decodeLinearExpression with
      | none => none
      | some (R, usedR) =>
        match (sliceFrom bytes (offset + usedL + usedR)).bind decodeLinearExpression with
        | none => none
        | some (O, usedO) =>
          decodeConstraintsLoop bytes n (offset + usedL + usedR + usedO)
            (r1c ++ [R1C.mk L R O])

/-- Source `decodeConstraints`. -/
def decodeConstraints (bytes : List Nat) : Option (List R1C) :=
  match byte_to_int bytes 0 with
  | none => none
  | some (n, offset) =>
    if n < 0 then none else decodeConstraintsLoop bytes n.toNat offset []

/-! ## Hint descriptors and the hint map -/

/-- An element of `compiled.Hint.Inputs` (a Go `interface{}`), by dynamic type:
`big.Int`, `*big.Int`, `compiled.LinearExpression` or `compiled.Term`. -/
inductive HintInput where
  | bigInt (v : Int)
  | bigIntPtr (v : Int)
  | linExp (l : LinearExpression)
  | term (t : Term)
deriving DecidableEq, Repr

/-- A `compiled.Hint`: the hint function ID (`uint32`), the output wires and the inputs. -/
structure Hint where
  ID : Nat
  Wires : List Int
  Inputs : List HintInput
deriving DecidableEq, Repr

/-- A `map[int]*compiled.Hint` with its sharing made explicit: `heap` holds the descriptor
instances, a pointer is an index into `heap` (`none` is the nil pointer), and `entries` are
the key/pointer pairs of the map in the order in which a `range` loop visits them. -/
structure MHints where
  heap : List Hint
  entries : List (Int × Option Nat)
deriving DecidableEq, Repr

/-- The map read `m[k]` on pointers: nil when the key is absent. -/
def mapGet (m : List (Int × Option Nat)) (k : Int) : Option Nat :=
  match m.lookup k with
  | some p => p
  | none => none

/-- The map write `m[k] = p`: overwrite an existing key, else add the entry. -/
def mapSet : List (Int × Option Nat) → Int → Option Nat → List (Int × Option Nat)
  | [], k, p => [(k, p)]
  | (k', p') :: m, k, p => if k' = k then (k, p) :: m else (k', p') :: mapSet m k p

/-- The digits of `n` in base 256, most significant first, without leading zeros
(`fuel` bounds the number of digits). -/
def natBytesBE : Nat → Nat → List Nat
  | 0, _ => []
  | fuel + 1, n => if n = 0 then [] else natBytesBE fuel (n / 256) ++ [n % 256]

/-- The call `x.Bytes()` of `math/big`: the big-endian bytes of the absolute value. -/
def bigIntBytes (x : Int) : List Nat := natBytesBE x.natAbs x.natAbs

/-- The call `z.SetBytes(bb)` of `math/big`: the unsigned big-endian integer. -/
def bigIntSetBytes (bb : List Nat) : Int := ((bb.foldl (fun acc b => acc * 256 + b) 0 : Nat) : Int)

/-! ## Hint map codec -/

/-- The bytes appended to `hintBinary` for one input in `encodeMHints`; `none` is the
`panic("unknown type")` of the `default` case. -/
def encodeHintInput : HintInput → Option (List Nat)
  | .bigInt vit =>
    some (int_to_byte 25446 ++ int_to_byte ((bigIntBytes vit).length : Int) ++ bigIntBytes vit)
  | .bigIntPtr vit =>
    some (int_to_byte 25447 ++ int_to_byte ((bigIntBytes vit).length : Int) ++ bigIntBytes vit)
  | .linExp vit =>
    some (vit.foldl (fun hintBinary t => hintBinary ++ uint64_to_byte (t % 18446744073709551616))
      (int_to_byte 25443 ++ int_to_byte (vit.length : Int)))
  | .term _ => none

/-- The loop over `v.Inputs` in `encodeMHints`. -/
def encodeHintInputs : List HintInput → List Nat → Option (List Nat)
  | [], hintBinary => some hintBinary
  | i :: rest, hintBinary =>
    match encodeHintInput i with
    | none => none
    | some bs => encodeHintInputs rest (hintBinary ++ bs)

/-- The part of the loop body of `encodeMHints` that builds `hintBinary` for a descriptor. -/
def encodeHint (v : Hint) : Option (List Nat) :=
  encodeHintInputs v.Inputs
    (v.Wires.foldl (fun hintBinary w => hintBinary ++ int_to_byte w)
        (hintID_to_byte (v.ID % 4294967296) ++ int_to_byte (v.Wires.length : Int))
      ++ int_to_byte (v.Inputs.length : Int))

/-- The loop `for k, v := range mhints` of `encodeMHints`; `mhintscheck` maps a descriptor
pointer to the first key seen for it. Dereferencing a nil descriptor panics. -/
def encodeMHintsLoop (heap : List Hint) :
    List (Int × Option Nat) → List (Option Nat × Int) → List Nat → Option (List Nat)
  | [], _, mhintsBinary => some mhintsBinary
  | (k, v) :: rest, mhintscheck, mhintsBinary =>
    match mhintscheck.lookup v with
    | some lastKey =>
      encodeMHintsLoop heap rest mhintscheck
        (mhintsBinary ++ int_to_byte k ++ int_to_byte 0 ++ int_to_byte lastKey)
    | none =>
      match v.bind (fun p => heap[p]?) with
      | none => none
      | some h =>
        match encodeHint h with
        | none => none
        | some hintBinary =>
          encodeMHintsLoop heap rest ((v, k) :: mhintscheck)
            (mhintsBinary ++ int_to_byte k ++ int_to_byte 1 ++ hintBinary)

/-- Source `encodeMHints`, on the entries in the order the `range` loop visits them. -/
def encodeMHints (mhints : MHints) : Option (List Nat) :=
  encodeMHintsLoop mhints.heap mhints.entries [] (int_to_byte (mhints.entries.length : Int))

/-- The slice expression `b[lo : lo+n]` for a length `n` read from the stream. -/
def sliceLen (b : List Nat) (lo : Nat) (n : Int) : Option (List Nat) :=
  if n < 0 then none
  else if lo + n.toNat ≤ b.length then some ((b.drop lo).take n.toNat) else none

/-- The loop `for k := 0; k < linLen; k++` of `decodeMHints`. -/
def decodeHintTermsLoop (b : List Nat) : Nat → Nat → List Term → Option (List Term × Nat)
  | 0, bytes_used, val => some (val, bytes_used)
  | n + 1, bytes_used, val =>
    match byte_to_uint64 b bytes_used with
    | none => none
    | some (uint64v, offset) => decodeHintTermsLoop b n (bytes_used + offset) (val ++ [uint64v])

/-- The body of the loop over the inputs in `decodeMHints`: one tagged input. -/
def decodeHintInput (b : List Nat) (bytes_used : Nat) : Option (HintInput × Nat) :=
  match byte_to_int b bytes_used with
  | none => none
  | some (typeTag, offset) =>
    let bytes_used := bytes_used + offset
    if typeTag = 25446 then
      match byte_to_int b bytes_used with
      | none => none
      | some (bigIntLen, offset) =>
        match sliceLen b (bytes_used + offset) bigIntLen with
        | none => none
        | some bb => some (.bigInt (bigIntSetBytes bb), bytes_used + offset + bigIntLen.toNat)
    else if typeTag = 25447 then
      match byte_to_int b bytes_used with
      | none => none
      | some (bigIntLen, offset) =>
        match sliceLen b (bytes_used + offset) bigIntLen with
        | none => none
        | some bb => some (.bigIntPtr (bigIntSetBytes bb), bytes_used + offset + bigIntLen.toNat)
    else if typeTag = 25443 then
      match byte_to_int b bytes_used with
      | none => none
      | some (linLen, offset) =>
        if linLen < 0 then none
        else
          match decodeHintTermsLoop b linLen.toNat (bytes_used + offset) [] with
          | none => none
          | some (val, bytes_used) => some (.linExp val, bytes_used)
    else none

/-- The loop `for j := 0; j < inputLen; j++` of `decodeMHints`. -/
def decodeHintInputsLoop (b : List Nat) : Nat → Nat → List HintInput → Option (List HintInput × Nat)
  | 0, bytes_used, inputs => some (inputs, bytes_used)
  | n + 1, bytes_used, inputs =>
    match decodeHintInput b bytes_used with
    | none => none
    | some (i, bytes_used) => decodeHintInputsLoop b n bytes_used (inputs ++ [i])

/-- The loop `for j := 0; j < wireLen; j++` of `decodeMHints`. -/
def decodeWiresLoop (b : List Nat) : Nat → Nat → List Int → Option (List Int × Nat)
  | 0, bytes_used, wires => some (wires, bytes_used)
  | n + 1, bytes_used, wires =>
    match byte_to_int b bytes_used with
    | none => none
    | some (w, offset) => decodeWiresLoop b n (bytes_used + offset) (wires ++ [w])

/-- The part of the loop body of `decodeMHints` that reads an inline descriptor `v`
(from `v.ID, offset = byte_to_hintID(...)` on). `make` panics on a negative length. -/
def decodeHint (b : List Nat) (bytes_used : Nat) : Option (Hint × Nat) :=
  match byte_to_hintID b bytes_used with
  | none => none
  | some (id, offset) =>
    let bytes_used := bytes_used + offset
    match byte_to_int b bytes_used with
    | none => none
    | some (wireLen, offset) =>
      if wireLen < 0 then none
      else
        match decodeWiresLoop b wireLen.toNat (bytes_used + offset) [] with
        | none => none
        | some (wires, bytes_used) =>
          match byte_to_int b bytes_used with
          | none => none
          | some (inputLen, offset) =>
            if inputLen < 0 then none
            else
              match decodeHintInputsLoop b inputLen.toNat (bytes_used + offset) [] with
              | none => none
              | some (inputs, bytes_used) => some (Hint.mk id wires inputs, bytes_used)

/-- The loop `for i := 0; i < lenHint; i++` of `decodeMHints`. The decoded map is built in
`hint`; every inline record allocates a fresh descriptor (`&v`) at the end of `heap`.
Returns the map and the final value of `bytes_used`. -/
def decodeMHintsLoop (b : List Nat) : Nat → Nat → MHints → Option (MHints × Nat)
  | 0, bytes_used, hint => some (hint, bytes_used)
  | n + 1, bytes_used, hint =>
    match byte_to_int b bytes_used with
    | none => none
    | some (k, offset) =>
      let bytes_used := bytes_used + offset
      match byte_to_int b bytes_used with
      | none => none
      | some (mode, offset) =>
        let bytes_used := bytes_used + offset
        if mode = 0 then
          match byte_to_int b bytes_used with
          | none => none
          | some (lastKey, offset) =>
            decodeMHintsLoop b n (bytes_used + offset)
              (MHints.mk hint.heap (mapSet hint.entries k (mapGet hint.entries lastKey)))
        else if mode = 1 then
          match decodeHint b bytes_used with
          | none => none
          | some (v, bytes_used) =>
            decodeMHintsLoop b n bytes_used
              (MHints.mk (hint.heap ++ [v]) (mapSet hint.entries k (some hint.heap.length)))
        else none

/-- The body of `decodeMHints` together with the number of bytes it consumed. -/
def decodeMHintsUsed (mHintBytes : List Nat) : Option (MHints × Nat) :=
  match byte_to_int mHintBytes 0 with
  | none => none
  | some (lenHint, offset) => decodeMHintsLoop mHintBytes lenHint.toNat offset (MHints.mk [] [])

/-- Source `decodeMHints` (its error result is always nil; `none` is a panic). -/
def decodeMHints (mHintBytes : List Nat) : Option MHints :=
  (decodeMHintsUsed mHintBytes).map Prod.fst

/-! ## Outcomes of Go code -/

/-- Errors returned by the solver (`error` values of the source). -/
inductive Err where
  /-- `fmt.Errorf("solver missing hint(s): %v", missing)` of `newSolution`. -/
  | missingHints (names : List String)
  /-- The `invalid witness size` error of `Solve`. -/
  | invalidWitnessSize
  /-- The `invalid input size: len(a, b, c) == len(Constraints)` error of `Solve`. -/
  | invalidInputSize
  /-- `errors.New("missing hint function")` of `solveWithHint`. -/
  | missingHintFunction
  /-- An error returned by a hint function. -/
  | hintFunction (msg : String)
  /-- `fmt.Errorf("%s ⋅ %s != %s", a, b, c)` of `solveConstraint` (canonical representatives). -/
  | notEqual (a b c : Nat)
  /-- `&UnsatisfiedConstraintError{CID: i, Err: err}` of `parallelSolve`. -/
  | unsatisfiedConstraint (CID : Int) (inner : Err)
deriving DecidableEq, Repr

/-- How a call of a Go function ends: it returns, it panics, or (recursion bounded by a
fuel argument) the model ran out of fuel. -/
inductive Outcome (α : Type) where
  | ret (a : α)
  | panic (msg : String)
  | outOfFuel
deriving DecidableEq, Repr

/-- Sequencing: a panic or fuel exhaustion of the first computation ends the whole one. -/
def Outcome.bind {α β : Type} (x : Outcome α) (f : α → Outcome β) : Outcome β :=
  match x with
  | .ret a => f a
  | .panic msg => .panic msg
  | .outOfFuel => .outOfFuel

/-- The index expression `l[i]` of a slice: a run-time panic when out of range. -/
def idx {α : Type} (l : List α) (i : Nat) : Outcome α :=
  match l[i]? with
  | some a => .ret a
  | none => .panic "index out of range"

/-! ## Builtin hints (`backend/hint/builtin.go`) -/

/-- The call `z.Exp(x, y, m)` of `math/big` for `m ≠ 0` and `y ≥ 0`: `x**y mod |m|`. -/
def bigExp (x y m : Int) : Int := (x ^ y.toNat) % |m|

/-- A hint function receives the curve (here: its scalar-field modulus), the input and
output slices of big integers; it may overwrite both and returns an optional error.
The triple returned is `(inputs, results, err)` after the call. -/
abbrev HintFunction := Nat → List Int → List Int → Outcome (List Int × List Int × Option Err)

/-- Source `IsZero`. `result` is `results[0]`; `inputs[0]` is reused as scratch space and
holds `1` on return. -/
def IsZero : HintFunction := fun q inputs results =>
  (idx results 0).bind fun _ =>
  (idx inputs 0).bind fun a =>
  -- result.Set(inputs[0])
  let result : Int := a
  -- qMinusOne := inputs[0].SetUint64(1); qMinusOne.Sub(q, qMinusOne)
  let qMinusOne : Int := (q : Int) - 1
  -- result.Exp(result, qMinusOne, q)
  let result := bigExp result qMinusOne q
  -- inputs[0].SetUint64(1)
  let inputs0 : Int := 1
  -- result.Sub(inputs[0], result).Mod(result, q)
  let result := (inputs0 - result) % (q : Int)
  .ret (inputs.set 0 inputs0, results.set 0 result, none)

/-- Source `CheckZero`. -/
def CheckZero : HintFunction := fun _ inputs results =>
  (idx inputs 0).bind fun a =>
  if a = 0 then
    (idx results 0).bind fun _ => .ret (inputs, results.set 0 0, none)
  else
    (idx results 0).bind fun _ => .ret (inputs, results.set 0 1, none)

/-! ## Solution state (`internal/backend/bn254/cs/solution.go`)

Field elements `fr.Element` are elements of `ZMod q`, where `q` is the modulus of the
scalar field. -/

/-- Modelled from the spec: the accessors `CoeffID()` and `WireID()` of `compiled.Term`
(package `frontend/compiled` is not among the sources; the spec calls the packing layout
an implementation detail). `Unpack()` returns both together with the visibility. -/
structure TermLayout where
  CoeffID : Term → Nat
  WireID : Term → Nat

/-- Modelled from the spec: `compiled.CoeffIdZero`, reserved coefficient ID `ZERO = 0`. -/
def CoeffIdZero : Nat := 0

/-- Modelled from the spec: `compiled.CoeffIdOne`, reserved coefficient ID `ONE = 1`. -/
def CoeffIdOne : Nat := 1

/-- Modelled from the spec: `compiled.CoeffIdTwo`, reserved coefficient ID `TWO = 2`. -/
def CoeffIdTwo : Nat := 2

/-- Modelled from the spec: `compiled.CoeffIdMinusOne`, reserved coefficient ID
`MINUS_ONE = 3`. -/
def CoeffIdMinusOne : Nat := 3

/-- Source `solution`: the elements needed to compute a solution of an R1CS. The maps are
association lists; `nbSolved` is a `uint64`. -/
structure solution (q : Nat) where
  values : List (ZMod q)
  coefficients : List (ZMod q)
  solved : List Bool
  nbSolved : Nat
  mHintsFunctions : List (Nat × HintFunction)
  mHints : List (Int × Hint)

/-- Source `newSolution`. `make` panics on a negative length; `missing` collects the names
of the declared hints without a registered function, in the order the map is visited. -/
def newSolution {q : Nat} (nbWires : Int) (hintFunctions : List (Nat × HintFunction))
    (hintsDependencies : List (Nat × String)) (mHints : List (Int × Hint))
    (coefficients : List (ZMod q)) : Outcome (solution q × Option Err) :=
  if nbWires < 0 then .panic "makeslice: len out of range"
  else
    let s : solution q :=
      { values := List.replicate nbWires.toNat 0
        coefficients := coefficients
        solved := List.replicate nbWires.toNat false
        nbSolved := 0
        mHintsFunctions := hintFunctions
        mHints := mHints }
    let missing := hintsDependencies.filterMap
      (fun d => if (s.mHintsFunctions.lookup d.1).isSome then none else some d.2)
    if missing.length > 0 then .ret (s, some (Err.missingHints missing)) else .ret (s, none)

/-- Source `solution.set`. -/
def solution.set {q : Nat} (s : solution q) (id : Int) (value : ZMod q) : Outcome (solution q) :=
  if id < 0 then .panic "index out of range"
  else
    (idx s.solved id.toNat).bind fun b =>
      if b then .panic "solving the same wire twice should never happen."
      else
        (idx s.values id.toNat).bind fun _ =>
          .ret { s with
            values := s.values.set id.toNat value
            solved := s.solved.set id.toNat true
            nbSolved := (s.nbSolved + 1) % 18446744073709551616 }

/-- Source `solution.isValid`: `int(s.nbSolved) == len(s.values)`. -/
def solution.isValid {q : Nat} (s : solution q) : Bool :=
  decide (uint64ToInt s.nbSolved = (s.values.length : Int))

/-- Source `solution.computeTerm`: `coef * variable`. -/
def solution.computeTerm {q : Nat} (L : TermLayout) (s : solution q) (t : Term) :
    Outcome (ZMod q) :=
  let cID := L.CoeffID t
  let vID := L.WireID t
  (if cID ≠ 0 then
      (idx s.solved vID).bind fun b =>
        if b then .ret () else .panic "computing a term with an unsolved wire"
    else .ret ()).bind fun _ =>
  if cID = CoeffIdZero then .ret 0
  else if cID = CoeffIdOne then idx s.values vID
  else if cID = CoeffIdTwo then (idx s.values vID).bind fun v => .ret (v + v)
  else if cID = CoeffIdMinusOne then (idx s.values vID).bind fun v => .ret (-v)
  else
    (idx s.values vID).bind fun v =>
      if v = 0 then .ret v
      else if v = 1 then idx s.coefficients cID
      else (idx s.coefficients cID).bind fun c => .ret (c * v)

/-- Source `solution.accumulateInto`: `r += t.coeff * t.value`; returns the new `r`. -/
def solution.accumulateInto {q : Nat} (L : TermLayout) (s : solution q) (t : Term)
    (r : ZMod q) : Outcome (ZMod q) :=
  let cID := L.CoeffID t
  let vID := L.WireID t
  if cID = CoeffIdZero then .ret r
  else if cID = CoeffIdOne then (idx s.values vID).bind fun v => .ret (r + v)
  else if cID = CoeffIdTwo then (idx s.values vID).bind fun v => .ret (r + (v + v))
  else if cID = CoeffIdMinusOne then (idx s.values vID).bind fun v => .ret (r - v)
  else
    (idx s.values vID).bind fun v =>
      if v = 0 then .ret r
      else if v = 1 then (idx s.coefficients cID).bind fun c => .ret (r + c)
      else (idx s.coefficients cID).bind fun c => .ret (r + c * v)

/-- The closure `recursiveSolve` of `solveWithHint`; `recurse` is the recursive call
`s.solveWithHint`. Returns the solution after the call and the error, if any. -/
def recursiveSolve {q : Nat} (L : TermLayout)
    (recurse : solution q → Nat → Hint → Outcome (solution q × Option Err))
    (s : solution q) (t : Term) : Outcome (solution q × Option Err) :=
  let wID := L.WireID t
  (idx s.solved wID).bind fun b =>
    if b then .ret (s, none)
    else
      match s.mHints.lookup (wID : Int) with
      | some h => recurse s wID h
      | none => .panic "solver can't compute hint; one or more input wires are unsolved"

/-- The loop `for _, term := range t` of the `compiled.LinearExpression` case of
`solveWithHint`, accumulating into `v`. -/
def hintLinExpLoop {q : Nat} (L : TermLayout)
    (recurse : solution q → Nat → Hint → Outcome (solution q × Option Err)) :
    List Term → solution q → ZMod q → Outcome (solution q × ZMod q × Option Err)
  | [], s, v => .ret (s, v, none)
  | term :: rest, s, v =>
    (recursiveSolve L recurse s term).bind fun r =>
      match r.2 with
      | some err => .ret (r.1, v, some err)
      | none =>
        (r.1.accumulateInto L term v).bind fun v' => hintLinExpLoop L recurse rest r.1 v'

/-- The loop `for i := 0; i < nbInputs; i++` of `solveWithHint`: the big integers handed
to the hint function. `ToBigIntRegular` gives the canonical representative; a constant
is reduced with `Mod(·, q)`. -/
def hintInputsLoop {q : Nat} (L : TermLayout)
    (recurse : solution q → Nat → Hint → Outcome (solution q × Option Err)) :
    List HintInput → solution q → List Int → Outcome (solution q × List Int × Option Err)
  | [], s, inputs => .ret (s, inputs, none)
  | .linExp t :: rest, s, inputs =>
    (hintLinExpLoop L recurse t s 0).bind fun r =>
      match r.2.2 with
      | some err => .ret (r.1, inputs, some err)
      | none => hintInputsLoop L recurse rest r.1 (inputs ++ [((ZMod.val r.2.1 : Nat) : Int)])
  | .term t :: rest, s, inputs =>
    (recursiveSolve L recurse s t).bind fun r =>
      match r.2 with
      | some err => .ret (r.1, inputs, some err)
      | none =>
        (r.1.computeTerm L t).bind fun v =>
          hintInputsLoop L recurse rest r.1 (inputs ++ [((ZMod.val v : Nat) : Int)])
  | .bigInt v :: rest, s, inputs => hintInputsLoop L recurse rest s (inputs ++ [v % (q : Int)])
  | .bigIntPtr v :: rest, s, inputs => hintInputsLoop L recurse rest s (inputs ++ [v % (q : Int)])

/-- The loop `for i := range outputs` of `solveWithHint`: `v.SetBigInt(outputs[i])`,
`s.set(h.Wires[i], v)`. An output the function did not write still holds `0`. -/
def setHintOutputs {q : Nat} : List Int → Nat → List Int → solution q → Outcome (solution q)
  | [], _, _, s => .ret s
  | w :: ws, i, outputs, s =>
    (s.set w ((outputs.getD i 0 : Int) : ZMod q)).bind fun s' =>
      setHintOutputs ws (i + 1) outputs s'

/-- Source `solution.solveWithHint`. The recursion through `recursiveSolve` is bounded by
`fuel`. Returns the solution after the call and the error, if any. -/
def solution.solveWithHint {q : Nat} (L : TermLayout) :
    Nat → solution q → Nat → Hint → Outcome (solution q × Option Err)
  | 0, _, _, _ => .outOfFuel
  | fuel + 1, s, vID, h =>
    (idx s.solved vID).bind fun b =>
      if b then .ret (s, none)
      else
        match s.mHintsFunctions.lookup h.ID with
        | none => .ret (s, some Err.missingHintFunction)
        | some f =>
          (hintInputsLoop L (solution.solveWithHint L fuel) h.Inputs s []).bind fun r =>
            match r.2.2 with
            | some err => .ret (r.1, some err)
            | none =>
              (f q r.2.1 (List.replicate h.Wires.length 0)).bind fun out =>
                (setHintOutputs h.Wires 0 out.2.1 r.1).bind fun s' => .ret (s', out.2.2)

/-! ## The solver (`internal/backend/bn254/cs/r1cs.go`) -/

/-- Source `R1CS` (with the fields of the embedded `compiled.R1CS` that the solver
reads). The counts of variables and the constraint indices in `Levels` are Go `int`s. -/
structure R1CS (q : Nat) where
  Constraints : List R1C
  Coefficients : List (ZMod q)
  NbInternalVariables : Int
  NbPublicVariables : Int
  NbSecretVariables : Int
  MHints : List (Int × Hint)
  MHintsDependencies : List (Nat × String)
  Levels : List (List Int)

/-- The part of `backend.ProverConfig` read by `Solve`: the hint-function registry. -/
structure ProverConfig where
  HintFunctions : List (Nat × HintFunction)

/-- The method `Inverse` of `fr.Element` (gnark-crypto, outside the sources): the inverse
in the field, and `0` for `0`; `z.Div(x, y)` is `x * Inverse(y)`. -/
def frInv {q : Nat} (x : ZMod q) : ZMod q := if x = 0 then 0 else x ^ (q - 2)

/-- A packing of terms used in the examples: the wire ID in the low 29 bits, the
coefficient ID in the next 30 bits. -/
def exampleLayout : TermLayout :=
  ⟨fun t => t / 536870912 % 1073741824, fun t => t % 536870912⟩

/-- The term with coefficient ID `c` and wire ID `v` under `exampleLayout`. -/
def mkTerm (c v : Nat) : Term := c * 536870912 + v

/-- Source `R1CS.divByCoeff`: `res / t.Coeff`; returns the new `res`. -/
def R1CS.divByCoeff {q : Nat} (L : TermLayout) (cs : R1CS q) (res : ZMod q) (t : Term) :
    Outcome (ZMod q) :=
  let cID := L.CoeffID t
  if cID = CoeffIdOne then .ret res
  else if cID = CoeffIdMinusOne then .ret (-res)
  else if cID = CoeffIdZero then .panic "division by 0"
  else (idx cs.Coefficients cID).bind fun coeff => .ret (res * frInv coeff)

/-- The variables shared by the three calls of the closure `processLExp` in
`solveConstraint`, with the error the closure returned. -/
structure LExpState (q : Nat) where
  s : solution q
  val : ZMod q
  loc : Nat
  termToCompute : Term
  err : Option Err

/-- The closure `processLExp` of `solveConstraint`, accumulating into `val`. -/
def processLExp {q : Nat} (L : TermLayout) (fuel : Nat) (cs : R1CS q) (locValue : Nat) :
    List Term → solution q → ZMod q → Nat → Term → Outcome (LExpState q)
  | [], s, val, loc, termToCompute => .ret ⟨s, val, loc, termToCompute, none⟩
  | t :: rest, s, val, loc, termToCompute =>
    let vID := L.WireID t
    (idx s.solved vID).bind fun b =>
      if b then
        (s.accumulateInto L t val).bind fun val' =>
          processLExp L fuel cs locValue rest s val' loc termToCompute
      else
        match cs.MHints.lookup (vID : Int) with
        | some hint =>
          (s.solveWithHint L fuel vID hint).bind fun r =>
            match r.2 with
            | some err => .ret ⟨r.1, val, loc, termToCompute, some err⟩
            | none =>
              (r.1.accumulateInto L t val).bind fun val' =>
                processLExp L fuel cs locValue rest r.1 val' loc termToCompute
        | none =>
          if loc ≠ 0 then .panic "found more than one wire to instantiate"
          else processLExp L fuel cs locValue rest s val locValue t

/-- What `solveConstraint` leaves behind: the solution, the contents of `*a`, `*b`, `*c`
and the error it returned. -/
structure ConstraintResult (q : Nat) where
  s : solution q
  a : ZMod q
  b : ZMod q
  c : ZMod q
  err : Option Err

/-- The end of `solveConstraint`: `cs.divByCoeff(&wire, termToCompute)`,
`solution.set(wID, wire)`, `return nil`. -/
def R1CS.instantiate {q : Nat} (L : TermLayout) (cs : R1CS q) (s : solution q)
    (termToCompute : Term) (a b c wire : ZMod q) : Outcome (ConstraintResult q) :=
  (cs.divByCoeff L wire termToCompute).bind fun wire' =>
    (s.set (L.WireID termToCompute : Int) wire').bind fun s' => .ret ⟨s', a, b, c, none⟩

/-- The part of `solveConstraint` that follows the three calls of `processLExp`: the
check `a · b == c` when `loc == 0`, else the `switch loc` and the assignment of the wire. -/
def R1CS.solveUnknown {q : Nat} (L : TermLayout) (cs : R1CS q) (s : solution q) (loc : Nat)
    (termToCompute : Term) (a b c : ZMod q) : Outcome (ConstraintResult q) :=
  let notEqual := Err.notEqual (ZMod.val a) (ZMod.val b) (ZMod.val c)
  if loc = 0 then
    if a * b = c then .ret ⟨s, a, b, c, none⟩
    else .ret ⟨s, a, b, c, some notEqual⟩
  else if loc = 1 then
    if b ≠ 0 then
      let wire := c * frInv b - a
      cs.instantiate L s termToCompute (a + wire) b c wire
    else if a * b = c then cs.instantiate L s termToCompute a b c 0
    else .ret ⟨s, a, b, c, some notEqual⟩
  else if loc = 2 then
    if a ≠ 0 then
      let wire := c * frInv a - b
      cs.instantiate L s termToCompute a (b + wire) c wire
    else if a * b = c then cs.instantiate L s termToCompute a b c 0
    else .ret ⟨s, a, b, c, some notEqual⟩
  else if loc = 3 then
    let wire := a * b - c
    cs.instantiate L s termToCompute a b (c + wire) wire
  else cs.instantiate L s termToCompute a b c 0

/-- Source `R1CS.solveConstraint`. -/
def R1CS.solveConstraint {q : Nat} (L : TermLayout) (fuel : Nat) (cs : R1CS q) (r : R1C)
    (s : solution q) (a b c : ZMod q) : Outcome (ConstraintResult q) :=
  (processLExp L fuel cs 1 r.L s a 0 0).bind fun p1 =>
    match p1.err with
    | some err => .ret ⟨p1.s, p1.val, b, c, some err⟩
    | none =>
      (processLExp L fuel cs 2 r.R p1.s b p1.loc p1.termToCompute).bind fun p2 =>
        match p2.err with
        | some err => .ret ⟨p2.s, p1.val, p2.val, c, some err⟩
        | none =>
          (processLExp L fuel cs 3 r.O p2.s c p2.loc p2.termToCompute).bind fun p3 =>
            match p3.err with
            | some err => .ret ⟨p3.s, p1.val, p2.val, p3.val, some err⟩
            | none => cs.solveUnknown L p3.s p3.loc p3.termToCompute p1.val p2.val p3.val

/-- The solution and the buffers `a`, `b`, `c` while `parallelSolve` runs. -/
structure SolveState (q : Nat) where
  s : solution q
  a : List (ZMod q)
  b : List (ZMod q)
  c : List (ZMod q)

/-- The call `cs.solveConstraint(cs.Constraints[i], solution, &a[i], &b[i], &c[i])`. -/
def R1CS.solveAt {q : Nat} (L : TermLayout) (fuel : Nat) (cs : R1CS q) (i : Int)
    (st : SolveState q) : Outcome (SolveState q × Option Err) :=
  if i < 0 then .panic "index out of range"
  else
    (idx cs.Constraints i.toNat).bind fun r =>
    (idx st.a i.toNat).bind fun ai =>
    (idx st.b i.toNat).bind fun bi =>
    (idx st.c i.toNat).bind fun ci =>
    (cs.solveConstraint L fuel r st.s ai bi ci).bind fun res =>
      .ret (⟨res.s, st.a.set i.toNat res.a, st.b.set i.toNat res.b, st.c.set i.toNat res.c⟩,
        res.err)

/-- The loop `for _, i := range t` over the constraint indices of a level (sequential
branch) or of a task (worker): it stops at the first error, wrapped in an
`UnsatisfiedConstraintError` with `CID: i` (the debug string is not modelled). -/
def R1CS.solveTask {q : Nat} (L : TermLayout) (fuel : Nat) (cs : R1CS q) :
    List Int → SolveState q → Outcome (SolveState q × Option Err)
  | [], st => .ret (st, none)
  | i :: rest, st =>
    (cs.solveAt L fuel i st).bind fun r =>
      match r.2 with
      | some err => .ret (r.1, some (Err.unsatisfiedConstraint i err))
      | none => R1CS.solveTask L fuel cs rest r.1

/-- The slice expression `level[_start:_end]`. -/
def sliceRange (level : List Int) (_start _end : Nat) : Outcome (List Int) :=
  if _start ≤ _end ∧ _end ≤ level.length then .ret ((level.drop _start).take (_end - _start))
  else .panic "slice bounds out of range"

/-- The loop `for i := 0; i < nbTasks; i++` of `parallelSolve` with `n` iterations left.
The worker pool is modelled by the schedule in which the tasks run one after the other in
the order they are pushed; `chError` collects the errors the workers send. -/
def R1CS.dispatchLoop {q : Nat} (L : TermLayout) (fuel : Nat) (cs : R1CS q) (level : List Int)
    (nbIterationsPerCpus : Nat) :
    Nat → Nat → Int → Nat → SolveState q → List Err → Outcome (SolveState q × List Err)
  | 0, _, _, _, st, chError => .ret (st, chError)
  | n + 1, i, extraTasks, extraTasksOffset, st, chError =>
    let _start := i * nbIterationsPerCpus + extraTasksOffset
    let _end := _start + nbIterationsPerCpus
    let _end' := if extraTasks > 0 then _end + 1 else _end
    let extraTasks' := if extraTasks > 0 then extraTasks - 1 else extraTasks
    let extraTasksOffset' := if extraTasks > 0 then extraTasksOffset + 1 else extraTasksOffset
    (sliceRange level _start _end').bind fun task =>
      (cs.solveTask L fuel task st).bind fun r =>
        R1CS.dispatchLoop L fuel cs level nbIterationsPerCpus n (i + 1) extraTasks'
          extraTasksOffset' r.1 (chError ++ r.2.toList)

/-- The number of tasks of a parallelised level before the fallback: `runtime.NumCPU()`
capped by `maxTasks := int(math.Ceil(maxCPU))`, where `maxCPU` is `len(level) / 50.0`,
so that `maxTasks` is `(len(level) + 49) / 50`. -/
def taskCount (cpuCount len : Nat) : Nat :=
  let maxTasks := (len + 49) / 50
  if cpuCount > maxTasks then maxTasks else cpuCount

/-- The parallel branch of the loop body of `parallelSolve` for one level, from
`nbIterationsPerCpus := len(level) / nbTasks` to `wg.Wait()`: the state after all tasks
have run and the errors sent on `chError`. -/
def R1CS.dispatchLevel {q : Nat} (L : TermLayout) (fuel : Nat) (cs : R1CS q) (level : List Int)
    (nbTasks : Nat) (st : SolveState q) : Outcome (SolveState q × List Err) :=
  if nbTasks = 0 then .panic "integer divide by zero"
  else
    let nbIterationsPerCpus := level.length / nbTasks
    if nbIterationsPerCpus < 1 then
      -- nbIterationsPerCpus = 1; nbTasks = len(level)
      R1CS.dispatchLoop L fuel cs level 1 level.length 0
        ((level.length : Int) - ((level.length * 1 : Nat) : Int)) 0 st []
    else
      R1CS.dispatchLoop L fuel cs level nbIterationsPerCpus nbTasks 0
        ((level.length : Int) - ((nbTasks * nbIterationsPerCpus : Nat) : Int)) 0 st []

/-- The loop `for _, level := range cs.Levels` of `parallelSolve`. `cpuCount` is
`runtime.NumCPU()`; the test `maxCPU <= 1.0` is `len(level) <= 50`. After a parallelised
level, a non-empty `chError` ends the solve with its first error. -/
def R1CS.levelsLoop {q : Nat} (L : TermLayout) (cpuCount fuel : Nat) (cs : R1CS q) :
    List (List Int) → SolveState q → Outcome (SolveState q × Option Err)
  | [], st => .ret (st, none)
  | level :: rest, st =>
    if level.length ≤ 50 then
      (cs.solveTask L fuel level st).bind fun r =>
        match r.2 with
        | some err => .ret (r.1, some err)
        | none => R1CS.levelsLoop L cpuCount fuel cs rest r.1
    else
      (cs.dispatchLevel L fuel level (taskCount cpuCount level.length) st).bind fun r =>
        match r.2 with
        | err :: _ => .ret (r.1, some err)
        | [] => R1CS.levelsLoop L cpuCount fuel cs rest r.1

/-- Source `R1CS.parallelSolve`. -/
def R1CS.parallelSolve {q : Nat} (L : TermLayout) (cpuCount fuel : Nat) (cs : R1CS q)
    (a b c : List (ZMod q)) (s : solution q) : Outcome (SolveState q × Option Err) :=
  cs.levelsLoop L cpuCount fuel cs.Levels ⟨s, a, b, c⟩

/-- The loop `for i := 0; i < len(witness); i++ { solution.solved[i+1] = true }`. -/
def markWitnessSolved : Nat → Nat → List Bool → Outcome (List Bool)
  | 0, _, solved => .ret solved
  | n + 1, i, solved =>
    (idx solved (i + 1)).bind fun _ => markWitnessSolved n (i + 1) (solved.set (i + 1) true)

/-- The call `copy(dst, src)`: the first `min(len(dst), len(src))` elements are copied. -/
def copySlice {α : Type} (dst src : List α) : List α :=
  src.take dst.length ++ dst.drop src.length

/-- What `Solve` returns and leaves behind: the returned wire vector and error, the
buffers `a`, `b`, `c`, and the final solution state. -/
structure SolveResult (q : Nat) where
  values : List (ZMod q)
  err : Option Err
  a : List (ZMod q)
  b : List (ZMod q)
  c : List (ZMod q)
  solution : solution q

/-- The initialisation of the solution in `Solve` (from `solution.solved[0] = true` to
`solution.nbSolved += uint64(len(witness) + 1)`). -/
def initSolution {q : Nat} (s : solution q) (witness : List (ZMod q)) : Outcome (solution q) :=
  (idx s.solved 0).bind fun _ =>
  (idx s.values 0).bind fun _ =>
    let values := s.values.set 0 1
    let values := values.take 1 ++ copySlice (values.drop 1) witness
    (markWitnessSolved witness.length 0 (s.solved.set 0 true)).bind fun solved =>
      .ret { s with
        values := values
        solved := solved
        nbSolved := (s.nbSolved + (witness.length + 1)) % 18446744073709551616 }

/-- Source `R1CS.Solve` (logging left out). -/
def R1CS.Solve {q : Nat} (L : TermLayout) (cpuCount fuel : Nat) (cs : R1CS q)
    (witness a b c : List (ZMod q)) (opt : ProverConfig) : Outcome (SolveResult q) :=
  let nbWires := cs.NbPublicVariables + cs.NbSecretVariables + cs.NbInternalVariables
  (newSolution nbWires opt.HintFunctions cs.MHintsDependencies cs.MHints cs.Coefficients).bind
    fun ns =>
      match ns.2 with
      | some err => .ret ⟨List.replicate nbWires.toNat 0, some err, a, b, c, ns.1⟩
      | none =>
        let solution := ns.1
        if (witness.length : Int) ≠ cs.NbPublicVariables - 1 + cs.NbSecretVariables then
          .ret ⟨solution.values, some Err.invalidWitnessSize, a, b, c, solution⟩
        else if a.length ≠ cs.Constraints.length ∨ b.length ≠ cs.Constraints.length
            ∨ c.length ≠ cs.Constraints.length then
          .ret ⟨solution.values, some Err.invalidInputSize, a, b, c, solution⟩
        else
          (initSolution solution witness).bind fun solution =>
            (cs.parallelSolve L cpuCount fuel a b c solution).bind fun r =>
              match r.2 with
              | some err => .ret ⟨r.1.s.values, some err, r.1.a, r.1.b, r.1.c, r.1.s⟩
              | none =>
                if r.1.s.isValid then .ret ⟨r.1.s.values, none, r.1.a, r.1.b, r.1.c, r.1.s⟩
                else .panic "solver didn't instantiate all wires"

/-! ## Example systems over the field with 13 elements -/

instance fact_prime_thirteen : Fact (Nat.Prime 13) := ⟨by norm_num⟩

/-- What can be compared of a `SolveResult`: the returned values and error, the buffers
(field elements by their canonical representatives), and the flags and counter of the
final solution. -/
structure Observed where
  values : List Nat
  err : Option Err
  a : List Nat
  b : List Nat
  c : List Nat
  solved : List Bool
  nbSolved : Nat
deriving DecidableEq, Repr

/-- The observable part of a `SolveResult`. -/
def SolveResult.observe {q : Nat} (r : SolveResult q) : Observed :=
  ⟨r.values.map ZMod.val, r.err, r.a.map ZMod.val, r.b.map ZMod.val, r.c.map ZMod.val,
    r.solution.solved, r.solution.nbSolved⟩

/-- The image of a returned value. -/
def Outcome.map {α β : Type} (f : α → β) (x : Outcome α) : Outcome β :=
  x.bind fun a => .ret (f a)

/-- Wires: `0` the one-wire, `1` public `y`, `2` secret `x`, `3` internal. One constraint
`w3 · x = y` with the unknown in `L`, and the assertion `5·w3 · 1 = 2·y + (−1)·x`. -/
def exampleDiv : R1CS 13 :=
  { Constraints :=
      [⟨[mkTerm 1 3], [mkTerm 1 2], [mkTerm 1 1]⟩,
       ⟨[mkTerm 4 3], [mkTerm 1 0], [mkTerm 2 1, mkTerm 3 2]⟩]
    Coefficients := [0, 1, 2, -1, 5]
    NbInternalVariables := 1
    NbPublicVariables := 2
    NbSecretVariables := 1
    MHints := []
    MHintsDependencies := []
    Levels := [[0], [1]] }

/-- Wires: `0` the one-wire, `1` public `x`, `2` internal. One constraint
`x · 1 = 2·w2` with the unknown in `O` under coefficient ID `TWO`, and a pool whose entry
`TWO` holds `3`. -/
def exampleBadPool : R1CS 13 :=
  { Constraints := [⟨[mkTerm 1 1], [mkTerm 1 0], [mkTerm 2 2]⟩]
    Coefficients := [0, 1, 3, -1]
    NbInternalVariables := 1
    NbPublicVariables := 2
    NbSecretVariables := 0
    MHints := []
    MHintsDependencies := []
    Levels := [[0]] }

/-- A solution with two solved wires, `values = [1, 5]`, and a pool coefficient `4`. -/
def exampleSolution : solution 13 :=
  { values := [1, 5]
    coefficients := [0, 1, 2, -1, 4]
    solved := [true, true]
    nbSolved := 2
    mHintsFunctions := []
    mHints := [] }

/-- The descriptor of the `IsZero` gadget: function ID `7`, output wire `2`, input the
linear expression `1 · w1`. -/
def exampleIsZeroHint : Hint := ⟨7, [2], [.linExp [mkTerm 1 1]]⟩

/-- A solution over three wires with `x = w1` solved and the hint output `w2` open. -/
def exampleHintSolution (x : ZMod 13) : solution 13 :=
  { values := [1, x, 0]
    coefficients := [0, 1, 2, -1]
    solved := [true, true, false]
    nbSolved := 2
    mHintsFunctions := [(7, IsZero)]
    mHints := [(2, exampleIsZeroHint)] }

/-- A hint function that fails: it writes nothing and returns an error. -/
def failingHint : HintFunction := fun _ inputs results =>
  .ret (inputs, results, some (Err.hintFunction "boom"))

/-- Wires: `0` the one-wire, `1` public `x`, `2` internal, the output of the hint `9` with
input `x`. One constraint `x · w2 = 0`. -/
def exampleFailingHint : R1CS 13 :=
  { Constraints := [⟨[mkTerm 1 1], [mkTerm 1 2], []⟩]
    Coefficients := [0, 1, 2, -1]
    NbInternalVariables := 1
    NbPublicVariables := 2
    NbSecretVariables := 0
    MHints := [(2, ⟨9, [2], [.linExp [mkTerm 1 1]]⟩)]
    MHintsDependencies := [(9, "failing")]
    Levels := [[0]] }


/-- The state of `exampleDiv` after the witness `y = 0`, `x = 0` was copied in. -/
def exampleZeroState : solution 13 :=
  { values := [1, 0, 0, 0]
    coefficients := [0, 1, 2, -1, 5]
    solved := [true, true, true, false]
    nbSolved := 3
    mHintsFunctions := []
    mHints := [] }

/-! ## Writing a system (`WriteTo`) -/

/-- Source `encodeMHintsToWriter`, on a writer `w` that accepts every write (the bytes
written so far): the length of the block as a `uint64`, then the block. -/
def encodeMHintsToWriter (w : List Nat) (mhints : MHints) : Option (List Nat) :=
  (encodeMHints mhints).map fun mhintsBinary =>
    w ++ uint64_to_byte (mhintsBinary.length % 18446744073709551616) ++ mhintsBinary

/-- Source `encodeConstraintsToWriter`, on a writer that accepts every write. -/
def encodeConstraintsToWriter (w : List Nat) (constraints : List R1C) : List Nat :=
  w ++ uint64_to_byte ((encodeConstraints constraints).length % 18446744073709551616)
    ++ encodeConstraints constraints

/-- The wrapper `ioutils.WriterCounter` (outside the sources): it forwards the writes to
`W` and adds the number of bytes to `N`. -/
structure WriterCounter where
  W : List Nat
  N : Int

/-- Source `R1CS.WriteTo` on a writer that accepts every write; `generic` holds the bytes
that the calls `encoder.Encode(·)` of the cbor encoder (outside the sources) emit for the
schema, the counts, ..., the levels, the curve ID and the coefficients, in that order.
Returns the writer and the count. -/
def WriteTo (w : List Nat) (mhints : MHints) (constraints : List R1C)
    (generic : List (List Nat)) : Option (List Nat × Int) :=
  (encodeMHintsToWriter w mhints).map fun w =>
    let w := encodeConstraintsToWriter w constraints
    let _w : WriterCounter := ⟨w, 0⟩
    let _w := generic.foldl (fun _w part => ⟨_w.W ++ part, _w.N + part.length⟩) _w
    (_w.W, _w.N)

/-! ## The tasks of a level (`parallelSolve`) -/

/-- The bounds `(_start, _end)` of the slices `level[_start:_end]` pushed by the loop
`for i := 0; i < nbTasks; i++` of `parallelSolve`, with `n` iterations left: the loop of
`dispatchLoop` without the work of the tasks. -/
def taskBounds (nbIterationsPerCpus : Nat) : Nat → Nat → Int → Nat → List (Nat × Nat)
  | 0, _, _, _ => []
  | n + 1, i, extraTasks, extraTasksOffset =>
    let _start := i * nbIterationsPerCpus + extraTasksOffset
    let _end := _start + nbIterationsPerCpus
    let _end' := if extraTasks > 0 then _end + 1 else _end
    let extraTasks' := if extraTasks > 0 then extraTasks - 1 else extraTasks
    let extraTasksOffset' := if extraTasks > 0 then extraTasksOffset + 1 else extraTasksOffset
    (_start, _end') :: taskBounds nbIterationsPerCpus n (i + 1) extraTasks' extraTasksOffset'

/-- The tasks that `parallelSolve` dispatches for a level of `len` constraints on
`cpuCount` CPUs: none when the level is solved sequentially (`maxCPU <= 1.0`), else the
bounds of the slices pushed on `chTasks`. -/
def levelTasks (cpuCount len : Nat) : Outcome (List (Nat × Nat)) :=
  if len ≤ 50 then .ret []
  else
    let nbTasks := taskCount cpuCount len
    if nbTasks = 0 then .panic "integer divide by zero"
    else
      let nbIterationsPerCpus := len / nbTasks
      if nbIterationsPerCpus < 1 then
        .ret (taskBounds 1 len 0 ((len : Int) - ((len * 1 : Nat) : Int)) 0)
      else
        .ret (taskBounds nbIterationsPerCpus nbTasks 0
          ((len : Int) - ((nbTasks * nbIterationsPerCpus : Nat) : Int)) 0)

/-- The work of the tasks with the given bounds, in the order they are pushed. -/
def R1CS.runTasks {q : Nat} (L : TermLayout) (fuel : Nat) (cs : R1CS q) (level : List Int) :
    List (Nat × Nat) → SolveState q → List Err → Outcome (SolveState q × List Err)
  | [], st, chError => .ret (st, chError)
  | (_start, _end) :: rest, st, chError =>
    (sliceRange level _start _end).bind fun task =>
      (cs.solveTask L fuel task st).bind fun r =>
        R1CS.runTasks L fuel cs level rest r.1 (chError ++ r.2.toList)

/-- A hint map with three keys; the keys `1` and `2` share a descriptor. -/
def exampleSharedHints : MHints :=
  ⟨[⟨1, [1, 2], [.bigInt 5]⟩, ⟨2, [3], [.linExp [7]]⟩], [(1, some 0), (2, some 0), (3, some 1)]⟩

/-- The `IsZero` gadget over the field with `q` elements. Wires: `0` the one-wire, `1`
public `x`, `2` internal `y`, the output of the hint `IsZero` (registered as `7`) with
input `x`. One constraint `x · y = 0`. -/
def isZeroSystem (q : Nat) : R1CS q :=
  { Constraints := [⟨[mkTerm 1 1], [mkTerm 1 2], []⟩]
    Coefficients := [0, 1, 2, -1]
    NbInternalVariables := 1
    NbPublicVariables := 2
    NbSecretVariables := 0
    MHints := [(2, exampleIsZeroHint)]
    MHintsDependencies := [(7, "IsZero")]
    Levels := [[0]] }

/-- The state of `isZeroSystem` after the witness `x` was copied in. -/
def isZeroState (q : Nat) (x : ZMod q) : solution q :=
  ⟨[1, x, 0], [0, 1, 2, -1], [true, true, false], 2, [(7, IsZero)], [(2, exampleIsZeroHint)]⟩

/-- The state of `isZeroSystem` after the hint was run. -/
def isZeroFinal (q : Nat) (x : ZMod q) : solution q :=
  ⟨[1, x, if x = 0 then 1 else 0], [0, 1, 2, -1], [true, true, true], 3, [(7, IsZero)],
    [(2, exampleIsZeroHint)]⟩

/-- The wire of `v_i` in the squaring chain of `n` constraints: `v_n = y` is the public
wire `1`, `v_0 = x` the secret wire `2`, and `v_i` the internal wire `i + 2`. -/
def squaringWire (n i : Nat) : Nat := if i = n then 1 else i + 2

/-- The squaring chain over the field with `q` elements: `n` constraints
`v_i · v_i = v_{i+1}`, one per level, in order. -/
def squaringChain (q n : Nat) : R1CS q :=
  { Constraints := (List.range n).map fun i =>
      ⟨[mkTerm 1 (squaringWire n i)], [mkTerm 1 (squaringWire n i)],
        [mkTerm 1 (squaringWire n (i + 1))]⟩
    Coefficients := [0, 1, 2, -1]
    NbInternalVariables := (n : Int) - 1
    NbPublicVariables := 2
    NbSecretVariables := 1
    MHints := []
    MHintsDependencies := []
    Levels := (List.range n).map fun (i : Nat) => [(i : Int)] }

/-- Wires: `0` the one-wire, `1` internal. The assertion `1 · 1 = 2` (never satisfied) and
the constraint `1 · 1 = w1`, both in one level, the assertion first. -/
def exampleOrderA : R1CS 13 :=
  { Constraints :=
      [⟨[mkTerm 1 0], [mkTerm 1 0], [mkTerm 2 0]⟩, ⟨[mkTerm 1 0], [mkTerm 1 0], [mkTerm 1 1]⟩]
    Coefficients := [0, 1, 2, -1]
    NbInternalVariables := 1
    NbPublicVariables := 1
    NbSecretVariables := 0
    MHints := []
    MHintsDependencies := []
    Levels := [[0, 1]] }

/-- The system `exampleOrderA` with the two constraints of its level in the other order. -/
def exampleOrderB : R1CS 13 := { exampleOrderA with Levels := [[1, 0]] }

/-- Wires: `0` the one-wire, `1` public `x`, `2` and `3` internal. The constraints
`x · x = w2` and `x · 1 = w3`, in one level. -/
def exampleTwoOpen : R1CS 13 :=
  { Constraints :=
      [⟨[mkTerm 1 1], [mkTerm 1 1], [mkTerm 1 2]⟩, ⟨[mkTerm 1 1], [mkTerm 1 0], [mkTerm 1 3]⟩]
    Coefficients := [0, 1, 2, -1]
    NbInternalVariables := 2
    NbPublicVariables := 2
    NbSecretVariables := 0
    MHints := []
    MHintsDependencies := []
    Levels := [[0, 1]] }

/-- The state of `exampleTwoOpen` after the witness `x = 3` was copied in, with zeroed
buffers. -/
def exampleTwoOpenStart : SolveState 13 :=
  ⟨⟨[1, 3, 0, 0], [0, 1, 2, -1], [true, true, false, false], 2, [], []⟩, [0, 0], [0, 0], [0, 0]⟩

/-- The state of `exampleTwoOpen` after its level was solved. -/
def exampleTwoOpenEnd : SolveState 13 :=
  ⟨⟨[1, 3, 9, 3], [0, 1, 2, -1], [true, true, true, true], 4, [], []⟩, [3, 3], [3, 1], [9, 3]⟩

/-- The footprints of the two constraints of `exampleTwoOpen`. -/
def exampleTwoOpenFootprint (i : Int) (w : Nat) : Prop :=
  if i = 0 then w = 1 ∨ w = 2 else w = 0 ∨ w = 1 ∨ w = 3

/-- The footprints of the two constraints of `exampleOrderA`. -/
def exampleOrderFootprint (i : Int) (w : Nat) : Prop :=
  if i = 0 then w = 0 else w = 0 ∨ w = 1

/-- A solution over four wires with two chained hints: `w2` is the output of the failing
hint `9` with input `w1`, and `w3` is the output of `IsZero` with input `w2`. -/
def exampleNestedHints : solution 13 :=
  { values := [1, 3, 0, 0]
    coefficients := [0, 1, 2, -1]
    solved := [true, true, false, false]
    nbSolved := 2
    mHintsFunctions := [(9, failingHint), (7, IsZero)]
    mHints := [(2, ⟨9, [2], [.linExp [mkTerm 1 1]]⟩), (3, ⟨7, [3], [.linExp [mkTerm 1 2]]⟩)] }

/-- Wires: `0` the one-wire, `1` public `x`, `2` the output of the `IsZero` hint with
input `x`, `3` and `4` internal. One constraint `w2 · w3 = w4`, with two unknowns. -/
def exampleTwoUnknowns : R1CS 13 :=
  { Constraints := [⟨[mkTerm 1 2], [mkTerm 1 3], [mkTerm 1 4]⟩]
    Coefficients := [0, 1, 2, -1]
    NbInternalVariables := 3
    NbPublicVariables := 2
    NbSecretVariables := 0
    MHints := [(2, exampleIsZeroHint)]
    MHintsDependencies := [(7, "IsZero")]
    Levels := [[0]] }

/-- The state of `exampleTwoUnknowns` after the witness `x = 0` was copied in. -/
def exampleTwoUnknownsState : solution 13 :=
  ⟨[1, 0, 0, 0, 0], [0, 1, 2, -1], [true, true, false, false, false], 2, [(7, IsZero)],
    [(2, exampleIsZeroHint)]⟩

/-- The state of `exampleTwoUnknowns` when its second unknown is met: the hint output `w2`
has been assigned. -/
def exampleTwoUnknownsMet : solution 13 :=
  ⟨[1, 0, 1, 0, 0], [0, 1, 2, -1], [true, true, true, false, false], 3, [(7, IsZero)],
    [(2, exampleIsZeroHint)]⟩

/-! ## Lemmas on the little-endian helpers -/

theorem uint64_to_byte_length (x : Nat) : (uint64_to_byte x).length = 8 := rfl

theorem intToUint64_uint64ToInt (x : Nat) (hx : x < 18446744073709551616) :
    intToUint64 (uint64ToInt x) = x := by
  unfold intToUint64 uint64ToInt
  split <;> omega

theorem uint64ToInt_intToUint64 (i : Int) (h1 : -9223372036854775808 ≤ i)
    (h2 : i < 9223372036854775808) : uint64ToInt (intToUint64 i) = i := by
  unfold intToUint64 uint64ToInt
  split <;> omega

theorem uint64ToInt_natCast (n : Nat) (h : n < 9223372036854775808) :
    uint64ToInt n = (n : Int) := by
  unfold uint64ToInt
  split <;> omega

theorem leUint64At_append (pre rest : List Nat) (x : Nat) (hx : x < 18446744073709551616) :
    leUint64At (pre ++ (uint64_to_byte x ++ rest)) pre.length = some x := by
  unfold leUint64At
  rw [List.drop_left]
  simp only [uint64_to_byte, List.cons_append, List.nil_append, Option.some.injEq]
  omega

theorem byte_to_int_append (pre rest : List Nat) (x : Nat) (hx : x < 18446744073709551616) :
    byte_to_int (pre ++ (uint64_to_byte x ++ rest)) pre.length = some (uint64ToInt x, 8) := by
  simp [byte_to_int, leUint64At_append pre rest x hx]

/-! ## Round trip of the constraint block -/

/-- The bytes of the terms of a linear expression, without the length prefix. -/
def termsBytes (l : LinearExpression) : List Nat :=
  l.flatMap (fun term => uint64_to_byte (term % 18446744073709551616))

theorem termsBytes_length (l : LinearExpression) : (termsBytes l).length = 8 * l.length := by
  induction l with
  | nil => rfl
  | cons t l ih =>
    simp only [termsBytes, List.flatMap_cons, List.length_append, uint64_to_byte_length,
      List.length_cons] at ih ⊢
    omega

theorem foldl_terms_eq (l : LinearExpression) (acc : List Nat) :
    l.foldl (fun retBytes term => retBytes ++ uint64_to_byte (term % 18446744073709551616)) acc
      = acc ++ termsBytes l := by
  induction l generalizing acc with
  | nil => simp [termsBytes]
  | cons t l ih =>
    rw [List.foldl_cons, ih]
    simp only [termsBytes, List.flatMap_cons, List.append_assoc]

theorem encodeLinearExpression_eq (l : LinearExpression) :
    encodeLinearExpression l
      = uint64_to_byte (l.length % 18446744073709551616) ++ termsBytes l := by
  unfold encodeLinearExpression
  exact foldl_terms_eq l _

theorem encodeLinearExpression_length (l : LinearExpression) :
    (encodeLinearExpression l).length = 8 + 8 * l.length := by
  rw [encodeLinearExpression_eq, List.length_append, uint64_to_byte_length, termsBytes_length]

theorem decodeTermsLoop_append (pre rest : List Nat) (l : LinearExpression)
    (hl : ∀ t ∈ l, Term.wf t) (le : List Term) :
    decodeTermsLoop (pre ++ (termsBytes l ++ rest)) l.length pre.length le
      = some (le ++ l, pre.length + 8 * l.length) := by
  induction l generalizing pre le with
  | nil => simp [decodeTermsLoop]
  | cons t l ih =>
    have ht : t < 18446744073709551616 := hl t (List.mem_cons_self _ _)
    have hl2 : ∀ u ∈ l, Term.wf u := fun u hu => hl u (List.mem_cons_of_mem _ hu)
    have hb : termsBytes (t :: l) = uint64_to_byte t ++ termsBytes l := by
      simp [termsBytes, Nat.mod_eq_of_lt ht]
    have h1 : byte_to_int (pre ++ (termsBytes (t :: l) ++ rest)) pre.length
        = some (uint64ToInt t, 8) := by
      rw [hb, List.append_assoc]
      exact byte_to_int_append pre _ t ht
    have h2 : pre ++ (termsBytes (t :: l) ++ rest)
        = (pre ++ uint64_to_byte t) ++ (termsBytes l ++ rest) := by
      rw [hb]; simp [List.append_assoc]
    have h3 := ih (pre ++ uint64_to_byte t) hl2 (le ++ [t])
    simp only [List.length_cons, decodeTermsLoop, h1, intToUint64_uint64ToInt t ht]
    rw [h2]
    have h4 : pre.length + 8 = (pre ++ uint64_to_byte t).length := by
      simp [uint64_to_byte_length]
    rw [h4, h3]
    simp only [List.append_assoc, List.singleton_append, List.length_append,
      uint64_to_byte_length, Option.some.injEq, Prod.mk.injEq, true_and]
    omega

theorem decodeLinearExpression_append (l : LinearExpression) (hl : LinearExpression.wf l)
    (rest : List Nat) :
    decodeLinearExpression (encodeLinearExpression l ++ rest) = some (l, 8 + 8 * l.length) := by
  obtain ⟨hlen, hterms⟩ := hl
  have hlen2 : l.length < 18446744073709551616 := by omega
  rw [encodeLinearExpression_eq, Nat.mod_eq_of_lt hlen2, List.append_assoc]
  have h1 := byte_to_int_append [] (termsBytes l ++ rest) l.length hlen2
  simp only [List.nil_append, List.length_nil] at h1
  have h2 := decodeTermsLoop_append (uint64_to_byte l.length) rest l hterms []
  simp only [uint64_to_byte_length, List.nil_append] at h2
  unfold decodeLinearExpression
  rw [h1]
  simp only [uint64ToInt_natCast l.length hlen]
  have h3 : ¬ ((l.length : Int) < 0) := by omega
  simp only [h3, if_false, Int.toNat_ofNat]
  exact h2

/-- The bytes of the constraints, without the count prefix. -/
def constraintsBytes (cs : List R1C) : List Nat :=
  cs.flatMap (fun r1c =>
    encodeLinearExpression r1c.L ++ (encodeLinearExpression r1c.R ++ encodeLinearExpression r1c.O))

theorem foldl_constraints_eq (cs : List R1C) (acc : List Nat) :
    cs.foldl
      (fun R1CsBytes r1c =>
        ((R1CsBytes ++ encodeLinearExpression r1c.L) ++ encodeLinearExpression r1c.R)
          ++ encodeLinearExpression r1c.O) acc
      = acc ++ constraintsBytes cs := by
  induction cs generalizing acc with
  | nil => simp [constraintsBytes]
  | cons r cs ih =>
    rw [List.foldl_cons, ih]
    simp only [constraintsBytes, List.flatMap_cons, List.append_assoc]

theorem encodeConstraints_eq (cs : List R1C) :
    encodeConstraints cs
      = uint64_to_byte (cs.length % 18446744073709551616) ++ constraintsBytes cs := by
  unfold encodeConstraints
  exact foldl_constraints_eq cs _

theorem sliceFrom_append (pre rest : List Nat) :
    sliceFrom (pre ++ rest) pre.length = some rest := by
  simp [sliceFrom]

theorem decodeConstraintsLoop_append (pre rest : List Nat) (cs : List R1C)
    (hcs : ∀ r ∈ cs, R1C.wf r) (acc : List R1C) :
    decodeConstraintsLoop (pre ++ (constraintsBytes cs ++ rest)) cs.length pre.length acc
      = some (acc ++ cs) := by
  induction cs generalizing pre acc with
  | nil => simp [decodeConstraintsLoop]
  | cons r cs ih =>
    obtain ⟨hL, hR, hO⟩ := hcs r (List.mem_cons_self _ _)
    have hcs2 : ∀ u ∈ cs, R1C.wf u := fun u hu => hcs u (List.mem_cons_of_mem _ hu)
    have hb : constraintsBytes (r :: cs) = encodeLinearExpression r.L ++
        (encodeLinearExpression r.R ++ (encodeLinearExpression r.O ++ constraintsBytes cs)) := by
      simp [constraintsBytes, List.append_assoc]
    have e1 : (sliceFrom (pre ++ (constraintsBytes (r :: cs) ++ rest)) pre.length).bind
        decodeLinearExpression = some (r.L, 8 + 8 * r.L.length) := by
      rw [sliceFrom_append, hb]
      simp only [Option.some_bind, List.append_assoc]
      exact decodeLinearExpression_append r.L hL _
    have e2 : (sliceFrom (pre ++ (constraintsBytes (r :: cs) ++ rest))
        (pre.length + (8 + 8 * r.L.length))).bind decodeLinearExpression
          = some (r.R, 8 + 8 * r.R.length) := by
      have : pre ++ (constraintsBytes (r :: cs) ++ rest)
          = (pre ++ encodeLinearExpression r.L) ++ (encodeLinearExpression r.R ++
            (encodeLinearExpression r.O ++ (constraintsBytes cs ++ rest))) := by
        rw [hb]; simp [List.append_assoc]
      have hlen : pre.length + (8 + 8 * r.L.length)
          = (pre ++ encodeLinearExpression r.L).length := by
        simp [encodeLinearExpression_length]
      rw [this, hlen, sliceFrom_append]
      exact decodeLinearExpression_append r.R hR _
    have e3 : (sliceFrom (pre ++ (constraintsBytes (r :: cs) ++ rest))
        (pre.length + (8 + 8 * r.L.length) + (8 + 8 * r.R.length))).bind decodeLinearExpression
          = some (r.O, 8 + 8 * r.O.length) := by
      have : pre ++ (constraintsBytes (r :: cs) ++ rest)
          = (pre ++ (encodeLinearExpression r.L ++ encodeLinearExpression r.R)) ++
            (encodeLinearExpression r.O ++ (constraintsBytes cs ++ rest)) := by
        rw [hb]; simp [List.append_assoc]
      have hlen : pre.length + (8 + 8 * r.L.length) + (8 + 8 * r.R.length)
          = (pre ++ (encodeLinearExpression r.L ++ encodeLinearExpression r.R)).length := by
        simp [encodeLinearExpression_length]; omega
      rw [this, hlen, sliceFrom_append]
      exact decodeLinearExpression_append r.O hO _
    have e4 : pre ++ (constraintsBytes (r :: cs) ++ rest)
        = (pre ++ (encodeLinearExpression r.L ++ (encodeLinearExpression r.R ++
            encodeLinearExpression r.O))) ++ (constraintsBytes cs ++ rest) := by
      rw [hb]; simp [List.append_assoc]
    have hlen4 : pre.length + (8 + 8 * r.L.length) + (8 + 8 * r.R.length) + (8 + 8 * r.O.length)
        = (pre ++ (encodeLinearExpression r.L ++ (encodeLinearExpression r.R ++
            encodeLinearExpression r.O))).length := by
      simp [encodeLinearExpression_length]; omega
    simp only [List.length_cons, decodeConstraintsLoop, e1, e2, e3]
    rw [hlen4, e4, ih _ hcs2]
    simp

/-- C1. Round trip of the constraint block: for every slice of R1C constraints whose
lengths are Go `int`s and whose terms are `uint64`s (any value, top bit included, empty
expressions included), `decodeConstraints (encodeConstraints cs)` returns `cs` itself. -/
theorem decodeConstraints_encodeConstraints (cs : List R1C)
    (hlen : cs.length < 9223372036854775808) (hcs : ∀ r ∈ cs, R1C.wf r) :
    decodeConstraints (encodeConstraints cs) = some cs := by
  have hlen2 : cs.length < 18446744073709551616 := by omega
  rw [encodeConstraints_eq, Nat.mod_eq_of_lt hlen2]
  have h1 := byte_to_int_append [] (constraintsBytes cs) cs.length hlen2
  simp only [List.nil_append, List.length_nil] at h1
  have h2 := decodeConstraintsLoop_append (uint64_to_byte cs.length) [] cs hcs []
  simp only [uint64_to_byte_length, List.nil_append, List.append_nil] at h2
  unfold decodeConstraints
  rw [h1]
  simp only [uint64ToInt_natCast cs.length hlen]
  have h3 : ¬ ((cs.length : Int) < 0) := by omega
  simp only [h3, if_false, Int.toNat_ofNat]
  exact h2

/-- Witness for C1: two constraints, one with an empty `L` and a term with the top bit set. -/
theorem decodeConstraints_encodeConstraints_witness :
    decodeConstraints (encodeConstraints
      [R1C.mk [] [18446744073709551615, 5] [7], R1C.mk [1] [] [9223372036854775808]])
      = some [R1C.mk [] [18446744073709551615, 5] [7], R1C.mk [1] [] [9223372036854775808]] :=
  decodeConstraints_encodeConstraints _ (by decide)
    (by
      intro r hr
      simp only [List.mem_cons, List.mem_singleton, List.not_mem_nil, or_false] at hr
      rcases hr with rfl | rfl <;>
        simp [R1C.wf, LinearExpression.wf, Term.wf])

/-! ## Round trip of the hint map block -/

/-- Values of the Go type `int`. -/
def isInt64 (i : Int) : Prop := -9223372036854775808 ≤ i ∧ i < 9223372036854775808

/-- An input is a Go value: slice lengths are `int`s and terms are `uint64`s. -/
def HintInput.wf : HintInput → Prop
  | .bigInt v => (bigIntBytes v).length < 9223372036854775808
  | .bigIntPtr v => (bigIntBytes v).length < 9223372036854775808
  | .linExp l => LinearExpression.wf l
  | .term t => Term.wf t

/-- A descriptor is a Go value: `ID` is a `uint32`, wires are `int`s, lengths are `int`s. -/
def Hint.wf (h : Hint) : Prop :=
  h.ID < 4294967296 ∧ h.Wires.length < 9223372036854775808 ∧ (∀ w ∈ h.Wires, isInt64 w) ∧
    h.Inputs.length < 9223372036854775808 ∧ ∀ i ∈ h.Inputs, HintInput.wf i

instance (t : Term) : Decidable (Term.wf t) :=
  inferInstanceAs (Decidable (t < 18446744073709551616))

instance (l : LinearExpression) : Decidable (LinearExpression.wf l) :=
  inferInstanceAs (Decidable (l.length < 9223372036854775808 ∧ ∀ t ∈ l, Term.wf t))

instance (r : R1C) : Decidable (R1C.wf r) :=
  inferInstanceAs (Decidable
    (LinearExpression.wf r.L ∧ LinearExpression.wf r.R ∧ LinearExpression.wf r.O))

instance (i : Int) : Decidable (isInt64 i) :=
  inferInstanceAs (Decidable (-9223372036854775808 ≤ i ∧ i < 9223372036854775808))

instance (i : HintInput) : Decidable (HintInput.wf i) :=
  match i with
  | .bigInt v => inferInstanceAs (Decidable ((bigIntBytes v).length < 9223372036854775808))
  | .bigIntPtr v => inferInstanceAs (Decidable ((bigIntBytes v).length < 9223372036854775808))
  | .linExp l => inferInstanceAs (Decidable (LinearExpression.wf l))
  | .term t => inferInstanceAs (Decidable (Term.wf t))

instance (h : Hint) : Decidable (Hint.wf h) :=
  inferInstanceAs (Decidable (h.ID < 4294967296 ∧ h.Wires.length < 9223372036854775808 ∧
    (∀ w ∈ h.Wires, isInt64 w) ∧ h.Inputs.length < 9223372036854775808 ∧
    ∀ i ∈ h.Inputs, HintInput.wf i))

/-- What the decoder rebuilds from the bytes of an input: the sign of an integer is not
part of the byte stream. -/
def normInput : HintInput → HintInput
  | .bigInt v => .bigInt (v.natAbs : Int)
  | .bigIntPtr v => .bigIntPtr (v.natAbs : Int)
  | .linExp l => .linExp l
  | .term t => .term t

/-- What the decoder rebuilds from the bytes of a descriptor. -/
def normHint (h : Hint) : Hint := Hint.mk h.ID h.Wires (h.Inputs.map normInput)

theorem foldl_natBytesBE (fuel n : Nat) (h : n ≤ fuel) :
    (natBytesBE fuel n).foldl (fun acc b => acc * 256 + b) 0 = n := by
  induction fuel generalizing n with
  | zero =>
    have : n = 0 := by omega
    subst this
    simp [natBytesBE]
  | succ fuel ih =>
    unfold natBytesBE
    split
    · next h0 => subst h0; simp
    · next h0 =>
      have h1 : n / 256 ≤ fuel := by omega
      rw [List.foldl_append, ih (n / 256) h1]
      simp only [List.foldl_cons, List.foldl_nil]
      omega

theorem bigIntSetBytes_bigIntBytes (x : Int) :
    bigIntSetBytes (bigIntBytes x) = (x.natAbs : Int) := by
  unfold bigIntSetBytes bigIntBytes
  rw [foldl_natBytesBE _ _ (Nat.le_refl _)]

theorem intToUint64_lt (i : Int) : intToUint64 i < 18446744073709551616 := by
  unfold intToUint64
  omega

theorem byte_to_int_int_to_byte (pre rest : List Nat) (i : Int) (hi : isInt64 i) :
    byte_to_int (pre ++ (int_to_byte i ++ rest)) pre.length = some (i, 8) := by
  unfold int_to_byte
  rw [byte_to_int_append pre rest _ (intToUint64_lt i), uint64ToInt_intToUint64 i hi.1 hi.2]

theorem byte_to_uint64_append (pre rest : List Nat) (x : Nat) (hx : x < 18446744073709551616) :
    byte_to_uint64 (pre ++ (uint64_to_byte x ++ rest)) pre.length = some (x, 8) := by
  simp [byte_to_uint64, leUint64At_append pre rest x hx]

theorem byte_to_hintID_append (pre rest : List Nat) (x : Nat) (hx : x < 4294967296) :
    byte_to_hintID (pre ++ (hintID_to_byte x ++ rest)) pre.length = some (x, 4) := by
  unfold byte_to_hintID
  rw [List.drop_left]
  simp only [hintID_to_byte, List.cons_append, List.nil_append, Option.some.injEq,
    Prod.mk.injEq, and_true]
  omega

theorem int_to_byte_length (i : Int) : (int_to_byte i).length = 8 := rfl

theorem hintID_to_byte_length (x : Nat) : (hintID_to_byte x).length = 4 := rfl

theorem isInt64_natCast (n : Nat) (h : n < 9223372036854775808) : isInt64 (n : Int) := by
  unfold isInt64
  omega

theorem sliceLen_append (pre bs rest : List Nat) :
    sliceLen (pre ++ (bs ++ rest)) pre.length (bs.length : Int) = some bs := by
  unfold sliceLen
  have h1 : ¬ ((bs.length : Int) < 0) := by omega
  simp only [h1, if_false, Int.toNat_ofNat, List.length_append, List.drop_left]
  have h2 : pre.length + bs.length ≤ pre.length + (bs.length + rest.length) := by omega
  simp [h2]

theorem decodeHintTermsLoop_append (pre rest : List Nat) (l : LinearExpression)
    (hl : ∀ t ∈ l, Term.wf t) (val : List Term) :
    decodeHintTermsLoop (pre ++ (termsBytes l ++ rest)) l.length pre.length val
      = some (val ++ l, pre.length + 8 * l.length) := by
  induction l generalizing pre val with
  | nil => simp [decodeHintTermsLoop]
  | cons t l ih =>
    have ht : t < 18446744073709551616 := hl t (List.mem_cons_self _ _)
    have hl2 : ∀ u ∈ l, Term.wf u := fun u hu => hl u (List.mem_cons_of_mem _ hu)
    have hb : termsBytes (t :: l) = uint64_to_byte t ++ termsBytes l := by
      simp [termsBytes, Nat.mod_eq_of_lt ht]
    have h1 : byte_to_uint64 (pre ++ (termsBytes (t :: l) ++ rest)) pre.length
        = some (t, 8) := by
      rw [hb, List.append_assoc]
      exact byte_to_uint64_append pre _ t ht
    have h2 : pre ++ (termsBytes (t :: l) ++ rest)
        = (pre ++ uint64_to_byte t) ++ (termsBytes l ++ rest) := by
      rw [hb]; simp [List.append_assoc]
    have h3 := ih (pre ++ uint64_to_byte t) hl2 (val ++ [t])
    simp only [List.length_cons, decodeHintTermsLoop, h1]
    rw [h2]
    have h4 : pre.length + 8 = (pre ++ uint64_to_byte t).length := by
      simp [uint64_to_byte_length]
    rw [h4, h3]
    simp only [List.append_assoc, List.singleton_append, List.length_append,
      uint64_to_byte_length, Option.some.injEq, Prod.mk.injEq, true_and]
    omega

theorem decodeHintInput_bigBytes (pre rest : List Nat) (tag : Int) (htag : isInt64 tag)
    (bs : List Nat) (hbs : bs.length < 9223372036854775808) :
    byte_to_int (pre ++ ((int_to_byte tag ++ int_to_byte (bs.length : Int) ++ bs) ++ rest))
        pre.length = some (tag, 8)
      ∧ byte_to_int (pre ++ ((int_to_byte tag ++ int_to_byte (bs.length : Int) ++ bs) ++ rest))
        (pre.length + 8) = some ((bs.length : Int), 8)
      ∧ sliceLen (pre ++ ((int_to_byte tag ++ int_to_byte (bs.length : Int) ++ bs) ++ rest))
        (pre.length + 8 + 8) (bs.length : Int) = some bs := by
  refine ⟨?_, ?_, ?_⟩
  · simp only [List.append_assoc]
    exact byte_to_int_int_to_byte pre _ tag htag
  · have e : pre ++ ((int_to_byte tag ++ int_to_byte (bs.length : Int) ++ bs) ++ rest)
        = (pre ++ int_to_byte tag) ++ (int_to_byte (bs.length : Int) ++ (bs ++ rest)) := by
      simp [List.append_assoc]
    have hl : pre.length + 8 = (pre ++ int_to_byte tag).length := by
      simp [int_to_byte_length]
    rw [e, hl]
    exact byte_to_int_int_to_byte _ _ _ (isInt64_natCast _ hbs)
  · have e : pre ++ ((int_to_byte tag ++ int_to_byte (bs.length : Int) ++ bs) ++ rest)
        = (pre ++ (int_to_byte tag ++ int_to_byte (bs.length : Int))) ++ (bs ++ rest) := by
      simp [List.append_assoc]
    have hl : pre.length + 8 + 8
        = (pre ++ (int_to_byte tag ++ int_to_byte (bs.length : Int))).length := by
      simp [int_to_byte_length, Nat.add_assoc]
    rw [e, hl]
    exact sliceLen_append _ _ _

theorem encodeHintInput_length_linExp (l : LinearExpression) (bs : List Nat)
    (h : encodeHintInput (.linExp l) = some bs) :
    bs = int_to_byte 25443 ++ int_to_byte (l.length : Int) ++ termsBytes l := by
  simp only [encodeHintInput, Option.some.injEq] at h
  rw [← h, foldl_terms_eq]

theorem decodeHintInput_append (pre rest : List Nat) (i : HintInput) (bs : List Nat)
    (hwf : HintInput.wf i) (henc : encodeHintInput i = some bs) :
    decodeHintInput (pre ++ (bs ++ rest)) pre.length
      = some (normInput i, pre.length + bs.length) := by
  cases i with
  | bigInt v =>
    simp only [encodeHintInput, Option.some.injEq] at henc
    subst henc
    obtain ⟨h1, h2, h3⟩ := decodeHintInput_bigBytes pre rest 25446 (by unfold isInt64; omega)
      (bigIntBytes v) hwf
    unfold decodeHintInput
    simp only [h1, h2, h3, if_true, normInput, bigIntSetBytes_bigIntBytes, Int.toNat_ofNat,
      List.length_append, int_to_byte_length]
    simp only [Option.some.injEq, Prod.mk.injEq, true_and]
    omega
  | bigIntPtr v =>
    simp only [encodeHintInput, Option.some.injEq] at henc
    subst henc
    obtain ⟨h1, h2, h3⟩ := decodeHintInput_bigBytes pre rest 25447 (by unfold isInt64; omega)
      (bigIntBytes v) hwf
    unfold decodeHintInput
    have hne : ¬ ((25447 : Int) = 25446) := by omega
    simp only [h1, h2, h3, hne, if_true, if_false, normInput, bigIntSetBytes_bigIntBytes,
      Int.toNat_ofNat, List.length_append, int_to_byte_length]
    simp only [Option.some.injEq, Prod.mk.injEq, true_and]
    omega
  | linExp l =>
    have hb := encodeHintInput_length_linExp l bs henc
    subst hb
    obtain ⟨hlen, hterms⟩ := hwf
    have h1 : byte_to_int (pre ++ ((int_to_byte 25443 ++ int_to_byte (l.length : Int)
        ++ termsBytes l) ++ rest)) pre.length = some (25443, 8) := by
      simp only [List.append_assoc]
      exact byte_to_int_int_to_byte pre _ 25443 (by unfold isInt64; omega)
    have h2 : byte_to_int (pre ++ ((int_to_byte 25443 ++ int_to_byte (l.length : Int)
        ++ termsBytes l) ++ rest)) (pre.length + 8) = some ((l.length : Int), 8) := by
      have e : pre ++ ((int_to_byte 25443 ++ int_to_byte (l.length : Int) ++ termsBytes l)
          ++ rest) = (pre ++ int_to_byte 25443) ++ (int_to_byte (l.length : Int)
            ++ (termsBytes l ++ rest)) := by
        simp [List.append_assoc]
      have hl : pre.length + 8 = (pre ++ int_to_byte 25443).length := by
        simp [int_to_byte_length]
      rw [e, hl]
      exact byte_to_int_int_to_byte _ _ _ (isInt64_natCast _ hlen)
    have h3 : decodeHintTermsLoop (pre ++ ((int_to_byte 25443 ++ int_to_byte (l.length : Int)
        ++ termsBytes l) ++ rest)) l.length (pre.length + 8 + 8) []
          = some (l, pre.length + 8 + 8 + 8 * l.length) := by
      have e : pre ++ ((int_to_byte 25443 ++ int_to_byte (l.length : Int) ++ termsBytes l)
          ++ rest) = (pre ++ (int_to_byte 25443 ++ int_to_byte (l.length : Int)))
            ++ (termsBytes l ++ rest) := by
        simp [List.append_assoc]
      have hl : pre.length + 8 + 8
          = (pre ++ (int_to_byte 25443 ++ int_to_byte (l.length : Int))).length := by
        simp [int_to_byte_length, Nat.add_assoc]
      rw [e, hl, decodeHintTermsLoop_append _ _ l hterms []]
      simp
    unfold decodeHintInput
    have hne1 : ¬ ((25443 : Int) = 25446) := by omega
    have hne2 : ¬ ((25443 : Int) = 25447) := by omega
    have hneg : ¬ ((l.length : Int) < 0) := by omega
    simp only [h1, h2, h3, hne1, hne2, hneg, if_true, if_false, normInput, Int.toNat_ofNat,
      List.length_append, int_to_byte_length, termsBytes_length]
    simp only [Option.some.injEq, Prod.mk.injEq, true_and]
    omega
  | term t => simp [encodeHintInput] at henc

theorem encodeHintInputs_acc (ins : List HintInput) (acc : List Nat) :
    encodeHintInputs ins acc = (encodeHintInputs ins []).map (fun body => acc ++ body) := by
  induction ins generalizing acc with
  | nil => simp [encodeHintInputs]
  | cons i ins ih =>
    unfold encodeHintInputs
    cases hi : encodeHintInput i with
    | none => simp
    | some bs =>
      simp only [List.nil_append]
      rw [ih (acc ++ bs), ih bs]
      cases encodeHintInputs ins [] <;> simp [List.append_assoc]

theorem decodeHintInputsLoop_append (ins : List HintInput) (body : List Nat)
    (henc : encodeHintInputs ins [] = some body) (hwf : ∀ i ∈ ins, HintInput.wf i)
    (pre rest : List Nat) (acc : List HintInput) :
    decodeHintInputsLoop (pre ++ (body ++ rest)) ins.length pre.length acc
      = some (acc ++ ins.map normInput, pre.length + body.length) := by
  induction ins generalizing body pre acc with
  | nil =>
    simp only [encodeHintInputs, Option.some.injEq] at henc
    subst henc
    simp [decodeHintInputsLoop]
  | cons i ins ih =>
    unfold encodeHintInputs at henc
    cases hi : encodeHintInput i with
    | none => simp [hi] at henc
    | some bs =>
      simp only [hi, List.nil_append] at henc
      rw [encodeHintInputs_acc] at henc
      cases hrest : encodeHintInputs ins [] with
      | none => simp [hrest] at henc
      | some body2 =>
        simp only [hrest, Option.map_some', Option.some.injEq] at henc
        subst henc
        have h1 : decodeHintInput (pre ++ ((bs ++ body2) ++ rest)) pre.length
            = some (normInput i, pre.length + bs.length) := by
          rw [List.append_assoc]
          exact decodeHintInput_append pre _ i bs (hwf i (List.mem_cons_self _ _)) hi
        have h2 := ih body2 hrest (fun j hj => hwf j (List.mem_cons_of_mem _ hj))
          (pre ++ bs) (acc ++ [normInput i])
        have e : pre ++ ((bs ++ body2) ++ rest) = (pre ++ bs) ++ (body2 ++ rest) := by
          simp [List.append_assoc]
        simp only [List.length_cons, decodeHintInputsLoop, h1]
        rw [e]
        have hl : pre.length + bs.length = (pre ++ bs).length := by simp
        rw [hl, h2]
        simp only [List.append_assoc, List.singleton_append, List.map_cons, List.length_append,
          Option.some.injEq, Prod.mk.injEq, true_and]
        omega

/-- The bytes of the output wires of a descriptor, without the length prefix. -/
def wiresBytes (ws : List Int) : List Nat := ws.flatMap int_to_byte

theorem wiresBytes_length (ws : List Int) : (wiresBytes ws).length = 8 * ws.length := by
  induction ws with
  | nil => rfl
  | cons w ws ih =>
    simp only [wiresBytes, List.flatMap_cons, List.length_append, int_to_byte_length,
      List.length_cons] at ih ⊢
    omega

theorem foldl_wires_eq (ws : List Int) (acc : List Nat) :
    ws.foldl (fun hintBinary w => hintBinary ++ int_to_byte w) acc = acc ++ wiresBytes ws := by
  induction ws generalizing acc with
  | nil => simp [wiresBytes]
  | cons w ws ih =>
    rw [List.foldl_cons, ih]
    simp only [wiresBytes, List.flatMap_cons, List.append_assoc]

theorem decodeWiresLoop_append (pre rest : List Nat) (ws : List Int)
    (hws : ∀ w ∈ ws, isInt64 w) (acc : List Int) :
    decodeWiresLoop (pre ++ (wiresBytes ws ++ rest)) ws.length pre.length acc
      = some (acc ++ ws, pre.length + 8 * ws.length) := by
  induction ws generalizing pre acc with
  | nil => simp [decodeWiresLoop]
  | cons w ws ih =>
    have hb : wiresBytes (w :: ws) = int_to_byte w ++ wiresBytes ws := by
      simp [wiresBytes]
    have h1 : byte_to_int (pre ++ (wiresBytes (w :: ws) ++ rest)) pre.length = some (w, 8) := by
      rw [hb, List.append_assoc]
      exact byte_to_int_int_to_byte pre _ w (hws w (List.mem_cons_self _ _))
    have h2 : pre ++ (wiresBytes (w :: ws) ++ rest)
        = (pre ++ int_to_byte w) ++ (wiresBytes ws ++ rest) := by
      rw [hb]; simp [List.append_assoc]
    have h3 := ih (pre ++ int_to_byte w) (fun u hu => hws u (List.mem_cons_of_mem _ hu))
      (acc ++ [w])
    simp only [List.length_cons, decodeWiresLoop, h1]
    rw [h2]
    have h4 : pre.length + 8 = (pre ++ int_to_byte w).length := by
      simp [int_to_byte_length]
    rw [h4, h3]
    simp only [List.append_assoc, List.singleton_append, List.length_append,
      int_to_byte_length, Option.some.injEq, Prod.mk.injEq, true_and]
    omega

theorem encodeHint_eq (h : Hint) (hb : List Nat) (henc : encodeHint h = some hb) :
    ∃ body, encodeHintInputs h.Inputs [] = some body ∧
      hb = hintID_to_byte (h.ID % 4294967296) ++ (int_to_byte (h.Wires.length : Int) ++
        (wiresBytes h.Wires ++ (int_to_byte (h.Inputs.length : Int) ++ body))) := by
  unfold encodeHint at henc
  rw [encodeHintInputs_acc, foldl_wires_eq] at henc
  cases hbody : encodeHintInputs h.Inputs [] with
  | none => simp [hbody] at henc
  | some body =>
    simp only [hbody, Option.map_some', Option.some.injEq] at henc
    exact ⟨body, rfl, by rw [← henc]; simp [List.append_assoc]⟩

theorem decodeHint_append (pre rest : List Nat) (h : Hint) (hb : List Nat)
    (hwf : Hint.wf h) (henc : encodeHint h = some hb) :
    decodeHint (pre ++ (hb ++ rest)) pre.length = some (normHint h, pre.length + hb.length) := by
  obtain ⟨body, hbody, rfl⟩ := encodeHint_eq h hb henc
  obtain ⟨hid, hwl, hws, hil, hins⟩ := hwf
  have hmod : h.ID % 4294967296 = h.ID := Nat.mod_eq_of_lt hid
  rw [hmod]
  have e1 : byte_to_hintID (pre ++ ((hintID_to_byte h.ID ++ (int_to_byte (h.Wires.length : Int)
      ++ (wiresBytes h.Wires ++ (int_to_byte (h.Inputs.length : Int) ++ body)))) ++ rest))
      pre.length = some (h.ID, 4) := by
    simp only [List.append_assoc]
    exact byte_to_hintID_append pre _ h.ID hid
  have e2 : byte_to_int (pre ++ ((hintID_to_byte h.ID ++ (int_to_byte (h.Wires.length : Int)
      ++ (wiresBytes h.Wires ++ (int_to_byte (h.Inputs.length : Int) ++ body)))) ++ rest))
      (pre.length + 4) = some ((h.Wires.length : Int), 8) := by
    have e : pre ++ ((hintID_to_byte h.ID ++ (int_to_byte (h.Wires.length : Int)
        ++ (wiresBytes h.Wires ++ (int_to_byte (h.Inputs.length : Int) ++ body)))) ++ rest)
        = (pre ++ hintID_to_byte h.ID) ++ (int_to_byte (h.Wires.length : Int)
          ++ (wiresBytes h.Wires ++ (int_to_byte (h.Inputs.length : Int) ++ (body ++ rest)))) := by
      simp [List.append_assoc]
    have hl : pre.length + 4 = (pre ++ hintID_to_byte h.ID).length := by
      simp [hintID_to_byte_length]
    rw [e, hl]
    exact byte_to_int_int_to_byte _ _ _ (isInt64_natCast _ hwl)
  have e3 : decodeWiresLoop (pre ++ ((hintID_to_byte h.ID ++ (int_to_byte (h.Wires.length : Int)
      ++ (wiresBytes h.Wires ++ (int_to_byte (h.Inputs.length : Int) ++ body)))) ++ rest))
      h.Wires.length (pre.length + 4 + 8) []
        = some (h.Wires, pre.length + 4 + 8 + 8 * h.Wires.length) := by
    have e : pre ++ ((hintID_to_byte h.ID ++ (int_to_byte (h.Wires.length : Int)
        ++ (wiresBytes h.Wires ++ (int_to_byte (h.Inputs.length : Int) ++ body)))) ++ rest)
        = (pre ++ (hintID_to_byte h.ID ++ int_to_byte (h.Wires.length : Int)))
          ++ (wiresBytes h.Wires ++ (int_to_byte (h.Inputs.length : Int) ++ (body ++ rest))) := by
      simp [List.append_assoc]
    have hl : pre.length + 4 + 8
        = (pre ++ (hintID_to_byte h.ID ++ int_to_byte (h.Wires.length : Int))).length := by
      simp only [List.length_append, hintID_to_byte_length, int_to_byte_length, Nat.add_assoc]
    rw [e, hl, decodeWiresLoop_append _ _ h.Wires hws []]
    simp
  have e4 : byte_to_int (pre ++ ((hintID_to_byte h.ID ++ (int_to_byte (h.Wires.length : Int)
      ++ (wiresBytes h.Wires ++ (int_to_byte (h.Inputs.length : Int) ++ body)))) ++ rest))
      (pre.length + 4 + 8 + 8 * h.Wires.length) = some ((h.Inputs.length : Int), 8) := by
    have e : pre ++ ((hintID_to_byte h.ID ++ (int_to_byte (h.Wires.length : Int)
        ++ (wiresBytes h.Wires ++ (int_to_byte (h.Inputs.length : Int) ++ body)))) ++ rest)
        = (pre ++ (hintID_to_byte h.ID ++ (int_to_byte (h.Wires.length : Int)
          ++ wiresBytes h.Wires))) ++ (int_to_byte (h.Inputs.length : Int) ++ (body ++ rest)) := by
      simp [List.append_assoc]
    have hl : pre.length + 4 + 8 + 8 * h.Wires.length
        = (pre ++ (hintID_to_byte h.ID ++ (int_to_byte (h.Wires.length : Int)
          ++ wiresBytes h.Wires))).length := by
      simp only [List.length_append, hintID_to_byte_length, int_to_byte_length,
        wiresBytes_length]
      omega
    rw [e, hl]
    exact byte_to_int_int_to_byte _ _ _ (isInt64_natCast _ hil)
  have e5 : decodeHintInputsLoop (pre ++ ((hintID_to_byte h.ID ++
      (int_to_byte (h.Wires.length : Int) ++ (wiresBytes h.Wires ++
        (int_to_byte (h.Inputs.length : Int) ++ body)))) ++ rest))
      h.Inputs.length (pre.length + 4 + 8 + 8 * h.Wires.length + 8) []
        = some (h.Inputs.map normInput,
            pre.length + 4 + 8 + 8 * h.Wires.length + 8 + body.length) := by
    have e : pre ++ ((hintID_to_byte h.ID ++ (int_to_byte (h.Wires.length : Int)
        ++ (wiresBytes h.Wires ++ (int_to_byte (h.Inputs.length : Int) ++ body)))) ++ rest)
        = (pre ++ (hintID_to_byte h.ID ++ (int_to_byte (h.Wires.length : Int)
          ++ (wiresBytes h.Wires ++ int_to_byte (h.Inputs.length : Int))))) ++ (body ++ rest) := by
      simp [List.append_assoc]
    have hl : pre.length + 4 + 8 + 8 * h.Wires.length + 8
        = (pre ++ (hintID_to_byte h.ID ++ (int_to_byte (h.Wires.length : Int)
          ++ (wiresBytes h.Wires ++ int_to_byte (h.Inputs.length : Int))))).length := by
      simp only [List.length_append, hintID_to_byte_length, int_to_byte_length,
        wiresBytes_length]
      omega
    rw [e, hl, decodeHintInputsLoop_append h.Inputs body hbody hins _ _ []]
    simp
  have hn1 : ¬ ((h.Wires.length : Int) < 0) := by omega
  have hn2 : ¬ ((h.Inputs.length : Int) < 0) := by omega
  unfold decodeHint
  simp only [e1, e2, e3, e4, e5, hn1, hn2, if_false, Int.toNat_ofNat, normHint,
    List.length_append, hintID_to_byte_length, int_to_byte_length, wiresBytes_length]
  simp only [Option.some.injEq, Prod.mk.injEq, true_and]
  omega

/-- The state of the decoder after it has read the records that the encoder emits for
`entries`, started with the encoder's `mhintscheck` and the decoder's map `d`:
an alias record copies the pointer stored under the first-seen key, an inline record
allocates the rebuilt descriptor at the end of the heap. -/
def replay (heap : List Hint) :
    List (Int × Option Nat) → List (Option Nat × Int) → MHints → MHints
  | [], _, d => d
  | (k, v) :: rest, mhintscheck, d =>
    match mhintscheck.lookup v with
    | some lastKey =>
      replay heap rest mhintscheck (MHints.mk d.heap (mapSet d.entries k (mapGet d.entries lastKey)))
    | none =>
      match v.bind (fun p => heap[p]?) with
      | none => d
      | some h =>
        replay heap rest ((v, k) :: mhintscheck)
          (MHints.mk (d.heap ++ [normHint h]) (mapSet d.entries k (some d.heap.length)))

theorem encodeMHintsLoop_acc (heap : List Hint) (es : List (Int × Option Nat))
    (check : List (Option Nat × Int)) (acc : List Nat) :
    encodeMHintsLoop heap es check acc
      = (encodeMHintsLoop heap es check []).map (fun body => acc ++ body) := by
  induction es generalizing check acc with
  | nil => simp [encodeMHintsLoop]
  | cons e es ih =>
    obtain ⟨k, v⟩ := e
    unfold encodeMHintsLoop
    cases hc : check.lookup v with
    | some lastKey =>
      simp only [List.nil_append]
      rw [ih check (acc ++ int_to_byte k ++ int_to_byte 0 ++ int_to_byte lastKey),
        ih check (int_to_byte k ++ int_to_byte 0 ++ int_to_byte lastKey)]
      cases encodeMHintsLoop heap es check [] <;> simp [List.append_assoc]
    | none =>
      cases hv : v.bind (fun p => heap[p]?) with
      | none => simp
      | some h =>
        cases hh : encodeHint h with
        | none => simp [hh]
        | some hb =>
          simp only [hh, List.nil_append]
          rw [ih ((v, k) :: check) (acc ++ int_to_byte k ++ int_to_byte 1 ++ hb),
            ih ((v, k) :: check) (int_to_byte k ++ int_to_byte 1 ++ hb)]
          cases encodeMHintsLoop heap es ((v, k) :: check) [] <;> simp [List.append_assoc]

theorem mem_heap_of_bind (heap : List Hint) (v : Option Nat) (h : Hint)
    (hv : v.bind (fun p => heap[p]?) = some h) : h ∈ heap := by
  cases v with
  | none => simp at hv
  | some p =>
    simp only [Option.some_bind] at hv
    exact List.getElem?_mem hv

theorem decodeMHintsLoop_encode (heap : List Hint) (hheap : ∀ h ∈ heap, Hint.wf h)
    (es : List (Int × Option Nat)) (check : List (Option Nat × Int)) (body : List Nat)
    (henc : encodeMHintsLoop heap es check [] = some body)
    (hkeys : ∀ e ∈ es, isInt64 e.1)
    (hcheck : ∀ v k, check.lookup v = some k → isInt64 k)
    (pre rest : List Nat) (d : MHints) :
    decodeMHintsLoop (pre ++ (body ++ rest)) es.length pre.length d
      = some (replay heap es check d, pre.length + body.length) := by
  induction es generalizing check body pre d with
  | nil =>
    simp only [encodeMHintsLoop, Option.some.injEq] at henc
    subst henc
    simp [decodeMHintsLoop, replay]
  | cons e es ih =>
    obtain ⟨k, v⟩ := e
    have hk : isInt64 k := hkeys (k, v) (List.mem_cons_self _ _)
    have hkeys2 : ∀ e ∈ es, isInt64 e.1 := fun e he => hkeys e (List.mem_cons_of_mem _ he)
    unfold encodeMHintsLoop at henc
    cases hc : check.lookup v with
    | some lastKey =>
      simp only [hc, List.nil_append] at henc
      rw [encodeMHintsLoop_acc] at henc
      cases hrest : encodeMHintsLoop heap es check [] with
      | none => simp [hrest] at henc
      | some body2 =>
        simp only [hrest, Option.map_some', Option.some.injEq] at henc
        subst henc
        have hlk : isInt64 lastKey := hcheck v lastKey hc
        have e1 : byte_to_int (pre ++ ((int_to_byte k ++ int_to_byte 0 ++ int_to_byte lastKey
            ++ body2) ++ rest)) pre.length = some (k, 8) := by
          simp only [List.append_assoc]
          exact byte_to_int_int_to_byte pre _ k hk
        have e2 : byte_to_int (pre ++ ((int_to_byte k ++ int_to_byte 0 ++ int_to_byte lastKey
            ++ body2) ++ rest)) (pre.length + 8) = some (0, 8) := by
          have e : pre ++ ((int_to_byte k ++ int_to_byte 0 ++ int_to_byte lastKey ++ body2)
              ++ rest) = (pre ++ int_to_byte k) ++ (int_to_byte 0 ++ (int_to_byte lastKey
                ++ (body2 ++ rest))) := by
            simp [List.append_assoc]
          have hl : pre.length + 8 = (pre ++ int_to_byte k).length := by
            simp only [List.length_append, int_to_byte_length]
          rw [e, hl]
          exact byte_to_int_int_to_byte _ _ 0 (by unfold isInt64; omega)
        have e3 : byte_to_int (pre ++ ((int_to_byte k ++ int_to_byte 0 ++ int_to_byte lastKey
            ++ body2) ++ rest)) (pre.length + 8 + 8) = some (lastKey, 8) := by
          have e : pre ++ ((int_to_byte k ++ int_to_byte 0 ++ int_to_byte lastKey ++ body2)
              ++ rest) = (pre ++ (int_to_byte k ++ int_to_byte 0)) ++ (int_to_byte lastKey
                ++ (body2 ++ rest)) := by
            simp [List.append_assoc]
          have hl : pre.length + 8 + 8 = (pre ++ (int_to_byte k ++ int_to_byte 0)).length := by
            simp only [List.length_append, int_to_byte_length, Nat.add_assoc]
          rw [e, hl]
          exact byte_to_int_int_to_byte _ _ lastKey hlk
        have e4 : pre ++ ((int_to_byte k ++ int_to_byte 0 ++ int_to_byte lastKey ++ body2)
            ++ rest) = (pre ++ (int_to_byte k ++ int_to_byte 0 ++ int_to_byte lastKey))
              ++ (body2 ++ rest) := by
          simp [List.append_assoc]
        have hl4 : pre.length + 8 + 8 + 8
            = (pre ++ (int_to_byte k ++ int_to_byte 0 ++ int_to_byte lastKey)).length := by
          simp only [List.length_append, int_to_byte_length, Nat.add_assoc]
        have h5 := ih check body2 hrest hkeys2 hcheck
          (pre ++ (int_to_byte k ++ int_to_byte 0 ++ int_to_byte lastKey))
          (MHints.mk d.heap (mapSet d.entries k (mapGet d.entries lastKey)))
        simp only [List.length_cons, decodeMHintsLoop, e1, e2, e3, if_true, replay, hc]
        rw [hl4, e4, h5]
        simp only [List.length_append, int_to_byte_length, Option.some.injEq, Prod.mk.injEq,
          true_and]
        omega
    | none =>
      simp only [hc] at henc
      cases hv : v.bind (fun p => heap[p]?) with
      | none => simp [hv] at henc
      | some h =>
        simp only [hv] at henc
        cases hh : encodeHint h with
        | none => simp [hh] at henc
        | some hb =>
          simp only [hh, List.nil_append] at henc
          rw [encodeMHintsLoop_acc] at henc
          cases hrest : encodeMHintsLoop heap es ((v, k) :: check) [] with
          | none => simp [hrest] at henc
          | some body2 =>
            simp only [hrest, Option.map_some', Option.some.injEq] at henc
            subst henc
            have hcheck2 : ∀ v2 k2, ((v, k) :: check).lookup v2 = some k2 → isInt64 k2 := by
              intro v2 k2 h2
              rw [List.lookup_cons] at h2
              split at h2
              · simp only [Option.some.injEq] at h2
                rw [← h2]; exact hk
              · exact hcheck v2 k2 h2
            have e1 : byte_to_int (pre ++ ((int_to_byte k ++ int_to_byte 1 ++ hb ++ body2)
                ++ rest)) pre.length = some (k, 8) := by
              simp only [List.append_assoc]
              exact byte_to_int_int_to_byte pre _ k hk
            have e2 : byte_to_int (pre ++ ((int_to_byte k ++ int_to_byte 1 ++ hb ++ body2)
                ++ rest)) (pre.length + 8) = some (1, 8) := by
              have e : pre ++ ((int_to_byte k ++ int_to_byte 1 ++ hb ++ body2) ++ rest)
                  = (pre ++ int_to_byte k) ++ (int_to_byte 1 ++ (hb ++ (body2 ++ rest))) := by
                simp [List.append_assoc]
              have hl : pre.length + 8 = (pre ++ int_to_byte k).length := by
                simp only [List.length_append, int_to_byte_length]
              rw [e, hl]
              exact byte_to_int_int_to_byte _ _ 1 (by unfold isInt64; omega)
            have e3 : decodeHint (pre ++ ((int_to_byte k ++ int_to_byte 1 ++ hb ++ body2)
                ++ rest)) (pre.length + 8 + 8)
                  = some (normHint h, pre.length + 8 + 8 + hb.length) := by
              have e : pre ++ ((int_to_byte k ++ int_to_byte 1 ++ hb ++ body2) ++ rest)
                  = (pre ++ (int_to_byte k ++ int_to_byte 1)) ++ (hb ++ (body2 ++ rest)) := by
                simp [List.append_assoc]
              have hl : pre.length + 8 + 8
                  = (pre ++ (int_to_byte k ++ int_to_byte 1)).length := by
                simp only [List.length_append, int_to_byte_length, Nat.add_assoc]
              rw [e, hl]
              exact decodeHint_append _ _ h hb (hheap h (mem_heap_of_bind heap v h hv)) hh
            have e4 : pre ++ ((int_to_byte k ++ int_to_byte 1 ++ hb ++ body2) ++ rest)
                = (pre ++ (int_to_byte k ++ int_to_byte 1 ++ hb)) ++ (body2 ++ rest) := by
              simp [List.append_assoc]
            have hl4 : pre.length + 8 + 8 + hb.length
                = (pre ++ (int_to_byte k ++ int_to_byte 1 ++ hb)).length := by
              simp only [List.length_append, int_to_byte_length, Nat.add_assoc]
            have h5 := ih ((v, k) :: check) body2 hrest hkeys2 hcheck2
              (pre ++ (int_to_byte k ++ int_to_byte 1 ++ hb))
              (MHints.mk (d.heap ++ [normHint h]) (mapSet d.entries k (some d.heap.length)))
            have hm : ¬ ((1 : Int) = 0) := by omega
            simp only [List.length_cons, decodeMHintsLoop, e1, e2, e3, hm, if_true, if_false,
              replay, hc, hv]
            rw [hl4, e4, h5]
            simp only [List.length_append, int_to_byte_length, Option.some.injEq, Prod.mk.injEq,
              true_and]
            omega

/-- Decoding the bytes produced by the encoder succeeds, consumes all of them, and yields
the replayed map. -/
theorem decodeMHintsUsed_encodeMHints (m : MHints) (bytes : List Nat)
    (hlen : m.entries.length < 9223372036854775808)
    (hheap : ∀ h ∈ m.heap, Hint.wf h) (hkeys : ∀ e ∈ m.entries, isInt64 e.1)
    (henc : encodeMHints m = some bytes) :
    decodeMHintsUsed bytes = some (replay m.heap m.entries [] (MHints.mk [] []), bytes.length) := by
  unfold encodeMHints at henc
  rw [encodeMHintsLoop_acc] at henc
  cases hbody : encodeMHintsLoop m.heap m.entries [] [] with
  | none => simp [hbody] at henc
  | some body =>
    simp only [hbody, Option.map_some', Option.some.injEq] at henc
    subst henc
    have h1 := byte_to_int_int_to_byte [] body (m.entries.length : Int)
      (isInt64_natCast _ hlen)
    simp only [List.nil_append, List.length_nil] at h1
    have h2 := decodeMHintsLoop_encode m.heap hheap m.entries [] body hbody hkeys
      (by intro v k h; simp at h) (int_to_byte (m.entries.length : Int)) [] (MHints.mk [] [])
    simp only [List.append_nil, int_to_byte_length] at h2
    unfold decodeMHintsUsed
    rw [h1]
    simp only [Int.toNat_ofNat, h2, List.length_append, int_to_byte_length]

/-! ### Sharing of descriptors across the round trip -/

theorem lookup_cons_if (m : List (Int × Option Nat)) (k k' : Int) (p : Option Nat) :
    ((k, p) :: m).lookup k' = if k' = k then some p else m.lookup k' := by
  rw [List.lookup_cons]
  by_cases h : k' = k
  · subst h
    simp
  · have hb : (k' == k) = false := by simpa using h
    rw [hb]
    simp [h]

theorem lookup_mapSet (m : List (Int × Option Nat)) (k k' : Int) (p : Option Nat) :
    (mapSet m k p).lookup k' = if k' = k then some p else m.lookup k' := by
  induction m with
  | nil => simp only [mapSet, lookup_cons_if]
  | cons e m ih =>
    obtain ⟨k0, p0⟩ := e
    unfold mapSet
    by_cases h0 : k0 = k
    · subst h0
      simp only [if_true, lookup_cons_if]
      by_cases h : k' = k0 <;> simp [h]
    · simp only [h0, if_false, lookup_cons_if, ih]
      by_cases h : k' = k
      · subst h
        have : ¬ (k' = k0) := fun e => h0 e.symm
        simp [this]
      · simp [h]

theorem mapGet_mapSet (m : List (Int × Option Nat)) (k k' : Int) (p : Option Nat) :
    mapGet (mapSet m k p) k' = if k' = k then p else mapGet m k' := by
  unfold mapGet
  rw [lookup_mapSet]
  by_cases h : k' = k <;> simp [h]

theorem keys_mapSet (m : List (Int × Option Nat)) (k : Int) (p : Option Nat)
    (hk : k ∉ m.map Prod.fst) : (mapSet m k p).map Prod.fst = m.map Prod.fst ++ [k] := by
  induction m with
  | nil => simp [mapSet]
  | cons e m ih =>
    obtain ⟨k0, p0⟩ := e
    simp only [List.map_cons, List.mem_cons, not_or] at hk
    have h0 : ¬ (k0 = k) := fun e => hk.1 e.symm
    simp only [mapSet, h0, if_false, List.map_cons, ih hk.2, List.cons_append]

/-- Invariant linking the encoder's `mhintscheck` (first key seen per descriptor pointer)
with the decoder's map `d` after the entries `done` have gone through the codec. -/
structure ReplayInv (heap : List Hint) (done : List (Int × Option Nat))
    (check : List (Option Nat × Int)) (d : MHints) : Prop where
  keys : d.entries.map Prod.fst = done.map Prod.fst
  ptr : ∀ k v, (k, v) ∈ done → ∃ k0 p h, check.lookup v = some k0 ∧
    mapGet d.entries k = some p ∧ mapGet d.entries k0 = some p ∧
    v.bind (fun q => heap[q]?) = some h ∧ d.heap[p]? = some (normHint h)
  inj : ∀ v1 v2 k1 k2 p, check.lookup v1 = some k1 → check.lookup v2 = some k2 →
    mapGet d.entries k1 = some p → mapGet d.entries k2 = some p → v1 = v2
  bound : ∀ k p, mapGet d.entries k = some p → p < d.heap.length
  checkDone : ∀ v k0, check.lookup v = some k0 → k0 ∈ done.map Prod.fst

theorem ReplayInv.alias {heap : List Hint} {done : List (Int × Option Nat)}
    {check : List (Option Nat × Int)} {d : MHints} (inv : ReplayInv heap done check d)
    (k : Int) (v : Option Nat) (lastKey : Int) (hk : k ∉ done.map Prod.fst)
    (hc : check.lookup v = some lastKey) :
    ReplayInv heap (done ++ [(k, v)]) check
      (MHints.mk d.heap (mapSet d.entries k (mapGet d.entries lastKey))) := by
  have hne : ∀ v' k0, check.lookup v' = some k0 → ¬ (k0 = k) := by
    intro v' k0 h e
    exact hk (e ▸ inv.checkDone v' k0 h)
  have hlast : ∃ p h, mapGet d.entries lastKey = some p ∧
      v.bind (fun q => heap[q]?) = some h ∧ d.heap[p]? = some (normHint h) := by
    have hmem := inv.checkDone v lastKey hc
    rw [List.mem_map] at hmem
    obtain ⟨⟨k1, v1⟩, hmem1, hk1⟩ := hmem
    simp only at hk1
    subst hk1
    obtain ⟨k0, p, h, h1, h2, h3, h4, h5⟩ := inv.ptr k1 v1 hmem1
    have hv : v = v1 := inv.inj v v1 k1 k0 p hc h1 h2 h3
    subst hv
    exact ⟨p, h, h2, h4, h5⟩
  obtain ⟨pl, hl, hl1, hl2, hl3⟩ := hlast
  constructor
  · simp only [List.map_append, List.map_cons, List.map_nil]
    rw [keys_mapSet _ _ _ (by rw [inv.keys]; exact hk), inv.keys]
  · intro k' v' hmem
    rw [List.mem_append, List.mem_singleton] at hmem
    rcases hmem with hmem | hmem
    · obtain ⟨k0, p, h, h1, h2, h3, h4, h5⟩ := inv.ptr k' v' hmem
      have hk' : ¬ (k' = k) := fun e => hk (e ▸ List.mem_map_of_mem Prod.fst hmem)
      refine ⟨k0, p, h, h1, ?_, ?_, h4, h5⟩
      · simp only [mapGet_mapSet, hk', if_false]; exact h2
      · simp only [mapGet_mapSet, hne v' k0 h1, if_false]; exact h3
    · simp only [Prod.mk.injEq] at hmem
      obtain ⟨rfl, rfl⟩ := hmem
      refine ⟨lastKey, pl, hl, hc, ?_, ?_, hl2, hl3⟩
      · simp only [mapGet_mapSet, if_true]; exact hl1
      · simp only [mapGet_mapSet, hne _ lastKey hc, if_false]; exact hl1
  · intro v1 v2 k1 k2 p h1 h2 h3 h4
    simp only [mapGet_mapSet, hne v1 k1 h1, hne v2 k2 h2, if_false] at h3 h4
    exact inv.inj v1 v2 k1 k2 p h1 h2 h3 h4
  · intro k' p hp
    simp only [mapGet_mapSet] at hp
    split at hp
    · exact inv.bound lastKey p hp
    · exact inv.bound k' p hp
  · intro v' k0 h
    simp only [List.map_append, List.mem_append]
    exact Or.inl (inv.checkDone v' k0 h)

theorem lookup_cons_ne {v v' : Option Nat} {k : Int} {check : List (Option Nat × Int)}
    (h : ¬ (v' = v)) : ((v, k) :: check).lookup v' = check.lookup v' := by
  rw [List.lookup_cons]
  have : (v' == v) = false := by simpa using h
  rw [this]

theorem ReplayInv.inline {heap : List Hint} {done : List (Int × Option Nat)}
    {check : List (Option Nat × Int)} {d : MHints} (inv : ReplayInv heap done check d)
    (k : Int) (v : Option Nat) (h : Hint) (hk : k ∉ done.map Prod.fst)
    (hc : check.lookup v = none) (hv : v.bind (fun q => heap[q]?) = some h) :
    ReplayInv heap (done ++ [(k, v)]) ((v, k) :: check)
      (MHints.mk (d.heap ++ [normHint h]) (mapSet d.entries k (some d.heap.length))) := by
  have hne : ∀ v' k0, check.lookup v' = some k0 → ¬ (k0 = k) := by
    intro v' k0 h e
    exact hk (e ▸ inv.checkDone v' k0 h)
  have hvne : ∀ v' k0, check.lookup v' = some k0 → ¬ (v' = v) := by
    intro v' k0 h e
    rw [e, hc] at h
    exact Option.noConfusion h
  constructor
  · simp only [List.map_append, List.map_cons, List.map_nil]
    rw [keys_mapSet _ _ _ (by rw [inv.keys]; exact hk), inv.keys]
  · intro k' v' hmem
    rw [List.mem_append, List.mem_singleton] at hmem
    rcases hmem with hmem | hmem
    · obtain ⟨k0, p, h', h1, h2, h3, h4, h5⟩ := inv.ptr k' v' hmem
      have hk' : ¬ (k' = k) := fun e => hk (e ▸ List.mem_map_of_mem Prod.fst hmem)
      have hp : p < d.heap.length := inv.bound k' p h2
      refine ⟨k0, p, h', ?_, ?_, ?_, h4, ?_⟩
      · rw [lookup_cons_ne (hvne v' k0 h1)]; exact h1
      · simp only [mapGet_mapSet, hk', if_false]; exact h2
      · simp only [mapGet_mapSet, hne v' k0 h1, if_false]; exact h3
      · simp only [List.getElem?_append_left hp]; exact h5
    · simp only [Prod.mk.injEq] at hmem
      obtain ⟨rfl, rfl⟩ := hmem
      refine ⟨k', d.heap.length, h, by simp, ?_, ?_, hv, ?_⟩
      · simp only [mapGet_mapSet, if_true]
      · simp only [mapGet_mapSet, if_true]
      · simp only [List.getElem?_concat_length]
  · intro v1 v2 k1 k2 p h1 h2 h3 h4
    by_cases e1 : v1 = v
    · by_cases e2 : v2 = v
      · rw [e1, e2]
      · exfalso
        rw [lookup_cons_ne e2] at h2
        subst e1
        simp only [List.lookup_cons_self, Option.some.injEq] at h1
        subst h1
        simp only [mapGet_mapSet, if_true, Option.some.injEq, hne v2 k2 h2, if_false] at h3 h4
        have := inv.bound k2 p h4
        omega
    · rw [lookup_cons_ne e1] at h1
      by_cases e2 : v2 = v
      · exfalso
        subst e2
        simp only [List.lookup_cons_self, Option.some.injEq] at h2
        subst h2
        simp only [mapGet_mapSet, if_true, Option.some.injEq, hne v1 k1 h1, if_false] at h3 h4
        have := inv.bound k1 p h3
        omega
      · rw [lookup_cons_ne e2] at h2
        simp only [mapGet_mapSet, hne v1 k1 h1, hne v2 k2 h2, if_false] at h3 h4
        exact inv.inj v1 v2 k1 k2 p h1 h2 h3 h4
  · intro k' p hp
    simp only [mapGet_mapSet] at hp
    simp only [List.length_append, List.length_singleton]
    split at hp
    · simp only [Option.some.injEq] at hp
      omega
    · have := inv.bound k' p hp
      omega
  · intro v' k0 h'
    simp only [List.map_append, List.mem_append, List.map_cons, List.map_nil,
      List.mem_singleton]
    by_cases e : v' = v
    · subst e
      simp only [List.lookup_cons_self, Option.some.injEq] at h'
      exact Or.inr h'.symm
    · rw [lookup_cons_ne e] at h'
      exact Or.inl (inv.checkDone v' k0 h')

theorem replay_inv (heap : List Hint) (es : List (Int × Option Nat))
    (done : List (Int × Option Nat)) (check : List (Option Nat × Int)) (d : MHints)
    (body : List Nat) (henc : encodeMHintsLoop heap es check [] = some body)
    (hnodup : ((done ++ es).map Prod.fst).Nodup) (inv : ReplayInv heap done check d) :
    ∃ check', ReplayInv heap (done ++ es) check' (replay heap es check d) := by
  induction es generalizing done check d body with
  | nil => exact ⟨check, by simpa [replay] using inv⟩
  | cons e es ih =>
    obtain ⟨k, v⟩ := e
    have hk : k ∉ done.map Prod.fst := by
      simp only [List.map_append, List.map_cons] at hnodup
      have := (List.nodup_append.mp hnodup).2.2
      intro hmem
      exact this hmem (List.mem_cons_self _ _) 
    have hnodup2 : (((done ++ [(k, v)]) ++ es).map Prod.fst).Nodup := by
      simpa [List.append_assoc] using hnodup
    have happ : done ++ (k, v) :: es = (done ++ [(k, v)]) ++ es := by simp
    unfold encodeMHintsLoop at henc
    cases hc : check.lookup v with
    | some lastKey =>
      simp only [hc] at henc
      rw [encodeMHintsLoop_acc] at henc
      cases hrest : encodeMHintsLoop heap es check [] with
      | none => simp [hrest] at henc
      | some body2 =>
        have inv2 := inv.alias k v lastKey hk hc
        obtain ⟨check', h'⟩ := ih (done ++ [(k, v)]) check _ body2 hrest hnodup2 inv2
        refine ⟨check', ?_⟩
        simp only [replay, hc]
        rw [happ]
        exact h'
    | none =>
      simp only [hc] at henc
      cases hv : v.bind (fun p => heap[p]?) with
      | none => simp [hv] at henc
      | some h =>
        simp only [hv] at henc
        cases hh : encodeHint h with
        | none => simp [hh] at henc
        | some hb =>
          simp only [hh] at henc
          rw [encodeMHintsLoop_acc] at henc
          cases hrest : encodeMHintsLoop heap es ((v, k) :: check) [] with
          | none => simp [hrest] at henc
          | some body2 =>
            have inv2 := inv.inline k v h hk hc hv
            obtain ⟨check', h'⟩ := ih (done ++ [(k, v)]) ((v, k) :: check) _ body2 hrest
              hnodup2 inv2
            refine ⟨check', ?_⟩
            simp only [replay, hc, hv]
            rw [happ]
            exact h'

theorem replayInv_init (heap : List Hint) : ReplayInv heap [] [] (MHints.mk [] []) := by
  constructor
  · rfl
  · intro k v h; simp at h
  · intro v1 v2 k1 k2 p h; simp at h
  · intro k p h; simp [mapGet] at h
  · intro v k h; simp at h

/-- The inputs that the hint-map block can carry faithfully: linear expressions and
non-negative integers (by value or by reference). -/
def HintInput.restricted : HintInput → Prop
  | .bigInt v => 0 ≤ v
  | .bigIntPtr v => 0 ≤ v
  | .linExp _ => True
  | .term _ => False

instance (i : HintInput) : Decidable (HintInput.restricted i) :=
  match i with
  | .bigInt v => inferInstanceAs (Decidable (0 ≤ v))
  | .bigIntPtr v => inferInstanceAs (Decidable (0 ≤ v))
  | .linExp _ => inferInstanceAs (Decidable True)
  | .term _ => inferInstanceAs (Decidable False)

theorem normInput_restricted (i : HintInput) (h : HintInput.restricted i) : normInput i = i := by
  cases i with
  | bigInt v =>
    simp only [HintInput.restricted] at h
    simp only [normInput, HintInput.bigInt.injEq]
    omega
  | bigIntPtr v =>
    simp only [HintInput.restricted] at h
    simp only [normInput, HintInput.bigIntPtr.injEq]
    omega
  | linExp l => rfl
  | term t => rfl

theorem normHint_restricted (h : Hint) (hres : ∀ i ∈ h.Inputs, HintInput.restricted i) :
    normHint h = h := by
  have : h.Inputs.map normInput = h.Inputs := by
    conv => rhs; rw [← List.map_id h.Inputs]
    exact List.map_congr_left (fun i hi => normInput_restricted i (hres i hi))
  cases h
  simp only [normHint] at this ⊢
  rw [this]

theorem encodeHintInputs_isSome (ins : List HintInput)
    (hres : ∀ i ∈ ins, HintInput.restricted i) (acc : List Nat) :
    ∃ out, encodeHintInputs ins acc = some out := by
  induction ins generalizing acc with
  | nil => exact ⟨acc, rfl⟩
  | cons i ins ih =>
    have hi := hres i (List.mem_cons_self _ _)
    have hrest : ∀ j ∈ ins, HintInput.restricted j :=
      fun j hj => hres j (List.mem_cons_of_mem _ hj)
    cases i with
    | bigInt v => simp only [encodeHintInputs, encodeHintInput]; exact ih hrest _
    | bigIntPtr v => simp only [encodeHintInputs, encodeHintInput]; exact ih hrest _
    | linExp l => simp only [encodeHintInputs, encodeHintInput]; exact ih hrest _
    | term t => simp [HintInput.restricted] at hi

theorem encodeMHintsLoop_isSome (heap : List Hint)
    (hres : ∀ h ∈ heap, ∀ i ∈ h.Inputs, HintInput.restricted i)
    (es : List (Int × Option Nat))
    (hvalid : ∀ e ∈ es, ∃ p h, e.2 = some p ∧ heap[p]? = some h)
    (check : List (Option Nat × Int)) (acc : List Nat) :
    ∃ out, encodeMHintsLoop heap es check acc = some out := by
  induction es generalizing check acc with
  | nil => exact ⟨acc, rfl⟩
  | cons e es ih =>
    obtain ⟨k, v⟩ := e
    obtain ⟨p, h, hv, hp⟩ := hvalid (k, v) (List.mem_cons_self _ _)
    have hvalid2 : ∀ e ∈ es, ∃ p h, e.2 = some p ∧ heap[p]? = some h :=
      fun e he => hvalid e (List.mem_cons_of_mem _ he)
    simp only at hv
    subst hv
    unfold encodeMHintsLoop
    cases hc : check.lookup (some p) with
    | some lastKey => exact ih hvalid2 _ _
    | none =>
      obtain ⟨hb, hhb⟩ := encodeHintInputs_isSome h.Inputs (hres h (List.getElem?_mem hp))
        (h.Wires.foldl (fun hintBinary w => hintBinary ++ int_to_byte w)
            (hintID_to_byte (h.ID % 4294967296) ++ int_to_byte (h.Wires.length : Int))
          ++ int_to_byte (h.Inputs.length : Int))
      have hh : encodeHint h = some hb := hhb
      simp only [Option.some_bind, hp, hh]
      exact ih hvalid2 _ _

/-- Counterexample to C2 as stated: a descriptor with a single-term input makes
`encodeMHints` panic (`unknown type`), and a descriptor with the constant `-3` is decoded
with the constant `3`. -/
theorem hint_roundtrip_counterexample :
    encodeMHints (MHints.mk [Hint.mk 1 [5] [.term 3]] [(5, some 0)]) = none
      ∧ (encodeMHints (MHints.mk [Hint.mk 1 [5] [.bigInt (-3)]] [(5, some 0)])).bind decodeMHints
          = some (MHints.mk [Hint.mk 1 [5] [.bigInt 3]] [(5, some 0)])
      ∧ (encodeMHints (MHints.mk [Hint.mk 1 [5] [.bigInt (-3)]] [(5, some 0)])).bind decodeMHints
          ≠ some (MHints.mk [Hint.mk 1 [5] [.bigInt (-3)]] [(5, some 0)]) := by
  refine ⟨by decide, by decide, by decide⟩

/-- C2 (amended). For every hint map whose descriptors are Go values with inputs that are
linear expressions or non-negative integers (by value or by reference), and for every
order in which the encoder visits the entries, `encodeMHints` returns and `decodeMHints`
of its bytes returns a map with the same keys in which every key is bound to a descriptor
equal to the original one (same ID, wires and inputs, variant by variant). -/
theorem hint_roundtrip_restricted (m : MHints) (order : List (Int × Option Nat))
    (hperm : order.Perm m.entries) (hnodup : (m.entries.map Prod.fst).Nodup)
    (hlen : m.entries.length < 9223372036854775808)
    (hheap : ∀ h ∈ m.heap, Hint.wf h) (hkeys : ∀ e ∈ m.entries, isInt64 e.1)
    (hvalid : ∀ e ∈ m.entries, ∃ p h, e.2 = some p ∧ m.heap[p]? = some h)
    (hres : ∀ h ∈ m.heap, ∀ i ∈ h.Inputs, HintInput.restricted i) :
    ∃ d, (encodeMHints (MHints.mk m.heap order)).bind decodeMHints = some d
      ∧ d.entries.map Prod.fst = order.map Prod.fst
      ∧ ∀ k p h, (k, some p) ∈ m.entries → m.heap[p]? = some h →
          ∃ p', mapGet d.entries k = some p' ∧ d.heap[p']? = some h := by
  have hvalid2 : ∀ e ∈ order, ∃ p h, e.2 = some p ∧ m.heap[p]? = some h :=
    fun e he => hvalid e (hperm.mem_iff.mp he)
  obtain ⟨bytes, henc⟩ := encodeMHintsLoop_isSome m.heap hres order hvalid2 []
    (int_to_byte (order.length : Int))
  have henc2 : encodeMHints (MHints.mk m.heap order) = some bytes := henc
  have hlen2 : order.length < 9223372036854775808 := by rw [hperm.length_eq]; exact hlen
  have hkeys2 : ∀ e ∈ order, isInt64 e.1 := fun e he => hkeys e (hperm.mem_iff.mp he)
  have hdec := decodeMHintsUsed_encodeMHints (MHints.mk m.heap order) bytes hlen2 hheap hkeys2
    henc2
  obtain ⟨body, hbody⟩ := encodeMHintsLoop_isSome m.heap hres order hvalid2 [] []
  have hnodup2 : (([] ++ order).map Prod.fst).Nodup := by
    simpa using (hperm.map Prod.fst).nodup_iff.mpr hnodup
  obtain ⟨check', inv⟩ := replay_inv m.heap order [] [] (MHints.mk [] []) body hbody hnodup2
    (replayInv_init m.heap)
  simp only [List.nil_append] at inv
  refine ⟨replay m.heap order [] (MHints.mk [] []), ?_, inv.keys, ?_⟩
  · simp only [henc2, Option.some_bind, decodeMHints, hdec, Option.map_some']
  · intro k p h hmem hp
    obtain ⟨k0, p', h', _, h2, _, h4, h5⟩ := inv.ptr k (some p) (hperm.mem_iff.mpr hmem)
    simp only [Option.some_bind, hp, Option.some.injEq] at h4
    subst h4
    rw [normHint_restricted h (hres h (List.getElem?_mem hp))] at h5
    exact ⟨p', h2, h5⟩

/-- Witness for C2 (amended): a shared descriptor with a linear expression and two
non-negative integers, visited in the order 6, 5. -/
theorem hint_roundtrip_restricted_witness :
    ∃ d, (encodeMHints (MHints.mk [Hint.mk 7 [5, 6] [.bigInt 3, .linExp [1, 2], .bigIntPtr 0]]
          [(6, some 0), (5, some 0)])).bind decodeMHints = some d
      ∧ d.entries.map Prod.fst = [((6 : Int), some 0), ((5 : Int), some 0)].map Prod.fst
      ∧ ∀ k p h, (k, some p) ∈ [((5 : Int), some 0), (6, some 0)] →
          [Hint.mk 7 [5, 6] [.bigInt 3, .linExp [1, 2], .bigIntPtr 0]][p]? = some h →
          ∃ p', mapGet d.entries k = some p' ∧ d.heap[p']? = some h :=
  hint_roundtrip_restricted
    (MHints.mk [Hint.mk 7 [5, 6] [.bigInt 3, .linExp [1, 2], .bigIntPtr 0]]
      [(5, some 0), (6, some 0)])
    [(6, some 0), (5, some 0)]
    (by decide) (by decide) (by decide) (by decide) (by decide)
    (by
      intro e he
      simp only [List.mem_cons, List.mem_singleton, List.not_mem_nil, or_false] at he
      rcases he with rfl | rfl <;> exact ⟨0, _, rfl, rfl⟩)
    (by decide)

/-- C4 (the code at the failing input). The Go map `{1 ↦ h0, 2 ↦ h1}` visited in the
order `1, 2` and in the order `2, 1` is encoded to different bytes, and re-encoding the
decoded map in the other order does not reproduce the bytes that were decoded. -/
theorem encodeMHints_order_dependent :
    encodeMHints (MHints.mk [Hint.mk 1 [1] [], Hint.mk 1 [2] []] [(1, some 0), (2, some 1)])
        ≠ encodeMHints (MHints.mk [Hint.mk 1 [1] [], Hint.mk 1 [2] []] [(2, some 1), (1, some 0)])
      ∧ ((encodeMHints (MHints.mk [Hint.mk 1 [1] [], Hint.mk 1 [2] []]
            [(1, some 0), (2, some 1)])).bind decodeMHints).bind
          (fun d => encodeMHints (MHints.mk d.heap d.entries.reverse))
        ≠ encodeMHints (MHints.mk [Hint.mk 1 [1] [], Hint.mk 1 [2] []] [(1, some 0), (2, some 1)]) := by
  refine ⟨by decide, by decide⟩

/-! ## Builtin hints -/

theorem bigExp_fermat (q : Nat) (hq : q.Prime) (a : Int) (h0 : 0 ≤ a) (hlt : a < q) :
    bigExp a ((q : Int) - 1) q = if a = 0 then 0 else 1 := by
  have hq2 : 2 ≤ q := hq.two_le
  have hexp : ((q : Int) - 1).toNat = q - 1 := by omega
  have habs : |(q : Int)| = q := abs_of_nonneg (by omega)
  unfold bigExp
  rw [hexp, habs]
  split
  · next h =>
    subst h
    rw [zero_pow (by omega)]
    simp
  · next h =>
    have hcop : IsCoprime a (q : Int) := by
      rw [Int.isCoprime_iff_gcd_eq_one]
      have hdvd : ¬ (q : Int) ∣ a := by
        intro hd
        have := Int.le_of_dvd (by omega) hd
        omega
      have hp : Prime (q : Int) := Nat.prime_iff_prime_int.mp hq
      have := (Int.isCoprime_iff_gcd_eq_one).mp
        ((Prime.coprime_iff_not_dvd hp).mpr hdvd)
      rw [Int.gcd_comm]
      exact this
    have hf := Int.ModEq.pow_card_sub_one_eq_one hq hcop
    have h1 : (1 : Int) % q = 1 := Int.emod_eq_of_lt (by omega) (by omega)
    unfold Int.ModEq at hf
    rw [hf, h1]

theorem IsZero_reduced (q : Nat) (hq : q.Prime) (a r : Int) (ins outs : List Int)
    (h0 : 0 ≤ a) (hlt : a < q) :
    IsZero q (a :: ins) (r :: outs)
        = .ret (1 :: ins, ((1 - a ^ (q - 1) % (q : Int)) % (q : Int)) :: outs, none)
      ∧ (1 - a ^ (q - 1) % (q : Int)) % (q : Int) = if a = 0 then 1 else 0 := by
  have hq2 : 2 ≤ q := hq.two_le
  have hf := bigExp_fermat q hq a h0 hlt
  have hexp : ((q : Int) - 1).toNat = q - 1 := by omega
  have habs : |(q : Int)| = q := abs_of_nonneg (by omega)
  have hb : bigExp a ((q : Int) - 1) q = a ^ (q - 1) % (q : Int) := by
    unfold bigExp; rw [hexp, habs]
  constructor
  · simp [IsZero, idx, Outcome.bind, hb]
  · rw [← hb, hf]
    split
    · exact Int.emod_eq_of_lt (by omega) (by omega)
    · simp

/-- C8. For a prime modulus `q` and a reduced input `0 ≤ a < q`, `IsZero` returns no error
and stores in `results[0]` the value `(1 − a^(q−1)) mod q`, which is `1` when `a = 0` and
`0` otherwise (the input slot is left holding the scratch value `1`). -/
theorem IsZero_spec (q : Nat) (hq : q.Prime) (a r : Int) (ins outs : List Int)
    (h0 : 0 ≤ a) (hlt : a < q) :
    IsZero q (a :: ins) (r :: outs)
        = .ret (1 :: ins, ((1 - a ^ (q - 1) % (q : Int)) % (q : Int)) :: outs, none)
      ∧ (1 - a ^ (q - 1) % (q : Int)) % (q : Int) = if a = 0 then 1 else 0 :=
  IsZero_reduced q hq a r ins outs h0 hlt

/-- Witness for C8 at `q = 7`, `a = 3`. -/
theorem IsZero_spec_witness :
    IsZero 7 [3] [0] = .ret ([1], [(1 - 3 ^ (7 - 1) % ((7 : Nat) : Int)) % ((7 : Nat) : Int)], none)
      ∧ (1 - (3 : Int) ^ (7 - 1) % ((7 : Nat) : Int)) % ((7 : Nat) : Int)
          = if (3 : Int) = 0 then 1 else 0 :=
  IsZero_spec 7 (by norm_num) 3 0 [] [] (by decide) (by decide)

/-- C9. `CheckZero` stores `0` in `results[0]` if `inputs[0] = 0` and `1` otherwise; for a
prime `q` and a reduced input this is `a^(q−1) mod q`, and the results of `IsZero` and
`CheckZero` on the same reduced input add up to `1`. -/
theorem CheckZero_spec (q : Nat) (hq : q.Prime) (a r : Int) (ins outs : List Int)
    (h0 : 0 ≤ a) (hlt : a < q) :
    CheckZero q (a :: ins) (r :: outs)
        = .ret (a :: ins, (if a = 0 then 0 else 1) :: outs, none)
      ∧ (if a = 0 then (0 : Int) else 1) = a ^ (q - 1) % (q : Int)
      ∧ ∀ i c, IsZero q (a :: ins) (r :: outs) = .ret (1 :: ins, i :: outs, none) →
          CheckZero q (a :: ins) (r :: outs) = .ret (a :: ins, c :: outs, none) →
          i + c = 1 := by
  have hq2 : 2 ≤ q := hq.two_le
  have hf := bigExp_fermat q hq a h0 hlt
  have hexp : ((q : Int) - 1).toNat = q - 1 := by omega
  have habs : |(q : Int)| = q := abs_of_nonneg (by omega)
  have hb : bigExp a ((q : Int) - 1) q = a ^ (q - 1) % (q : Int) := by
    unfold bigExp; rw [hexp, habs]
  have hc : CheckZero q (a :: ins) (r :: outs)
      = .ret (a :: ins, (if a = 0 then 0 else 1) :: outs, none) := by
    by_cases ha : a = 0 <;> simp [CheckZero, idx, Outcome.bind, ha]
  refine ⟨hc, ?_, ?_⟩
  · rw [← hb, hf]
  · intro i c hi hcz
    have hI := (IsZero_reduced q hq a r ins outs h0 hlt)
    rw [hI.1] at hi
    rw [hc] at hcz
    simp only [Outcome.ret.injEq, Prod.mk.injEq, List.cons.injEq, and_true, true_and] at hi hcz
    rw [← hi, ← hcz, hI.2]
    split <;> simp

/-- Witness for C9 at `q = 7`, `a = 0`. -/
theorem CheckZero_spec_witness :
    CheckZero 7 [0] [5] = .ret ([0], [if (0 : Int) = 0 then 0 else 1], none)
      ∧ (if (0 : Int) = 0 then (0 : Int) else 1) = 0 ^ (7 - 1) % ((7 : Nat) : Int)
      ∧ ∀ i c, IsZero 7 [0] [5] = .ret ([1], [i], none) →
          CheckZero 7 [0] [5] = .ret ([0], [c], none) → i + c = 1 :=
  CheckZero_spec 7 (by norm_num) 0 5 [] [] (by decide) (by decide)

/-! ## Solution state: terms -/

@[simp] theorem Outcome.bind_ret {α β : Type} (a : α) (f : α → Outcome β) :
    (Outcome.ret a).bind f = f a := rfl

@[simp] theorem Outcome.bind_panic {α β : Type} (msg : String) (f : α → Outcome β) :
    (Outcome.panic msg : Outcome α).bind f = .panic msg := rfl

@[simp] theorem Outcome.bind_outOfFuel {α β : Type} (f : α → Outcome β) :
    (Outcome.outOfFuel : Outcome α).bind f = .outOfFuel := rfl

theorem Outcome.bind_eq_ret {α β : Type} {x : Outcome α} {f : α → Outcome β} {b : β}
    (h : x.bind f = .ret b) : ∃ a, x = .ret a ∧ f a = .ret b := by
  cases x with
  | ret a => exact ⟨a, rfl, h⟩
  | panic msg => simp at h
  | outOfFuel => simp at h

theorem idx_eq_ret {α : Type} {l : List α} {i : Nat} {a : α} :
    idx l i = .ret a ↔ l[i]? = some a := by
  unfold idx
  cases l[i]? <;> simp

theorem idx_of_lt {α : Type} {l : List α} {i : Nat} (h : i < l.length) :
    idx l i = .ret l[i] := by
  unfold idx
  rw [List.getElem?_eq_getElem h]

/-- The coefficient a term multiplies its wire by: `0`, `1`, `2`, `−1` for the reserved
IDs and the pool entry otherwise. -/
def coeffOf {q : Nat} (coefficients : List (ZMod q)) (cID : Nat) : ZMod q :=
  if cID = CoeffIdZero then 0
  else if cID = CoeffIdOne then 1
  else if cID = CoeffIdTwo then 2
  else if cID = CoeffIdMinusOne then -1
  else coefficients.getD cID 0

/-- The value `coeff(t) · values[wire(t)]` of a term. -/
def termValue {q : Nat} (L : TermLayout) (coefficients values : List (ZMod q)) (t : Term) :
    ZMod q :=
  coeffOf coefficients (L.CoeffID t) * values.getD (L.WireID t) 0

/-- C10. For a term whose wire index is in range and whose coefficient ID is reserved or
in the pool: if the wire is solved or the coefficient ID is `ZERO`, `computeTerm` returns
`coeff(t) · values[wire(t)]` (fast paths included); and `computeTerm` panics exactly when
the coefficient ID is not `ZERO` and the wire is unsolved. -/
theorem computeTerm_spec {q : Nat} (L : TermLayout) (s : solution q) (t : Term)
    (hlen : s.solved.length = s.values.length) (hv : L.WireID t < s.values.length)
    (hc : L.CoeffID t < 4 ∨ L.CoeffID t < s.coefficients.length) :
    ((s.solved[L.WireID t]? = some true ∨ L.CoeffID t = CoeffIdZero) →
        s.computeTerm L t = .ret (termValue L s.coefficients s.values t))
      ∧ ((∃ msg, s.computeTerm L t = .panic msg) ↔
          (L.CoeffID t ≠ CoeffIdZero ∧ s.solved[L.WireID t]? = some false)) := by
  have hv2 : L.WireID t < s.solved.length := by omega
  have hval : s.values[L.WireID t]? = some (s.values.getD (L.WireID t) 0) := by
    rw [List.getElem?_eq_getElem hv, List.getD_eq_getElem _ _ hv]
  have hsol : s.solved[L.WireID t]? = some (s.solved.getD (L.WireID t) false) := by
    rw [List.getElem?_eq_getElem hv2, List.getD_eq_getElem _ _ hv2]
  generalize s.values.getD (L.WireID t) 0 = v at hval
  generalize s.solved.getD (L.WireID t) false = b at hsol
  have hret : (L.CoeffID t = CoeffIdZero ∨ b = true) →
      s.computeTerm L t = .ret (coeffOf s.coefficients (L.CoeffID t) * v) := by
    intro hb
    unfold solution.computeTerm coeffOf idx
    simp only [CoeffIdZero, CoeffIdOne, CoeffIdTwo, CoeffIdMinusOne] at hb ⊢
    by_cases h0 : L.CoeffID t = 0
    · simp [h0]
    · have hbt : b = true := by
        rcases hb with h | h
        · exact absurd h h0
        · exact h
      subst hbt
      simp only [h0, hsol, hval, ne_eq, not_false_eq_true, if_true, if_false,
        Outcome.bind_ret]
      by_cases h1 : L.CoeffID t = 1
      · simp [h1]
      · by_cases h2 : L.CoeffID t = 2
        · simp [h2, two_mul]
        · by_cases h3 : L.CoeffID t = 3
          · simp [h3]
          · have hin : L.CoeffID t < s.coefficients.length := by omega
            have hco : s.coefficients[L.CoeffID t]?
                = some (s.coefficients.getD (L.CoeffID t) 0) := by
              rw [List.getElem?_eq_getElem hin, List.getD_eq_getElem _ _ hin]
            simp only [h1, h2, h3, if_false, hco]
            by_cases hz : v = 0
            · simp [hz]
            · by_cases ho : v = 1
              · have hz' : ¬ ((1 : ZMod q) = 0) := by rw [← ho]; exact hz
                simp [ho, hz']
              · simp [hz, ho]
  have hpanic : L.CoeffID t ≠ CoeffIdZero → b = false →
      s.computeTerm L t = .panic "computing a term with an unsolved wire" := by
    intro h0 hb
    subst hb
    unfold solution.computeTerm idx
    simp only [CoeffIdZero] at h0
    simp [h0, hsol]
  constructor
  · intro h
    unfold termValue
    rw [List.getD_eq_getElem _ _ hv]
    rw [List.getElem?_eq_getElem hv] at hval
    simp only [Option.some.injEq] at hval
    rw [hval]
    apply hret
    rcases h with h | h
    · rw [hsol] at h
      simp only [Option.some.injEq] at h
      exact Or.inr h
    · exact Or.inl h
  · constructor
    · rintro ⟨msg, hm⟩
      by_cases h0 : L.CoeffID t = CoeffIdZero
      · rw [hret (Or.inl h0)] at hm
        exact Outcome.noConfusion hm
      · refine ⟨h0, ?_⟩
        cases b with
        | false => exact hsol
        | true =>
          rw [hret (Or.inr rfl)] at hm
          exact Outcome.noConfusion hm
    · rintro ⟨h0, hb⟩
      rw [hsol] at hb
      simp only [Option.some.injEq] at hb
      exact ⟨_, hpanic h0 hb⟩

/-! ## Solution state: monotonicity and the solved counter -/

/-- The counter invariant: the flags and the values have the same length (a Go `int`),
and `nbSolved` is the number of flags that are set. -/
def solution.Counted {q : Nat} (s : solution q) : Prop :=
  s.solved.length = s.values.length ∧ s.values.length < 9223372036854775808 ∧
    s.nbSolved = s.solved.count true

/-- The state `s'` is reached from `s` by assigning wires: nothing but `values`, `solved`
and `nbSolved` changes, a solved wire stays solved and keeps its value, and the counter
invariant is kept. -/
structure solution.Extends {q : Nat} (s s' : solution q) : Prop where
  values_length : s'.values.length = s.values.length
  solved_length : s'.solved.length = s.solved.length
  coefficients : s'.coefficients = s.coefficients
  mHints : s'.mHints = s.mHints
  mHintsFunctions : s'.mHintsFunctions = s.mHintsFunctions
  frozen : ∀ i : Nat, s.solved[i]? = some true →
    s'.solved[i]? = some true ∧ s'.values[i]? = s.values[i]?
  counted : s.Counted → s'.Counted

theorem solution.Extends.refl {q : Nat} (s : solution q) : s.Extends s :=
  ⟨rfl, rfl, rfl, rfl, rfl, fun _ h => ⟨h, rfl⟩, fun h => h⟩

theorem solution.Extends.trans {q : Nat} {s1 s2 s3 : solution q} (h12 : s1.Extends s2)
    (h23 : s2.Extends s3) : s1.Extends s3 :=
  ⟨h23.values_length.trans h12.values_length, h23.solved_length.trans h12.solved_length,
    h23.coefficients.trans h12.coefficients, h23.mHints.trans h12.mHints,
    h23.mHintsFunctions.trans h12.mHintsFunctions,
    fun i h => ⟨(h23.frozen i (h12.frozen i h).1).1,
      ((h23.frozen i (h12.frozen i h).1).2).trans (h12.frozen i h).2⟩,
    fun h => h23.counted (h12.counted h)⟩

theorem count_set_true (l : List Bool) (i : Nat) (h : l[i]? = some false) :
    (l.set i true).count true = l.count true + 1 := by
  induction l generalizing i with
  | nil => simp at h
  | cons b l ih =>
    cases i with
    | zero =>
      simp only [List.getElem?_cons_zero, Option.some.injEq] at h
      subst h
      simp
    | succ i =>
      simp only [List.getElem?_cons_succ] at h
      simp only [List.set_cons_succ, List.count_cons, ih i h]
      omega

theorem solution.set_spec {q : Nat} {s s' : solution q} {id : Int} {value : ZMod q}
    (h : s.set id value = .ret s') :
    s.Extends s' ∧ 0 ≤ id ∧ s.solved[id.toNat]? = some false ∧
      s'.solved[id.toNat]? = some true ∧ s'.values[id.toNat]? = some value := by
  unfold solution.set at h
  by_cases hid : id < 0
  · simp [hid] at h
  · simp only [hid, if_false] at h
    obtain ⟨b, hb, h⟩ := Outcome.bind_eq_ret h
    rw [idx_eq_ret] at hb
    cases b with
    | true => simp at h
    | false =>
      simp only [Bool.false_eq_true, if_false] at h
      obtain ⟨v0, hv0, h⟩ := Outcome.bind_eq_ret h
      rw [idx_eq_ret] at hv0
      simp only [Outcome.ret.injEq] at h
      subst h
      have hlt1 : id.toNat < s.solved.length := by
        by_contra hc
        rw [List.getElem?_eq_none (by omega)] at hb
        exact Option.noConfusion hb
      have hlt2 : id.toNat < s.values.length := by
        by_contra hc
        rw [List.getElem?_eq_none (by omega)] at hv0
        exact Option.noConfusion hv0
      refine ⟨⟨by simp, by simp, rfl, rfl, rfl, ?_, ?_⟩, by omega, hb, ?_, ?_⟩
      · intro i hi
        have hne : id.toNat ≠ i := by
          intro e
          rw [e] at hb
          rw [hb] at hi
          simp at hi
        simp only [List.getElem?_set_ne hne]
        exact ⟨hi, trivial⟩
      · rintro ⟨hc1, hc2, hc3⟩
        refine ⟨by simpa using hc1, by simpa using hc2, ?_⟩
        simp only [count_set_true s.solved id.toNat hb, hc3]
        have h1 := List.count_le_length true (s.solved.set id.toNat true)
        rw [count_set_true s.solved id.toNat hb, List.length_set] at h1
        omega
      · simp [List.getElem?_set_self hlt1]
      · simp [List.getElem?_set_self hlt2]

theorem setHintOutputs_spec {q : Nat} (ws : List Int) (i : Nat) (outputs : List Int)
    (s s' : solution q) (h : setHintOutputs ws i outputs s = .ret s') :
    s.Extends s' ∧ ∀ w ∈ ws, 0 ≤ w ∧ s'.solved[w.toNat]? = some true := by
  induction ws generalizing i s with
  | nil =>
    simp only [setHintOutputs, Outcome.ret.injEq] at h
    subst h
    exact ⟨solution.Extends.refl s, by simp⟩
  | cons w ws ih =>
    simp only [setHintOutputs] at h
    obtain ⟨s1, hs1, h⟩ := Outcome.bind_eq_ret h
    obtain ⟨e1, hw0, _, hw1, _⟩ := solution.set_spec hs1
    obtain ⟨e2, hrest⟩ := ih (i + 1) s1 h
    refine ⟨e1.trans e2, ?_⟩
    intro w' hw'
    rcases List.mem_cons.mp hw' with rfl | hmem
    · exact ⟨hw0, (e2.frozen _ hw1).1⟩
    · exact hrest w' hmem

/-- What a call of `solveWithHint` guarantees when it returns: the state is extended, and
without error either the wire was solved before or all output wires of the descriptor
are solved now. -/
def HintPost {q : Nat} (s : solution q) (vID : Nat) (h : Hint)
    (r : solution q × Option Err) : Prop :=
  s.Extends r.1 ∧ (r.2 = none → s.solved[vID]? = some true ∨
    ∀ w ∈ h.Wires, 0 ≤ w ∧ r.1.solved[w.toNat]? = some true)

theorem recursiveSolve_extends {q : Nat} (L : TermLayout)
    (recurse : solution q → Nat → Hint → Outcome (solution q × Option Err))
    (hrec : ∀ s vID h r, recurse s vID h = .ret r → HintPost s vID h r)
    (s : solution q) (t : Term) (r : solution q × Option Err)
    (h : recursiveSolve L recurse s t = .ret r) : s.Extends r.1 := by
  unfold recursiveSolve at h
  obtain ⟨b, _, h⟩ := Outcome.bind_eq_ret h
  cases b with
  | true =>
    simp only [if_true, Outcome.ret.injEq] at h
    subst h
    exact solution.Extends.refl s
  | false =>
    simp only [Bool.false_eq_true, if_false] at h
    cases hl : s.mHints.lookup (L.WireID t : Int) with
    | none => simp [hl] at h
    | some hint =>
      simp only [hl] at h
      exact (hrec _ _ _ _ h).1

theorem hintLinExpLoop_extends {q : Nat} (L : TermLayout)
    (recurse : solution q → Nat → Hint → Outcome (solution q × Option Err))
    (hrec : ∀ s vID h r, recurse s vID h = .ret r → HintPost s vID h r)
    (l : List Term) (s : solution q) (v : ZMod q) (r : solution q × ZMod q × Option Err)
    (h : hintLinExpLoop L recurse l s v = .ret r) : s.Extends r.1 := by
  induction l generalizing s v with
  | nil =>
    simp only [hintLinExpLoop, Outcome.ret.injEq] at h
    subst h
    exact solution.Extends.refl s
  | cons t l ih =>
    simp only [hintLinExpLoop] at h
    obtain ⟨r1, hr1, h⟩ := Outcome.bind_eq_ret h
    have e1 := recursiveSolve_extends L recurse hrec s t r1 hr1
    cases he : r1.2 with
    | some err =>
      simp only [he, Outcome.ret.injEq] at h
      subst h
      exact e1
    | none =>
      simp only [he] at h
      obtain ⟨v', _, h⟩ := Outcome.bind_eq_ret h
      exact e1.trans (ih r1.1 v' h)

theorem hintInputsLoop_extends {q : Nat} (L : TermLayout)
    (recurse : solution q → Nat → Hint → Outcome (solution q × Option Err))
    (hrec : ∀ s vID h r, recurse s vID h = .ret r → HintPost s vID h r)
    (ins : List HintInput) (s : solution q) (inputs : List Int)
    (r : solution q × List Int × Option Err)
    (h : hintInputsLoop L recurse ins s inputs = .ret r) : s.Extends r.1 := by
  induction ins generalizing s inputs with
  | nil =>
    simp only [hintInputsLoop, Outcome.ret.injEq] at h
    subst h
    exact solution.Extends.refl s
  | cons i ins ih =>
    cases i with
    | bigInt v => simp only [hintInputsLoop] at h; exact ih s _ h
    | bigIntPtr v => simp only [hintInputsLoop] at h; exact ih s _ h
    | linExp t =>
      simp only [hintInputsLoop] at h
      obtain ⟨r1, hr1, h⟩ := Outcome.bind_eq_ret h
      have e1 := hintLinExpLoop_extends L recurse hrec t s 0 r1 hr1
      cases he : r1.2.2 with
      | some err =>
        simp only [he, Outcome.ret.injEq] at h
        subst h
        exact e1
      | none =>
        simp only [he] at h
        exact e1.trans (ih r1.1 _ h)
    | term t =>
      simp only [hintInputsLoop] at h
      obtain ⟨r1, hr1, h⟩ := Outcome.bind_eq_ret h
      have e1 := recursiveSolve_extends L recurse hrec s t r1 hr1
      cases he : r1.2 with
      | some err =>
        simp only [he, Outcome.ret.injEq] at h
        subst h
        exact e1
      | none =>
        simp only [he] at h
        obtain ⟨v', _, h⟩ := Outcome.bind_eq_ret h
        exact e1.trans (ih r1.1 _ h)

theorem solveWithHint_spec {q : Nat} (L : TermLayout) (fuel : Nat) (s : solution q)
    (vID : Nat) (h : Hint) (r : solution q × Option Err)
    (hr : s.solveWithHint L fuel vID h = .ret r) : HintPost s vID h r := by
  induction fuel generalizing s vID h r with
  | zero => simp [solution.solveWithHint] at hr
  | succ fuel ih =>
    simp only [solution.solveWithHint] at hr
    obtain ⟨b, hb, hr⟩ := Outcome.bind_eq_ret hr
    rw [idx_eq_ret] at hb
    cases b with
    | true =>
      simp only [if_true, Outcome.ret.injEq] at hr
      subst hr
      exact ⟨solution.Extends.refl s, fun _ => Or.inl hb⟩
    | false =>
      simp only [Bool.false_eq_true, if_false] at hr
      cases hf : s.mHintsFunctions.lookup h.ID with
      | none =>
        simp only [hf, Outcome.ret.injEq] at hr
        subst hr
        exact ⟨solution.Extends.refl s, fun e => by simp at e⟩
      | some f =>
        simp only [hf] at hr
        obtain ⟨r1, hr1, hr⟩ := Outcome.bind_eq_ret hr
        have e1 := hintInputsLoop_extends L _ (fun s vID h r hh => ih s vID h r hh)
          h.Inputs s [] r1 hr1
        cases he : r1.2.2 with
        | some err =>
          simp only [he, Outcome.ret.injEq] at hr
          subst hr
          exact ⟨e1, fun e => by simp at e⟩
        | none =>
          simp only [he] at hr
          obtain ⟨out, _, hr⟩ := Outcome.bind_eq_ret hr
          obtain ⟨s', hs', hr⟩ := Outcome.bind_eq_ret hr
          simp only [Outcome.ret.injEq] at hr
          subst hr
          obtain ⟨e2, hw⟩ := setHintOutputs_spec h.Wires 0 out.2.1 r1.1 s' hs'
          exact ⟨e1.trans e2, fun _ => Or.inr hw⟩

/-! ## Evaluation of linear expressions -/

/-- The value `⟨E, w⟩`: the field sum of `coeff(t) · w[wire(t)]` over the terms of `E`. -/
def evalLE {q : Nat} (L : TermLayout) (coefficients values : List (ZMod q))
    (l : LinearExpression) : ZMod q :=
  (l.map (termValue L coefficients values)).sum

/-- Every term of the expression has a solved wire. -/
def WiresSolved {q : Nat} (L : TermLayout) (s : solution q) (l : LinearExpression) : Prop :=
  ∀ t ∈ l, s.solved[L.WireID t]? = some true

theorem accumulateInto_spec {q : Nat} (L : TermLayout) (s : solution q) (t : Term)
    (r r' : ZMod q) (h : s.accumulateInto L t r = .ret r') :
    r' = r + termValue L s.coefficients s.values t := by
  unfold solution.accumulateInto at h
  unfold termValue coeffOf
  simp only [CoeffIdZero, CoeffIdOne, CoeffIdTwo, CoeffIdMinusOne] at h ⊢
  by_cases h0 : L.CoeffID t = 0
  · simp only [h0, if_true, Outcome.ret.injEq] at h
    simp [h0, h]
  · simp only [h0, if_false] at h ⊢
    have key : ∀ (f : ZMod q → Outcome (ZMod q)),
        (idx s.values (L.WireID t)).bind f = .ret r' →
        ∃ v, s.values.getD (L.WireID t) 0 = v ∧ f v = .ret r' := by
      intro f hf
      obtain ⟨v, hv, hf⟩ := Outcome.bind_eq_ret hf
      rw [idx_eq_ret] at hv
      refine ⟨v, ?_, hf⟩
      rw [List.getD_eq_getElem?_getD, hv]
      rfl
    by_cases h1 : L.CoeffID t = 1
    · simp only [h1, if_true] at h ⊢
      obtain ⟨v, hv, h⟩ := key _ h
      simp only [Outcome.ret.injEq] at h
      rw [hv, ← h]; ring
    · by_cases h2 : L.CoeffID t = 2
      · simp only [h2, if_true] at h ⊢
        obtain ⟨v, hv, h⟩ := key _ h
        simp only [Outcome.ret.injEq] at h
        rw [hv, ← h]; simp; ring
      · by_cases h3 : L.CoeffID t = 3
        · simp only [h3, if_true] at h ⊢
          obtain ⟨v, hv, h⟩ := key _ h
          simp only [Outcome.ret.injEq] at h
          rw [hv, ← h]; simp; ring
        · simp only [h1, h2, h3, if_false] at h ⊢
          obtain ⟨v, hv, h⟩ := key _ h
          rw [hv]
          have keyc : ∀ (f : ZMod q → Outcome (ZMod q)),
              (idx s.coefficients (L.CoeffID t)).bind f = .ret r' →
              ∃ c, s.coefficients.getD (L.CoeffID t) 0 = c ∧ f c = .ret r' := by
            intro f hf
            obtain ⟨c, hc, hf⟩ := Outcome.bind_eq_ret hf
            rw [idx_eq_ret] at hc
            refine ⟨c, ?_, hf⟩
            rw [List.getD_eq_getElem?_getD, hc]
            rfl
          by_cases hz : v = 0
          · simp only [hz, if_true, Outcome.ret.injEq] at h
            rw [hz, ← h]; ring
          · by_cases ho : v = 1
            · have hz' : ¬ ((1 : ZMod q) = 0) := by rw [← ho]; exact hz
              simp only [ho, hz', if_false, if_true] at h
              obtain ⟨c, hc, h⟩ := keyc _ h
              simp only [Outcome.ret.injEq] at h
              rw [hc, ho, ← h]; ring
            · simp only [hz, ho, if_false] at h
              obtain ⟨c, hc, h⟩ := keyc _ h
              simp only [Outcome.ret.injEq] at h
              rw [hc, ← h]

theorem termValue_extends {q : Nat} (L : TermLayout) {s s' : solution q} (e : s.Extends s')
    (t : Term) (ht : s.solved[L.WireID t]? = some true) :
    termValue L s'.coefficients s'.values t = termValue L s.coefficients s.values t := by
  unfold termValue
  rw [e.coefficients, List.getD_eq_getElem?_getD, List.getD_eq_getElem?_getD,
    (e.frozen _ ht).2]

theorem WiresSolved.extends {q : Nat} {L : TermLayout} {s s' : solution q}
    {l : LinearExpression} (h : WiresSolved L s l) (e : s.Extends s') : WiresSolved L s' l :=
  fun t ht => (e.frozen _ (h t ht)).1

theorem evalLE_extends {q : Nat} (L : TermLayout) {s s' : solution q} (e : s.Extends s')
    (l : LinearExpression) (h : WiresSolved L s l) :
    evalLE L s'.coefficients s'.values l = evalLE L s.coefficients s.values l := by
  unfold evalLE
  congr 1
  exact List.map_congr_left (fun t ht => termValue_extends L e t (h t ht))

theorem evalLE_cons {q : Nat} (L : TermLayout) (co va : List (ZMod q)) (t : Term)
    (l : LinearExpression) : evalLE L co va (t :: l) = termValue L co va t + evalLE L co va l := by
  simp [evalLE]

theorem evalLE_insert {q : Nat} (L : TermLayout) (co va : List (ZMod q)) (t : Term)
    (l1 l2 : LinearExpression) :
    evalLE L co va (l1 ++ t :: l2) = evalLE L co va (l1 ++ l2) + termValue L co va t := by
  simp only [evalLE, List.map_append, List.map_cons, List.sum_append, List.sum_cons]
  ring

/-! ## One constraint -/

/-- Every key of the hint map is one of the output wires of its descriptor. -/
def HintsWF (mHints : List (Int × Hint)) : Prop :=
  ∀ e ∈ mHints, e.1 ∈ e.2.Wires

instance (mHints : List (Int × Hint)) : Decidable (HintsWF mHints) :=
  inferInstanceAs (Decidable (∀ e ∈ mHints, e.1 ∈ e.2.Wires))

theorem mem_of_lookup {β : Type} (l : List (Int × β)) (k : Int) (b : β)
    (h : l.lookup k = some b) : (k, b) ∈ l := by
  induction l with
  | nil => simp at h
  | cons e l ih =>
    obtain ⟨k0, b0⟩ := e
    rw [List.lookup_cons] at h
    by_cases hk : k = k0
    · subst hk
      simp only [beq_self_eq_true, Option.some.injEq] at h
      subst h
      exact List.mem_cons_self _ _
    · have hb : (k == k0) = false := by simpa using hk
      rw [hb] at h
      exact List.mem_cons_of_mem _ (ih h)

/-- What a call of `processLExp` on `l` guarantees when it returns without error: either
no unknown was met, all wires of `l` are solved and `val` grew by `⟨l, w⟩`; or `loc` was
`0`, one term of `l` became `termToCompute`, the wires of the other terms are solved and
`val` grew by their value. -/
def LExpPost {q : Nat} (L : TermLayout) (locValue : Nat) (l : LinearExpression)
    (val : ZMod q) (loc : Nat) (termToCompute : Term) (p : LExpState q) : Prop :=
  (p.loc = loc ∧ p.termToCompute = termToCompute ∧ WiresSolved L p.s l ∧
      p.val = val + evalLE L p.s.coefficients p.s.values l)
    ∨ (loc = 0 ∧ p.loc = locValue ∧ ∃ l1 l2, l = l1 ++ p.termToCompute :: l2 ∧
        WiresSolved L p.s (l1 ++ l2) ∧
        p.val = val + evalLE L p.s.coefficients p.s.values (l1 ++ l2))

theorem LExpPost.cons {q : Nat} {L : TermLayout} {locValue : Nat} {l : LinearExpression}
    {val val' : ZMod q} {loc : Nat} {ttc : Term} {p : LExpState q} {s : solution q} {t : Term}
    (e : s.Extends p.s) (ht : s.solved[L.WireID t]? = some true)
    (hval : val' = val + termValue L s.coefficients s.values t)
    (h : LExpPost L locValue l val' loc ttc p) : LExpPost L locValue (t :: l) val loc ttc p := by
  have htv := termValue_extends L e t ht
  have hts : p.s.solved[L.WireID t]? = some true := (e.frozen _ ht).1
  rcases h with ⟨h1, h2, h3, h4⟩ | ⟨h1, h2, l1, l2, h3, h4, h5⟩
  · refine Or.inl ⟨h1, h2, ?_, ?_⟩
    · intro u hu
      rcases List.mem_cons.mp hu with rfl | hu
      · exact hts
      · exact h3 u hu
    · rw [h4, evalLE_cons, htv, hval]; ring
  · refine Or.inr ⟨h1, h2, t :: l1, l2, by rw [h3]; rfl, ?_, ?_⟩
    · intro u hu
      rcases List.mem_cons.mp hu with rfl | hu
      · exact hts
      · exact h4 u hu
    · rw [h5, List.cons_append, evalLE_cons, htv, hval]; ring

theorem processLExp_spec {q : Nat} (L : TermLayout) (fuel : Nat) (cs : R1CS q)
    (locValue : Nat) (hlv : locValue ≠ 0) (l : LinearExpression) (s : solution q)
    (val : ZMod q) (loc : Nat) (ttc : Term) (p : LExpState q)
    (hp : processLExp L fuel cs locValue l s val loc ttc = .ret p) :
    s.Extends p.s ∧ (p.loc = loc ∨ (loc = 0 ∧ p.loc = locValue)) ∧
      (HintsWF cs.MHints → p.err = none → LExpPost L locValue l val loc ttc p) := by
  induction l generalizing s val loc ttc with
  | nil =>
    simp only [processLExp, Outcome.ret.injEq] at hp
    subst hp
    refine ⟨solution.Extends.refl s, Or.inl rfl, fun _ _ => Or.inl ⟨rfl, rfl, ?_, ?_⟩⟩
    · intro t ht; simp at ht
    · simp [evalLE]
  | cons t l ih =>
    simp only [processLExp] at hp
    obtain ⟨b, hb, hp⟩ := Outcome.bind_eq_ret hp
    rw [idx_eq_ret] at hb
    cases b with
    | true =>
      simp only [if_true] at hp
      obtain ⟨val', hval', hp⟩ := Outcome.bind_eq_ret hp
      obtain ⟨e, hloc, hpost⟩ := ih s val' loc ttc hp
      exact ⟨e, hloc, fun hwf herr =>
        LExpPost.cons e hb (accumulateInto_spec L s t val val' hval') (hpost hwf herr)⟩
    | false =>
      simp only [Bool.false_eq_true, if_false] at hp
      cases hl : cs.MHints.lookup (L.WireID t : Int) with
      | some hint =>
        simp only [hl] at hp
        obtain ⟨r, hr, hp⟩ := Outcome.bind_eq_ret hp
        obtain ⟨e1, hsolved⟩ := solveWithHint_spec L fuel s (L.WireID t) hint r hr
        cases he : r.2 with
        | some err =>
          simp only [he, Outcome.ret.injEq] at hp
          subst hp
          exact ⟨e1, Or.inl rfl, fun _ herr => by simp at herr⟩
        | none =>
          simp only [he] at hp
          obtain ⟨val', hval', hp⟩ := Outcome.bind_eq_ret hp
          obtain ⟨e2, hloc, hpost⟩ := ih r.1 val' loc ttc hp
          refine ⟨e1.trans e2, hloc, fun hwf herr => ?_⟩
          have hts : r.1.solved[L.WireID t]? = some true := by
            rcases hsolved he with h | h
            · rw [hb] at h; simp at h
            · have := (h _ (hwf _ (mem_of_lookup _ _ _ hl))).2
              simpa using this
          exact LExpPost.cons e2 hts (accumulateInto_spec L r.1 t val val' hval')
            (by
              have := hpost hwf herr
              rcases this with ⟨h1, h2, h3, h4⟩ | ⟨h1, h2, l1, l2, h3, h4, h5⟩
              · exact Or.inl ⟨h1, h2, h3, h4⟩
              · exact Or.inr ⟨h1, h2, l1, l2, h3, h4, h5⟩)
      | none =>
        simp only [hl] at hp
        by_cases hloc0 : loc = 0
        · subst hloc0
          simp only [ne_eq, not_true_eq_false, if_false] at hp
          obtain ⟨e, hloc, hpost⟩ := ih s val locValue t hp
          have hpl : p.loc = locValue := by
            rcases hloc with h | ⟨h, _⟩
            · exact h
            · exact absurd h hlv
          refine ⟨e, Or.inr ⟨rfl, hpl⟩, fun hwf herr => ?_⟩
          rcases hpost hwf herr with ⟨h1, h2, h3, h4⟩ | ⟨h1, _⟩
          · refine Or.inr ⟨rfl, h1, [], l, by rw [h2]; rfl, ?_, ?_⟩
            · simpa using h3
            · simpa using h4
          · exact absurd h1 hlv
        · simp [hloc0] at hp

/-- The pool entries that `divByCoeff` can divide by are invertible and entry `TWO`
holds `2`: the coefficient removed by `divByCoeff` is the one `computeTerm` applies. -/
def PoolOK {q : Nat} (coefficients : List (ZMod q)) : Prop :=
  ∀ cID < coefficients.length, cID ≠ CoeffIdZero → cID ≠ CoeffIdOne →
    cID ≠ CoeffIdMinusOne →
    coefficients.getD cID 0 ≠ 0 ∧ (cID = CoeffIdTwo → coefficients.getD cID 0 = 2)

set_option synthInstance.maxSize 1024 in
instance {q : Nat} (coefficients : List (ZMod q)) : Decidable (PoolOK coefficients) :=
  inferInstanceAs (Decidable (∀ cID < coefficients.length, cID ≠ CoeffIdZero →
    cID ≠ CoeffIdOne → cID ≠ CoeffIdMinusOne →
    coefficients.getD cID 0 ≠ 0 ∧ (cID = CoeffIdTwo → coefficients.getD cID 0 = 2)))

theorem frInv_eq_inv {q : Nat} [Fact q.Prime] (x : ZMod q) : frInv x = x⁻¹ := by
  unfold frInv
  by_cases hx : x = 0
  · simp [hx]
  · rw [if_neg hx]
    have hq : 2 ≤ q := (Fact.out : q.Prime).two_le
    have h1 : x ^ (q - 1) = 1 := ZMod.pow_card_sub_one_eq_one hx
    have h2 : x * x ^ (q - 2) = 1 := by
      rw [← pow_succ']
      have : q - 2 + 1 = q - 1 := by omega
      rw [this, h1]
    exact (eq_inv_of_mul_eq_one_right h2)

theorem divByCoeff_zero {q : Nat} (L : TermLayout) (cs : R1CS q) (t : Term) (w : ZMod q)
    (h : cs.divByCoeff L 0 t = .ret w) : w = 0 := by
  unfold R1CS.divByCoeff at h
  simp only [CoeffIdZero, CoeffIdOne, CoeffIdMinusOne] at h
  by_cases h1 : L.CoeffID t = 1
  · simp only [h1, if_true, Outcome.ret.injEq] at h; exact h.symm
  · by_cases h3 : L.CoeffID t = 3
    · simp [h3] at h; exact h.symm
    · by_cases h0 : L.CoeffID t = 0
      · simp [h0] at h
      · simp only [h1, h3, h0, if_false] at h
        obtain ⟨c, _, h⟩ := Outcome.bind_eq_ret h
        simp only [zero_mul, Outcome.ret.injEq] at h
        exact h.symm

theorem divByCoeff_spec {q : Nat} [Fact q.Prime] (L : TermLayout) (cs : R1CS q)
    (hpool : PoolOK cs.Coefficients) (t : Term) (wire w : ZMod q)
    (h : cs.divByCoeff L wire t = .ret w) :
    coeffOf cs.Coefficients (L.CoeffID t) * w = wire := by
  unfold R1CS.divByCoeff at h
  simp only [frInv_eq_inv] at h
  unfold coeffOf
  unfold PoolOK at hpool
  simp only [CoeffIdZero, CoeffIdOne, CoeffIdTwo, CoeffIdMinusOne] at h hpool ⊢
  by_cases h1 : L.CoeffID t = 1
  · simp only [h1, if_true, Outcome.ret.injEq] at h
    simp [h1, h]
  · by_cases h3 : L.CoeffID t = 3
    · simp [h3] at h
      simp [h3, ← h]
    · by_cases h0 : L.CoeffID t = 0
      · simp [h0] at h
      · simp only [h1, h3, h0, if_false] at h
        obtain ⟨c, hc, h⟩ := Outcome.bind_eq_ret h
        rw [idx_eq_ret] at hc
        simp only [Outcome.ret.injEq] at h
        have hgetD : cs.Coefficients.getD (L.CoeffID t) 0 = c := by
          rw [List.getD_eq_getElem?_getD, hc]; rfl
        have hlt : L.CoeffID t < cs.Coefficients.length := by
          by_contra hcon
          rw [List.getElem?_eq_none (by omega)] at hc
          exact Option.noConfusion hc
        obtain ⟨hc0, hc2⟩ := hpool _ hlt h0 h1 h3
        rw [hgetD] at hc0 hc2
        simp only [h0, h1, h3, if_false, hgetD]
        by_cases h2 : L.CoeffID t = 2
        · simp only [h2, if_true]
          rw [← h, ← hc2 h2, mul_comm wire, ← mul_assoc, mul_inv_cancel₀ hc0, one_mul]
        · simp only [h2, if_false]
          rw [← h, mul_comm wire, ← mul_assoc, mul_inv_cancel₀ hc0, one_mul]

theorem instantiate_spec {q : Nat} (L : TermLayout) (cs : R1CS q) (s : solution q) (ttc : Term)
    (a b c wire : ZMod q) (res : ConstraintResult q)
    (h : cs.instantiate L s ttc a b c wire = .ret res) :
    res.a = a ∧ res.b = b ∧ res.c = c ∧ res.err = none ∧
      ∃ w, cs.divByCoeff L wire ttc = .ret w ∧ s.set (L.WireID ttc : Int) w = .ret res.s := by
  unfold R1CS.instantiate at h
  obtain ⟨w, hw, h⟩ := Outcome.bind_eq_ret h
  obtain ⟨s', hs', h⟩ := Outcome.bind_eq_ret h
  simp only [Outcome.ret.injEq] at h
  subst h
  exact ⟨rfl, rfl, rfl, rfl, w, hw, hs'⟩

theorem solveUnknown_extends {q : Nat} (L : TermLayout) (cs : R1CS q) (s : solution q)
    (loc : Nat) (ttc : Term) (a b c : ZMod q) (res : ConstraintResult q)
    (h : cs.solveUnknown L s loc ttc a b c = .ret res) : s.Extends res.s := by
  have hi : ∀ a b c wire, cs.instantiate L s ttc a b c wire = .ret res → s.Extends res.s := by
    intro a b c wire hh
    obtain ⟨_, _, _, _, w, _, hset⟩ := instantiate_spec L cs s ttc a b c wire res hh
    exact (solution.set_spec hset).1
  have hr : ∀ e, Outcome.ret (ConstraintResult.mk s a b c e) = .ret res → s.Extends res.s := by
    intro e hh
    simp only [Outcome.ret.injEq] at hh
    subst hh
    exact solution.Extends.refl s
  unfold R1CS.solveUnknown at h
  simp only at h
  split_ifs at h
  all_goals first | exact hr _ h | exact hi _ _ _ _ h

/-- The outcome of `solveUnknown` without error: the check `a · b == c` holds for the
returned values; either there was no unknown and nothing changed, or the returned
solution results from `set` of `divByCoeff(wire)` on the unknown wire, where `wire` was
added to the side on which the unknown was found. -/
theorem solveUnknown_spec {q : Nat} [Fact q.Prime] (L : TermLayout) (cs : R1CS q)
    (s : solution q) (loc : Nat) (hloc : loc ≤ 3) (ttc : Term) (a b c : ZMod q)
    (res : ConstraintResult q) (h : cs.solveUnknown L s loc ttc a b c = .ret res)
    (herr : res.err = none) :
    res.a * res.b = res.c ∧
      ((loc = 0 ∧ res.s = s ∧ res.a = a ∧ res.b = b ∧ res.c = c) ∨
        (loc ≠ 0 ∧ ∃ wire w, cs.divByCoeff L wire ttc = .ret w ∧
          s.set (L.WireID ttc : Int) w = .ret res.s ∧
          res.a = (if loc = 1 then a + wire else a) ∧
          res.b = (if loc = 2 then b + wire else b) ∧
          res.c = (if loc = 3 then c + wire else c))) := by
  unfold R1CS.solveUnknown at h
  simp only [frInv_eq_inv] at h
  by_cases h0 : loc = 0
  · simp only [h0, if_true] at h
    by_cases hab : a * b = c
    · simp only [hab, if_true, Outcome.ret.injEq] at h
      subst h
      exact ⟨hab, Or.inl ⟨h0, rfl, rfl, rfl, rfl⟩⟩
    · simp only [hab, if_false, Outcome.ret.injEq] at h
      subst h
      simp at herr
  · simp only [h0, if_false] at h
    by_cases h1 : loc = 1
    · simp only [h1, if_true] at h
      by_cases hb : b = 0
      · simp only [hb, ne_eq, not_true_eq_false, if_false] at h
        by_cases hab : a * 0 = c
        · simp only [hab, if_true] at h
          obtain ⟨ha, hb', hc, _, w, hw, hset⟩ := instantiate_spec L cs s ttc a 0 c 0 res h
          refine ⟨by rw [ha, hb', hc]; exact hab, Or.inr ⟨h0, 0, w, hw, hset, ?_, ?_, ?_⟩⟩
          · simp [h1, ha]
          · simp [h1, hb', hb]
          · simp [h1, hc]
        · simp only [hab, if_false, Outcome.ret.injEq] at h
          subst h
          simp at herr
      · simp only [hb, ne_eq, not_false_eq_true, if_true] at h
        obtain ⟨ha, hb', hc, _, w, hw, hset⟩ := instantiate_spec L cs s ttc _ b c _ res h
        refine ⟨?_, Or.inr ⟨h0, c * b⁻¹ - a, w, hw, hset, ?_, ?_, ?_⟩⟩
        · rw [ha, hb', hc]
          field_simp
          ring
        · simp [h1, ha]
        · simp [h1, hb']
        · simp [h1, hc]
    · simp only [h1, if_false] at h
      by_cases h2 : loc = 2
      · simp only [h2, if_true] at h
        by_cases ha0 : a = 0
        · simp only [ha0, ne_eq, not_true_eq_false, if_false] at h
          by_cases hab : 0 * b = c
          · simp only [hab, if_true] at h
            obtain ⟨ha, hb', hc, _, w, hw, hset⟩ := instantiate_spec L cs s ttc 0 b c 0 res h
            refine ⟨by rw [ha, hb', hc]; exact hab, Or.inr ⟨h0, 0, w, hw, hset, ?_, ?_, ?_⟩⟩
            · simp [h2, ha, ha0]
            · simp [h2, hb']
            · simp [h2, hc]
          · simp only [hab, if_false, Outcome.ret.injEq] at h
            subst h
            simp at herr
        · simp only [ha0, ne_eq, not_false_eq_true, if_true] at h
          obtain ⟨ha, hb', hc, _, w, hw, hset⟩ := instantiate_spec L cs s ttc a _ c _ res h
          refine ⟨?_, Or.inr ⟨h0, c * a⁻¹ - b, w, hw, hset, ?_, ?_, ?_⟩⟩
          · rw [ha, hb', hc]
            field_simp
            ring
          · simp [h2, ha]
          · simp [h2, hb']
          · simp [h2, hc]
      · simp only [h2, if_false] at h
        have h3 : loc = 3 := by omega
        simp only [h3, if_true] at h
        obtain ⟨ha, hb', hc, _, w, hw, hset⟩ := instantiate_spec L cs s ttc a b _ _ res h
        refine ⟨?_, Or.inr ⟨h0, a * b - c, w, hw, hset, ?_, ?_, ?_⟩⟩
        · rw [ha, hb', hc]; ring
        · simp [h3, ha]
        · simp [h3, hb']
        · simp [h3, hc]

theorem solveConstraint_extends {q : Nat} (L : TermLayout) (fuel : Nat) (cs : R1CS q) (r : R1C)
    (s : solution q) (a b c : ZMod q) (res : ConstraintResult q)
    (h : cs.solveConstraint L fuel r s a b c = .ret res) : s.Extends res.s := by
  unfold R1CS.solveConstraint at h
  obtain ⟨p1, hp1, h⟩ := Outcome.bind_eq_ret h
  have e1 := (processLExp_spec L fuel cs 1 (by decide) r.L s a 0 0 p1 hp1).1
  cases he1 : p1.err with
  | some err =>
    simp only [he1, Outcome.ret.injEq] at h
    subst h
    exact e1
  | none =>
    simp only [he1] at h
    obtain ⟨p2, hp2, h⟩ := Outcome.bind_eq_ret h
    have e2 := (processLExp_spec L fuel cs 2 (by decide) r.R p1.s b p1.loc p1.termToCompute
      p2 hp2).1
    cases he2 : p2.err with
    | some err =>
      simp only [he2, Outcome.ret.injEq] at h
      subst h
      exact e1.trans e2
    | none =>
      simp only [he2] at h
      obtain ⟨p3, hp3, h⟩ := Outcome.bind_eq_ret h
      have e3 := (processLExp_spec L fuel cs 3 (by decide) r.O p2.s c p2.loc p2.termToCompute
        p3 hp3).1
      cases he3 : p3.err with
      | some err =>
        simp only [he3, Outcome.ret.injEq] at h
        subst h
        exact (e1.trans e2).trans e3
      | none =>
        simp only [he3] at h
        exact ((e1.trans e2).trans e3).trans (solveUnknown_extends L cs _ _ _ _ _ _ res h)

theorem LExpPost.keep {q : Nat} {L : TermLayout} {k : Nat} {l : LinearExpression}
    {val : ZMod q} {loc : Nat} {ttc : Term} {p : LExpState q}
    (post : LExpPost L k l val loc ttc p) (hloc : loc ≠ 0) :
    p.loc = loc ∧ p.termToCompute = ttc := by
  rcases post with ⟨h1, h2, _, _⟩ | ⟨h1, _⟩
  · exact ⟨h1, h2⟩
  · exact absurd h1 hloc

theorem LExpPost.finish {q : Nat} {L : TermLayout} {k : Nat} {l : LinearExpression}
    {val : ZMod q} {loc : Nat} {ttc : Term} {p : LExpState q}
    (post : LExpPost L k l val loc ttc p) (hk : loc ≠ k) {s' : solution q}
    (e : p.s.Extends s') (locF : Nat) (ttcF : Term) (wire x' : ZMod q)
    (hF : (locF = k ↔ p.loc = k) ∧ (p.loc = k → ttcF = p.termToCompute))
    (hwire : locF ≠ 0 → s'.solved[L.WireID ttcF]? = some true ∧
      termValue L s'.coefficients s'.values ttcF = wire)
    (hk0 : k ≠ 0) (hx : x' = if locF = k then p.val + wire else p.val) :
    WiresSolved L s' l ∧ x' = val + evalLE L s'.coefficients s'.values l := by
  rcases post with ⟨h1, _, h3, h4⟩ | ⟨_, h2, l1, l2, h3, h4, h5⟩
  · have hne : ¬ (locF = k) := by
      intro hc
      have := hF.1.mp hc
      rw [h1] at this
      exact hk this
    refine ⟨h3.extends e, ?_⟩
    rw [hx, if_neg hne, h4, evalLE_extends L e l h3]
  · have hlk : locF = k := hF.1.mpr h2
    have ht : ttcF = p.termToCompute := hF.2 h2
    have hw := hwire (by rw [hlk]; exact hk0)
    rw [ht] at hw
    refine ⟨?_, ?_⟩
    · intro t htm
      rw [h3] at htm
      rcases List.mem_append.mp htm with hm | hm
      · exact (h4.extends e) t (List.mem_append.mpr (Or.inl hm))
      · rcases List.mem_cons.mp hm with rfl | hm
        · exact hw.1
        · exact (h4.extends e) t (List.mem_append.mpr (Or.inr hm))
    · rw [hx, if_pos hlk, h5, h3, evalLE_insert, evalLE_extends L e _ h4, hw.2]
      ring

/-- What a call of `solveConstraint` guarantees when it returns: the solution is extended;
without error `a · b = c` holds for the values left in `*a`, `*b`, `*c`; and, when every
hint key is an output of its descriptor and `divByCoeff` removes the coefficient that
`computeTerm` applies, all wires of the constraint are solved and `*a`, `*b`, `*c` grew by
`⟨L, w⟩`, `⟨R, w⟩`, `⟨O, w⟩`. -/
theorem solveConstraint_spec {q : Nat} [Fact q.Prime] (L : TermLayout) (fuel : Nat)
    (cs : R1CS q) (r : R1C) (s : solution q) (a b c : ZMod q) (res : ConstraintResult q)
    (h : cs.solveConstraint L fuel r s a b c = .ret res) (herr : res.err = none) :
    res.a * res.b = res.c ∧
      (HintsWF cs.MHints → PoolOK cs.Coefficients → s.coefficients = cs.Coefficients →
        (WiresSolved L res.s r.L ∧ res.a = a + evalLE L res.s.coefficients res.s.values r.L) ∧
        (WiresSolved L res.s r.R ∧ res.b = b + evalLE L res.s.coefficients res.s.values r.R) ∧
        (WiresSolved L res.s r.O ∧
          res.c = c + evalLE L res.s.coefficients res.s.values r.O)) := by
  unfold R1CS.solveConstraint at h
  obtain ⟨p1, hp1, h⟩ := Outcome.bind_eq_ret h
  obtain ⟨e1, hl1, post1⟩ := processLExp_spec L fuel cs 1 (by decide) r.L s a 0 0 p1 hp1
  cases he1 : p1.err with
  | some err =>
    simp only [he1, Outcome.ret.injEq] at h
    subst h
    simp at herr
  | none =>
    simp only [he1] at h
    obtain ⟨p2, hp2, h⟩ := Outcome.bind_eq_ret h
    obtain ⟨e2, hl2, post2⟩ := processLExp_spec L fuel cs 2 (by decide) r.R p1.s b p1.loc
      p1.termToCompute p2 hp2
    cases he2 : p2.err with
    | some err =>
      simp only [he2, Outcome.ret.injEq] at h
      subst h
      simp at herr
    | none =>
      simp only [he2] at h
      obtain ⟨p3, hp3, h⟩ := Outcome.bind_eq_ret h
      obtain ⟨e3, hl3, post3⟩ := processLExp_spec L fuel cs 3 (by decide) r.O p2.s c p2.loc
        p2.termToCompute p3 hp3
      cases he3 : p3.err with
      | some err =>
        simp only [he3, Outcome.ret.injEq] at h
        subst h
        simp at herr
      | none =>
        simp only [he3] at h
        have hloc3 : p3.loc ≤ 3 := by omega
        obtain ⟨hsat, hfin⟩ := solveUnknown_spec L cs p3.s p3.loc hloc3 p3.termToCompute
          p1.val p2.val p3.val res h herr
        refine ⟨hsat, fun hwf hpool hco => ?_⟩
        have post1 := post1 hwf he1
        have post2 := post2 hwf he2
        have post3 := post3 hwf he3
        have e4 := solveUnknown_extends L cs _ _ _ _ _ _ res h
        have hF1 : (p3.loc = 1 ↔ p1.loc = 1) ∧ (p1.loc = 1 → p3.termToCompute = p1.termToCompute) := by
          constructor
          · omega
          · intro h1
            have k2 := post2.keep (by omega)
            have k3 := post3.keep (by omega)
            rw [k3.2, k2.2]
        have hF2 : (p3.loc = 2 ↔ p2.loc = 2) ∧ (p2.loc = 2 → p3.termToCompute = p2.termToCompute) := by
          constructor
          · omega
          · intro h2
            exact (post3.keep (by omega)).2
        have hF3 : (p3.loc = 3 ↔ p3.loc = 3) ∧ (p3.loc = 3 → p3.termToCompute = p3.termToCompute) :=
          ⟨Iff.rfl, fun _ => rfl⟩
        have hco3 : res.s.coefficients = cs.Coefficients := by
          rw [e4.coefficients, e3.coefficients, e2.coefficients, e1.coefficients, hco]
        rcases hfin with ⟨h0, hs, ha, hb, hc⟩ | ⟨h0, wire, w, hw, hset, ha, hb, hc⟩
        · have hwire : p3.loc ≠ 0 → res.s.solved[L.WireID p3.termToCompute]? = some true ∧
              termValue L res.s.coefficients res.s.values p3.termToCompute = 0 :=
            fun hne => absurd h0 hne
          exact ⟨post1.finish (by decide) ((e2.trans e3).trans e4) p3.loc p3.termToCompute 0 res.a
              hF1 hwire (by decide) (by rw [ha]; simp),
            post2.finish (by omega) (e3.trans e4) p3.loc p3.termToCompute 0 res.b hF2 hwire
              (by decide) (by rw [hb]; simp),
            post3.finish (by omega) e4 p3.loc p3.termToCompute 0 res.c hF3 hwire (by decide)
              (by rw [hc]; simp)⟩
        · obtain ⟨_, _, _, hsol, hval⟩ := solution.set_spec hset
          have htv : termValue L res.s.coefficients res.s.values p3.termToCompute = wire := by
            unfold termValue
            rw [List.getD_eq_getElem?_getD]
            simp only [Int.toNat_ofNat] at hval
            rw [hval, hco3]
            exact divByCoeff_spec L cs hpool p3.termToCompute wire w hw
          have hwire : p3.loc ≠ 0 → res.s.solved[L.WireID p3.termToCompute]? = some true ∧
              termValue L res.s.coefficients res.s.values p3.termToCompute = wire :=
            fun _ => ⟨by simpa using hsol, htv⟩
          exact ⟨post1.finish (by decide) ((e2.trans e3).trans e4) p3.loc p3.termToCompute wire
              res.a hF1 hwire (by decide) ha,
            post2.finish (by omega) (e3.trans e4) p3.loc p3.termToCompute wire res.b hF2 hwire
              (by decide) hb,
            post3.finish (by omega) e4 p3.loc p3.termToCompute wire res.c hF3 hwire (by decide)
              hc⟩

/-! ## Levels: a successful level-by-level solve is a sequential run -/

theorem solveTask_append {q : Nat} (L : TermLayout) (fuel : Nat) (cs : R1CS q)
    (l1 l2 : List Int) (st st1 st2 : SolveState q)
    (h1 : cs.solveTask L fuel l1 st = .ret (st1, none))
    (h2 : cs.solveTask L fuel l2 st1 = .ret (st2, none)) :
    cs.solveTask L fuel (l1 ++ l2) st = .ret (st2, none) := by
  induction l1 generalizing st with
  | nil =>
    simp only [R1CS.solveTask, Outcome.ret.injEq, Prod.mk.injEq, and_true] at h1
    subst h1
    exact h2
  | cons i l1 ih =>
    simp only [R1CS.solveTask, List.cons_append] at h1 ⊢
    obtain ⟨r, hr, h1⟩ := Outcome.bind_eq_ret h1
    rw [hr]
    simp only [Outcome.bind_ret]
    cases he : r.2 with
    | some err => simp [he] at h1
    | none =>
      simp only [he] at h1 ⊢
      exact ih r.1 h1

theorem sliceRange_eq {level task : List Int} {a b : Nat}
    (h : sliceRange level a b = .ret task) :
    a ≤ b ∧ b ≤ level.length ∧ task = (level.drop a).take (b - a) := by
  unfold sliceRange at h
  by_cases hc : a ≤ b ∧ b ≤ level.length
  · rw [if_pos hc] at h
    simp only [Outcome.ret.injEq] at h
    exact ⟨hc.1, hc.2, h.symm⟩
  · rw [if_neg hc] at h
    exact Outcome.noConfusion h

theorem dispatchLoop_success {q : Nat} (L : TermLayout) (fuel : Nat) (cs : R1CS q)
    (level : List Int) (per n i : Nat) (extra : Int) (off : Nat) (st st' : SolveState q)
    (errs : List Err) (hextra : 0 ≤ extra)
    (h : cs.dispatchLoop L fuel level per n i extra off st errs = .ret (st', [])) :
    errs = [] ∧
      cs.solveTask L fuel ((level.drop (i * per + off)).take (n * per + min n extra.toNat)) st
        = .ret (st', none) := by
  induction n generalizing i extra off st errs with
  | zero =>
    simp only [R1CS.dispatchLoop, Outcome.ret.injEq, Prod.mk.injEq] at h
    obtain ⟨rfl, rfl⟩ := h
    simp [R1CS.solveTask]
  | succ n ih =>
    have hsi : (i + 1) * per = i * per + per := Nat.succ_mul i per
    have hsn : (n + 1) * per = n * per + per := Nat.succ_mul n per
    by_cases hpos : extra > 0
    · simp only [R1CS.dispatchLoop, hpos, if_true] at h
      obtain ⟨task, htask, h⟩ := Outcome.bind_eq_ret h
      obtain ⟨r, hr, h⟩ := Outcome.bind_eq_ret h
      obtain ⟨_, _, htask⟩ := sliceRange_eq htask
      obtain ⟨herrs, hrest⟩ := ih (i + 1) (extra - 1) (off + 1) r.1 (errs ++ r.2.toList)
        (by omega) h
      have hr2 : r.2 = none := by
        cases hh : r.2 with
        | none => rfl
        | some e => rw [hh] at herrs; simp at herrs
      have he : errs = [] := by
        rw [hr2] at herrs; simpa using herrs
      refine ⟨he, ?_⟩
      have hr' : cs.solveTask L fuel task st = .ret (r.1, none) := by
        rw [hr, ← hr2]
      have hlen : (n + 1) * per + min (n + 1) extra.toNat
          = (per + 1) + (n * per + min n (extra - 1).toNat) := by omega
      rw [hlen, List.take_add]
      apply solveTask_append L fuel cs _ _ st r.1 st'
      · have : i * per + off + per + 1 - (i * per + off) = per + 1 := by omega
        rw [this] at htask
        rw [← htask]
        exact hr'
      · rw [List.drop_drop]
        have : i * per + off + (per + 1) = (i + 1) * per + (off + 1) := by omega
        rw [this]
        exact hrest
    · simp only [R1CS.dispatchLoop, hpos, if_false] at h
      obtain ⟨task, htask, h⟩ := Outcome.bind_eq_ret h
      obtain ⟨r, hr, h⟩ := Outcome.bind_eq_ret h
      obtain ⟨_, _, htask⟩ := sliceRange_eq htask
      obtain ⟨herrs, hrest⟩ := ih (i + 1) extra off r.1 (errs ++ r.2.toList) hextra h
      have hr2 : r.2 = none := by
        cases hh : r.2 with
        | none => rfl
        | some e => rw [hh] at herrs; simp at herrs
      have he : errs = [] := by
        rw [hr2] at herrs; simpa using herrs
      refine ⟨he, ?_⟩
      have hr' : cs.solveTask L fuel task st = .ret (r.1, none) := by
        rw [hr, ← hr2]
      have hlen : (n + 1) * per + min (n + 1) extra.toNat
          = per + (n * per + min n extra.toNat) := by omega
      rw [hlen, List.take_add]
      apply solveTask_append L fuel cs _ _ st r.1 st'
      · have : i * per + off + per - (i * per + off) = per := by omega
        rw [this] at htask
        rw [← htask]
        exact hr'
      · rw [List.drop_drop]
        have : i * per + off + per = (i + 1) * per + off := by omega
        rw [this]
        exact hrest

theorem dispatchLevel_success {q : Nat} (L : TermLayout) (fuel : Nat) (cs : R1CS q)
    (level : List Int) (nbTasks : Nat) (st st' : SolveState q)
    (h : cs.dispatchLevel L fuel level nbTasks st = .ret (st', [])) :
    cs.solveTask L fuel level st = .ret (st', none) := by
  unfold R1CS.dispatchLevel at h
  by_cases hnb : nbTasks = 0
  · rw [if_pos hnb] at h
    exact Outcome.noConfusion h
  · rw [if_neg hnb] at h
    simp only at h
    have hdm := Nat.div_add_mod level.length nbTasks
    have hml := Nat.mod_lt level.length (Nat.pos_of_ne_zero hnb)
    by_cases hper : level.length / nbTasks < 1
    · rw [if_pos hper] at h
      have hex : (level.length : Int) - ((level.length * 1 : Nat) : Int) = 0 := by
        simp
      rw [hex] at h
      obtain ⟨_, hs⟩ := dispatchLoop_success L fuel cs level 1 level.length 0 0 0 st st' []
        (by omega) h
      simp only [Nat.zero_mul, Nat.add_zero, List.drop_zero, Nat.mul_one, Int.toNat_zero,
        Nat.min_zero, List.take_length] at hs
      exact hs
    · rw [if_neg hper] at h
      generalize hd : level.length / nbTasks = d at h hdm
      generalize hm : level.length % nbTasks = m at hdm hml
      have hex : (level.length : Int) - ((nbTasks * d : Nat) : Int) = (m : Int) := by
        omega
      rw [hex] at h
      obtain ⟨_, hs⟩ := dispatchLoop_success L fuel cs level d nbTasks 0 m 0 st st' []
        (by omega) h
      have htot : nbTasks * d + min nbTasks (m : Int).toNat = level.length := by
        simp only [Int.toNat_ofNat]
        omega
      simp only [Nat.zero_mul, Nat.add_zero, List.drop_zero] at hs
      rw [htot, List.take_length] at hs
      exact hs

theorem levelsLoop_success {q : Nat} (L : TermLayout) (cpuCount fuel : Nat) (cs : R1CS q)
    (levels : List (List Int)) (st st' : SolveState q)
    (h : cs.levelsLoop L cpuCount fuel levels st = .ret (st', none)) :
    cs.solveTask L fuel levels.flatten st = .ret (st', none) := by
  induction levels generalizing st with
  | nil =>
    simp only [R1CS.levelsLoop, Outcome.ret.injEq, Prod.mk.injEq, and_true] at h
    subst h
    simp [R1CS.solveTask]
  | cons level rest ih =>
    rw [List.flatten_cons]
    by_cases hseq : level.length ≤ 50
    · simp only [R1CS.levelsLoop, hseq, if_true] at h
      obtain ⟨r, hr, h⟩ := Outcome.bind_eq_ret h
      cases he : r.2 with
      | some err => simp [he] at h
      | none =>
        simp only [he] at h
        exact solveTask_append L fuel cs _ _ st r.1 st' (by rw [hr, ← he]) (ih r.1 h)
    · simp only [R1CS.levelsLoop, hseq, if_false] at h
      obtain ⟨r, hr, h⟩ := Outcome.bind_eq_ret h
      cases hch : r.2 with
      | cons err errs => simp [hch] at h
      | nil =>
        simp only [hch] at h
        have hr' : cs.dispatchLevel L fuel level (taskCount cpuCount level.length) st
            = .ret (r.1, []) := by
          rw [hr, ← hch]
        exact solveTask_append L fuel cs _ _ st r.1 st'
          (dispatchLevel_success L fuel cs level _ st r.1 hr') (ih r.1 h)

/-! ## Invariants of a sequential run -/

theorem solveAt_spec {q : Nat} (L : TermLayout) (fuel : Nat) (cs : R1CS q) (i : Int)
    (st st1 : SolveState q) (e : Option Err) (h : cs.solveAt L fuel i st = .ret (st1, e)) :
    0 ≤ i ∧ ∃ r ai bi ci res, cs.Constraints[i.toNat]? = some r ∧
      st.a[i.toNat]? = some ai ∧ st.b[i.toNat]? = some bi ∧ st.c[i.toNat]? = some ci ∧
      cs.solveConstraint L fuel r st.s ai bi ci = .ret res ∧ e = res.err ∧
      st1 = ⟨res.s, st.a.set i.toNat res.a, st.b.set i.toNat res.b, st.c.set i.toNat res.c⟩ := by
  unfold R1CS.solveAt at h
  by_cases hi : i < 0
  · rw [if_pos hi] at h
    exact Outcome.noConfusion h
  · rw [if_neg hi] at h
    obtain ⟨r, hr, h⟩ := Outcome.bind_eq_ret h
    obtain ⟨ai, hai, h⟩ := Outcome.bind_eq_ret h
    obtain ⟨bi, hbi, h⟩ := Outcome.bind_eq_ret h
    obtain ⟨ci, hci, h⟩ := Outcome.bind_eq_ret h
    obtain ⟨res, hres, h⟩ := Outcome.bind_eq_ret h
    simp only [Outcome.ret.injEq, Prod.mk.injEq] at h
    rw [idx_eq_ret] at hr hai hbi hci
    exact ⟨by omega, r, ai, bi, ci, res, hr, hai, hbi, hci, hres, h.2.symm, h.1.symm⟩

theorem solveTask_inv {q : Nat} (L : TermLayout) (fuel : Nat) (cs : R1CS q)
    (Inv : List Int → SolveState q → Prop) (total : List Int)
    (hstep : ∀ done i st st1, (done ++ [i]) <+: total → Inv done st →
      cs.solveAt L fuel i st = .ret (st1, none) → Inv (done ++ [i]) st1)
    (idxs done : List Int) (st st' : SolveState q) (htot : done ++ idxs = total)
    (h0 : Inv done st) (h : cs.solveTask L fuel idxs st = .ret (st', none)) : Inv total st' := by
  induction idxs generalizing done st with
  | nil =>
    simp only [R1CS.solveTask, Outcome.ret.injEq, Prod.mk.injEq, and_true] at h
    subst h
    rw [List.append_nil] at htot
    rw [← htot]
    exact h0
  | cons i idxs ih =>
    simp only [R1CS.solveTask] at h
    obtain ⟨r, hr, h⟩ := Outcome.bind_eq_ret h
    cases he : r.2 with
    | some err => simp [he] at h
    | none =>
      simp only [he] at h
      have hr' : cs.solveAt L fuel i st = .ret (r.1, none) := by rw [hr, ← he]
      have hpre : (done ++ [i]) <+: total := ⟨idxs, by rw [← htot]; simp⟩
      exact ih (done ++ [i]) r.1 (by rw [← htot]; simp) (hstep done i st r.1 hpre h0 hr') h

/-- The buffers hold a satisfied triple at constraint index `i`. -/
def SatAt {q : Nat} (st : SolveState q) (i : Int) : Prop :=
  ∃ x y z, st.a[i.toNat]? = some x ∧ st.b[i.toNat]? = some y ∧ st.c[i.toNat]? = some z ∧
    x * y = z

theorem toNat_ne_of_ne {i j : Int} (hi : 0 ≤ i) (hj : 0 ≤ j) (h : i ≠ j) : i.toNat ≠ j.toNat := by
  omega

theorem solveTask_sat {q : Nat} [Fact q.Prime] (L : TermLayout) (fuel : Nat) (cs : R1CS q)
    (idxs : List Int) (st st' : SolveState q)
    (h : cs.solveTask L fuel idxs st = .ret (st', none)) :
    ∀ i ∈ idxs, 0 ≤ i ∧ SatAt st' i := by
  refine solveTask_inv L fuel cs (fun done st => ∀ i ∈ done, 0 ≤ i ∧ SatAt st i) idxs ?_
    idxs [] st st' rfl (by simp) h
  intro done i st st1 _ hinv hat
  obtain ⟨hi, r, ai, bi, ci, res, _, hai, hbi, hci, hres, herr, hst1⟩ :=
    solveAt_spec L fuel cs i st st1 none hat
  have hsat := (solveConstraint_spec L fuel cs r st.s ai bi ci res hres herr.symm).1
  have hla : i.toNat < st.a.length := by
    by_contra hc
    rw [List.getElem?_eq_none (by omega)] at hai
    exact Option.noConfusion hai
  have hlb : i.toNat < st.b.length := by
    by_contra hc
    rw [List.getElem?_eq_none (by omega)] at hbi
    exact Option.noConfusion hbi
  have hlc : i.toNat < st.c.length := by
    by_contra hc
    rw [List.getElem?_eq_none (by omega)] at hci
    exact Option.noConfusion hci
  intro j hj
  by_cases hji : j = i
  · subst hji
    refine ⟨hi, res.a, res.b, res.c, ?_, ?_, ?_, hsat⟩
    · rw [hst1]; simp [List.getElem?_set_self hla]
    · rw [hst1]; simp [List.getElem?_set_self hlb]
    · rw [hst1]; simp [List.getElem?_set_self hlc]
  · have hjd : j ∈ done := by
      rcases List.mem_append.mp hj with h | h
      · exact h
      · simp only [List.mem_singleton] at h
        exact absurd h hji
    obtain ⟨hj0, x, y, z, hx, hy, hz, hxyz⟩ := hinv j hjd
    have hne : i.toNat ≠ j.toNat := toNat_ne_of_ne hi hj0 (fun e => hji e.symm)
    refine ⟨hj0, x, y, z, ?_, ?_, ?_, hxyz⟩
    · rw [hst1]; simp only [List.getElem?_set_ne hne]; exact hx
    · rw [hst1]; simp only [List.getElem?_set_ne hne]; exact hy
    · rw [hst1]; simp only [List.getElem?_set_ne hne]; exact hz

theorem solveTask_extends {q : Nat} (L : TermLayout) (fuel : Nat) (cs : R1CS q)
    (idxs : List Int) (st st' : SolveState q)
    (h : cs.solveTask L fuel idxs st = .ret (st', none)) : st.s.Extends st'.s := by
  refine solveTask_inv L fuel cs (fun _ st1 => st.s.Extends st1.s) idxs ?_
    idxs [] st st' rfl (solution.Extends.refl _) h
  intro done i st0 st1 _ hinv hat
  obtain ⟨_, r, ai, bi, ci, res, _, _, _, _, hres, _, hst1⟩ :=
    solveAt_spec L fuel cs i st0 st1 none hat
  rw [hst1]
  exact hinv.trans (solveConstraint_extends L fuel cs r st0.s ai bi ci res hres)

/-- The buffers hold `⟨L, w⟩`, `⟨R, w⟩`, `⟨O, w⟩` at constraint index `i`, and all wires
of the constraint are solved. -/
def EvalAt {q : Nat} (L : TermLayout) (cs : R1CS q) (st : SolveState q) (i : Int) : Prop :=
  0 ≤ i ∧ ∃ r, cs.Constraints[i.toNat]? = some r ∧
    WiresSolved L st.s r.L ∧ WiresSolved L st.s r.R ∧ WiresSolved L st.s r.O ∧
    st.a[i.toNat]? = some (evalLE L st.s.coefficients st.s.values r.L) ∧
    st.b[i.toNat]? = some (evalLE L st.s.coefficients st.s.values r.R) ∧
    st.c[i.toNat]? = some (evalLE L st.s.coefficients st.s.values r.O)

/-- The buffers still hold zero at index `n`. -/
def ZeroAt {q : Nat} (st : SolveState q) (n : Nat) : Prop :=
  (∀ x, st.a[n]? = some x → x = 0) ∧ (∀ x, st.b[n]? = some x → x = 0) ∧
    (∀ x, st.c[n]? = some x → x = 0)

theorem solveTask_eval {q : Nat} [Fact q.Prime] (L : TermLayout) (fuel : Nat) (cs : R1CS q)
    (hwf : HintsWF cs.MHints) (hpool : PoolOK cs.Coefficients)
    (idxs : List Int) (hnodup : idxs.Nodup) (st st' : SolveState q)
    (hco : st.s.coefficients = cs.Coefficients) (hzero : ∀ n, ZeroAt st n)
    (h : cs.solveTask L fuel idxs st = .ret (st', none)) :
    ∀ i ∈ idxs, EvalAt L cs st' i := by
  have key := solveTask_inv L fuel cs
    (fun done st1 => st1.s.coefficients = cs.Coefficients ∧ (∀ i ∈ done, EvalAt L cs st1 i) ∧
      ∀ n : Nat, (n : Int) ∉ done → ZeroAt st1 n) idxs ?_
    idxs [] st st' rfl ⟨hco, by simp, fun n _ => hzero n⟩ h
  · exact key.2.1
  intro done i st0 st1 hpre ⟨hco0, hev, hz⟩ hat
  obtain ⟨hi, r, ai, bi, ci, res, hr, hai, hbi, hci, hres, herr, hst1⟩ :=
    solveAt_spec L fuel cs i st0 st1 none hat
  have hnd : (done ++ [i]).Nodup := by
    obtain ⟨t, ht⟩ := hpre
    rw [← ht] at hnodup
    exact (List.nodup_append.mp hnodup).1
  have hid : i ∉ done := by
    intro hmem
    have := (List.nodup_append.mp hnd).2.2
    exact this hmem (List.mem_singleton_self i) 
  have hiz : ((i.toNat : Nat) : Int) ∉ done := by
    rw [Int.toNat_of_nonneg hi]; exact hid
  obtain ⟨hza, hzb, hzc⟩ := hz i.toNat hiz
  have ha0 := hza ai hai
  have hb0 := hzb bi hbi
  have hc0 := hzc ci hci
  subst ha0 hb0 hc0
  have hext := solveConstraint_extends L fuel cs r st0.s 0 0 0 res hres
  obtain ⟨⟨hwL, haL⟩, ⟨hwR, hbR⟩, ⟨hwO, hcO⟩⟩ :=
    (solveConstraint_spec L fuel cs r st0.s 0 0 0 res hres herr.symm).2 hwf hpool hco0
  have hla : i.toNat < st0.a.length := by
    by_contra hc
    rw [List.getElem?_eq_none (by omega)] at hai
    exact Option.noConfusion hai
  have hlb : i.toNat < st0.b.length := by
    by_contra hc
    rw [List.getElem?_eq_none (by omega)] at hbi
    exact Option.noConfusion hbi
  have hlc : i.toNat < st0.c.length := by
    by_contra hc
    rw [List.getElem?_eq_none (by omega)] at hci
    exact Option.noConfusion hci
  refine ⟨by rw [hst1]; exact hext.coefficients.trans hco0, ?_, ?_⟩
  · intro j hj
    by_cases hji : j = i
    · subst hji
      refine ⟨hi, r, hr, ?_, ?_, ?_, ?_, ?_, ?_⟩
      · rw [hst1]; exact hwL
      · rw [hst1]; exact hwR
      · rw [hst1]; exact hwO
      · rw [hst1]; simp [List.getElem?_set_self hla, haL]
      · rw [hst1]; simp [List.getElem?_set_self hlb, hbR]
      · rw [hst1]; simp [List.getElem?_set_self hlc, hcO]
    · have hjd : j ∈ done := by
        rcases List.mem_append.mp hj with h | h
        · exact h
        · simp only [List.mem_singleton] at h
          exact absurd h hji
      obtain ⟨hj0, r', hr', w1, w2, w3, x1, x2, x3⟩ := hev j hjd
      have hne : i.toNat ≠ j.toNat := toNat_ne_of_ne hi hj0 (fun e => hji e.symm)
      refine ⟨hj0, r', hr', ?_, ?_, ?_, ?_, ?_, ?_⟩
      · rw [hst1]; exact w1.extends hext
      · rw [hst1]; exact w2.extends hext
      · rw [hst1]; exact w3.extends hext
      · rw [hst1]; simp only [List.getElem?_set_ne hne, evalLE_extends L hext _ w1]; exact x1
      · rw [hst1]; simp only [List.getElem?_set_ne hne, evalLE_extends L hext _ w2]; exact x2
      · rw [hst1]; simp only [List.getElem?_set_ne hne, evalLE_extends L hext _ w3]; exact x3
  · intro n hn
    have hnd' : (n : Int) ∉ done := fun hm => hn (List.mem_append.mpr (Or.inl hm))
    have hni : i.toNat ≠ n := by
      intro e
      apply hn
      rw [← e, Int.toNat_of_nonneg hi]
      exact List.mem_append.mpr (Or.inr (List.mem_singleton_self i))
    obtain ⟨z1, z2, z3⟩ := hz n hnd'
    rw [hst1]
    refine ⟨?_, ?_, ?_⟩
    · intro x hx; simp only [List.getElem?_set_ne hni] at hx; exact z1 x hx
    · intro x hx; simp only [List.getElem?_set_ne hni] at hx; exact z2 x hx
    · intro x hx; simp only [List.getElem?_set_ne hni] at hx; exact z3 x hx

/-! ## The whole solve -/

theorem markWitnessSolved_spec (n i : Nat) (solved solved' : List Bool)
    (h : markWitnessSolved n i solved = .ret solved')
    (hfalse : ∀ j, i < j → j ≤ i + n → ∀ b, solved[j]? = some b → b = false) :
    solved'.length = solved.length ∧ solved'.count true = solved.count true + n := by
  induction n generalizing i solved with
  | zero =>
    simp only [markWitnessSolved, Outcome.ret.injEq] at h
    subst h
    simp
  | succ n ih =>
    simp only [markWitnessSolved] at h
    obtain ⟨b, hb, h⟩ := Outcome.bind_eq_ret h
    rw [idx_eq_ret] at hb
    have hbf := hfalse (i + 1) (by omega) (by omega) b hb
    subst hbf
    have hrec := ih (i + 1) (solved.set (i + 1) true) h (by
      intro j hj1 hj2 b' hb'
      rw [List.getElem?_set_ne (by omega)] at hb'
      exact hfalse j (by omega) (by omega) b' hb')
    rw [List.length_set, count_set_true solved (i + 1) hb] at hrec
    exact ⟨hrec.1, by omega⟩

theorem newSolution_spec {q : Nat} (nbWires : Int) (hf : List (Nat × HintFunction))
    (hd : List (Nat × String)) (mHints : List (Int × Hint)) (coefficients : List (ZMod q))
    (s : solution q) (h : newSolution nbWires hf hd mHints coefficients = .ret (s, none)) :
    0 ≤ nbWires ∧ s = ⟨List.replicate nbWires.toNat 0, coefficients,
      List.replicate nbWires.toNat false, 0, hf, mHints⟩ := by
  unfold newSolution at h
  by_cases hn : nbWires < 0
  · rw [if_pos hn] at h
    exact Outcome.noConfusion h
  · rw [if_neg hn] at h
    simp only at h
    generalize List.filterMap _ hd = missing at h
    by_cases hm : missing.length > 0
    · rw [if_pos hm] at h
      simp only [Outcome.ret.injEq, Prod.mk.injEq] at h
      exact Option.noConfusion h.2
    · rw [if_neg hm] at h
      simp only [Outcome.ret.injEq, Prod.mk.injEq, and_true] at h
      exact ⟨by omega, h.symm⟩

theorem replicate_false_getElem? (N j : Nat) (b : Bool)
    (h : (List.replicate N false)[j]? = some b) : b = false := by
  have hmem := List.getElem?_mem h
  exact (List.eq_of_mem_replicate hmem)

theorem initSolution_spec {q : Nat} (N : Nat) (hN : N < 9223372036854775808)
    (coefficients : List (ZMod q)) (hf : List (Nat × HintFunction)) (mHints : List (Int × Hint))
    (witness : List (ZMod q)) (s1 : solution q)
    (h : initSolution (⟨List.replicate N 0, coefficients, List.replicate N false, 0, hf,
      mHints⟩ : solution q) witness = .ret s1) :
    s1.Counted ∧ s1.coefficients = coefficients ∧ s1.mHints = mHints ∧
      s1.mHintsFunctions = hf ∧ s1.values.length = N := by
  unfold initSolution at h
  obtain ⟨b0, hb0, h⟩ := Outcome.bind_eq_ret h
  obtain ⟨_, _, h⟩ := Outcome.bind_eq_ret h
  obtain ⟨solved, hsolved, h⟩ := Outcome.bind_eq_ret h
  simp only [Outcome.ret.injEq] at h
  subst h
  rw [idx_eq_ret] at hb0
  simp only at hb0 hsolved ⊢
  have hb0f := replicate_false_getElem? N 0 b0 hb0
  subst hb0f
  have hN1 : 1 ≤ N := by
    by_contra hc
    have : N = 0 := by omega
    subst this
    simp at hb0
  obtain ⟨hlen, hcount⟩ := markWitnessSolved_spec witness.length 0
    ((List.replicate N false).set 0 true) solved hsolved (by
      intro j hj1 _ b hb
      rw [List.getElem?_set_ne (by omega)] at hb
      exact replicate_false_getElem? N j b hb)
  rw [List.length_set, List.length_replicate] at hlen
  rw [count_set_true _ 0 hb0] at hcount
  have hc0 : (List.replicate N false).count true = 0 := by
    rw [List.count_replicate]; simp
  rw [hc0] at hcount
  have hvlen : (List.take 1 ((List.replicate N (0 : ZMod q)).set 0 1) ++
      copySlice (List.drop 1 ((List.replicate N (0 : ZMod q)).set 0 1)) witness).length = N := by
    unfold copySlice
    simp only [List.length_append, List.length_take, List.length_set, List.length_replicate,
      List.length_drop]
    omega
  have hcl := List.count_le_length true solved
  refine ⟨⟨by rw [hlen, hvlen], by rw [hvlen]; exact hN, ?_⟩, trivial, trivial, trivial,
    hvlen⟩
  simp only [hcount]
  omega

theorem initSolution_coefficients {q : Nat} (s0 s1 : solution q) (witness : List (ZMod q))
    (h : initSolution s0 witness = .ret s1) : s1.coefficients = s0.coefficients := by
  unfold initSolution at h
  obtain ⟨_, _, h⟩ := Outcome.bind_eq_ret h
  obtain ⟨_, _, h⟩ := Outcome.bind_eq_ret h
  obtain ⟨_, _, h⟩ := Outcome.bind_eq_ret h
  simp only [Outcome.ret.injEq] at h
  subst h
  rfl

/-- A successful `Solve`, taken apart: the solution was created and initialised, the
levels ran like one sequential pass over their constraint indices, and `isValid` held. -/
theorem Solve_success {q : Nat} (L : TermLayout) (cpuCount fuel : Nat) (cs : R1CS q)
    (witness a b c : List (ZMod q)) (opt : ProverConfig) (res : SolveResult q)
    (h : cs.Solve L cpuCount fuel witness a b c opt = .ret res) (herr : res.err = none) :
    ∃ s1 stF, 0 ≤ cs.NbPublicVariables + cs.NbSecretVariables + cs.NbInternalVariables ∧
      initSolution (⟨List.replicate
          (cs.NbPublicVariables + cs.NbSecretVariables + cs.NbInternalVariables).toNat 0,
        cs.Coefficients, List.replicate
          (cs.NbPublicVariables + cs.NbSecretVariables + cs.NbInternalVariables).toNat false,
        0, opt.HintFunctions, cs.MHints⟩ : solution q) witness = .ret s1 ∧
      cs.solveTask L fuel cs.Levels.flatten ⟨s1, a, b, c⟩ = .ret (stF, none) ∧
      stF.s.isValid = true ∧ res = ⟨stF.s.values, none, stF.a, stF.b, stF.c, stF.s⟩ ∧
      a.length = cs.Constraints.length ∧ b.length = cs.Constraints.length ∧
      c.length = cs.Constraints.length := by
  unfold R1CS.Solve at h
  simp only at h
  obtain ⟨ns, hns, h⟩ := Outcome.bind_eq_ret h
  cases he : ns.2 with
  | some err =>
    simp only [he, Outcome.ret.injEq] at h
    subst h
    simp at herr
  | none =>
    simp only [he] at h
    have hns' : newSolution (cs.NbPublicVariables + cs.NbSecretVariables + cs.NbInternalVariables)
        opt.HintFunctions cs.MHintsDependencies cs.MHints cs.Coefficients = .ret (ns.1, none) := by
      rw [hns, ← he]
    obtain ⟨hN0, hs0⟩ := newSolution_spec _ _ _ _ _ _ hns'
    by_cases hw : (witness.length : Int) ≠ cs.NbPublicVariables - 1 + cs.NbSecretVariables
    · rw [if_pos hw] at h
      simp only [Outcome.ret.injEq] at h
      subst h
      simp at herr
    · rw [if_neg hw] at h
      by_cases hbuf : a.length ≠ cs.Constraints.length ∨ b.length ≠ cs.Constraints.length
          ∨ c.length ≠ cs.Constraints.length
      · rw [if_pos hbuf] at h
        simp only [Outcome.ret.injEq] at h
        subst h
        simp at herr
      · rw [if_neg hbuf] at h
        obtain ⟨s1, hs1, h⟩ := Outcome.bind_eq_ret h
        obtain ⟨r, hr, h⟩ := Outcome.bind_eq_ret h
        cases her : r.2 with
        | some err =>
          simp only [her, Outcome.ret.injEq] at h
          subst h
          simp at herr
        | none =>
          simp only [her] at h
          by_cases hv : r.1.s.isValid = true
          · rw [if_pos hv] at h
            simp only [Outcome.ret.injEq] at h
            have hr' : cs.levelsLoop L cpuCount fuel cs.Levels ⟨s1, a, b, c⟩ = .ret (r.1, none) := by
              unfold R1CS.parallelSolve at hr
              rw [hr, ← her]
            rw [hs0] at hs1
            refine ⟨s1, r.1, hN0, hs1, levelsLoop_success L cpuCount fuel cs _ _ _ hr', hv,
              h.symm, ?_, ?_, ?_⟩ <;> omega
          · rw [if_neg hv] at h
            exact Outcome.noConfusion h

/-- C5. Satisfaction: if `Solve` returns without error on a system whose levels list
every constraint index, then for every constraint index `i` the buffers hold
`a[i] · b[i] = c[i]` in the field (whatever side the unknown of the constraint was on). -/
theorem Solve_satisfaction {q : Nat} [Fact q.Prime] (L : TermLayout) (cpuCount fuel : Nat)
    (cs : R1CS q) (witness a b c : List (ZMod q)) (opt : ProverConfig) (res : SolveResult q)
    (hlevels : ∀ i < cs.Constraints.length, (i : Int) ∈ cs.Levels.flatten)
    (h : cs.Solve L cpuCount fuel witness a b c opt = .ret res) (herr : res.err = none) :
    ∀ i < cs.Constraints.length, ∃ x y z, res.a[i]? = some x ∧ res.b[i]? = some y ∧
      res.c[i]? = some z ∧ x * y = z := by
  obtain ⟨s1, stF, _, _, hrun, _, hres, _, _, _⟩ :=
    Solve_success L cpuCount fuel cs witness a b c opt res h herr
  intro i hi
  obtain ⟨_, x, y, z, hx, hy, hz, hxyz⟩ :=
    solveTask_sat L fuel cs _ _ stF hrun (i : Int) (hlevels i hi)
  simp only [Int.toNat_ofNat] at hx hy hz
  rw [hres]
  exact ⟨x, y, z, hx, hy, hz, hxyz⟩

/-- C6 (amended). If `Solve` returns without error on a system whose levels list every
constraint index exactly once, with zero-initialised buffers, hint keys that are output
wires of their descriptors, and a pool in which the entries `divByCoeff` divides by are
non-zero and entry `TWO` holds `2`, then for every constraint `i` the buffers hold
`a[i] = ⟨L_i, w⟩`, `b[i] = ⟨R_i, w⟩`, `c[i] = ⟨O_i, w⟩` for the returned wire vector `w`,
the constraint in which a wire was solved included. -/
theorem Solve_buffers {q : Nat} [Fact q.Prime] (L : TermLayout) (cpuCount fuel : Nat)
    (cs : R1CS q) (witness a b c : List (ZMod q)) (opt : ProverConfig) (res : SolveResult q)
    (hnodup : cs.Levels.flatten.Nodup)
    (hlevels : ∀ i < cs.Constraints.length, (i : Int) ∈ cs.Levels.flatten)
    (ha : a = List.replicate cs.Constraints.length 0)
    (hb : b = List.replicate cs.Constraints.length 0)
    (hc : c = List.replicate cs.Constraints.length 0)
    (hwf : HintsWF cs.MHints) (hpool : PoolOK cs.Coefficients)
    (h : cs.Solve L cpuCount fuel witness a b c opt = .ret res) (herr : res.err = none) :
    ∀ (i : Nat) (r : R1C), cs.Constraints[i]? = some r →
      res.a[i]? = some (evalLE L cs.Coefficients res.values r.L) ∧
      res.b[i]? = some (evalLE L cs.Coefficients res.values r.R) ∧
      res.c[i]? = some (evalLE L cs.Coefficients res.values r.O) := by
  obtain ⟨s1, stF, _, hinit, hrun, _, hres, _, _, _⟩ :=
    Solve_success L cpuCount fuel cs witness a b c opt res h herr
  have hco : s1.coefficients = cs.Coefficients := initSolution_coefficients _ s1 witness hinit
  have hzero : ∀ n, ZeroAt (⟨s1, a, b, c⟩ : SolveState q) n := by
    intro n
    refine ⟨?_, ?_, ?_⟩
    · intro x hx
      simp only [ha] at hx
      exact List.eq_of_mem_replicate (List.getElem?_mem hx)
    · intro x hx
      simp only [hb] at hx
      exact List.eq_of_mem_replicate (List.getElem?_mem hx)
    · intro x hx
      simp only [hc] at hx
      exact List.eq_of_mem_replicate (List.getElem?_mem hx)
  have hev := solveTask_eval L fuel cs hwf hpool _ hnodup _ stF hco hzero hrun
  have hext := solveTask_extends L fuel cs _ _ stF hrun
  have hcoF : stF.s.coefficients = cs.Coefficients := hext.coefficients.trans hco
  intro i r hr
  have hi : i < cs.Constraints.length := by
    by_contra hc'
    rw [List.getElem?_eq_none (by omega)] at hr
    exact Option.noConfusion hr
  obtain ⟨_, r', hr', _, _, _, xa, xb, xc⟩ := hev (i : Int) (hlevels i hi)
  simp only [Int.toNat_ofNat] at hr' xa xb xc
  rw [hr] at hr'
  simp only [Option.some.injEq] at hr'
  subst hr'
  rw [hcoF] at xa xb xc
  rw [hres]
  exact ⟨xa, xb, xc⟩

/-- C7. Completeness: whenever `Solve` returns without error, the solution has
`N = NbPublicVariables + NbSecretVariables + NbInternalVariables` wires (a Go `int`) and
`solved[i]` is true for every `i` in `[0, N)`. -/
theorem Solve_complete {q : Nat} (L : TermLayout) (cpuCount fuel : Nat) (cs : R1CS q)
    (witness a b c : List (ZMod q)) (opt : ProverConfig) (res : SolveResult q)
    (hN : cs.NbPublicVariables + cs.NbSecretVariables + cs.NbInternalVariables
      < 9223372036854775808)
    (h : cs.Solve L cpuCount fuel witness a b c opt = .ret res) (herr : res.err = none) :
    res.values.length
        = (cs.NbPublicVariables + cs.NbSecretVariables + cs.NbInternalVariables).toNat ∧
      res.solution.solved.length
        = (cs.NbPublicVariables + cs.NbSecretVariables + cs.NbInternalVariables).toNat ∧
      ∀ i < (cs.NbPublicVariables + cs.NbSecretVariables + cs.NbInternalVariables).toNat,
        res.solution.solved[i]? = some true := by
  obtain ⟨s1, stF, hN0, hinit, hrun, hvalid, hres, _, _, _⟩ :=
    Solve_success L cpuCount fuel cs witness a b c opt res h herr
  obtain ⟨hcount, _, _, _, hlen⟩ := initSolution_spec _ (by omega) _ _ _ witness s1 hinit
  have hext := solveTask_extends L fuel cs _ _ stF hrun
  obtain ⟨hc1, hc2, hc3⟩ := hext.counted hcount
  have hvl : stF.s.values.length
      = (cs.NbPublicVariables + cs.NbSecretVariables + cs.NbInternalVariables).toNat := by
    rw [hext.values_length]; exact hlen
  unfold solution.isValid at hvalid
  simp only [decide_eq_true_eq] at hvalid
  have hle := List.count_le_length true stF.s.solved
  rw [uint64ToInt_natCast _ (by omega)] at hvalid
  have hall : stF.s.solved.count true = stF.s.solved.length := by omega
  rw [List.count_eq_length] at hall
  rw [hres]
  refine ⟨hvl, by rw [hc1]; exact hvl, ?_⟩
  intro i hi
  have hil : i < stF.s.solved.length := by rw [hc1, hvl]; exact hi
  simp only
  rw [List.getElem?_eq_getElem hil]
  exact congrArg some (hall _ (List.getElem_mem hil)).symm

theorem Outcome.map_eq_ret {α β : Type} {f : α → β} {x : Outcome α} {y : β}
    (h : x.map f = .ret y) : ∃ a, x = .ret a ∧ f a = y := by
  unfold Outcome.map at h
  obtain ⟨a, ha, h⟩ := Outcome.bind_eq_ret h
  simp only [Outcome.ret.injEq] at h
  exact ⟨a, ha, h⟩

set_option maxRecDepth 100000 in
theorem exampleDiv_run :
    (exampleDiv.Solve exampleLayout 4 1 [9, 2] [0, 0] [0, 0] [0, 0] ⟨[]⟩).map SolveResult.observe
      = .ret ⟨[1, 9, 2, 11], none, [11, 3], [2, 1], [9, 3], [true, true, true, true], 4⟩ := by
  decide

theorem observe_err {q : Nat} {r : SolveResult q} {o : Observed}
    (h : r.observe = o) : r.err = o.err := by
  rw [← h]
  rfl

/-- Witness for C5: the system `exampleDiv` (unknown in `L`, solved by a division, then an
assertion with a pool coefficient) with `y = 9`, `x = 2`. -/
theorem Solve_satisfaction_witness :
    ∃ res, exampleDiv.Solve exampleLayout 4 1 [9, 2] [0, 0] [0, 0] [0, 0] ⟨[]⟩ = .ret res ∧
      res.err = none ∧
      ∀ i < exampleDiv.Constraints.length, ∃ x y z, res.a[i]? = some x ∧ res.b[i]? = some y ∧
        res.c[i]? = some z ∧ x * y = z := by
  obtain ⟨res, hres, hobs⟩ := Outcome.map_eq_ret exampleDiv_run
  exact ⟨res, hres, observe_err hobs,
    Solve_satisfaction exampleLayout 4 1 exampleDiv [9, 2] [0, 0] [0, 0] [0, 0] ⟨[]⟩ res
      (by decide) hres (observe_err hobs)⟩

/-- Witness for C6 (amended): the system `exampleDiv` with `y = 9`, `x = 2`. -/
theorem Solve_buffers_witness :
    ∃ res, exampleDiv.Solve exampleLayout 4 1 [9, 2] [0, 0] [0, 0] [0, 0] ⟨[]⟩ = .ret res ∧
      res.err = none ∧
      ∀ (i : Nat) (r : R1C), exampleDiv.Constraints[i]? = some r →
        res.a[i]? = some (evalLE exampleLayout exampleDiv.Coefficients res.values r.L) ∧
        res.b[i]? = some (evalLE exampleLayout exampleDiv.Coefficients res.values r.R) ∧
        res.c[i]? = some (evalLE exampleLayout exampleDiv.Coefficients res.values r.O) := by
  obtain ⟨res, hres, hobs⟩ := Outcome.map_eq_ret exampleDiv_run
  exact ⟨res, hres, observe_err hobs,
    Solve_buffers exampleLayout 4 1 exampleDiv [9, 2] [0, 0] [0, 0] [0, 0] ⟨[]⟩ res
      (by decide) (by decide) rfl rfl rfl (by decide) (by decide) hres (observe_err hobs)⟩

/-- Witness for C7: the system `exampleDiv` with `y = 9`, `x = 2`. -/
theorem Solve_complete_witness :
    ∃ res, exampleDiv.Solve exampleLayout 4 1 [9, 2] [0, 0] [0, 0] [0, 0] ⟨[]⟩ = .ret res ∧
      res.err = none ∧
      res.values.length = (exampleDiv.NbPublicVariables + exampleDiv.NbSecretVariables
        + exampleDiv.NbInternalVariables).toNat ∧
      res.solution.solved.length = (exampleDiv.NbPublicVariables + exampleDiv.NbSecretVariables
        + exampleDiv.NbInternalVariables).toNat ∧
      ∀ i < (exampleDiv.NbPublicVariables + exampleDiv.NbSecretVariables
          + exampleDiv.NbInternalVariables).toNat,
        res.solution.solved[i]? = some true := by
  obtain ⟨res, hres, hobs⟩ := Outcome.map_eq_ret exampleDiv_run
  exact ⟨res, hres, observe_err hobs,
    Solve_complete exampleLayout 4 1 exampleDiv [9, 2] [0, 0] [0, 0] [0, 0] ⟨[]⟩ res
      (by decide) hres (observe_err hobs)⟩

/-- Counterexample to C6 as stated: on `exampleBadPool` (unknown wire under coefficient
ID `TWO`, pool entry `TWO` equal to `3`) with `x = 3`, `Solve` returns without error, the
wire vector is `[1, 3, 1]` and `c[0] = 3`, but `⟨O_0, w⟩ = 2 · 1 = 2`. -/
theorem Solve_buffers_counterexample :
    (exampleBadPool.Solve exampleLayout 4 1 [3] [0] [0] [0] ⟨[]⟩).map SolveResult.observe
        = .ret ⟨[1, 3, 1], none, [3], [1], [3], [true, true, true], 3⟩
      ∧ evalLE exampleLayout exampleBadPool.Coefficients [1, 3, 1] [mkTerm 2 2] = 2
      ∧ (3 : ZMod 13) ≠ 2 := by
  refine ⟨by decide, by decide, by decide⟩

/-- Witness for C10: the term `4 · w1` (pool coefficient ID 4) on `exampleSolution`. -/
theorem computeTerm_spec_witness :
    ((exampleSolution.solved[exampleLayout.WireID (mkTerm 4 1)]? = some true
          ∨ exampleLayout.CoeffID (mkTerm 4 1) = CoeffIdZero) →
        exampleSolution.computeTerm exampleLayout (mkTerm 4 1)
          = .ret (termValue exampleLayout exampleSolution.coefficients exampleSolution.values
              (mkTerm 4 1)))
      ∧ ((∃ msg, exampleSolution.computeTerm exampleLayout (mkTerm 4 1) = .panic msg) ↔
          (exampleLayout.CoeffID (mkTerm 4 1) ≠ CoeffIdZero
            ∧ exampleSolution.solved[exampleLayout.WireID (mkTerm 4 1)]? = some false)) :=
  computeTerm_spec exampleLayout exampleSolution (mkTerm 4 1) (by decide) (by decide)
    (by decide)

/-! ## Further properties of the solution state -/

theorem accumulateInto_ret {q : Nat} (L : TermLayout) (s : solution q) (t : Term) (r : ZMod q)
    (hv : L.WireID t < s.values.length)
    (hc : L.CoeffID t < 4 ∨ L.CoeffID t < s.coefficients.length) :
    s.accumulateInto L t r = .ret (r + termValue L s.coefficients s.values t) := by
  have hval : s.values[L.WireID t]? = some (s.values.getD (L.WireID t) 0) := by
    rw [List.getElem?_eq_getElem hv, List.getD_eq_getElem _ _ hv]
  have hex : ∃ r', s.accumulateInto L t r = .ret r' := by
    unfold solution.accumulateInto idx
    simp only [CoeffIdZero, CoeffIdOne, CoeffIdTwo, CoeffIdMinusOne, hval, Outcome.bind_ret]
    generalize s.values.getD (L.WireID t) 0 = v
    by_cases hin : L.CoeffID t < s.coefficients.length
    · have hco : s.coefficients[L.CoeffID t]?
          = some (s.coefficients.getD (L.CoeffID t) 0) := by
        rw [List.getElem?_eq_getElem hin, List.getD_eq_getElem _ _ hin]
      generalize s.coefficients.getD (L.CoeffID t) 0 = c at hco
      simp only [hco, Outcome.bind_ret]
      split_ifs <;> exact ⟨_, rfl⟩
    · have h4 : L.CoeffID t < 4 := by omega
      generalize L.CoeffID t = cID at h4
      interval_cases cID <;> simp
  obtain ⟨r', hr'⟩ := hex
  rw [hr', accumulateInto_spec L s t r r' hr']

theorem computeTerm_eq {q : Nat} (L : TermLayout) (s : solution q) (t : Term) (v : ZMod q)
    (h : s.computeTerm L t = .ret v) : v = termValue L s.coefficients s.values t := by
  unfold solution.computeTerm at h
  obtain ⟨_, _, h⟩ := Outcome.bind_eq_ret h
  unfold termValue coeffOf
  simp only [CoeffIdZero, CoeffIdOne, CoeffIdTwo, CoeffIdMinusOne] at h ⊢
  have key : ∀ (f : ZMod q → Outcome (ZMod q)),
      (idx s.values (L.WireID t)).bind f = .ret v →
      ∃ x, s.values.getD (L.WireID t) 0 = x ∧ f x = .ret v := by
    intro f hf
    obtain ⟨x, hx, hf⟩ := Outcome.bind_eq_ret hf
    rw [idx_eq_ret] at hx
    refine ⟨x, ?_, hf⟩
    rw [List.getD_eq_getElem?_getD, hx]
    rfl
  have key0 : idx s.values (L.WireID t) = .ret v → s.values.getD (L.WireID t) 0 = v := by
    intro hf
    rw [idx_eq_ret] at hf
    rw [List.getD_eq_getElem?_getD, hf]
    rfl
  have keyc : ∀ (f : ZMod q → Outcome (ZMod q)),
      (idx s.coefficients (L.CoeffID t)).bind f = .ret v →
      ∃ c, s.coefficients.getD (L.CoeffID t) 0 = c ∧ f c = .ret v := by
    intro f hf
    obtain ⟨c, hc, hf⟩ := Outcome.bind_eq_ret hf
    rw [idx_eq_ret] at hc
    refine ⟨c, ?_, hf⟩
    rw [List.getD_eq_getElem?_getD, hc]
    rfl
  by_cases h0 : L.CoeffID t = 0
  · simp only [h0, if_true, Outcome.ret.injEq] at h
    subst h
    simp [h0]
  · simp only [h0, if_false] at h ⊢
    by_cases h1 : L.CoeffID t = 1
    · simp only [h1, if_true] at h ⊢
      rw [key0 h]; ring
    · by_cases h2 : L.CoeffID t = 2
      · simp only [h2, if_true] at h ⊢
        obtain ⟨x, hx, h⟩ := key _ h
        simp only [Outcome.ret.injEq] at h
        rw [hx, ← h]; simp; ring
      · by_cases h3 : L.CoeffID t = 3
        · simp only [h3, if_true] at h ⊢
          obtain ⟨x, hx, h⟩ := key _ h
          simp only [Outcome.ret.injEq] at h
          rw [hx, ← h]; simp
        · simp only [h1, h2, h3, if_false] at h ⊢
          obtain ⟨x, hx, h⟩ := key _ h
          rw [hx]
          by_cases hz : x = 0
          · simp only [hz, if_true, Outcome.ret.injEq] at h
            rw [hz, ← h]; ring
          · by_cases ho : x = 1
            · have hz' : ¬ ((1 : ZMod q) = 0) := by rw [← ho]; exact hz
              simp only [ho, hz', if_false, if_true] at h
              rw [idx_eq_ret] at h
              rw [List.getD_eq_getElem?_getD, h, ho]; simp
            · simp only [hz, ho, if_false] at h
              obtain ⟨c, hc, h⟩ := keyc _ h
              simp only [Outcome.ret.injEq] at h
              rw [hc, ← h]

theorem computeTerm_ret {q : Nat} (L : TermLayout) (s : solution q) (t : Term)
    (hv : L.WireID t < s.values.length)
    (hc : L.CoeffID t < 4 ∨ L.CoeffID t < s.coefficients.length)
    (hs : s.solved[L.WireID t]? = some true) :
    s.computeTerm L t = .ret (termValue L s.coefficients s.values t) := by
  have hval : s.values[L.WireID t]? = some (s.values.getD (L.WireID t) 0) := by
    rw [List.getElem?_eq_getElem hv, List.getD_eq_getElem _ _ hv]
  have hex : ∃ v, s.computeTerm L t = .ret v := by
    unfold solution.computeTerm idx
    simp only [CoeffIdZero, CoeffIdOne, CoeffIdTwo, CoeffIdMinusOne, hval, hs,
      Outcome.bind_ret, if_true]
    generalize s.values.getD (L.WireID t) 0 = v
    by_cases hin : L.CoeffID t < s.coefficients.length
    · have hco : s.coefficients[L.CoeffID t]?
          = some (s.coefficients.getD (L.CoeffID t) 0) := by
        rw [List.getElem?_eq_getElem hin, List.getD_eq_getElem _ _ hin]
      generalize s.coefficients.getD (L.CoeffID t) 0 = c at hco
      simp only [hco, Outcome.bind_ret]
      split_ifs <;> simp
    · have h4 : L.CoeffID t < 4 := by omega
      generalize L.CoeffID t = cID at h4
      interval_cases cID <;> simp
  obtain ⟨v, hv'⟩ := hex
  rw [hv', computeTerm_eq L s t v hv']

/-- C11. `accumulateInto` agrees with `computeTerm`: with coefficient ID `ZERO` it leaves
the accumulator as it is, whatever the state of the wire; and for a term whose wire is
solved (index in range, coefficient ID reserved or in the pool) `computeTerm` returns a
value `v` and `accumulateInto` returns `acc + v`. The accumulator is all it returns: the
solution is not changed. -/
theorem accumulateInto_computeTerm {q : Nat} (L : TermLayout) (s : solution q) (t : Term)
    (acc : ZMod q) :
    (L.CoeffID t = CoeffIdZero → s.accumulateInto L t acc = .ret acc) ∧
      (s.solved[L.WireID t]? = some true → L.WireID t < s.values.length →
        (L.CoeffID t < 4 ∨ L.CoeffID t < s.coefficients.length) →
        ∃ v, s.computeTerm L t = .ret v ∧ s.accumulateInto L t acc = .ret (acc + v)) := by
  constructor
  · intro h0
    unfold solution.accumulateInto
    simp [h0]
  · intro hs hv hc
    exact ⟨_, computeTerm_ret L s t hv hc hs, accumulateInto_ret L s t acc hv hc⟩

/-- Witness for C11: the term `4 · w1` on `exampleSolution` and the accumulator `3`. -/
theorem accumulateInto_computeTerm_witness :
    ∃ v, exampleSolution.computeTerm exampleLayout (mkTerm 4 1) = .ret v ∧
      exampleSolution.accumulateInto exampleLayout (mkTerm 4 1) 3 = .ret (3 + v) :=
  (accumulateInto_computeTerm exampleLayout exampleSolution (mkTerm 4 1) 3).2 (by decide)
    (by decide) (by decide)

/-- C12. Frame of `set`: on a wire that is not solved (index in range, counter below the
largest `uint64`) it returns the state with `values[id] = value`, `solved[id] = true` and
`nbSolved` one larger, every other index of `values` and `solved` and every other field
unchanged; on a solved wire it panics, and no state is written. -/
theorem set_frame {q : Nat} (s : solution q) (id : Int) (value : ZMod q) :
    (0 ≤ id → s.solved[id.toNat]? = some false → id.toNat < s.values.length →
        s.nbSolved + 1 < 18446744073709551616 →
        ∃ s', s.set id value = .ret s' ∧
          s'.values[id.toNat]? = some value ∧ s'.solved[id.toNat]? = some true ∧
          s'.nbSolved = s.nbSolved + 1 ∧
          (∀ j : Nat, j ≠ id.toNat →
            s'.values[j]? = s.values[j]? ∧ s'.solved[j]? = s.solved[j]?) ∧
          s'.values.length = s.values.length ∧ s'.solved.length = s.solved.length ∧
          s'.coefficients = s.coefficients ∧ s'.mHints = s.mHints ∧
          s'.mHintsFunctions = s.mHintsFunctions) ∧
      (0 ≤ id → s.solved[id.toNat]? = some true →
        s.set id value = .panic "solving the same wire twice should never happen.") := by
  constructor
  · intro hid hs hv hn
    have hlt : id.toNat < s.solved.length := by
      by_contra hc
      rw [List.getElem?_eq_none (by omega)] at hs
      exact Option.noConfusion hs
    have hval : s.values[id.toNat]? = some (s.values.getD id.toNat 0) := by
      rw [List.getElem?_eq_getElem hv, List.getD_eq_getElem _ _ hv]
    refine ⟨{ s with
        values := s.values.set id.toNat value
        solved := s.solved.set id.toNat true
        nbSolved := s.nbSolved + 1 }, ?_, ?_, ?_, rfl, ?_, ?_, ?_, rfl, rfl, rfl⟩
    · unfold solution.set idx
      have hid' : ¬ id < 0 := by omega
      simp only [hid', if_false, hs, hval, Outcome.bind_ret, Bool.false_eq_true,
        Nat.mod_eq_of_lt hn]
    · simp [List.getElem?_set_self hv]
    · simp [List.getElem?_set_self hlt]
    · intro j hj
      simp [List.getElem?_set_ne (Ne.symm hj)]
    · simp
    · simp
  · intro hid hs
    unfold solution.set idx
    have hid' : ¬ id < 0 := by omega
    simp [hid', hs]

/-- Witness for C12: setting the unsolved wire `2` of a three-wire solution to `7`. -/
theorem set_frame_witness :
    ∃ s', (⟨[1, 5, 0], [], [true, true, false], 2, [], []⟩ : solution 13).set 2 7 = .ret s' ∧
      s'.values[(2 : Int).toNat]? = some 7 ∧ s'.solved[(2 : Int).toNat]? = some true ∧
      s'.nbSolved = 2 + 1 ∧
      (∀ j : Nat, j ≠ (2 : Int).toNat →
        s'.values[j]? = ([1, 5, 0] : List (ZMod 13))[j]? ∧
          s'.solved[j]? = [true, true, false][j]?) ∧
      s'.values.length = 3 ∧ s'.solved.length = 3 ∧
      s'.coefficients = [] ∧ s'.mHints = [] ∧ s'.mHintsFunctions = [] :=
  (set_frame (⟨[1, 5, 0], [], [true, true, false], 2, [], []⟩ : solution 13) 2 7).1
    (by decide) (by decide) (by decide) (by decide)

/-- The fresh state made by `newSolution`. -/
def freshSolution {q : Nat} (N : Nat) (hf : List (Nat × HintFunction))
    (mHints : List (Int × Hint)) (coefficients : List (ZMod q)) : solution q :=
  ⟨List.replicate N 0, coefficients, List.replicate N false, 0, hf, mHints⟩

/-- The names `missing` collected by `newSolution`. -/
def missingHintNames (hf : List (Nat × HintFunction)) (hd : List (Nat × String)) :
    List String :=
  hd.filterMap (fun d => if (hf.lookup d.1).isSome then none else some d.2)

theorem newSolution_ret {q : Nat} (nbWires : Int) (hf : List (Nat × HintFunction))
    (hd : List (Nat × String)) (mHints : List (Int × Hint)) (coefficients : List (ZMod q))
    (h0 : 0 ≤ nbWires) :
    newSolution nbWires hf hd mHints coefficients
      = .ret (freshSolution nbWires.toNat hf mHints coefficients,
          if missingHintNames hf hd = [] then none
          else some (Err.missingHints (missingHintNames hf hd))) := by
  unfold newSolution freshSolution missingHintNames
  have hn : ¬ nbWires < 0 := by omega
  rw [if_neg hn]
  simp only
  generalize List.filterMap _ hd = missing
  cases missing with
  | nil => simp
  | cons a l => simp

theorem mem_missingHintNames (hf : List (Nat × HintFunction)) (hd : List (Nat × String))
    (name : String) :
    name ∈ missingHintNames hf hd ↔ ∃ d ∈ hd, hf.lookup d.1 = none ∧ d.2 = name := by
  unfold missingHintNames
  rw [List.mem_filterMap]
  constructor
  · rintro ⟨d, hd1, hd2⟩
    refine ⟨d, hd1, ?_⟩
    cases hl : hf.lookup d.1 with
    | none =>
      simp only [hl, Option.isSome_none, Bool.false_eq_true, if_false, Option.some.injEq] at hd2
      exact ⟨rfl, hd2⟩
    | some f => simp [hl] at hd2
  · rintro ⟨d, hd1, hl, hn⟩
    exact ⟨d, hd1, by simp [hl, hn]⟩

theorem freshSolution_counted {q : Nat} (N : Nat) (hN : N < 9223372036854775808)
    (hf : List (Nat × HintFunction)) (mHints : List (Int × Hint))
    (coefficients : List (ZMod q)) : (freshSolution N hf mHints coefficients).Counted := by
  unfold freshSolution solution.Counted
  refine ⟨by simp, by simpa using hN, ?_⟩
  simp only [List.count_replicate]
  simp

/-- The flags only go from unset to set, a solved wire keeps its value, and the counter
invariant is kept. -/
def solution.Keeps {q : Nat} (s s' : solution q) : Prop :=
  (s.Counted → s'.Counted) ∧
    ∀ i : Nat, s.solved[i]? = some true → s'.solved[i]? = some true ∧ s'.values[i]? = s.values[i]?

theorem solution.Extends.keeps {q : Nat} {s s' : solution q} (e : s.Extends s') : s.Keeps s' :=
  ⟨e.counted, e.frozen⟩

/-- C13. The counter invariant `nbSolved = #{i | solved[i]}` holds in the state returned
by `newSolution` (with or without the missing-hints error, for fewer than `2^63` wires)
and after the witness initialisation of `Solve` on that state; every call of `set`,
`solveWithHint` and `solveConstraint` that returns, with or without error, keeps it, and
none of them resets a flag or changes the value of a solved wire. -/
theorem counter_invariant {q : Nat} (L : TermLayout) (fuel : Nat) (cs : R1CS q) :
    (∀ (nbWires : Int) (hf : List (Nat × HintFunction)) (hd : List (Nat × String))
        (mHints : List (Int × Hint)) (coefficients : List (ZMod q)) (s : solution q)
        (e : Option Err), nbWires < 9223372036854775808 →
        newSolution nbWires hf hd mHints coefficients = .ret (s, e) →
        s.Counted ∧ ∀ (witness : List (ZMod q)) (s1 : solution q),
          initSolution s witness = .ret s1 → s1.Counted) ∧
      (∀ (s : solution q) (id : Int) (value : ZMod q) (s' : solution q),
        s.set id value = .ret s' → s.Keeps s') ∧
      (∀ (s : solution q) (vID : Nat) (h : Hint) (r : solution q × Option Err),
        s.solveWithHint L fuel vID h = .ret r → s.Keeps r.1) ∧
      (∀ (s : solution q) (r : R1C) (a b c : ZMod q) (res : ConstraintResult q),
        cs.solveConstraint L fuel r s a b c = .ret res → s.Keeps res.s) := by
  refine ⟨?_, ?_, ?_, ?_⟩
  · intro nbWires hf hd mHints coefficients s e hN h
    have h0 : 0 ≤ nbWires := by
      by_contra hc
      unfold newSolution at h
      rw [if_pos (by omega)] at h
      exact Outcome.noConfusion h
    rw [newSolution_ret nbWires hf hd mHints coefficients h0] at h
    simp only [Outcome.ret.injEq, Prod.mk.injEq] at h
    obtain ⟨hs, _⟩ := h
    subst hs
    have hN' : nbWires.toNat < 9223372036854775808 := by omega
    refine ⟨freshSolution_counted _ hN' hf mHints coefficients, ?_⟩
    intro witness s1 h1
    exact (initSolution_spec nbWires.toNat hN' coefficients hf mHints witness s1 h1).1
  · intro s id value s' h
    exact (solution.set_spec h).1.keeps
  · intro s vID h r hr
    exact (solveWithHint_spec L fuel s vID h r hr).1.keeps
  · intro s r a b c res h
    exact (solveConstraint_extends L fuel cs r s a b c res h).keeps

/-- Witness for C13: the state `newSolution` makes for the four wires of `exampleDiv`,
and the state after the witness `[9, 2]` was copied in. -/
theorem counter_invariant_witness :
    (freshSolution 4 [] [] exampleDiv.Coefficients).Counted ∧
      ∀ (witness : List (ZMod 13)) (s1 : solution 13),
        initSolution (freshSolution 4 [] [] exampleDiv.Coefficients) witness = .ret s1 →
          s1.Counted :=
  (counter_invariant exampleLayout 1 exampleDiv).1 4 [] [] [] exampleDiv.Coefficients
    (freshSolution 4 [] [] exampleDiv.Coefficients) none (by decide) rfl

/-- C14. For a non-negative number of wires `newSolution` returns; it returns an error
exactly when some hint ID declared in `hintsDependencies` has no entry in `hintFunctions`;
the error carries the names of exactly the declared hints without a function; without
error the state has `nbWires` zero values, `nbWires` unset flags and `nbSolved = 0`. -/
theorem newSolution_missing {q : Nat} (nbWires : Int) (hf : List (Nat × HintFunction))
    (hd : List (Nat × String)) (mHints : List (Int × Hint)) (coefficients : List (ZMod q))
    (h0 : 0 ≤ nbWires) :
    ∃ s e, newSolution nbWires hf hd mHints coefficients = .ret (s, e) ∧
      (e ≠ none ↔ ∃ d ∈ hd, hf.lookup d.1 = none) ∧
      (∀ err, e = some err → ∃ names, err = Err.missingHints names ∧
        ∀ name, name ∈ names ↔ ∃ d ∈ hd, hf.lookup d.1 = none ∧ d.2 = name) ∧
      (e = none → s.values = List.replicate nbWires.toNat 0 ∧
        s.solved = List.replicate nbWires.toNat false ∧ s.nbSolved = 0 ∧
        s.coefficients = coefficients ∧ s.mHints = mHints ∧ s.mHintsFunctions = hf) := by
  refine ⟨_, _, newSolution_ret nbWires hf hd mHints coefficients h0, ?_, ?_, ?_⟩
  · by_cases hm : missingHintNames hf hd = []
    · simp only [hm, if_true, ne_eq, not_true_eq_false, false_iff]
      rintro ⟨d, hd1, hd2⟩
      have : d.2 ∈ missingHintNames hf hd :=
        (mem_missingHintNames hf hd d.2).mpr ⟨d, hd1, hd2, rfl⟩
      rw [hm] at this
      simp at this
    · rw [if_neg hm]
      obtain ⟨name, hname⟩ := List.exists_mem_of_ne_nil _ hm
      obtain ⟨d, hd1, hd2, _⟩ := (mem_missingHintNames hf hd name).mp hname
      exact ⟨fun _ => ⟨d, hd1, hd2⟩, fun _ => by simp⟩
  · intro err he
    by_cases hm : missingHintNames hf hd = []
    · simp [hm] at he
    · simp only [hm, if_false, Option.some.injEq] at he
      exact ⟨_, he.symm, mem_missingHintNames hf hd⟩
  · intro _
    exact ⟨rfl, rfl, rfl, rfl, rfl, rfl⟩

/-- Witness for C14: `exampleDiv` declares no hint. -/
theorem newSolution_missing_witness :
    ∃ s e, newSolution 4 [] [] [] exampleDiv.Coefficients = .ret (s, e) ∧
      (e ≠ none ↔ ∃ d ∈ ([] : List (Nat × String)),
        ([] : List (Nat × HintFunction)).lookup d.1 = none) ∧
      (∀ err, e = some err → ∃ names, err = Err.missingHints names ∧
        ∀ name, name ∈ names ↔ ∃ d ∈ ([] : List (Nat × String)),
          ([] : List (Nat × HintFunction)).lookup d.1 = none ∧ d.2 = name) ∧
      (e = none → s.values = List.replicate (4 : Int).toNat 0 ∧
        s.solved = List.replicate (4 : Int).toNat false ∧ s.nbSolved = 0 ∧
        s.coefficients = exampleDiv.Coefficients ∧ s.mHints = [] ∧ s.mHintsFunctions = []) :=
  newSolution_missing 4 [] [] [] exampleDiv.Coefficients (by decide)

/-- C15. `Solve` validates its inputs before solving: for a non-negative number of wires
`N`, a witness whose length is not `P − 1 + S` or a buffer `a`, `b`, `c` whose length is
not the number of constraints makes it return an error together with a wire vector of
`N` zeros, and `a`, `b`, `c` are returned as they were passed. -/
theorem Solve_validates {q : Nat} (L : TermLayout) (cpuCount fuel : Nat) (cs : R1CS q)
    (witness a b c : List (ZMod q)) (opt : ProverConfig)
    (h0 : 0 ≤ cs.NbPublicVariables + cs.NbSecretVariables + cs.NbInternalVariables)
    (hbad : (witness.length : Int) ≠ cs.NbPublicVariables - 1 + cs.NbSecretVariables
      ∨ a.length ≠ cs.Constraints.length ∨ b.length ≠ cs.Constraints.length
      ∨ c.length ≠ cs.Constraints.length) :
    ∃ res, cs.Solve L cpuCount fuel witness a b c opt = .ret res ∧ res.err ≠ none ∧
      res.values = List.replicate
        (cs.NbPublicVariables + cs.NbSecretVariables + cs.NbInternalVariables).toNat 0 ∧
      res.a = a ∧ res.b = b ∧ res.c = c ∧
      res.solution.solved = List.replicate
        (cs.NbPublicVariables + cs.NbSecretVariables + cs.NbInternalVariables).toNat false := by
  unfold R1CS.Solve
  simp only
  rw [newSolution_ret _ _ _ _ _ h0, Outcome.bind_ret]
  by_cases hm : missingHintNames opt.HintFunctions cs.MHintsDependencies = []
  · simp only [hm, if_true]
    by_cases hw : (witness.length : Int) ≠ cs.NbPublicVariables - 1 + cs.NbSecretVariables
    · rw [if_pos hw]
      exact ⟨_, rfl, by simp, rfl, rfl, rfl, rfl, rfl⟩
    · rw [if_neg hw]
      have hbuf : a.length ≠ cs.Constraints.length ∨ b.length ≠ cs.Constraints.length
          ∨ c.length ≠ cs.Constraints.length := by
        rcases hbad with h | h
        · exact absurd h hw
        · exact h
      rw [if_pos hbuf]
      exact ⟨_, rfl, by simp, rfl, rfl, rfl, rfl, rfl⟩
  · simp only [hm, if_false]
    exact ⟨_, rfl, by simp, rfl, rfl, rfl, rfl, rfl⟩

/-- Witness for C15: `exampleDiv` with a witness of one element instead of two. -/
theorem Solve_validates_witness :
    ∃ res, exampleDiv.Solve exampleLayout 4 1 [9] [0, 0] [0, 0] [0, 0] ⟨[]⟩ = .ret res ∧
      res.err ≠ none ∧
      res.values = List.replicate (exampleDiv.NbPublicVariables + exampleDiv.NbSecretVariables
        + exampleDiv.NbInternalVariables).toNat 0 ∧
      res.a = [0, 0] ∧ res.b = [0, 0] ∧ res.c = [0, 0] ∧
      res.solution.solved = List.replicate (exampleDiv.NbPublicVariables
        + exampleDiv.NbSecretVariables + exampleDiv.NbInternalVariables).toNat false :=
  Solve_validates exampleLayout 4 1 exampleDiv [9] [0, 0] [0, 0] [0, 0] ⟨[]⟩ (by decide)
    (Or.inl (by decide))

/-- C16. `solveWithHint` is idempotent on a solved wire: it returns without error and
without calling the hint function, and the state is the one it was given. Hence, after a
call that ran the hint of an unsolved wire and returned without error, a further call
for any output wire of the descriptor changes nothing. -/
theorem solveWithHint_idempotent {q : Nat} (L : TermLayout) (fuel : Nat) (s : solution q)
    (vID : Nat) (h : Hint) :
    (s.solved[vID]? = some true → s.solveWithHint L (fuel + 1) vID h = .ret (s, none)) ∧
      (∀ (fuel1 : Nat) (s' : solution q), s.solved[vID]? = some false →
        s.solveWithHint L fuel1 vID h = .ret (s', none) →
        ∀ w ∈ h.Wires, s'.solveWithHint L (fuel + 1) w.toNat h = .ret (s', none)) := by
  have key : ∀ (s0 : solution q) (w : Nat), s0.solved[w]? = some true →
      s0.solveWithHint L (fuel + 1) w h = .ret (s0, none) := by
    intro s0 w hw
    simp only [solution.solveWithHint, idx, hw, Outcome.bind_ret, if_true]
  refine ⟨key s vID, ?_⟩
  intro fuel1 s' hs hr w hw
  obtain ⟨_, hpost⟩ := solveWithHint_spec L fuel1 s vID h (s', none) hr
  rcases hpost rfl with hsol | hall
  · rw [hs] at hsol
    simp at hsol
  · exact key s' w.toNat (hall w hw).2


/-- The value of a hint input under a solution, as a field element. -/
def inputValue {q : Nat} (L : TermLayout) (s : solution q) : HintInput → ZMod q
  | .bigInt v => (v : ZMod q)
  | .bigIntPtr v => (v : ZMod q)
  | .linExp l => evalLE L s.coefficients s.values l
  | .term t => termValue L s.coefficients s.values t

/-- A big integer handed to a hint function is the canonical representative. -/
def Reduced (q : Nat) (x : Int) : Prop := 0 ≤ x ∧ x < (q : Int)

theorem recursiveSolve_solved {q : Nat} (L : TermLayout)
    (recurse : solution q → Nat → Hint → Outcome (solution q × Option Err))
    (hrec : ∀ s vID h r, recurse s vID h = .ret r → HintPost s vID h r)
    (s : solution q) (t : Term) (s1 : solution q) (hwf : HintsWF s.mHints)
    (h : recursiveSolve L recurse s t = .ret (s1, none)) :
    s1.solved[L.WireID t]? = some true := by
  unfold recursiveSolve at h
  obtain ⟨b, hb, h⟩ := Outcome.bind_eq_ret h
  rw [idx_eq_ret] at hb
  cases b with
  | true =>
    simp only [if_true, Outcome.ret.injEq, Prod.mk.injEq, and_true] at h
    subst h
    exact hb
  | false =>
    simp only [Bool.false_eq_true, if_false] at h
    cases hl : s.mHints.lookup (L.WireID t : Int) with
    | none => simp [hl] at h
    | some hint =>
      simp only [hl] at h
      obtain ⟨_, hpost⟩ := hrec _ _ _ _ h
      rcases hpost rfl with hs | hall
      · rw [hb] at hs; simp at hs
      · have := (hall _ (hwf _ (mem_of_lookup _ _ _ hl))).2
        simpa using this

theorem hintLinExpLoop_value {q : Nat} (L : TermLayout)
    (recurse : solution q → Nat → Hint → Outcome (solution q × Option Err))
    (hrec : ∀ s vID h r, recurse s vID h = .ret r → HintPost s vID h r)
    (l : List Term) (s : solution q) (v : ZMod q) (s1 : solution q) (v1 : ZMod q)
    (hwf : HintsWF s.mHints)
    (h : hintLinExpLoop L recurse l s v = .ret (s1, v1, none)) :
    WiresSolved L s1 l ∧ v1 = v + evalLE L s1.coefficients s1.values l := by
  induction l generalizing s v with
  | nil =>
    simp only [hintLinExpLoop, Outcome.ret.injEq, Prod.mk.injEq, and_true] at h
    obtain ⟨_, hv⟩ := h
    subst hv
    exact ⟨fun t ht => by simp at ht, by simp [evalLE]⟩
  | cons t l ih =>
    simp only [hintLinExpLoop] at h
    obtain ⟨r, hr, h⟩ := Outcome.bind_eq_ret h
    have e1 := recursiveSolve_extends L recurse hrec s t r hr
    cases he : r.2 with
    | some err => simp [he] at h
    | none =>
      simp only [he] at h
      obtain ⟨v', hv', h⟩ := Outcome.bind_eq_ret h
      have hr' : recursiveSolve L recurse s t = .ret (r.1, none) := by
        rw [hr, ← he]
      have hts := recursiveSolve_solved L recurse hrec s t r.1 hwf hr'
      have hwf1 : HintsWF r.1.mHints := by rw [e1.mHints]; exact hwf
      obtain ⟨hws, hv1⟩ := ih r.1 v' hwf1 h
      have e2 := hintLinExpLoop_extends L recurse hrec l r.1 v' _ h
      have hv2 := accumulateInto_spec L r.1 t v v' hv'
      refine ⟨?_, ?_⟩
      · intro u hu
        rcases List.mem_cons.mp hu with rfl | hu
        · exact (e2.frozen _ hts).1
        · exact hws u hu
      · rw [hv1, evalLE_cons, termValue_extends L e2 t hts, hv2]; ring

theorem inputValue_extends {q : Nat} (L : TermLayout) {s s' : solution q} (e : s.Extends s')
    (inp : HintInput)
    (h : match inp with
      | .linExp l => WiresSolved L s l
      | .term t => s.solved[L.WireID t]? = some true
      | _ => True) :
    inputValue L s' inp = inputValue L s inp := by
  cases inp with
  | bigInt v => rfl
  | bigIntPtr v => rfl
  | linExp l => exact evalLE_extends L e l h
  | term t => exact termValue_extends L e t h

theorem reduced_val {q : Nat} [NeZero q] (v : ZMod q) :
    Reduced q ((ZMod.val v : Nat) : Int) ∧ ((((ZMod.val v : Nat) : Int)) : ZMod q) = v := by
  refine ⟨⟨by omega, ?_⟩, ?_⟩
  · exact_mod_cast ZMod.val_lt v
  · simp

theorem reduced_emod {q : Nat} [NeZero q] (z : Int) :
    Reduced q (z % (q : Int)) ∧ (((z % (q : Int) : Int)) : ZMod q) = (z : ZMod q) := by
  have hq : (q : Int) ≠ 0 := by
    have := NeZero.ne q
    omega
  refine ⟨⟨Int.emod_nonneg _ hq, Int.emod_lt_of_pos _ (by omega)⟩, ?_⟩
  exact ZMod.intCast_mod z q

theorem hintInputsLoop_inputs {q : Nat} [NeZero q] (L : TermLayout)
    (recurse : solution q → Nat → Hint → Outcome (solution q × Option Err))
    (hrec : ∀ s vID h r, recurse s vID h = .ret r → HintPost s vID h r)
    (ins : List HintInput) (s : solution q) (acc : List Int) (s1 : solution q)
    (inputs : List Int)
    (h : hintInputsLoop L recurse ins s acc = .ret (s1, inputs, none)) :
    ∃ new, inputs = acc ++ new ∧
      List.Forall₂ (fun inp x => Reduced q x ∧
        (HintsWF s.mHints → (x : ZMod q) = inputValue L s1 inp)) ins new := by
  induction ins generalizing s acc with
  | nil =>
    simp only [hintInputsLoop, Outcome.ret.injEq, Prod.mk.injEq, and_true] at h
    exact ⟨[], by simp [h.2], List.Forall₂.nil⟩
  | cons inp ins ih =>
    cases inp with
    | bigInt v =>
      simp only [hintInputsLoop] at h
      obtain ⟨new, hnew, hall⟩ := ih s _ h
      refine ⟨v % (q : Int) :: new, by simp [hnew], List.Forall₂.cons ?_ hall⟩
      exact ⟨(reduced_emod v).1, fun _ => (reduced_emod v).2⟩
    | bigIntPtr v =>
      simp only [hintInputsLoop] at h
      obtain ⟨new, hnew, hall⟩ := ih s _ h
      refine ⟨v % (q : Int) :: new, by simp [hnew], List.Forall₂.cons ?_ hall⟩
      exact ⟨(reduced_emod v).1, fun _ => (reduced_emod v).2⟩
    | linExp l =>
      simp only [hintInputsLoop] at h
      obtain ⟨r, hr, h⟩ := Outcome.bind_eq_ret h
      have e1 := hintLinExpLoop_extends L recurse hrec l s 0 r hr
      cases he : r.2.2 with
      | some err => simp [he] at h
      | none =>
        simp only [he] at h
        have e2 := hintInputsLoop_extends L recurse hrec ins r.1 _ _ h
        obtain ⟨new, hnew, hall⟩ := ih r.1 _ h
        refine ⟨_ :: new, by simp [hnew], List.Forall₂.cons ⟨(reduced_val r.2.1).1, ?_⟩ ?_⟩
        · intro hwf
          have hr' : hintLinExpLoop L recurse l s 0 = .ret (r.1, r.2.1, none) := by
            rw [hr, ← he]
          obtain ⟨hws, hv⟩ := hintLinExpLoop_value L recurse hrec l s 0 r.1 r.2.1 hwf hr'
          rw [(reduced_val r.2.1).2, hv, zero_add]
          exact (evalLE_extends L e2 l hws).symm
        · exact hall.imp (fun _ _ hx => ⟨hx.1, fun hwf => hx.2 (by rw [e1.mHints]; exact hwf)⟩)
    | term t =>
      simp only [hintInputsLoop] at h
      obtain ⟨r, hr, h⟩ := Outcome.bind_eq_ret h
      have e1 := recursiveSolve_extends L recurse hrec s t r hr
      cases he : r.2 with
      | some err => simp [he] at h
      | none =>
        simp only [he] at h
        obtain ⟨v, hv, h⟩ := Outcome.bind_eq_ret h
        have e2 := hintInputsLoop_extends L recurse hrec ins r.1 _ _ h
        obtain ⟨new, hnew, hall⟩ := ih r.1 _ h
        refine ⟨_ :: new, by simp [hnew], List.Forall₂.cons ⟨(reduced_val v).1, ?_⟩ ?_⟩
        · intro hwf
          have hr' : recursiveSolve L recurse s t = .ret (r.1, none) := by
            rw [hr, ← he]
          have hts := recursiveSolve_solved L recurse hrec s t r.1 hwf hr'
          rw [(reduced_val v).2, computeTerm_eq L r.1 t v hv]
          exact (termValue_extends L e2 t hts).symm
        · exact hall.imp (fun _ _ hx => ⟨hx.1, fun hwf => hx.2 (by rw [e1.mHints]; exact hwf)⟩)

/-- C17. Every big integer that `solveWithHint` hands to the hint function (the slice
built by its input loop from `h.Inputs`) is reduced modulo `q`: it lies in `[0, q)`, for a
linear expression, a term and a constant alike (negative constants and constants `≥ q`
included); and, the hint map being keyed by output wires, it is congruent modulo `q` to
the value of that input under the solution. -/
theorem hint_inputs_reduced {q : Nat} [NeZero q] (L : TermLayout) (fuel : Nat)
    (s : solution q) (h : Hint) (s1 : solution q) (inputs : List Int)
    (hr : hintInputsLoop L (solution.solveWithHint L fuel) h.Inputs s [] = .ret (s1, inputs, none)) :
    List.Forall₂ (fun inp x => (0 ≤ x ∧ x < (q : Int)) ∧
      (HintsWF s.mHints → (x : ZMod q) = inputValue L s1 inp)) h.Inputs inputs := by
  obtain ⟨new, hnew, hall⟩ := hintInputsLoop_inputs L _
    (fun s vID h r hh => solveWithHint_spec L fuel s vID h r hh) h.Inputs s [] s1 inputs hr
  simp only [List.nil_append] at hnew
  subst hnew
  exact hall

/-- Witness for C17: a linear expression, the constants `−3` and `20`, and the term
`2 · w1`, with `w1 = 5` in the field with 13 elements: the inputs are `5, 10, 7, 10`. -/
theorem hint_inputs_reduced_witness :
    List.Forall₂ (fun inp x => (0 ≤ x ∧ x < ((13 : Nat) : Int)) ∧
        (HintsWF (exampleHintSolution 5).mHints →
          (x : ZMod 13) = inputValue exampleLayout (exampleHintSolution 5) inp))
      [.linExp [mkTerm 1 1], .bigInt (-3), .bigIntPtr 20, .term (mkTerm 2 1)] [5, 10, 7, 10] :=
  hint_inputs_reduced exampleLayout 0 (exampleHintSolution 5)
    ⟨7, [2], [.linExp [mkTerm 1 1], .bigInt (-3), .bigIntPtr 20, .term (mkTerm 2 1)]⟩
    (exampleHintSolution 5) [5, 10, 7, 10] rfl

/-- Witness for C16: after `IsZero` was run for the wire `2` with `x = 5`, a second call
for the output wire returns the same state. -/
theorem solveWithHint_idempotent_witness :
    ∀ w ∈ exampleIsZeroHint.Wires,
      ({ exampleHintSolution 5 with
          values := [1, 5, 0], solved := [true, true, true], nbSolved := 3 } : solution 13
        ).solveWithHint exampleLayout (0 + 1) w.toNat exampleIsZeroHint
        = .ret ({ exampleHintSolution 5 with
          values := [1, 5, 0], solved := [true, true, true], nbSolved := 3 }, none) :=
  (solveWithHint_idempotent exampleLayout 0 (exampleHintSolution 5) 2 exampleIsZeroHint).2 1 _
    (by decide) rfl

/-! ## One constraint: solved wires, zero co-factor, and the errors of a solve -/

theorem processLExp_solved {q : Nat} (L : TermLayout) (fuel : Nat) (cs : R1CS q)
    (locValue : Nat) (l : LinearExpression) (s : solution q) (val : ZMod q) (loc : Nat)
    (ttc : Term) (hws : WiresSolved L s l) (hv : ∀ t ∈ l, L.WireID t < s.values.length)
    (hc : ∀ t ∈ l, L.CoeffID t < 4 ∨ L.CoeffID t < s.coefficients.length) :
    processLExp L fuel cs locValue l s val loc ttc
      = .ret ⟨s, val + evalLE L s.coefficients s.values l, loc, ttc, none⟩ := by
  induction l generalizing val with
  | nil => simp [processLExp, evalLE]
  | cons t l ih =>
    have hts := hws t (List.mem_cons_self _ _)
    simp only [processLExp, idx, hts, Outcome.bind_ret, if_true]
    rw [accumulateInto_ret L s t val (hv t (List.mem_cons_self _ _))
      (hc t (List.mem_cons_self _ _)), Outcome.bind_ret]
    rw [ih _ (fun u hu => hws u (List.mem_cons_of_mem _ hu))
      (fun u hu => hv u (List.mem_cons_of_mem _ hu))
      (fun u hu => hc u (List.mem_cons_of_mem _ hu)), evalLE_cons, add_assoc]

/-- C19. A constraint all of whose wires are solved (indices in range, coefficient IDs
reserved or in the pool), with `a`, `b`, `c` starting at zero: `solveConstraint` returns,
`a`, `b`, `c` hold `⟨L, w⟩`, `⟨R, w⟩`, `⟨O, w⟩`, it returns without error exactly when
`⟨L, w⟩ · ⟨R, w⟩ = ⟨O, w⟩`, and in both outcomes the solution is the one it was given. -/
theorem solveConstraint_all_solved {q : Nat} (L : TermLayout) (fuel : Nat) (cs : R1CS q)
    (r : R1C) (s : solution q)
    (hws : ∀ t ∈ r.L ++ r.R ++ r.O, s.solved[L.WireID t]? = some true)
    (hv : ∀ t ∈ r.L ++ r.R ++ r.O, L.WireID t < s.values.length)
    (hc : ∀ t ∈ r.L ++ r.R ++ r.O, L.CoeffID t < 4 ∨ L.CoeffID t < s.coefficients.length) :
    ∃ res, cs.solveConstraint L fuel r s 0 0 0 = .ret res ∧ res.s = s ∧
      res.a = evalLE L s.coefficients s.values r.L ∧
      res.b = evalLE L s.coefficients s.values r.R ∧
      res.c = evalLE L s.coefficients s.values r.O ∧
      (res.err = none ↔ evalLE L s.coefficients s.values r.L * evalLE L s.coefficients s.values r.R
        = evalLE L s.coefficients s.values r.O) := by
  have mL : ∀ t ∈ r.L, t ∈ r.L ++ r.R ++ r.O := fun t ht => by simp [ht]
  have mR : ∀ t ∈ r.R, t ∈ r.L ++ r.R ++ r.O := fun t ht => by simp [ht]
  have mO : ∀ t ∈ r.O, t ∈ r.L ++ r.R ++ r.O := fun t ht => by simp [ht]
  unfold R1CS.solveConstraint
  rw [processLExp_solved L fuel cs 1 r.L s 0 0 0 (fun t ht => hws t (mL t ht))
    (fun t ht => hv t (mL t ht)) (fun t ht => hc t (mL t ht)), Outcome.bind_ret]
  simp only
  rw [processLExp_solved L fuel cs 2 r.R s 0 0 0 (fun t ht => hws t (mR t ht))
    (fun t ht => hv t (mR t ht)) (fun t ht => hc t (mR t ht)), Outcome.bind_ret]
  simp only
  rw [processLExp_solved L fuel cs 3 r.O s 0 0 0 (fun t ht => hws t (mO t ht))
    (fun t ht => hv t (mO t ht)) (fun t ht => hc t (mO t ht)), Outcome.bind_ret]
  simp only [zero_add]
  unfold R1CS.solveUnknown
  simp only [if_true]
  by_cases heq : evalLE L s.coefficients s.values r.L * evalLE L s.coefficients s.values r.R
      = evalLE L s.coefficients s.values r.O
  · rw [if_pos heq]
    exact ⟨_, rfl, rfl, rfl, rfl, rfl, by simp [heq]⟩
  · rw [if_neg heq]
    exact ⟨_, rfl, rfl, rfl, rfl, rfl, by simp [heq]⟩

/-- Witness for C19: the constraint `w1 · 2·w0 = 2·w1` on `exampleSolution`. -/
theorem solveConstraint_all_solved_witness :
    ∃ res, exampleDiv.solveConstraint exampleLayout 1
        ⟨[mkTerm 1 1], [mkTerm 2 0], [mkTerm 2 1]⟩ exampleSolution 0 0 0 = .ret res ∧
      res.s = exampleSolution ∧
      res.a = evalLE exampleLayout exampleSolution.coefficients exampleSolution.values
        [mkTerm 1 1] ∧
      res.b = evalLE exampleLayout exampleSolution.coefficients exampleSolution.values
        [mkTerm 2 0] ∧
      res.c = evalLE exampleLayout exampleSolution.coefficients exampleSolution.values
        [mkTerm 2 1] ∧
      (res.err = none ↔
        evalLE exampleLayout exampleSolution.coefficients exampleSolution.values [mkTerm 1 1]
          * evalLE exampleLayout exampleSolution.coefficients exampleSolution.values
            [mkTerm 2 0]
          = evalLE exampleLayout exampleSolution.coefficients exampleSolution.values
            [mkTerm 2 1]) :=
  solveConstraint_all_solved exampleLayout 1 exampleDiv
    ⟨[mkTerm 1 1], [mkTerm 2 0], [mkTerm 2 1]⟩ exampleSolution (by decide) (by decide)
    (by decide)

theorem divByCoeff_zero_ret {q : Nat} (L : TermLayout) (cs : R1CS q) (t : Term)
    (h0 : L.CoeffID t ≠ CoeffIdZero)
    (hc : L.CoeffID t = CoeffIdOne ∨ L.CoeffID t = CoeffIdMinusOne
      ∨ L.CoeffID t < cs.Coefficients.length) :
    cs.divByCoeff L 0 t = .ret 0 := by
  unfold R1CS.divByCoeff idx
  simp only [CoeffIdZero, CoeffIdOne, CoeffIdMinusOne] at h0 hc ⊢
  by_cases h1 : L.CoeffID t = 1
  · simp [h1]
  · by_cases h3 : L.CoeffID t = 3
    · simp [h3]
    · simp only [h1, h3, h0, if_false]
      have hin : L.CoeffID t < cs.Coefficients.length := by
        rcases hc with h | h | h
        · exact absurd h h1
        · exact absurd h h3
        · exact h
      rw [List.getElem?_eq_getElem hin]
      simp

theorem instantiate_zero {q : Nat} (L : TermLayout) (cs : R1CS q) (s : solution q) (t : Term)
    (a b c : ZMod q) (h0 : L.CoeffID t ≠ CoeffIdZero)
    (hc : L.CoeffID t = CoeffIdOne ∨ L.CoeffID t = CoeffIdMinusOne
      ∨ L.CoeffID t < cs.Coefficients.length)
    (hs : s.solved[L.WireID t]? = some false) (hv : L.WireID t < s.values.length)
    (hn : s.nbSolved + 1 < 18446744073709551616) :
    cs.instantiate L s t a b c 0 = .ret ⟨{ s with
        values := s.values.set (L.WireID t) 0
        solved := s.solved.set (L.WireID t) true
        nbSolved := s.nbSolved + 1 }, a, b, c, none⟩ := by
  unfold R1CS.instantiate
  rw [divByCoeff_zero_ret L cs t h0 hc, Outcome.bind_ret]
  have hval : s.values[L.WireID t]? = some (s.values.getD (L.WireID t) 0) := by
    rw [List.getElem?_eq_getElem hv, List.getD_eq_getElem _ _ hv]
  unfold solution.set idx
  have hid : ¬ ((L.WireID t : Nat) : Int) < 0 := by omega
  simp only [hid, if_false, Int.toNat_ofNat, hs, hval, Outcome.bind_ret, Bool.false_eq_true,
    Nat.mod_eq_of_lt hn]

/-- C20. The unknown has a zero co-factor (it is in `L` and the accumulated `b` is `0`, or
in `R` and the accumulated `a` is `0`), the three calls of `processLExp` having returned
without error: `solveConstraint` does not divide by the co-factor. If `a · b ≠ c` it
returns the error and the solution is the one left by `processLExp` (the unknown is not
assigned). If `a · b = c` and the unknown (not solved, index in range, coefficient ID not
`ZERO` and `ONE`, `MINUS_ONE` or in the pool) can be assigned, it returns without error
and the unknown holds `0`. -/
theorem solveConstraint_zero_cofactor {q : Nat} (L : TermLayout) (fuel : Nat) (cs : R1CS q)
    (r : R1C) (s : solution q) (a0 b0 c0 : ZMod q) (p1 p2 p3 : LExpState q)
    (h1 : processLExp L fuel cs 1 r.L s a0 0 0 = .ret p1) (e1 : p1.err = none)
    (h2 : processLExp L fuel cs 2 r.R p1.s b0 p1.loc p1.termToCompute = .ret p2)
    (e2 : p2.err = none)
    (h3 : processLExp L fuel cs 3 r.O p2.s c0 p2.loc p2.termToCompute = .ret p3)
    (e3 : p3.err = none)
    (hz : (p3.loc = 1 ∧ p2.val = 0) ∨ (p3.loc = 2 ∧ p1.val = 0)) :
    (p1.val * p2.val ≠ p3.val →
        cs.solveConstraint L fuel r s a0 b0 c0 = .ret ⟨p3.s, p1.val, p2.val, p3.val,
          some (Err.notEqual (ZMod.val p1.val) (ZMod.val p2.val) (ZMod.val p3.val))⟩) ∧
      (p1.val * p2.val = p3.val → L.CoeffID p3.termToCompute ≠ CoeffIdZero →
        (L.CoeffID p3.termToCompute = CoeffIdOne ∨ L.CoeffID p3.termToCompute = CoeffIdMinusOne
          ∨ L.CoeffID p3.termToCompute < cs.Coefficients.length) →
        p3.s.solved[L.WireID p3.termToCompute]? = some false →
        L.WireID p3.termToCompute < p3.s.values.length →
        p3.s.nbSolved + 1 < 18446744073709551616 →
        cs.solveConstraint L fuel r s a0 b0 c0 = .ret ⟨{ p3.s with
            values := p3.s.values.set (L.WireID p3.termToCompute) 0
            solved := p3.s.solved.set (L.WireID p3.termToCompute) true
            nbSolved := p3.s.nbSolved + 1 }, p1.val, p2.val, p3.val, none⟩) := by
  have hsc : cs.solveConstraint L fuel r s a0 b0 c0
      = cs.solveUnknown L p3.s p3.loc p3.termToCompute p1.val p2.val p3.val := by
    unfold R1CS.solveConstraint
    rw [h1, Outcome.bind_ret]
    simp only [e1]
    rw [h2, Outcome.bind_ret]
    simp only [e2]
    rw [h3, Outcome.bind_ret]
    simp only [e3]
  rw [hsc]
  unfold R1CS.solveUnknown
  rcases hz with ⟨hl, hb⟩ | ⟨hl, ha⟩
  · simp only [hl, hb, OfNat.one_ne_ofNat, one_ne_zero, if_false, if_true, ne_eq,
      not_true_eq_false]
    constructor
    · intro hne
      rw [if_neg hne]
    · intro heq h0 hc hs hv hn
      rw [if_pos heq]
      exact instantiate_zero L cs p3.s p3.termToCompute p1.val 0 p3.val h0 hc hs hv hn
  · have h21 : ¬ ((2 : Nat) = 1) := by decide
    have h20 : ¬ ((2 : Nat) = 0) := by decide
    simp only [hl, ha, h21, h20, if_false, if_true, ne_eq, not_true_eq_false]
    constructor
    · intro hne
      rw [if_neg hne]
    · intro heq h0 hc hs hv hn
      rw [if_pos heq]
      exact instantiate_zero L cs p3.s p3.termToCompute 0 p2.val p3.val h0 hc hs hv hn

/-- Witness for C20: the constraint `w3 · x = y` of `exampleDiv` with `x = 0` and
`y = 0`: the unknown `w3` is in `L`, `b = 0`, and `w3` is assigned `0`. -/
theorem solveConstraint_zero_cofactor_witness :
    exampleDiv.solveConstraint exampleLayout 1 ⟨[mkTerm 1 3], [mkTerm 1 2], [mkTerm 1 1]⟩
        exampleZeroState 0 0 0
      = .ret ⟨{ exampleZeroState with
          values := exampleZeroState.values.set (exampleLayout.WireID (mkTerm 1 3)) 0
          solved := exampleZeroState.solved.set (exampleLayout.WireID (mkTerm 1 3)) true
          nbSolved := exampleZeroState.nbSolved + 1 }, 0, 0, 0, none⟩ :=
  (solveConstraint_zero_cofactor exampleLayout 1 exampleDiv
    ⟨[mkTerm 1 3], [mkTerm 1 2], [mkTerm 1 1]⟩ exampleZeroState 0 0 0
    ⟨exampleZeroState, 0, 1, mkTerm 1 3, none⟩ ⟨exampleZeroState, 0, 1, mkTerm 1 3, none⟩
    ⟨exampleZeroState, 0, 1, mkTerm 1 3, none⟩ rfl rfl rfl rfl rfl rfl
    (Or.inl ⟨rfl, rfl⟩)).2 (by decide) (by decide) (by decide) (by decide) (by decide)
    (by decide)

/-- The error is an `UnsatisfiedConstraintError` whose `CID` is a constraint index `i` and
whose `Err` is an error returned by `solveConstraint` for the constraint `i`. -/
def Wrapped {q : Nat} (L : TermLayout) (fuel : Nat) (cs : R1CS q) (e : Err) : Prop :=
  ∃ (i : Int) (inner : Err) (st0 st1 : SolveState q),
    e = Err.unsatisfiedConstraint i inner ∧ cs.solveAt L fuel i st0 = .ret (st1, some inner)

theorem solveTask_error {q : Nat} (L : TermLayout) (fuel : Nat) (cs : R1CS q)
    (idxs : List Int) (st st' : SolveState q) (e : Err)
    (h : cs.solveTask L fuel idxs st = .ret (st', some e)) : Wrapped L fuel cs e := by
  induction idxs generalizing st with
  | nil => simp [R1CS.solveTask] at h
  | cons i rest ih =>
    simp only [R1CS.solveTask] at h
    obtain ⟨r, hr, h⟩ := Outcome.bind_eq_ret h
    cases he : r.2 with
    | some err =>
      simp only [he, Outcome.ret.injEq, Prod.mk.injEq, Option.some.injEq] at h
      exact ⟨i, err, st, r.1, h.2.symm, by rw [hr, ← he]⟩
    | none =>
      simp only [he] at h
      exact ih r.1 h

theorem dispatchLoop_errors {q : Nat} (L : TermLayout) (fuel : Nat) (cs : R1CS q)
    (level : List Int) (per n i : Nat) (extra : Int) (off : Nat) (st st' : SolveState q)
    (errs out : List Err) (herrs : ∀ e ∈ errs, Wrapped L fuel cs e)
    (h : cs.dispatchLoop L fuel level per n i extra off st errs = .ret (st', out)) :
    ∀ e ∈ out, Wrapped L fuel cs e := by
  induction n generalizing i extra off st errs with
  | zero =>
    simp only [R1CS.dispatchLoop, Outcome.ret.injEq, Prod.mk.injEq] at h
    obtain ⟨_, rfl⟩ := h
    exact herrs
  | succ n ih =>
    simp only [R1CS.dispatchLoop] at h
    obtain ⟨task, _, h⟩ := Outcome.bind_eq_ret h
    obtain ⟨r, hr, h⟩ := Outcome.bind_eq_ret h
    refine ih _ _ _ _ _ ?_ h
    intro e he
    rcases List.mem_append.mp he with he | he
    · exact herrs e he
    · cases h2 : r.2 with
      | none => rw [h2] at he; simp at he
      | some err =>
        rw [h2] at he
        simp only [Option.toList_some, List.mem_singleton] at he
        subst he
        exact solveTask_error L fuel cs task st r.1 e (by rw [hr, ← h2])

theorem levelsLoop_error {q : Nat} (L : TermLayout) (cpuCount fuel : Nat) (cs : R1CS q)
    (levels : List (List Int)) (st st' : SolveState q) (e : Err)
    (h : cs.levelsLoop L cpuCount fuel levels st = .ret (st', some e)) :
    Wrapped L fuel cs e := by
  induction levels generalizing st with
  | nil => simp [R1CS.levelsLoop] at h
  | cons level rest ih =>
    by_cases hseq : level.length ≤ 50
    · simp only [R1CS.levelsLoop, hseq, if_true] at h
      obtain ⟨r, hr, h⟩ := Outcome.bind_eq_ret h
      cases he : r.2 with
      | some err =>
        simp only [he, Outcome.ret.injEq, Prod.mk.injEq, Option.some.injEq] at h
        obtain ⟨_, rfl⟩ := h
        exact solveTask_error L fuel cs level st r.1 err (by rw [hr, ← he])
      | none =>
        simp only [he] at h
        exact ih r.1 h
    · simp only [R1CS.levelsLoop, hseq, if_false] at h
      obtain ⟨r, hr, h⟩ := Outcome.bind_eq_ret h
      cases he : r.2 with
      | cons err errs =>
        simp only [he, Outcome.ret.injEq, Prod.mk.injEq, Option.some.injEq] at h
        obtain ⟨_, rfl⟩ := h
        have hall : ∀ e ∈ r.2, Wrapped L fuel cs e := by
          unfold R1CS.dispatchLevel at hr
          by_cases hnb : taskCount cpuCount level.length = 0
          · rw [if_pos hnb] at hr
            exact Outcome.noConfusion hr
          · rw [if_neg hnb] at hr
            simp only at hr
            by_cases hper : level.length / taskCount cpuCount level.length < 1
            · rw [if_pos hper] at hr
              exact dispatchLoop_errors L fuel cs level _ _ _ _ _ st r.1 [] r.2
                (fun e he => by simp at he) hr
            · rw [if_neg hper] at hr
              exact dispatchLoop_errors L fuel cs level _ _ _ _ _ st r.1 [] r.2
                (fun e he => by simp at he) hr
        exact hall err (by rw [he]; exact List.mem_cons_self _ _)
      | nil =>
        simp only [he] at h
        exact ih r.1 h

theorem solveWithHint_error {q : Nat} (L : TermLayout) (fuel : Nat) (s : solution q)
    (vID : Nat) (h : Hint) (f : HintFunction) (s1 s2 : solution q) (ins ins' outs : List Int)
    (e0 : Option Err) (hs : s.solved[vID]? = some false)
    (hf : s.mHintsFunctions.lookup h.ID = some f)
    (hin : hintInputsLoop L (solution.solveWithHint L fuel) h.Inputs s [] = .ret (s1, ins, none))
    (hcall : f q ins (List.replicate h.Wires.length 0) = .ret (ins', outs, e0))
    (hset : setHintOutputs h.Wires 0 outs s1 = .ret s2) :
    s.solveWithHint L (fuel + 1) vID h = .ret (s2, e0) := by
  simp only [solution.solveWithHint, idx, hs, Outcome.bind_ret, Bool.false_eq_true, if_false,
    hf, hin, hcall, hset]

/-- C18, amended. A hint function that returns an error `e0` makes `solveWithHint` return
`e0` itself, after the output wires were assigned; and every error that `Solve` returns is
the missing-hints error of `newSolution`, one of the two input-size errors, or an
`UnsatisfiedConstraintError` with `CID: i` wrapping an error returned by
`solveConstraint` for the constraint `i`. There is no other kind of error for hints. -/
theorem Solve_error_kinds {q : Nat} (L : TermLayout) (cpuCount fuel : Nat) (cs : R1CS q)
    (witness a b c : List (ZMod q)) (opt : ProverConfig) (res : SolveResult q) (e : Err)
    (h : cs.Solve L cpuCount fuel witness a b c opt = .ret res) (he : res.err = some e) :
    ((∃ names, e = Err.missingHints names) ∨ e = Err.invalidWitnessSize
        ∨ e = Err.invalidInputSize ∨ Wrapped L fuel cs e) ∧
      ∀ (s : solution q) (vID : Nat) (hint : Hint) (f : HintFunction) (s1 s2 : solution q)
        (ins ins' outs : List Int) (e0 : Option Err), s.solved[vID]? = some false →
        s.mHintsFunctions.lookup hint.ID = some f →
        hintInputsLoop L (solution.solveWithHint L fuel) hint.Inputs s [] = .ret (s1, ins, none) →
        f q ins (List.replicate hint.Wires.length 0) = .ret (ins', outs, e0) →
        setHintOutputs hint.Wires 0 outs s1 = .ret s2 →
        s.solveWithHint L (fuel + 1) vID hint = .ret (s2, e0) := by
  refine ⟨?_, fun s vID hint f s1 s2 ins ins' outs e0 =>
    solveWithHint_error L fuel s vID hint f s1 s2 ins ins' outs e0⟩
  unfold R1CS.Solve at h
  simp only at h
  obtain ⟨ns, hns, h⟩ := Outcome.bind_eq_ret h
  have h0 : 0 ≤ cs.NbPublicVariables + cs.NbSecretVariables + cs.NbInternalVariables := by
    by_contra hc
    unfold newSolution at hns
    rw [if_pos (by omega)] at hns
    exact Outcome.noConfusion hns
  rw [newSolution_ret _ _ _ _ _ h0] at hns
  simp only [Outcome.ret.injEq] at hns
  subst hns
  simp only at h
  by_cases hm : missingHintNames opt.HintFunctions cs.MHintsDependencies = []
  · simp only [hm, if_true] at h
    by_cases hw : (witness.length : Int) ≠ cs.NbPublicVariables - 1 + cs.NbSecretVariables
    · rw [if_pos hw] at h
      simp only [Outcome.ret.injEq] at h
      subst h
      simp only [Option.some.injEq] at he
      exact Or.inr (Or.inl he.symm)
    · rw [if_neg hw] at h
      by_cases hbuf : a.length ≠ cs.Constraints.length ∨ b.length ≠ cs.Constraints.length
          ∨ c.length ≠ cs.Constraints.length
      · rw [if_pos hbuf] at h
        simp only [Outcome.ret.injEq] at h
        subst h
        simp only [Option.some.injEq] at he
        exact Or.inr (Or.inr (Or.inl he.symm))
      · rw [if_neg hbuf] at h
        obtain ⟨s1, _, h⟩ := Outcome.bind_eq_ret h
        obtain ⟨r, hr, h⟩ := Outcome.bind_eq_ret h
        cases hr2 : r.2 with
        | some err =>
          simp only [hr2, Outcome.ret.injEq] at h
          subst h
          simp only [Option.some.injEq] at he
          subst he
          exact Or.inr (Or.inr (Or.inr (levelsLoop_error L cpuCount fuel cs cs.Levels _ r.1 err
            (by unfold R1CS.parallelSolve at hr; rw [hr, ← hr2]))))
        | none =>
          simp only [hr2] at h
          by_cases hv : r.1.s.isValid = true
          · simp only [hv, if_true, Outcome.ret.injEq] at h
            subst h
            simp at he
          · simp [hv] at h
  · simp only [hm, if_false, Outcome.ret.injEq] at h
    subst h
    simp only [Option.some.injEq] at he
    exact Or.inl ⟨_, he.symm⟩

theorem exampleFailingHint_run :
    (exampleFailingHint.Solve exampleLayout 4 1 [3] [0] [0] [0] ⟨[(9, failingHint)]⟩).map
        SolveResult.observe
      = .ret ⟨[1, 3, 0], some (Err.unsatisfiedConstraint 0 (Err.hintFunction "boom")),
          [3], [0], [0], [true, true, true], 3⟩ := by
  decide

/-- Counterexample to C18 as stated: on `exampleFailingHint` the hint function returns
the error `boom`, and `Solve` returns it wrapped in an `UnsatisfiedConstraintError` with
`CID: 0`, the very kind of error of a failed check `a · b == c`. -/
theorem Solve_hint_error_counterexample :
    ∃ res, exampleFailingHint.Solve exampleLayout 4 1 [3] [0] [0] [0] ⟨[(9, failingHint)]⟩
        = .ret res ∧
      res.err = some (Err.unsatisfiedConstraint 0 (Err.hintFunction "boom")) := by
  obtain ⟨res, hres, hobs⟩ := Outcome.map_eq_ret exampleFailingHint_run
  exact ⟨res, hres, observe_err hobs⟩

/-- Witness for C18, amended: the run of `exampleFailingHint`. -/
theorem Solve_error_kinds_witness :
    ∃ res, exampleFailingHint.Solve exampleLayout 4 1 [3] [0] [0] [0] ⟨[(9, failingHint)]⟩
        = .ret res ∧
      ((∃ names, Err.unsatisfiedConstraint 0 (Err.hintFunction "boom")
            = Err.missingHints names)
        ∨ Err.unsatisfiedConstraint 0 (Err.hintFunction "boom") = Err.invalidWitnessSize
        ∨ Err.unsatisfiedConstraint 0 (Err.hintFunction "boom") = Err.invalidInputSize
        ∨ Wrapped exampleLayout 1 exampleFailingHint
            (Err.unsatisfiedConstraint 0 (Err.hintFunction "boom"))) := by
  obtain ⟨res, hres, hobs⟩ := Outcome.map_eq_ret exampleFailingHint_run
  exact ⟨res, hres, (Solve_error_kinds exampleLayout 4 1 exampleFailingHint [3] [0] [0] [0]
    ⟨[(9, failingHint)]⟩ res _ hres (observe_err hobs)).1⟩

/-! ## Layout of the constraint block and the count of WriteTo -/

/-- The little-endian encoding of `x` on `n` bytes. -/
def littleEndian : Nat → Nat → List Nat
  | 0, _ => []
  | n + 1, x => x % 256 :: littleEndian n (x / 256)

/-- The specified layout of a linear expression: the number of terms on 8 bytes, then
each term on 8 bytes, little-endian. -/
def layoutLinearExpression (E : LinearExpression) : List Nat :=
  littleEndian 8 E.length ++ E.flatMap (littleEndian 8)

/-- The specified layout of the constraint block: the number of constraints on 8 bytes,
then for each constraint its `L`, `R` and `O`. -/
def layoutConstraints (cs : List R1C) : List Nat :=
  littleEndian 8 cs.length ++ cs.flatMap fun r =>
    layoutLinearExpression r.L ++ layoutLinearExpression r.R ++ layoutLinearExpression r.O

theorem uint64_to_byte_eq (x : Nat) : uint64_to_byte x = littleEndian 8 x := by
  simp only [uint64_to_byte, littleEndian, Nat.div_div_eq_div_mul]

theorem uint64_to_byte_mod (x : Nat) :
    uint64_to_byte (x % 18446744073709551616) = littleEndian 8 x := by
  rw [← uint64_to_byte_eq]
  unfold uint64_to_byte
  congr 1
  · omega
  congr 1
  · omega
  congr 1
  · omega
  congr 1
  · omega
  congr 1
  · omega
  congr 1
  · omega
  congr 1
  · omega
  congr 1
  · omega

theorem encodeLinearExpression_layout (E : LinearExpression) :
    encodeLinearExpression E = layoutLinearExpression E := by
  rw [encodeLinearExpression_eq, uint64_to_byte_mod]
  unfold layoutLinearExpression termsBytes
  congr 1
  induction E with
  | nil => rfl
  | cons t E ih => simp only [List.flatMap_cons, ih, uint64_to_byte_mod]

theorem constraintsBytes_length (cs : List R1C) :
    (constraintsBytes cs).length
      = (cs.map fun r => 24 + 8 * (r.L.length + r.R.length + r.O.length)).sum := by
  induction cs with
  | nil => rfl
  | cons r cs ih =>
    simp only [constraintsBytes, List.flatMap_cons, List.length_append,
      encodeLinearExpression_length, List.map_cons, List.sum_cons] at ih ⊢
    omega

/-- C27. `encodeConstraints` follows the specified layout of the constraint block; its
length is `8 + Σ (24 + 8·(|L| + |R| + |O|))`; and `decodeLinearExpression` reports
`8 + 8·|E|` consumed bytes on the encoding of an expression `E` (of fewer than `2^63`
terms, each a `uint64`), whatever follows it. -/
theorem encodeConstraints_layout (cs : List R1C) (E : LinearExpression) (rest : List Nat)
    (hE : LinearExpression.wf E) :
    encodeConstraints cs = layoutConstraints cs ∧
      (encodeConstraints cs).length
        = 8 + (cs.map fun r => 24 + 8 * (r.L.length + r.R.length + r.O.length)).sum ∧
      decodeLinearExpression (encodeLinearExpression E ++ rest) = some (E, 8 + 8 * E.length) := by
  refine ⟨?_, ?_, decodeLinearExpression_append E hE rest⟩
  · rw [encodeConstraints_eq, uint64_to_byte_mod]
    unfold layoutConstraints constraintsBytes
    congr 1
    induction cs with
    | nil => rfl
    | cons r cs ih =>
      simp only [List.flatMap_cons, ih, encodeLinearExpression_layout, List.append_assoc]
  · rw [encodeConstraints_eq, List.length_append, uint64_to_byte_length,
      constraintsBytes_length]

/-- Witness for C27: one constraint `[5, 6] · [7] = []` and the expression `[5, 6]`. -/
theorem encodeConstraints_layout_witness :
    encodeConstraints [⟨[5, 6], [7], []⟩] = layoutConstraints [⟨[5, 6], [7], []⟩] ∧
      (encodeConstraints [⟨[5, 6], [7], []⟩]).length
        = 8 + (([⟨[5, 6], [7], []⟩] : List R1C).map fun r =>
            24 + 8 * (r.L.length + r.R.length + r.O.length)).sum ∧
      decodeLinearExpression (encodeLinearExpression [5, 6] ++ [1, 2, 3])
        = some ([5, 6], 8 + 8 * ([5, 6] : LinearExpression).length) :=
  encodeConstraints_layout [⟨[5, 6], [7], []⟩] [5, 6] [1, 2, 3] (by decide)

theorem WriteTo_eq (w : List Nat) (mhints : MHints) (constraints : List R1C)
    (generic : List (List Nat)) :
    WriteTo w mhints constraints generic
      = (encodeMHints mhints).map fun hb =>
          (w ++ uint64_to_byte (hb.length % 18446744073709551616) ++ hb
            ++ uint64_to_byte ((encodeConstraints constraints).length % 18446744073709551616)
            ++ encodeConstraints constraints ++ generic.flatten,
           ((generic.flatten.length : Nat) : Int)) := by
  unfold WriteTo encodeMHintsToWriter encodeConstraintsToWriter
  cases encodeMHints mhints with
  | none => rfl
  | some hb =>
    simp only [Option.map_some']
    congr 1
    generalize w ++ uint64_to_byte (hb.length % 18446744073709551616) ++ hb
      ++ uint64_to_byte ((encodeConstraints constraints).length % 18446744073709551616)
      ++ encodeConstraints constraints = w0
    have key : ∀ (c : WriterCounter),
        generic.foldl (fun _w part => (⟨_w.W ++ part, _w.N + part.length⟩ : WriterCounter)) c
          = ⟨c.W ++ generic.flatten, c.N + generic.flatten.length⟩ := by
      induction generic with
      | nil => intro c; simp
      | cons p ps ih =>
        intro c
        rw [List.foldl_cons, ih]
        simp only [List.flatten_cons, List.append_assoc, List.length_append, Nat.cast_add]
        congr 1
        ring
    rw [key]
    simp

/-- C25, refuted. Whenever `WriteTo` returns on an empty writer, the writer holds the
length-prefixed hint-map block, the length-prefixed constraint block and the generic part,
but the count returned is the length of the generic part only: the count is short by
`16 + len(hint block) + len(constraint block)` bytes. -/
theorem WriteTo_count_short (mhints : MHints) (constraints : List R1C)
    (generic : List (List Nat)) :
    (WriteTo [] mhints constraints generic).map (fun r => ((r.1.length : Nat) : Int) - r.2)
      = (encodeMHints mhints).map fun hb =>
          (((16 + hb.length + (encodeConstraints constraints).length : Nat)) : Int) := by
  rw [WriteTo_eq]
  cases encodeMHints mhints with
  | none => rfl
  | some hb =>
    simp only [Option.map_some', List.nil_append, List.length_append, uint64_to_byte_length,
      Option.some.injEq, Nat.cast_add]
    push_cast
    ring

/-! ## The initialisation of the solution -/

theorem markWitnessSolved_ret (n i : Nat) (solved : List Bool) (h : i + n < solved.length) :
    ∃ solved', markWitnessSolved n i solved = .ret solved' ∧
      solved'.length = solved.length ∧
      ∀ j : Nat, solved'[j]? = if i < j ∧ j ≤ i + n then some true else solved[j]? := by
  induction n generalizing i solved with
  | zero =>
    refine ⟨solved, rfl, rfl, ?_⟩
    intro j
    have : ¬ (i < j ∧ j ≤ i + 0) := by omega
    rw [if_neg this]
  | succ n ih =>
    have hlt : i + 1 < solved.length := by omega
    obtain ⟨solved', hs, hlen, hget⟩ := ih (i + 1) (solved.set (i + 1) true)
      (by rw [List.length_set]; omega)
    refine ⟨solved', ?_, by rw [hlen, List.length_set], ?_⟩
    · simp only [markWitnessSolved, idx, List.getElem?_eq_getElem hlt, Outcome.bind_ret]
      exact hs
    · intro j
      rw [hget j]
      by_cases hj : j = i + 1
      · subst hj
        have h1 : ¬ (i + 1 < i + 1 ∧ i + 1 ≤ i + 1 + n) := by omega
        have h2 : i < i + 1 ∧ i + 1 ≤ i + (n + 1) := by omega
        rw [if_neg h1, if_pos h2, List.getElem?_set_self hlt]
      · rw [List.getElem?_set_ne (Ne.symm hj)]
        by_cases hc : i + 1 < j ∧ j ≤ i + 1 + n
        · rw [if_pos hc, if_pos (by omega)]
        · rw [if_neg hc, if_neg (by omega)]

theorem initSolution_ret {q : Nat} (N : Nat) (coefficients : List (ZMod q))
    (hf : List (Nat × HintFunction)) (mHints : List (Int × Hint)) (witness : List (ZMod q))
    (hN : witness.length + 1 ≤ N) (h64 : witness.length + 1 < 18446744073709551616) :
    ∃ s1, initSolution (freshSolution N hf mHints coefficients) witness = .ret s1 ∧
      s1.values = 1 :: witness ++ List.replicate (N - 1 - witness.length) 0 ∧
      s1.solved.length = N ∧
      (∀ j : Nat, j < N → s1.solved[j]? = some (decide (j ≤ witness.length))) ∧
      s1.nbSolved = witness.length + 1 ∧ s1.coefficients = coefficients ∧
      s1.mHints = mHints ∧ s1.mHintsFunctions = hf := by
  obtain ⟨solved', hs, hlen, hget⟩ := markWitnessSolved_ret witness.length 0
    ((List.replicate N false).set 0 true) (by simp; omega)
  have h0 : 0 < N := by omega
  have hrun : initSolution (freshSolution N hf mHints coefficients) witness
      = .ret ⟨List.take 1 ((List.replicate N (0 : ZMod q)).set 0 1)
            ++ copySlice (List.drop 1 ((List.replicate N (0 : ZMod q)).set 0 1)) witness,
          coefficients, solved', (0 + (witness.length + 1)) % 18446744073709551616, hf,
          mHints⟩ := by
    unfold initSolution freshSolution idx
    simp only [List.getElem?_replicate, h0, if_true, Outcome.bind_ret, hs]
  refine ⟨_, hrun, ?_, ?_, ?_, ?_, rfl, rfl, rfl⟩
  · simp only
    obtain ⟨M, rfl⟩ : ∃ M, N = M + 1 := ⟨N - 1, by omega⟩
    simp only [List.replicate_succ, List.set_cons_zero, List.take_succ_cons, List.take_zero,
      List.drop_succ_cons, List.drop_zero, copySlice, List.length_replicate,
      List.drop_replicate, List.singleton_append, List.cons_append, List.nil_append]
    rw [List.take_of_length_le (by omega)]
    simp
  · simp only
    rw [hlen]
    simp
  · intro j hj
    simp only
    rw [hget j]
    by_cases hj0 : j = 0
    · subst hj0
      simp [List.getElem?_set_self, h0]
    · rw [List.getElem?_set_ne (by omega), List.getElem?_replicate]
      by_cases hc : 0 < j ∧ j ≤ 0 + witness.length
      · rw [if_pos hc]
        simp only [Option.some.injEq]
        exact (decide_eq_true (by omega)).symm
      · rw [if_neg hc, if_pos hj]
        simp only [Option.some.injEq]
        exact (decide_eq_false (by omega)).symm
  · simp only [Nat.zero_add]
    exact Nat.mod_eq_of_lt h64

/-- C30, amended. After the initialisation of `Solve` on the fresh state with a witness of
the required length `P − 1 + S` (and `P + S ≤ N` wires): `values[0] = 1`, the witness
occupies the indices `1, ..., P + S − 1`, the wires `0, ..., P + S − 1` and no others are
marked solved, and `nbSolved` is `len(witness) + 1 = P + S`. -/
theorem initSolution_witness {q : Nat} (cs : R1CS q) (opt : ProverConfig)
    (witness : List (ZMod q))
    (hw : (witness.length : Int) = cs.NbPublicVariables - 1 + cs.NbSecretVariables)
    (hI : 0 ≤ cs.NbInternalVariables)
    (h64 : cs.NbPublicVariables + cs.NbSecretVariables < 18446744073709551616) :
    ∃ s1, initSolution (freshSolution
          (cs.NbPublicVariables + cs.NbSecretVariables + cs.NbInternalVariables).toNat
          opt.HintFunctions cs.MHints cs.Coefficients) witness = .ret s1 ∧
      s1.values[0]? = some 1 ∧
      (∀ i : Nat, i < witness.length → s1.values[i + 1]? = witness[i]?) ∧
      (∀ j : Nat, j < (cs.NbPublicVariables + cs.NbSecretVariables
          + cs.NbInternalVariables).toNat →
        s1.solved[j]? = some (decide (j ≤ witness.length))) ∧
      (s1.nbSolved : Int) = cs.NbPublicVariables + cs.NbSecretVariables := by
  obtain ⟨s1, hs1, hval, _, hsol, hnb, _⟩ := initSolution_ret
    (cs.NbPublicVariables + cs.NbSecretVariables + cs.NbInternalVariables).toNat
    cs.Coefficients opt.HintFunctions cs.MHints witness (by omega) (by omega)
  refine ⟨s1, hs1, ?_, ?_, hsol, ?_⟩
  · rw [hval]; simp
  · intro i hi
    rw [hval, List.cons_append, List.getElem?_cons_succ, List.getElem?_append_left hi]
  · rw [hnb]
    push_cast
    omega

/-- Witness for C30, amended: `exampleDiv` (`P = 2`, `S = 1`) and the witness `[9, 2]`. -/
theorem initSolution_witness_witness :
    ∃ s1, initSolution (freshSolution
          (exampleDiv.NbPublicVariables + exampleDiv.NbSecretVariables
            + exampleDiv.NbInternalVariables).toNat
          [] exampleDiv.MHints exampleDiv.Coefficients) [9, 2] = .ret s1 ∧
      s1.values[0]? = some 1 ∧
      (∀ i : Nat, i < ([9, 2] : List (ZMod 13)).length →
        s1.values[i + 1]? = ([9, 2] : List (ZMod 13))[i]?) ∧
      (∀ j : Nat, j < (exampleDiv.NbPublicVariables + exampleDiv.NbSecretVariables
          + exampleDiv.NbInternalVariables).toNat →
        s1.solved[j]? = some (decide (j ≤ ([9, 2] : List (ZMod 13)).length))) ∧
      (s1.nbSolved : Int) = exampleDiv.NbPublicVariables + exampleDiv.NbSecretVariables :=
  initSolution_witness exampleDiv ⟨[]⟩ [9, 2] (by decide) (by decide) (by decide)

/-- Counterexample to C30 as stated: for `exampleDiv` (`P = 2`, `S = 1`) and the witness
`[9, 2]` the initialisation leaves `nbSolved = 3`, the number of solved wires, and not
`1 + P + S − 1 + 1 = 4`. -/
theorem initSolution_counterexample :
    (initSolution (freshSolution 4 [] [] exampleDiv.Coefficients) [9, 2]).map
        (fun s => (s.values.map ZMod.val, s.solved, s.nbSolved))
      = .ret ([1, 9, 2, 0], [true, true, true, false], 3)
    ∧ (3 : Int) ≠ 1 + exampleDiv.NbPublicVariables + exampleDiv.NbSecretVariables - 1 + 1 := by
  refine ⟨by decide, by decide⟩

/-! ## Scheduling of a level: threshold and chunks -/

/-- Where the `j`-th of `W` chunks of `n` elements starts. -/
def chunkStart (n W j : Nat) : Nat := j * (n / W) + min j (n % W)

/-- Where the `j`-th of `W` chunks of `n` elements ends. -/
def chunkEnd (n W j : Nat) : Nat := chunkStart n W j + n / W + (if j < n % W then 1 else 0)

theorem dispatchLoop_eq_runTasks {q : Nat} (L : TermLayout) (fuel : Nat) (cs : R1CS q)
    (level : List Int) (per n i : Nat) (extra : Int) (off : Nat) (st : SolveState q)
    (errs : List Err) :
    cs.dispatchLoop L fuel level per n i extra off st errs
      = cs.runTasks L fuel level (taskBounds per n i extra off) st errs := by
  induction n generalizing i extra off st errs with
  | zero => rfl
  | succ n ih =>
    simp only [R1CS.dispatchLoop, taskBounds, R1CS.runTasks]
    congr 1
    funext task
    congr 1
    funext r
    exact ih _ _ _ _ _

theorem dispatchLevel_eq_runTasks {q : Nat} (L : TermLayout) (fuel : Nat) (cs : R1CS q)
    (level : List Int) (cpuCount : Nat) (st : SolveState q) (h50 : ¬ level.length ≤ 50) :
    cs.dispatchLevel L fuel level (taskCount cpuCount level.length) st
      = (levelTasks cpuCount level.length).bind fun ts => cs.runTasks L fuel level ts st [] := by
  unfold R1CS.dispatchLevel levelTasks
  rw [if_neg h50]
  by_cases hnb : taskCount cpuCount level.length = 0
  · simp only [hnb, if_true, Outcome.bind_panic]
  · simp only [hnb, if_false]
    by_cases hper : level.length / taskCount cpuCount level.length < 1
    · simp only [hper, if_true, Outcome.bind_ret, dispatchLoop_eq_runTasks]
    · simp only [hper, if_false, Outcome.bind_ret, dispatchLoop_eq_runTasks]

theorem taskBounds_length (per n i : Nat) (extra : Int) (off : Nat) :
    (taskBounds per n i extra off).length = n := by
  induction n generalizing i extra off with
  | zero => rfl
  | succ n ih => simp only [taskBounds, List.length_cons, ih]

theorem taskBounds_getElem (per n i : Nat) (extra : Int) (off : Nat) (hextra : 0 ≤ extra)
    (j : Nat) (hj : j < n) :
    (taskBounds per n i extra off)[j]?
      = some ((i + j) * per + off + min j extra.toNat,
          (i + j) * per + off + min j extra.toNat + per
            + (if j < extra.toNat then 1 else 0)) := by
  induction n generalizing i extra off j with
  | zero => omega
  | succ n ih =>
    cases j with
    | zero =>
      simp only [taskBounds, List.getElem?_cons_zero, Nat.add_zero, Nat.zero_min,
        Option.some.injEq, Prod.mk.injEq, true_and]
      by_cases hpos : extra > 0
      · have : 0 < extra.toNat := by omega
        simp only [hpos, this, if_true]
      · have : ¬ 0 < extra.toNat := by omega
        simp only [hpos, this, if_false, Nat.add_zero]
    | succ j =>
      simp only [taskBounds, List.getElem?_cons_succ]
      have hij : i + 1 + j = i + (j + 1) := by omega
      by_cases hpos : extra > 0
      · simp only [hpos, if_true]
        rw [ih (i + 1) (extra - 1) (off + 1) (by omega) j (by omega), hij]
        have h1 : off + 1 + min j (extra - 1).toNat = off + min (j + 1) extra.toNat := by omega
        have h2 : (j < (extra - 1).toNat) ↔ (j + 1 < extra.toNat) := by omega
        simp only [Option.some.injEq, Prod.mk.injEq, Nat.add_assoc, h1, h2, and_self]
      · simp only [hpos, if_false]
        rw [ih (i + 1) extra off hextra j (by omega), hij]
        have h0 : extra.toNat = 0 := by omega
        simp only [h0, Nat.min_zero, Nat.not_lt_zero, if_false]

theorem taskCount_eq (cpuCount len : Nat) : taskCount cpuCount len = min ((len + 49) / 50) cpuCount := by
  unfold taskCount
  simp only
  split <;> omega

theorem levelTasks_parallel (cpuCount n : Nat) (hcpu : 1 ≤ cpuCount) (hn : 50 < n) :
    1 ≤ taskCount cpuCount n ∧ 1 ≤ n / taskCount cpuCount n ∧
      levelTasks cpuCount n = .ret ((List.range (taskCount cpuCount n)).map fun j =>
        (chunkStart n (taskCount cpuCount n) j, chunkEnd n (taskCount cpuCount n) j)) := by
  have hW := taskCount_eq cpuCount n
  generalize taskCount cpuCount n = W at hW ⊢
  have hW1 : 1 ≤ W := by omega
  have hWn : W ≤ n := by omega
  have hper : 1 ≤ n / W := (Nat.one_le_div_iff (by omega)).mpr hWn
  refine ⟨hW1, hper, ?_⟩
  unfold levelTasks
  rw [if_neg (by omega)]
  simp only
  rw [taskCount_eq cpuCount n, ← hW, if_neg (by omega), if_neg (by omega)]
  congr 1
  have hdm := Nat.div_add_mod n W
  have hml := Nat.mod_lt n (show 0 < W by omega)
  have hex : (n : Int) - ((W * (n / W) : Nat) : Int) = ((n % W : Nat) : Int) := by
    omega
  rw [hex]
  apply List.ext_getElem?
  intro j
  by_cases hj : j < W
  · rw [taskBounds_getElem _ _ _ _ _ (by omega) j hj, List.getElem?_map,
      List.getElem?_range hj]
    simp only [Option.map_some', Option.some.injEq, Prod.mk.injEq, chunkEnd, chunkStart,
      Int.toNat_ofNat, Nat.zero_add, Nat.add_zero, and_self]
  · rw [List.getElem?_eq_none (by rw [taskBounds_length]; omega),
      List.getElem?_eq_none (by simp; omega)]

theorem levelsLoop_cons_eq {q : Nat} (L : TermLayout) (cpuCount fuel : Nat) (cs : R1CS q)
    (level : List Int) (rest : List (List Int)) (st : SolveState q) :
    cs.levelsLoop L cpuCount fuel (level :: rest) st
      = if level.length ≤ 50 then
          (cs.solveTask L fuel level st).bind fun r =>
            match r.2 with
            | some err => .ret (r.1, some err)
            | none => cs.levelsLoop L cpuCount fuel rest r.1
        else
          ((levelTasks cpuCount level.length).bind fun ts =>
              cs.runTasks L fuel level ts st []).bind fun r =>
            match r.2 with
            | err :: _ => .ret (r.1, some err)
            | [] => cs.levelsLoop L cpuCount fuel rest r.1 := by
  by_cases h50 : level.length ≤ 50
  · simp only [R1CS.levelsLoop, h50, if_true]
  · simp only [R1CS.levelsLoop, h50, if_false, dispatchLevel_eq_runTasks L fuel cs level
      cpuCount st h50]

/-- C21, amended. Scheduling threshold, for `cpuCount ≥ 1` CPUs: `parallelSolve` solves a
level sequentially, dispatching no task, exactly when `⌈n/50⌉ ≤ 1`, that is `n ≤ 50`;
otherwise it dispatches exactly `W = min(⌈n/50⌉, cpuCount) ≥ 1` tasks. A level of
`50·cpuCount` constraints dispatches `cpuCount` tasks of `50` constraints each when
`cpuCount ≥ 2`. The loop over the levels runs the tasks of `levelTasks` and nothing else. -/
theorem levelTasks_threshold (cpuCount n : Nat) (hcpu : 1 ≤ cpuCount) :
    ((n + 49) / 50 ≤ 1 ↔ n ≤ 50) ∧
      (n ≤ 50 → levelTasks cpuCount n = .ret []) ∧
      (50 < n → ∃ ts, levelTasks cpuCount n = .ret ts ∧
        ts.length = min ((n + 49) / 50) cpuCount ∧ 1 ≤ ts.length) ∧
      (2 ≤ cpuCount → levelTasks cpuCount (50 * cpuCount)
        = .ret ((List.range cpuCount).map fun i => (50 * i, 50 * i + 50))) ∧
      (∀ (q : Nat) (L : TermLayout) (fuel : Nat) (cs : R1CS q) (level : List Int)
        (rest : List (List Int)) (st : SolveState q), level.length = n →
        cs.levelsLoop L cpuCount fuel (level :: rest) st
          = if n ≤ 50 then
              (cs.solveTask L fuel level st).bind fun r =>
                match r.2 with
                | some err => .ret (r.1, some err)
                | none => cs.levelsLoop L cpuCount fuel rest r.1
            else
              ((levelTasks cpuCount n).bind fun ts =>
                  cs.runTasks L fuel level ts st []).bind fun r =>
                match r.2 with
                | err :: _ => .ret (r.1, some err)
                | [] => cs.levelsLoop L cpuCount fuel rest r.1) := by
  refine ⟨by omega, ?_, ?_, ?_, ?_⟩
  · intro hn
    unfold levelTasks
    rw [if_pos hn]
  · intro hn
    obtain ⟨h1, _, hts⟩ := levelTasks_parallel cpuCount n hcpu hn
    refine ⟨_, hts, ?_, ?_⟩
    · rw [List.length_map, List.length_range, taskCount_eq]
    · rw [List.length_map, List.length_range]
      exact h1
  · intro h2
    obtain ⟨_, _, hts⟩ := levelTasks_parallel cpuCount (50 * cpuCount) hcpu (by omega)
    have hW : taskCount cpuCount (50 * cpuCount) = cpuCount := by
      rw [taskCount_eq]; omega
    rw [hts, hW]
    congr 1
    apply List.map_congr_left
    intro i _
    have hdiv : 50 * cpuCount / cpuCount = 50 := Nat.mul_div_cancel 50 (by omega)
    have hmod : 50 * cpuCount % cpuCount = 0 := Nat.mul_mod_left 50 cpuCount
    simp only [chunkStart, chunkEnd, hdiv, hmod, Nat.min_zero, Nat.not_lt_zero, if_false,
      Nat.add_zero, Prod.mk.injEq]
    omega
  · intro q L fuel cs level rest st hlen
    subst hlen
    exact levelsLoop_cons_eq L cpuCount fuel cs level rest st

/-- Witness for C21, amended: four CPUs; a level of 200 constraints gives four tasks of
50 constraints. -/
theorem levelTasks_threshold_witness :
    levelTasks 4 (50 * 4) = .ret ((List.range 4).map fun i => (50 * i, 50 * i + 50)) :=
  (levelTasks_threshold 4 200 (by decide)).2.2.2.1 (by decide)

/-- Counterexample to C21 as stated: on one CPU a level of `50 · cpuCount = 50`
constraints is solved sequentially, no task is dispatched, while the claim has it
dispatch `cpuCount = 1` task of 50 constraints. -/
theorem levelTasks_counterexample : levelTasks 1 (50 * 1) = .ret [] := by
  decide

/-- C22. Chunking, for `cpuCount ≥ 1`: for a level of `n > 50` constraints the slices
`level[_start:_end]` dispatched are the `W = min(⌈n/50⌉, cpuCount)` chunks
`[chunkStart j, chunkEnd j)`, `j < W`: the first starts at `0`, each starts where the one
before ended, the last ends at `n`, none is empty, each has `⌊n/W⌋` or `⌊n/W⌋ + 1`
elements, and the `n mod W` larger ones are the earliest. -/
theorem levelTasks_chunks (cpuCount n : Nat) (hcpu : 1 ≤ cpuCount) (hn : 50 < n) :
    ∃ W, W = min ((n + 49) / 50) cpuCount ∧
      levelTasks cpuCount n = .ret ((List.range W).map fun j =>
        (chunkStart n W j, chunkEnd n W j)) ∧
      chunkStart n W 0 = 0 ∧
      (∀ j, j + 1 < W → chunkStart n W (j + 1) = chunkEnd n W j) ∧
      chunkEnd n W (W - 1) = n ∧
      (∀ j, j < W → chunkStart n W j < chunkEnd n W j ∧ chunkEnd n W j ≤ n ∧
        chunkEnd n W j - chunkStart n W j = n / W + (if j < n % W then 1 else 0)) := by
  obtain ⟨hW1, hper, hts⟩ := levelTasks_parallel cpuCount n hcpu hn
  refine ⟨taskCount cpuCount n, taskCount_eq cpuCount n, hts, ?_, ?_, ?_, ?_⟩
  all_goals generalize taskCount cpuCount n = W at hW1 hper
  all_goals have hdm := Nat.div_add_mod n W
  all_goals have hml := Nat.mod_lt n (show 0 < W by omega)
  all_goals generalize hd : n / W = d at hdm hper
  all_goals generalize hm : n % W = m at hdm hml
  · simp [chunkStart]
  · intro j hj
    simp only [chunkStart, chunkEnd, hd, hm, Nat.succ_mul]
    split <;> omega
  · obtain ⟨V, rfl⟩ : ∃ V, W = V + 1 := ⟨W - 1, by omega⟩
    simp only [chunkStart, chunkEnd, hd, hm, Nat.add_sub_cancel]
    have h1 : (V + 1) * d = V * d + d := Nat.succ_mul V d
    rw [h1] at hdm
    split <;> omega
  · intro j hj
    simp only [chunkStart, chunkEnd, hd, hm]
    have hjd : j * d + d ≤ W * d := by
      have : (j + 1) * d ≤ W * d := Nat.mul_le_mul_right d (by omega)
      rw [Nat.succ_mul] at this
      exact this
    refine ⟨by split <;> omega, by split <;> omega, by split <;> omega⟩

/-- Witness for C22: a level of 103 constraints on 2 CPUs gives the chunks `[0, 52)` and
`[52, 103)`. -/
theorem levelTasks_chunks_witness :
    ∃ W, W = min ((103 + 49) / 50) 2 ∧
      levelTasks 2 103 = .ret ((List.range W).map fun j =>
        (chunkStart 103 W j, chunkEnd 103 W j)) ∧
      chunkStart 103 W 0 = 0 ∧
      (∀ j, j + 1 < W → chunkStart 103 W (j + 1) = chunkEnd 103 W j) ∧
      chunkEnd 103 W (W - 1) = 103 ∧
      (∀ j, j < W → chunkStart 103 W j < chunkEnd 103 W j ∧ chunkEnd 103 W j ≤ 103 ∧
        chunkEnd 103 W j - chunkStart 103 W j = 103 / W + (if j < 103 % W then 1 else 0)) :=
  levelTasks_chunks 2 103 (by decide) (by decide)

/-! ## Layout of the hint-map block -/

/-- The specified layout of a Go `int` on 8 bytes (two's complement, little-endian). -/
def littleEndianInt (x : Int) : List Nat := littleEndian 8 (x % 18446744073709551616).toNat

/-- The specified layout of one input of a descriptor: the tag, the length, and the
big-endian magnitude bytes or the terms. A single-term input has no layout. -/
def layoutHintInput : HintInput → Option (List Nat)
  | .bigInt v =>
    some (littleEndian 8 25446 ++ littleEndian 8 (bigIntBytes v).length ++ bigIntBytes v)
  | .bigIntPtr v =>
    some (littleEndian 8 25447 ++ littleEndian 8 (bigIntBytes v).length ++ bigIntBytes v)
  | .linExp l => some (littleEndian 8 25443 ++ littleEndian 8 l.length ++ l.flatMap (littleEndian 8))
  | .term _ => none

/-- The specified layout of the inputs of a descriptor, one after the other. -/
def layoutHintInputs : List HintInput → Option (List Nat)
  | [] => some []
  | i :: rest =>
    match layoutHintInput i, layoutHintInputs rest with
    | some a, some b => some (a ++ b)
    | _, _ => none

/-- The specified layout of an inline descriptor: the hint ID on 4 bytes, the number of
wires, the wires, the number of inputs, the inputs. -/
def layoutDescriptor (h : Hint) : Option (List Nat) :=
  (layoutHintInputs h.Inputs).map fun ins =>
    littleEndian 4 h.ID ++ littleEndian 8 h.Wires.length ++ h.Wires.flatMap littleEndianInt
      ++ littleEndian 8 h.Inputs.length ++ ins

/-- A record of the hint-map block: the wire ID, the mode (`1` inline, `0` alias) and the
payload (the descriptor, or the first-seen key). -/
structure HintRecord where
  wireID : Int
  mode : Nat
  payload : List Nat

/-- The bytes of a record. -/
def HintRecord.bytes (r : HintRecord) : List Nat :=
  littleEndianInt r.wireID ++ littleEndian 8 r.mode ++ r.payload

/-- The specified records for the entries, `seen` being the entries before them: the
first key seen for a descriptor gets an inline record, every later key of the same
descriptor an alias record with the first-seen key. -/
def layoutRecords (heap : List Hint) :
    List (Int × Option Nat) → List (Int × Option Nat) → Option (List HintRecord)
  | _, [] => some []
  | seen, (k, v) :: rest =>
    match seen.find? (fun e => e.2 == v) with
    | some first =>
      (layoutRecords heap (seen ++ [(k, v)]) rest).map fun rs =>
        ⟨k, 0, littleEndianInt first.1⟩ :: rs
    | none =>
      match v.bind (fun p => heap[p]?) with
      | none => none
      | some h =>
        match layoutDescriptor h with
        | none => none
        | some d => (layoutRecords heap (seen ++ [(k, v)]) rest).map fun rs => ⟨k, 1, d⟩ :: rs

/-- The specified layout of the hint-map block: the number of entries, then the records. -/
def layoutMHints (m : MHints) : Option (List Nat) :=
  (layoutRecords m.heap [] m.entries).map fun rs =>
    littleEndian 8 m.entries.length ++ rs.flatMap HintRecord.bytes

theorem int_to_byte_eq (x : Int) : int_to_byte x = littleEndianInt x := by
  unfold int_to_byte littleEndianInt intToUint64
  exact uint64_to_byte_eq _

theorem int_to_byte_natCast (n : Nat) : int_to_byte (n : Int) = littleEndian 8 n := by
  unfold int_to_byte intToUint64
  have : (((n : Int) % 18446744073709551616).toNat) = n % 18446744073709551616 := by omega
  rw [this, uint64_to_byte_mod]

theorem hintID_to_byte_mod (x : Nat) : hintID_to_byte (x % 4294967296) = littleEndian 4 x := by
  simp only [hintID_to_byte, littleEndian, Nat.div_div_eq_div_mul]
  congr 1
  · omega
  congr 1
  · omega
  congr 1
  · omega
  congr 1
  · omega

theorem termsBytes_layout (l : LinearExpression) : termsBytes l = l.flatMap (littleEndian 8) := by
  unfold termsBytes
  induction l with
  | nil => rfl
  | cons t l ih => simp only [List.flatMap_cons, ih, uint64_to_byte_mod]

theorem encodeHintInput_layout (i : HintInput) : encodeHintInput i = layoutHintInput i := by
  cases i with
  | bigInt v =>
    simp only [encodeHintInput, layoutHintInput, int_to_byte_natCast]
    rfl
  | bigIntPtr v =>
    simp only [encodeHintInput, layoutHintInput, int_to_byte_natCast]
    rfl
  | linExp l =>
    simp only [encodeHintInput, layoutHintInput, foldl_terms_eq, int_to_byte_natCast,
      termsBytes_layout]
    rfl
  | term t => rfl

theorem encodeHintInputs_layout (ins : List HintInput) :
    encodeHintInputs ins [] = layoutHintInputs ins := by
  induction ins with
  | nil => rfl
  | cons i ins ih =>
    unfold encodeHintInputs layoutHintInputs
    rw [encodeHintInput_layout]
    cases layoutHintInput i with
    | none => rfl
    | some a =>
      simp only [List.nil_append]
      rw [encodeHintInputs_acc, ih]
      cases layoutHintInputs ins <;> rfl

theorem wiresBytes_layout (ws : List Int) : wiresBytes ws = ws.flatMap littleEndianInt := by
  unfold wiresBytes
  induction ws with
  | nil => rfl
  | cons w ws ih => simp only [List.flatMap_cons, ih, int_to_byte_eq]

theorem encodeHint_layout (h : Hint) : encodeHint h = layoutDescriptor h := by
  unfold encodeHint layoutDescriptor
  rw [encodeHintInputs_acc, foldl_wires_eq, encodeHintInputs_layout, hintID_to_byte_mod,
    int_to_byte_natCast, int_to_byte_natCast, wiresBytes_layout]

/-- The table `mhintscheck` of the encoder agrees with the entries seen so far. -/
def CheckAgrees (check : List (Option Nat × Int)) (seen : List (Int × Option Nat)) : Prop :=
  ∀ v, check.lookup v = (seen.find? (fun e => e.2 == v)).map Prod.fst

theorem checkAgrees_alias {check : List (Option Nat × Int)} {seen : List (Int × Option Nat)}
    (hc : CheckAgrees check seen) (k : Int) (v : Option Nat) (first : Int × Option Nat)
    (hf : seen.find? (fun e => e.2 == v) = some first) :
    CheckAgrees check (seen ++ [(k, v)]) := by
  intro v'
  rw [hc v', List.find?_append]
  by_cases hv : v' = v
  · subst hv
    rw [hf]
    rfl
  · have : ([(k, v)] : List (Int × Option Nat)).find? (fun e => e.2 == v') = none := by
      simp [List.find?_cons, Ne.symm hv]
    rw [this, Option.or_none]

theorem checkAgrees_inline {check : List (Option Nat × Int)} {seen : List (Int × Option Nat)}
    (hc : CheckAgrees check seen) (k : Int) (v : Option Nat)
    (hf : seen.find? (fun e => e.2 == v) = none) :
    CheckAgrees ((v, k) :: check) (seen ++ [(k, v)]) := by
  intro v'
  rw [List.lookup_cons, List.find?_append]
  by_cases hv : v' = v
  · subst hv
    rw [hf]
    simp
  · have h1 : (v' == v) = false := by simpa using hv
    have h2 : ([(k, v)] : List (Int × Option Nat)).find? (fun e => e.2 == v') = none := by
      simp [List.find?_cons, Ne.symm hv]
    rw [h1, h2, Option.or_none]
    exact hc v'

theorem encodeMHintsLoop_layout (heap : List Hint) (es : List (Int × Option Nat))
    (seen : List (Int × Option Nat)) (check : List (Option Nat × Int))
    (hc : CheckAgrees check seen) :
    encodeMHintsLoop heap es check []
      = (layoutRecords heap seen es).map fun rs => rs.flatMap HintRecord.bytes := by
  induction es generalizing seen check with
  | nil => rfl
  | cons e es ih =>
    obtain ⟨k, v⟩ := e
    unfold encodeMHintsLoop layoutRecords
    rw [hc v]
    cases hf : seen.find? (fun e => e.2 == v) with
    | some first =>
      simp only [Option.map_some', List.nil_append]
      rw [encodeMHintsLoop_acc, ih _ _ (checkAgrees_alias hc k v first hf)]
      cases layoutRecords heap (seen ++ [(k, v)]) es with
      | none => rfl
      | some rs =>
        simp only [Option.map_some', List.flatMap_cons, HintRecord.bytes, int_to_byte_eq,
          List.append_assoc, Option.some.injEq, List.append_cancel_left_eq]
        rfl
    | none =>
      simp only [Option.map_none']
      cases hh : v.bind (fun p => heap[p]?) with
      | none => rfl
      | some h =>
        simp only
        rw [encodeHint_layout]
        cases hd : layoutDescriptor h with
        | none => rfl
        | some d =>
          simp only [List.nil_append]
          rw [encodeMHintsLoop_acc, ih _ _ (checkAgrees_inline hc k v hf)]
          cases layoutRecords heap (seen ++ [(k, v)]) es with
          | none => rfl
          | some rs =>
            simp only [Option.map_some', List.flatMap_cons, HintRecord.bytes, int_to_byte_eq,
              List.append_assoc, Option.some.injEq, List.append_cancel_left_eq]
            rfl

theorem find?_snd_eq_none (seen : List (Int × Option Nat)) (v : Option Nat) :
    seen.find? (fun e => e.2 == v) = none ↔ v ∉ seen.map Prod.snd := by
  rw [List.find?_eq_none]
  simp only [beq_iff_eq, List.mem_map, not_exists, not_and]

theorem layoutRecords_inline_count (heap : List Hint) (es seen : List (Int × Option Nat))
    (rs : List HintRecord) (h : layoutRecords heap seen es = some rs) :
    (rs.filter fun r => r.mode = 1).length + (seen.map Prod.snd).toFinset.card
      = ((seen ++ es).map Prod.snd).toFinset.card := by
  induction es generalizing seen rs with
  | nil =>
    simp only [layoutRecords, Option.some.injEq] at h
    subst h
    simp
  | cons e es ih =>
    obtain ⟨k, v⟩ := e
    unfold layoutRecords at h
    have happ : seen ++ (k, v) :: es = (seen ++ [(k, v)]) ++ es := by simp
    have hset : ((seen ++ [(k, v)]).map Prod.snd).toFinset
        = insert v (seen.map Prod.snd).toFinset := by
      ext x
      simp only [List.map_append, List.map_cons, List.map_nil, List.toFinset_append,
        List.toFinset_cons, List.toFinset_nil, Finset.mem_union, Finset.mem_insert,
        Finset.mem_singleton, List.mem_toFinset, insert_emptyc_eq]
      tauto
    cases hf : seen.find? (fun e => e.2 == v) with
    | some first =>
      simp only [hf] at h
      cases hr : layoutRecords heap (seen ++ [(k, v)]) es with
      | none => simp [hr] at h
      | some rs1 =>
        simp only [hr, Option.map_some', Option.some.injEq] at h
        subst h
        have hmem : v ∈ (seen.map Prod.snd).toFinset := by
          rw [List.mem_toFinset]
          by_contra hc
          rw [(find?_snd_eq_none seen v).mpr hc] at hf
          exact Option.noConfusion hf
        have := ih _ _ hr
        rw [hset, Finset.insert_eq_of_mem hmem] at this
        rw [happ, ← this]
        simp
    | none =>
      simp only [hf] at h
      cases hh : v.bind (fun p => heap[p]?) with
      | none => simp [hh] at h
      | some hint =>
        simp only [hh] at h
        cases hd : layoutDescriptor hint with
        | none => simp [hd] at h
        | some d =>
          simp only [hd] at h
          cases hr : layoutRecords heap (seen ++ [(k, v)]) es with
          | none => simp [hr] at h
          | some rs1 =>
            simp only [hr, Option.map_some', Option.some.injEq] at h
            subst h
            have hmem : v ∉ (seen.map Prod.snd).toFinset := by
              rw [List.mem_toFinset]
              exact (find?_snd_eq_none seen v).mp hf
            have := ih _ _ hr
            rw [hset, Finset.card_insert_of_not_mem hmem] at this
            rw [happ, ← this]
            simp
            omega

/-- C26. `encodeMHints` follows the specified layout of the hint-map block (`layoutMHints`:
the entry count on 8 bytes, then per entry in iteration order the wire ID and the mode on
8 bytes each, mode `1` with the descriptor for the first key seen for a descriptor, mode
`0` with the first-seen key for every later key of it; tags 25446, 25447, 25443); it is
undefined exactly when the layout is. The number of inline records is the number of
distinct descriptors of the map. -/
theorem encodeMHints_layout (m : MHints) :
    encodeMHints m = layoutMHints m ∧
      ∀ rs, layoutRecords m.heap [] m.entries = some rs →
        (rs.filter fun r => r.mode = 1).length = (m.entries.map Prod.snd).dedup.length := by
  constructor
  · unfold encodeMHints layoutMHints
    rw [encodeMHintsLoop_acc, encodeMHintsLoop_layout m.heap m.entries [] []
      (fun v => rfl), int_to_byte_natCast]
    cases layoutRecords m.heap [] m.entries <;> rfl
  · intro rs h
    have := layoutRecords_inline_count m.heap m.entries [] rs h
    simp only [List.map_nil, List.toFinset_nil, Finset.card_empty, Nat.add_zero,
      List.nil_append] at this
    rw [this, List.card_toFinset]

/-- Witness for C26: three keys, the first two sharing a descriptor: two inline records. -/
theorem encodeMHints_layout_witness :
    ∃ rs, layoutRecords exampleSharedHints.heap [] exampleSharedHints.entries = some rs ∧
      (rs.filter fun r => r.mode = 1).length
        = (exampleSharedHints.entries.map Prod.snd).dedup.length := by
  have h : (layoutRecords exampleSharedHints.heap [] exampleSharedHints.entries).isSome := by
    decide
  obtain ⟨rs, hrs⟩ := Option.isSome_iff_exists.mp h
  exact ⟨rs, hrs, (encodeMHints_layout exampleSharedHints).2 rs hrs⟩

/-! ## One constraint: two unknowns -/

theorem accumulateInto_panic {q : Nat} (L : TermLayout) (s : solution q) (t : Term)
    (r : ZMod q) (m : String) (h : s.accumulateInto L t r = .panic m) :
    m = "index out of range" := by
  unfold solution.accumulateInto idx at h
  simp only at h
  cases hv : s.values[L.WireID t]? with
  | none =>
    simp only [hv, Outcome.bind_panic] at h
    split_ifs at h <;> (injection h with h; exact h.symm)
  | some v =>
    simp only [hv, Outcome.bind_ret] at h
    cases hc : s.coefficients[L.CoeffID t]? with
    | none =>
      simp only [hc, Outcome.bind_panic] at h
      split_ifs at h <;> (injection h with h; exact h.symm)
    | some c =>
      simp only [hc, Outcome.bind_ret] at h
      split_ifs at h

theorem processLExp_append {q : Nat} (L : TermLayout) (fuel : Nat) (cs : R1CS q) (k : Nat)
    (l1 l2 : List Term) (s : solution q) (val : ZMod q) (loc : Nat) (ttc : Term) :
    processLExp L fuel cs k (l1 ++ l2) s val loc ttc
      = (processLExp L fuel cs k l1 s val loc ttc).bind fun p =>
          match p.err with
          | some _ => .ret p
          | none => processLExp L fuel cs k l2 p.s p.val p.loc p.termToCompute := by
  induction l1 generalizing s val loc ttc with
  | nil => simp only [List.nil_append, processLExp, Outcome.bind_ret]
  | cons t l1 ih =>
    simp only [List.cons_append, processLExp]
    cases idx s.solved (L.WireID t) with
    | panic m => rfl
    | outOfFuel => rfl
    | ret b =>
      simp only [Outcome.bind_ret]
      cases b with
      | true =>
        simp only [if_true]
        cases s.accumulateInto L t val with
        | panic m => rfl
        | outOfFuel => rfl
        | ret v =>
          simp only [Outcome.bind_ret]
          exact ih _ _ _ _
      | false =>
        simp only [Bool.false_eq_true, if_false]
        cases cs.MHints.lookup (L.WireID t : Int) with
        | none =>
          simp only
          by_cases hloc : loc = 0
          · simp only [hloc, ne_eq, not_true_eq_false, if_false]
            exact ih _ _ _ _
          · simp only [hloc, ne_eq, not_false_eq_true, if_true, Outcome.bind_panic]
        | some hint =>
          simp only
          cases s.solveWithHint L fuel (L.WireID t) hint with
          | panic m => rfl
          | outOfFuel => rfl
          | ret r =>
            simp only [Outcome.bind_ret]
            cases hr : r.2 with
            | some err => simp only [Outcome.bind_ret]
            | none =>
              simp only
              cases r.1.accumulateInto L t val with
              | panic m => rfl
              | outOfFuel => rfl
              | ret v =>
                simp only [Outcome.bind_ret]
                exact ih _ _ _ _

theorem processLExp_cons_ret_solved {q : Nat} (L : TermLayout) (fuel : Nat) (cs : R1CS q)
    (k : Nat) (t : Term) (l : List Term) (s : solution q) (val val' : ZMod q) (loc : Nat)
    (ttc : Term) (hb : s.solved[L.WireID t]? = some true)
    (hacc : s.accumulateInto L t val = .ret val') :
    processLExp L fuel cs k (t :: l) s val loc ttc
      = processLExp L fuel cs k l s val' loc ttc := by
  simp only [processLExp, idx, hb, Outcome.bind_ret, if_true, hacc]

theorem processLExp_cons_hint {q : Nat} (L : TermLayout) (fuel : Nat) (cs : R1CS q)
    (k : Nat) (t : Term) (l : List Term) (s : solution q) (val val' : ZMod q) (loc : Nat)
    (ttc : Term) (hint : Hint) (r : solution q × Option Err)
    (hb : s.solved[L.WireID t]? = some false)
    (hl : cs.MHints.lookup (L.WireID t : Int) = some hint)
    (hr : s.solveWithHint L fuel (L.WireID t) hint = .ret r) (he : r.2 = none)
    (hacc : r.1.accumulateInto L t val = .ret val') :
    processLExp L fuel cs k (t :: l) s val loc ttc
      = processLExp L fuel cs k l r.1 val' loc ttc := by
  simp only [processLExp, idx, hb, Outcome.bind_ret, Bool.false_eq_true, if_false, hl, hr, he,
    hacc]

theorem processLExp_cons_unknown {q : Nat} (L : TermLayout) (fuel : Nat) (cs : R1CS q)
    (k : Nat) (t : Term) (l : List Term) (s : solution q) (val : ZMod q) (ttc : Term)
    (hb : s.solved[L.WireID t]? = some false)
    (hl : cs.MHints.lookup (L.WireID t : Int) = none) :
    processLExp L fuel cs k (t :: l) s val 0 ttc = processLExp L fuel cs k l s val k t := by
  simp only [processLExp, idx, hb, Outcome.bind_ret, Bool.false_eq_true, if_false, hl, ne_eq,
    not_true_eq_false]

/-- While walking `l`, `processLExp` meets the term `t` after the terms `l1`, in the state
`p`, and the wire of `t` is not solved. -/
def Meets {q : Nat} (L : TermLayout) (fuel : Nat) (cs : R1CS q) (k : Nat) (l : List Term)
    (s : solution q) (val : ZMod q) (loc : Nat) (ttc : Term) (l1 : List Term) (t : Term)
    (p : LExpState q) : Prop :=
  (∃ l2, l = l1 ++ t :: l2) ∧ processLExp L fuel cs k l1 s val loc ttc = .ret p ∧
    p.err = none ∧ p.s.solved[L.WireID t]? = some false

theorem meets_cons {q : Nat} {L : TermLayout} {fuel : Nat} {cs : R1CS q} {k : Nat}
    {l : List Term} {s s' : solution q} {val val' : ZMod q} {loc loc' : Nat} {ttc ttc' : Term}
    {l1 : List Term} {t : Term} {p : LExpState q} (u : Term)
    (hstep : ∀ l0, processLExp L fuel cs k (u :: l0) s val loc ttc
      = processLExp L fuel cs k l0 s' val' loc' ttc')
    (h : Meets L fuel cs k l s' val' loc' ttc' l1 t p) :
    Meets L fuel cs k (u :: l) s val loc ttc (u :: l1) t p := by
  obtain ⟨⟨l2, hl⟩, hp, he, hs⟩ := h
  exact ⟨⟨l2, by rw [hl]; rfl⟩, by rw [hstep]; exact hp, he, hs⟩

theorem processLExp_second_unknown {q : Nat} (L : TermLayout) (fuel : Nat) (cs : R1CS q)
    (k : Nat) (l : List Term) (s : solution q) (val : ZMod q) (loc : Nat) (ttc : Term)
    (l1 : List Term) (t : Term) (p : LExpState q)
    (h : Meets L fuel cs k l s val loc ttc l1 t p)
    (hl : cs.MHints.lookup (L.WireID t : Int) = none) (hloc : p.loc ≠ 0) :
    processLExp L fuel cs k l s val loc ttc
      = .panic "found more than one wire to instantiate" := by
  obtain ⟨⟨l2, hl2⟩, hp, he, hs⟩ := h
  rw [hl2, processLExp_append, hp, Outcome.bind_ret]
  simp only [he, processLExp, idx, hs, Outcome.bind_ret, Bool.false_eq_true, if_false, hl,
    hloc, ne_eq, not_false_eq_true, if_true]

theorem processLExp_panic {q : Nat} (L : TermLayout) (fuel : Nat) (cs : R1CS q)
    (k : Nat) (l : List Term) (s : solution q) (val : ZMod q) (loc : Nat) (ttc : Term)
    (h : processLExp L fuel cs k l s val loc ttc
      = .panic "found more than one wire to instantiate") :
    ∃ l1 t p, Meets L fuel cs k l s val loc ttc l1 t p ∧
      ((cs.MHints.lookup (L.WireID t : Int) = none ∧ p.loc ≠ 0) ∨
        ∃ hint, cs.MHints.lookup (L.WireID t : Int) = some hint ∧
          p.s.solveWithHint L fuel (L.WireID t) hint
            = .panic "found more than one wire to instantiate") := by
  induction l generalizing s val loc ttc with
  | nil => simp [processLExp] at h
  | cons t l ih =>
    simp only [processLExp, idx] at h
    cases hb : s.solved[L.WireID t]? with
    | none => simp [hb] at h
    | some b =>
      simp only [hb, Outcome.bind_ret] at h
      cases b with
      | true =>
        simp only [if_true] at h
        cases hacc : s.accumulateInto L t val with
        | panic m =>
          rw [hacc, Outcome.bind_panic] at h
          have := accumulateInto_panic L s t val m hacc
          subst this
          simp at h
        | outOfFuel => simp [hacc] at h
        | ret v =>
          rw [hacc, Outcome.bind_ret] at h
          obtain ⟨l1, u, p, hm, hcase⟩ := ih s v loc ttc h
          exact ⟨t :: l1, u, p, meets_cons t
            (fun l0 => processLExp_cons_ret_solved L fuel cs k t l0 s val v loc ttc hb hacc) hm,
            hcase⟩
      | false =>
        simp only [Bool.false_eq_true, if_false] at h
        cases hl : cs.MHints.lookup (L.WireID t : Int) with
        | none =>
          simp only [hl] at h
          by_cases hloc : loc = 0
          · subst hloc
            simp only [ne_eq, not_true_eq_false, if_false] at h
            obtain ⟨l1, u, p, hm, hcase⟩ := ih s val k t h
            exact ⟨t :: l1, u, p, meets_cons t
              (fun l0 => processLExp_cons_unknown L fuel cs k t l0 s val ttc hb hl) hm, hcase⟩
          · exact ⟨[], t, ⟨s, val, loc, ttc, none⟩, ⟨⟨l, rfl⟩, rfl, rfl, hb⟩,
              Or.inl ⟨hl, hloc⟩⟩
        | some hint =>
          simp only [hl] at h
          cases hr : s.solveWithHint L fuel (L.WireID t) hint with
          | panic m =>
            rw [hr, Outcome.bind_panic] at h
            exact ⟨[], t, ⟨s, val, loc, ttc, none⟩, ⟨⟨l, rfl⟩, rfl, rfl, hb⟩,
              Or.inr ⟨hint, hl, by rw [hr]; injection h with h; rw [h]⟩⟩
          | outOfFuel => simp [hr] at h
          | ret r =>
            rw [hr, Outcome.bind_ret] at h
            cases he : r.2 with
            | some err => simp [he] at h
            | none =>
              simp only [he] at h
              cases hacc : r.1.accumulateInto L t val with
              | panic m =>
                rw [hacc, Outcome.bind_panic] at h
                have := accumulateInto_panic L r.1 t val m hacc
                subst this
                simp at h
              | outOfFuel => simp [hacc] at h
              | ret v =>
                rw [hacc, Outcome.bind_ret] at h
                obtain ⟨l1, u, p, hm, hcase⟩ := ih r.1 v loc ttc h
                exact ⟨t :: l1, u, p, meets_cons t
                  (fun l0 => processLExp_cons_hint L fuel cs k t l0 s val v loc ttc hint r hb
                    hl hr he hacc) hm, hcase⟩

theorem processLExp_loc {q : Nat} (L : TermLayout) (fuel : Nat) (cs : R1CS q)
    (k : Nat) (l : List Term) (s : solution q) (val : ZMod q) (ttc : Term) (p : LExpState q)
    (h : processLExp L fuel cs k l s val 0 ttc = .ret p) (hloc : p.loc ≠ 0) :
    ∃ l1 t p1, Meets L fuel cs k l s val 0 ttc l1 t p1 ∧
      cs.MHints.lookup (L.WireID t : Int) = none ∧ p1.loc = 0 := by
  induction l generalizing s val ttc with
  | nil =>
    simp only [processLExp, Outcome.ret.injEq] at h
    subst h
    exact absurd rfl hloc
  | cons t l ih =>
    have hfull := h
    simp only [processLExp] at h
    obtain ⟨b, hb, h⟩ := Outcome.bind_eq_ret h
    rw [idx_eq_ret] at hb
    cases b with
    | true =>
      simp only [if_true] at h
      obtain ⟨v, hacc, h⟩ := Outcome.bind_eq_ret h
      obtain ⟨l1, u, p1, hm, hcase⟩ := ih s v ttc h
      exact ⟨t :: l1, u, p1, meets_cons t
        (fun l0 => processLExp_cons_ret_solved L fuel cs k t l0 s val v 0 ttc hb hacc) hm, hcase⟩
    | false =>
      simp only [Bool.false_eq_true, if_false] at h
      cases hl : cs.MHints.lookup (L.WireID t : Int) with
      | none =>
        exact ⟨[], t, ⟨s, val, 0, ttc, none⟩, ⟨⟨l, rfl⟩, rfl, rfl, hb⟩, hl, rfl⟩
      | some hint =>
        simp only [hl] at h
        obtain ⟨r, hr, h⟩ := Outcome.bind_eq_ret h
        cases he : r.2 with
        | some err =>
          simp only [he, Outcome.ret.injEq] at h
          subst h
          exact absurd rfl hloc
        | none =>
          simp only [he] at h
          obtain ⟨v, hacc, h⟩ := Outcome.bind_eq_ret h
          obtain ⟨l1, u, p1, hm, hcase⟩ := ih r.1 v ttc h
          exact ⟨t :: l1, u, p1, meets_cons t
            (fun l0 => processLExp_cons_hint L fuel cs k t l0 s val v 0 ttc hint r hb
              hl hr he hacc) hm, hcase⟩

theorem set_panic {q : Nat} (s : solution q) (id : Int) (v : ZMod q) (m : String)
    (h : s.set id v = .panic m) :
    m = "index out of range" ∨ m = "solving the same wire twice should never happen." := by
  unfold solution.set idx at h
  by_cases hid : id < 0
  · rw [if_pos hid] at h
    injection h with h
    exact Or.inl h.symm
  · rw [if_neg hid] at h
    cases hs : s.solved[id.toNat]? with
    | none =>
      simp only [hs, Outcome.bind_panic] at h
      injection h with h
      exact Or.inl h.symm
    | some b =>
      simp only [hs, Outcome.bind_ret] at h
      cases b with
      | true =>
        simp only [if_true] at h
        injection h with h
        exact Or.inr h.symm
      | false =>
        simp only [Bool.false_eq_true, if_false] at h
        cases hv : s.values[id.toNat]? with
        | none =>
          simp only [hv, Outcome.bind_panic] at h
          injection h with h
          exact Or.inl h.symm
        | some x => simp [hv] at h

theorem divByCoeff_panic {q : Nat} (L : TermLayout) (cs : R1CS q) (res : ZMod q) (t : Term)
    (m : String) (h : cs.divByCoeff L res t = .panic m) :
    m = "division by 0" ∨ m = "index out of range" := by
  unfold R1CS.divByCoeff idx at h
  simp only at h
  split_ifs at h
  · injection h with h
    exact Or.inl h.symm
  · cases hc : cs.Coefficients[L.CoeffID t]? with
    | none =>
      simp only [hc, Outcome.bind_panic] at h
      injection h with h
      exact Or.inr h.symm
    | some c => simp [hc] at h

theorem solveUnknown_panic {q : Nat} (L : TermLayout) (cs : R1CS q) (s : solution q)
    (loc : Nat) (ttc : Term) (a b c : ZMod q) (m : String)
    (h : cs.solveUnknown L s loc ttc a b c = .panic m) :
    m ≠ "found more than one wire to instantiate" := by
  have key : ∀ (a b c wire : ZMod q), cs.instantiate L s ttc a b c wire = .panic m →
      m ≠ "found more than one wire to instantiate" := by
    intro a b c wire hi
    unfold R1CS.instantiate at hi
    cases hd : cs.divByCoeff L wire ttc with
    | panic m' =>
      rw [hd, Outcome.bind_panic] at hi
      injection hi with hi
      subst hi
      rcases divByCoeff_panic L cs wire ttc _ hd with h1 | h1 <;> rw [h1] <;> decide
    | outOfFuel => simp [hd] at hi
    | ret w =>
      rw [hd, Outcome.bind_ret] at hi
      cases hs : s.set (L.WireID ttc : Int) w with
      | panic m' =>
        rw [hs, Outcome.bind_panic] at hi
        injection hi with hi
        subst hi
        rcases set_panic s _ w _ hs with h1 | h1 <;> rw [h1] <;> decide
      | outOfFuel => simp [hs] at hi
      | ret s' => simp [hs] at hi
  unfold R1CS.solveUnknown at h
  simp only at h
  split_ifs at h <;> exact key _ _ _ _ h

theorem solveConstraint_panic_iff {q : Nat} (L : TermLayout) (fuel : Nat) (cs : R1CS q)
    (r : R1C) (s : solution q) (a b c : ZMod q) :
    cs.solveConstraint L fuel r s a b c = .panic "found more than one wire to instantiate" ↔
      (processLExp L fuel cs 1 r.L s a 0 0 = .panic "found more than one wire to instantiate"
        ∨ ∃ p1, processLExp L fuel cs 1 r.L s a 0 0 = .ret p1 ∧ p1.err = none ∧
          (processLExp L fuel cs 2 r.R p1.s b p1.loc p1.termToCompute
              = .panic "found more than one wire to instantiate"
            ∨ ∃ p2, processLExp L fuel cs 2 r.R p1.s b p1.loc p1.termToCompute = .ret p2 ∧
              p2.err = none ∧
              processLExp L fuel cs 3 r.O p2.s c p2.loc p2.termToCompute
                = .panic "found more than one wire to instantiate")) := by
  unfold R1CS.solveConstraint
  cases h1 : processLExp L fuel cs 1 r.L s a 0 0 with
  | panic m => simp
  | outOfFuel => simp
  | ret p1 =>
    simp only [Outcome.bind_ret, Outcome.ret.injEq, exists_eq_left', false_or]
    cases e1 : p1.err with
    | some err => simp
    | none =>
      simp only [true_and]
      cases h2 : processLExp L fuel cs 2 r.R p1.s b p1.loc p1.termToCompute with
      | panic m => simp
      | outOfFuel => simp
      | ret p2 =>
        simp only [Outcome.bind_ret, Outcome.ret.injEq, exists_eq_left', false_or]
        cases e2 : p2.err with
        | some err => simp
        | none =>
          simp only [true_and]
          cases h3 : processLExp L fuel cs 3 r.O p2.s c p2.loc p2.termToCompute with
          | panic m => simp
          | outOfFuel => simp
          | ret p3 =>
            simp only [Outcome.bind_ret]
            cases e3 : p3.err with
            | some err => simp
            | none =>
              constructor
              · intro hp
                exact absurd rfl (solveUnknown_panic L cs _ _ _ _ _ _ _ hp)
              · intro hp
                rcases hp with hp | hp | hp <;> exact Outcome.noConfusion hp

/-! ## The IsZero gadget end to end -/

theorem IsZero_eval (q : Nat) [Fact q.Prime] (x : ZMod q) :
    IsZero q [((ZMod.val x : Nat) : Int)] [0]
      = .ret ([1], [if x = 0 then 1 else 0], none) := by
  have hq : q.Prime := Fact.out
  have hq2 : 2 ≤ q := hq.two_le
  have hlt : ((ZMod.val x : Nat) : Int) < q := by exact_mod_cast ZMod.val_lt x
  have hf := bigExp_fermat q hq (ZMod.val x : Nat) (by omega) hlt
  have hx : (((ZMod.val x : Nat) : Int) = 0) ↔ x = 0 := by
    rw [Int.natCast_eq_zero, ZMod.val_eq_zero]
  simp only [IsZero, idx, List.getElem?_cons_zero, Outcome.bind_ret, hf, List.set_cons_zero]
  generalize ((ZMod.val x : Nat) : Int) = a at hx
  have h1 : (1 : Int) % q = 1 := Int.emod_eq_of_lt (by omega) (by omega)
  by_cases h0 : x = 0
  · rw [if_pos (hx.mpr h0), if_pos h0, sub_zero, h1]
  · rw [if_neg (fun h => h0 (hx.mp h)), if_neg h0, sub_self, Int.zero_emod]

theorem isZeroSystem_hint (q : Nat) [Fact q.Prime] (x : ZMod q) (fuel : Nat) :
    (isZeroState q x).solveWithHint exampleLayout (fuel + 1) 2 exampleIsZeroHint
      = .ret (isZeroFinal q x, none) := by
  have hin : hintInputsLoop exampleLayout (solution.solveWithHint exampleLayout fuel)
      exampleIsZeroHint.Inputs (isZeroState q x) []
        = .ret (isZeroState q x, [((ZMod.val (0 + x) : Nat) : Int)], none) := rfl
  rw [zero_add] at hin
  have hcast : (((if x = 0 then 1 else 0 : Int)) : ZMod q) = if x = 0 then 1 else 0 := by
    split_ifs <;> simp
  have hset : setHintOutputs exampleIsZeroHint.Wires 0 [if x = 0 then 1 else 0]
      (isZeroState q x) = .ret (isZeroFinal q x) := by
    have : setHintOutputs exampleIsZeroHint.Wires 0 [if x = 0 then 1 else 0]
        (isZeroState q x) = .ret ⟨[1, x, (((if x = 0 then 1 else 0 : Int)) : ZMod q)],
          [0, 1, 2, -1], [true, true, true], 3, [(7, IsZero)], [(2, exampleIsZeroHint)]⟩ := rfl
    rw [this, hcast]
    rfl
  exact solveWithHint_error exampleLayout fuel (isZeroState q x) 2 exampleIsZeroHint IsZero
    (isZeroState q x) (isZeroFinal q x) _ [1] _ none rfl rfl hin (IsZero_eval q x) hset

theorem isZeroSystem_constraint (q : Nat) [Fact q.Prime] (x : ZMod q) (fuel : Nat) :
    (isZeroSystem q).solveConstraint exampleLayout (fuel + 1)
        ⟨[mkTerm 1 1], [mkTerm 1 2], []⟩ (isZeroState q x) 0 0 0
      = .ret ⟨isZeroFinal q x, x, if x = 0 then 1 else 0, 0, none⟩ := by
  have h1 : processLExp exampleLayout (fuel + 1) (isZeroSystem q) 1 [mkTerm 1 1]
      (isZeroState q x) 0 0 0 = .ret ⟨isZeroState q x, 0 + x, 0, 0, none⟩ := by
    rw [processLExp_cons_ret_solved exampleLayout (fuel + 1) (isZeroSystem q) 1 (mkTerm 1 1) []
      (isZeroState q x) 0 (0 + x) 0 0 rfl rfl]
    rfl
  have h2 : processLExp exampleLayout (fuel + 1) (isZeroSystem q) 2 [mkTerm 1 2]
      (isZeroState q x) 0 0 0
        = .ret ⟨isZeroFinal q x, 0 + (if x = 0 then 1 else 0), 0, 0, none⟩ := by
    rw [processLExp_cons_hint exampleLayout (fuel + 1) (isZeroSystem q) 2 (mkTerm 1 2) []
      (isZeroState q x) 0 (0 + (if x = 0 then 1 else 0)) 0 0 exampleIsZeroHint
      (isZeroFinal q x, none) rfl rfl (isZeroSystem_hint q x fuel) rfl rfl]
    rfl
  unfold R1CS.solveConstraint
  rw [h1, Outcome.bind_ret]
  simp only
  rw [h2, Outcome.bind_ret]
  simp only [processLExp, Outcome.bind_ret, zero_add]
  unfold R1CS.solveUnknown
  have hmul : x * (if x = 0 then 1 else 0) = (0 : ZMod q) := by
    split_ifs with h
    · rw [h, zero_mul]
    · rw [mul_zero]
  simp only [if_true, hmul]

theorem solveTask_single {q : Nat} (L : TermLayout) (fuel : Nat) (cs : R1CS q) (i : Nat)
    (st : SolveState q) (r : R1C) (ai bi ci : ZMod q) (res : ConstraintResult q)
    (hr : cs.Constraints[i]? = some r) (ha : st.a[i]? = some ai) (hb : st.b[i]? = some bi)
    (hc : st.c[i]? = some ci)
    (h : cs.solveConstraint L fuel r st.s ai bi ci = .ret res) :
    cs.solveAt L fuel (i : Int) st
      = .ret (⟨res.s, st.a.set i res.a, st.b.set i res.b, st.c.set i res.c⟩, res.err) := by
  unfold R1CS.solveAt idx
  have hi : ¬ ((i : Int) < 0) := by omega
  simp only [hi, if_false, Int.toNat_ofNat, hr, ha, hb, hc, Outcome.bind_ret, h]

/-- C24. The `IsZero` gadget end to end, over any prime field (BN254 among them): for the
system with the public wire `x`, the internal wire `y` that is the output of the hint
`IsZero` on `x`, and the constraint `x · y = 0`, `Solve` returns without error for every
field element `x`, with `y = 1` when `x = 0` and `y = 0` otherwise; the buffers hold
`a = x`, `b = y`, `c = 0`, and `a · b = c`. -/
theorem isZero_gadget (q : Nat) [Fact q.Prime] (x : ZMod q) (cpuCount fuel : Nat) :
    (isZeroSystem q).Solve exampleLayout cpuCount (fuel + 1) [x] [0] [0] [0] ⟨[(7, IsZero)]⟩
        = .ret ⟨[1, x, if x = 0 then 1 else 0], none, [x], [if x = 0 then 1 else 0], [0],
            isZeroFinal q x⟩
      ∧ x * (if x = 0 then 1 else 0) = (0 : ZMod q) := by
  constructor
  · have hnew : newSolution ((isZeroSystem q).NbPublicVariables
        + (isZeroSystem q).NbSecretVariables + (isZeroSystem q).NbInternalVariables)
        [(7, IsZero)] (isZeroSystem q).MHintsDependencies (isZeroSystem q).MHints
        (isZeroSystem q).Coefficients
          = .ret (freshSolution 3 [(7, IsZero)] [(2, exampleIsZeroHint)] [0, 1, 2, -1],
              none) := rfl
    have hinit : initSolution (freshSolution 3 [(7, IsZero)] [(2, exampleIsZeroHint)]
        ([0, 1, 2, -1] : List (ZMod q))) [x] = .ret (isZeroState q x) := rfl
    have hat := solveTask_single exampleLayout (fuel + 1) (isZeroSystem q) 0
      ⟨isZeroState q x, [0], [0], [0]⟩ ⟨[mkTerm 1 1], [mkTerm 1 2], []⟩ 0 0 0 _ rfl rfl rfl rfl
      (isZeroSystem_constraint q x fuel)
    have hpar : (isZeroSystem q).parallelSolve exampleLayout cpuCount (fuel + 1) [0] [0] [0]
        (isZeroState q x)
          = .ret (⟨isZeroFinal q x, [x], [if x = 0 then 1 else 0], [0]⟩, none) := by
      unfold R1CS.parallelSolve
      have hlev : (isZeroSystem q).Levels = [[0]] := rfl
      rw [hlev]
      simp only [R1CS.levelsLoop, List.length_cons, List.length_nil, Nat.zero_add,
        Nat.one_le_ofNat, if_true, R1CS.solveTask]
      have h0 : ((0 : Nat) : Int) = 0 := rfl
      rw [← h0, hat]
      rfl
    unfold R1CS.Solve
    simp only
    rw [hnew, Outcome.bind_ret]
    have hw : ¬ ((([x] : List (ZMod q)).length : Int)
        ≠ (isZeroSystem q).NbPublicVariables - 1 + (isZeroSystem q).NbSecretVariables) := by
      simp [isZeroSystem]
    have hbuf : ¬ (([0] : List (ZMod q)).length ≠ (isZeroSystem q).Constraints.length
        ∨ ([0] : List (ZMod q)).length ≠ (isZeroSystem q).Constraints.length
        ∨ ([0] : List (ZMod q)).length ≠ (isZeroSystem q).Constraints.length) := by
      simp [isZeroSystem]
    simp only [hw, hbuf, if_false]
    rw [hinit, Outcome.bind_ret, hpar, Outcome.bind_ret]
    rfl
  · split_ifs with h
    · rw [h, zero_mul]
    · rw [mul_zero]

/-- Witness for C24: `x = 7` in the field with 13 elements gives `y = 0`. -/
theorem isZero_gadget_witness :
    (isZeroSystem 13).Solve exampleLayout 4 (0 + 1) [7] [0] [0] [0] ⟨[(7, IsZero)]⟩
        = .ret ⟨[1, 7, if (7 : ZMod 13) = 0 then 1 else 0], none, [7],
            [if (7 : ZMod 13) = 0 then 1 else 0], [0], isZeroFinal 13 7⟩
      ∧ (7 : ZMod 13) * (if (7 : ZMod 13) = 0 then 1 else 0) = (0 : ZMod 13) :=
  isZero_gadget 13 7 4 0

/-! ## The squaring chain -/

theorem exampleLayout_mkTerm_one (v : Nat) (hv : v < 536870912) :
    exampleLayout.WireID (mkTerm 1 v) = v ∧ exampleLayout.CoeffID (mkTerm 1 v) = 1 := by
  unfold exampleLayout mkTerm
  simp only
  omega

theorem accumulateInto_one {q : Nat} (L : TermLayout) (s : solution q) (t : Term)
    (val v : ZMod q) (hc : L.CoeffID t = 1) (hv : s.values[L.WireID t]? = some v) :
    s.accumulateInto L t val = .ret (val + v) := by
  simp only [solution.accumulateInto, idx, hc, CoeffIdZero, CoeffIdOne, one_ne_zero, if_false,
    if_true, hv, Outcome.bind_ret]

theorem processLExp_single_solved {q : Nat} (L : TermLayout) (fuel : Nat) (cs : R1CS q)
    (k : Nat) (t : Term) (s : solution q) (val v : ZMod q) (loc : Nat) (ttc : Term)
    (hc : L.CoeffID t = 1) (hs : s.solved[L.WireID t]? = some true)
    (hv : s.values[L.WireID t]? = some v) :
    processLExp L fuel cs k [t] s val loc ttc = .ret ⟨s, val + v, loc, ttc, none⟩ := by
  rw [processLExp_cons_ret_solved L fuel cs k t [] s val (val + v) loc ttc hs
    (accumulateInto_one L s t val v hc hv)]
  rfl

theorem processLExp_single_unknown {q : Nat} (L : TermLayout) (fuel : Nat) (cs : R1CS q)
    (k : Nat) (t : Term) (s : solution q) (val : ZMod q) (ttc : Term)
    (hs : s.solved[L.WireID t]? = some false)
    (hl : cs.MHints.lookup (L.WireID t : Int) = none) :
    processLExp L fuel cs k [t] s val 0 ttc = .ret ⟨s, val, k, t, none⟩ := by
  rw [processLExp_cons_unknown L fuel cs k t [] s val ttc hs hl]
  rfl

/-- The constraint `ti · ti = tO` with the wire of `ti` solved and the wire of `tO`
open: the wire of `tO` is assigned the square. -/
theorem squaring_step {q : Nat} (L : TermLayout) (fuel : Nat) (cs : R1CS q) (ti tO : Term)
    (s : solution q) (v : ZMod q) (hci : L.CoeffID ti = 1) (hco : L.CoeffID tO = 1)
    (hsi : s.solved[L.WireID ti]? = some true) (hvi : s.values[L.WireID ti]? = some v)
    (hso : s.solved[L.WireID tO]? = some false) (hlen : L.WireID tO < s.values.length)
    (hl : cs.MHints.lookup (L.WireID tO : Int) = none)
    (hn : s.nbSolved + 1 < 18446744073709551616) :
    cs.solveConstraint L fuel ⟨[ti], [ti], [tO]⟩ s 0 0 0
      = .ret ⟨{ s with
          values := s.values.set (L.WireID tO) (v * v)
          solved := s.solved.set (L.WireID tO) true
          nbSolved := s.nbSolved + 1 }, v, v, v * v, none⟩ := by
  unfold R1CS.solveConstraint
  simp only
  rw [processLExp_single_solved L fuel cs 1 ti s 0 v 0 0 hci hsi hvi, Outcome.bind_ret]
  simp only
  rw [processLExp_single_solved L fuel cs 2 ti s 0 v 0 0 hci hsi hvi, Outcome.bind_ret]
  simp only
  rw [processLExp_single_unknown L fuel cs 3 tO s 0 0 hso hl, Outcome.bind_ret]
  simp only [zero_add]
  have hval : s.values[L.WireID tO]? = some (s.values.getD (L.WireID tO) 0) := by
    rw [List.getElem?_eq_getElem hlen, List.getD_eq_getElem _ _ hlen]
  have hid : ¬ ((L.WireID tO : Nat) : Int) < 0 := by omega
  have h30 : ¬ ((3 : Nat) = 0) := by decide
  have h31 : ¬ ((3 : Nat) = 1) := by decide
  have h32 : ¬ ((3 : Nat) = 2) := by decide
  simp only [R1CS.solveUnknown, h30, h31, h32, if_false, if_true, R1CS.instantiate,
    R1CS.divByCoeff, hco, CoeffIdOne, Outcome.bind_ret, solution.set, idx, hid,
    Int.toNat_ofNat, hso, Bool.false_eq_true, hval, Nat.mod_eq_of_lt hn, sub_zero, zero_add]

/-- The constraint `ti · ti = tO` with both wires solved: the check `a · b == c`. -/
theorem squaring_check {q : Nat} (L : TermLayout) (fuel : Nat) (cs : R1CS q) (ti tO : Term)
    (s : solution q) (v y : ZMod q) (hci : L.CoeffID ti = 1) (hco : L.CoeffID tO = 1)
    (hsi : s.solved[L.WireID ti]? = some true) (hvi : s.values[L.WireID ti]? = some v)
    (hso : s.solved[L.WireID tO]? = some true) (hvo : s.values[L.WireID tO]? = some y) :
    cs.solveConstraint L fuel ⟨[ti], [ti], [tO]⟩ s 0 0 0
      = .ret ⟨s, v, v, y, if v * v = y then none
          else some (Err.notEqual (ZMod.val v) (ZMod.val v) (ZMod.val y))⟩ := by
  unfold R1CS.solveConstraint
  simp only
  rw [processLExp_single_solved L fuel cs 1 ti s 0 v 0 0 hci hsi hvi, Outcome.bind_ret]
  simp only
  rw [processLExp_single_solved L fuel cs 2 ti s 0 v 0 0 hci hsi hvi, Outcome.bind_ret]
  simp only
  rw [processLExp_single_solved L fuel cs 3 tO s 0 y 0 0 hco hso hvo, Outcome.bind_ret]
  simp only [zero_add, R1CS.solveUnknown, if_true]
  split_ifs <;> rfl

/-- The state of the squaring chain after the first `k` constraints were solved, `k < n`:
the wires of `y` and of `v_0, ..., v_k` are solved, `v_i = x^(2^i)`, the wires of
`v_{k+1}, ..., v_{n-1}` are open, and the buffers still hold `0` from index `k` on. -/
structure ChainInv {q : Nat} (n : Nat) (x y : ZMod q) (k : Nat) (st : SolveState q) : Prop where
  values_length : st.s.values.length = n + 2
  solved_length : st.s.solved.length = n + 2
  nbSolved : st.s.nbSolved = k + 3
  one : st.s.values[0]? = some 1
  y_value : st.s.values[1]? = some y
  y_solved : st.s.solved[1]? = some true
  v_value : ∀ i : Nat, i ≤ k → st.s.values[i + 2]? = some (x ^ 2 ^ i)
  v_solved : ∀ i : Nat, i ≤ k → st.s.solved[i + 2]? = some true
  v_open : ∀ i : Nat, k < i → i < n → st.s.solved[i + 2]? = some false
  a_length : st.a.length = n
  b_length : st.b.length = n
  c_length : st.c.length = n
  zero : ∀ j : Nat, k ≤ j → j < n →
    st.a[j]? = some 0 ∧ st.b[j]? = some 0 ∧ st.c[j]? = some 0

theorem squaringChain_constraint (q n k : Nat) (hk : k < n) :
    (squaringChain q n).Constraints[k]?
      = some ⟨[mkTerm 1 (squaringWire n k)], [mkTerm 1 (squaringWire n k)],
          [mkTerm 1 (squaringWire n (k + 1))]⟩ := by
  unfold squaringChain
  simp only
  rw [List.getElem?_map, List.getElem?_range hk]
  rfl

theorem chain_step {q : Nat} (n : Nat) (hn : n + 2 < 536870912) (x y : ZMod q) (fuel k : Nat)
    (hk : k + 1 < n) (st : SolveState q) (inv : ChainInv n x y k st) :
    ∃ st', (squaringChain q n).solveAt exampleLayout fuel (k : Int) st = .ret (st', none) ∧
      ChainInv n x y (k + 1) st' := by
  have hwk : squaringWire n k = k + 2 := by
    unfold squaringWire; rw [if_neg (by omega)]
  have hwk1 : squaringWire n (k + 1) = k + 1 + 2 := by
    unfold squaringWire; rw [if_neg (by omega)]
  obtain ⟨hwi, hci⟩ := exampleLayout_mkTerm_one (k + 2) (by omega)
  obtain ⟨hwo, hco⟩ := exampleLayout_mkTerm_one (k + 1 + 2) (by omega)
  obtain ⟨ha0, hb0, hc0⟩ := inv.zero k (Nat.le_refl k) (by omega)
  have hstep := squaring_step exampleLayout fuel (squaringChain q n) (mkTerm 1 (k + 2))
    (mkTerm 1 (k + 1 + 2)) st.s (x ^ 2 ^ k) hci hco
    (by rw [hwi]; exact inv.v_solved k (Nat.le_refl k))
    (by rw [hwi]; exact inv.v_value k (Nat.le_refl k))
    (by rw [hwo]; exact inv.v_open (k + 1) (by omega) hk)
    (by rw [hwo, inv.values_length]; omega) rfl (by rw [inv.nbSolved]; omega)
  have hcons := squaringChain_constraint q n k (by omega)
  rw [hwk, hwk1] at hcons
  have hat := solveTask_single exampleLayout fuel (squaringChain q n) k st _ 0 0 0 _ hcons ha0
    hb0 hc0 hstep
  refine ⟨_, hat, ?_⟩
  rw [hwo]
  have hsq : x ^ 2 ^ k * x ^ 2 ^ k = x ^ 2 ^ (k + 1) := by
    rw [← pow_add, pow_succ, Nat.mul_two]
  constructor
  · simp only [List.length_set]; exact inv.values_length
  · simp only [List.length_set]; exact inv.solved_length
  · simp only [inv.nbSolved]
  · simp only
    rw [List.getElem?_set_ne (by omega)]; exact inv.one
  · simp only
    rw [List.getElem?_set_ne (by omega)]; exact inv.y_value
  · simp only
    rw [List.getElem?_set_ne (by omega)]; exact inv.y_solved
  · intro i hi
    simp only
    by_cases hik : i = k + 1
    · subst hik
      rw [List.getElem?_set_self (by rw [inv.values_length]; omega), hsq]
    · rw [List.getElem?_set_ne (by omega)]
      exact inv.v_value i (by omega)
  · intro i hi
    simp only
    by_cases hik : i = k + 1
    · subst hik
      rw [List.getElem?_set_self (by rw [inv.solved_length]; omega)]
    · rw [List.getElem?_set_ne (by omega)]
      exact inv.v_solved i (by omega)
  · intro i hi1 hi2
    simp only
    rw [List.getElem?_set_ne (by omega)]
    exact inv.v_open i (by omega) hi2
  · simp only [List.length_set]; exact inv.a_length
  · simp only [List.length_set]; exact inv.b_length
  · simp only [List.length_set]; exact inv.c_length
  · intro j hj1 hj2
    simp only
    rw [List.getElem?_set_ne (by omega), List.getElem?_set_ne (by omega),
      List.getElem?_set_ne (by omega)]
    exact inv.zero j (by omega) hj2

theorem chain_last {q : Nat} (n : Nat) (hn : n + 2 < 536870912) (x y : ZMod q) (fuel k : Nat)
    (hk : k + 1 = n) (st : SolveState q) (inv : ChainInv n x y k st) :
    (squaringChain q n).solveAt exampleLayout fuel (k : Int) st
      = .ret (⟨st.s, st.a.set k (x ^ 2 ^ k), st.b.set k (x ^ 2 ^ k), st.c.set k y⟩,
          if x ^ 2 ^ n = y then none
          else some (Err.notEqual (ZMod.val (x ^ 2 ^ k)) (ZMod.val (x ^ 2 ^ k)) (ZMod.val y))) := by
  have hwk : squaringWire n k = k + 2 := by
    unfold squaringWire; rw [if_neg (by omega)]
  have hwk1 : squaringWire n (k + 1) = 1 := by
    unfold squaringWire; rw [if_pos hk]
  obtain ⟨hwi, hci⟩ := exampleLayout_mkTerm_one (k + 2) (by omega)
  obtain ⟨hwo, hco⟩ := exampleLayout_mkTerm_one 1 (by omega)
  obtain ⟨ha0, hb0, hc0⟩ := inv.zero k (Nat.le_refl k) (by omega)
  have hcheck := squaring_check exampleLayout fuel (squaringChain q n) (mkTerm 1 (k + 2))
    (mkTerm 1 1) st.s (x ^ 2 ^ k) y hci hco
    (by rw [hwi]; exact inv.v_solved k (Nat.le_refl k))
    (by rw [hwi]; exact inv.v_value k (Nat.le_refl k))
    (by rw [hwo]; exact inv.y_solved) (by rw [hwo]; exact inv.y_value)
  have hcons := squaringChain_constraint q n k (by omega)
  rw [hwk, hwk1] at hcons
  have hat := solveTask_single exampleLayout fuel (squaringChain q n) k st _ 0 0 0 _ hcons ha0
    hb0 hc0 hcheck
  have hsq : x ^ 2 ^ k * x ^ 2 ^ k = x ^ 2 ^ n := by
    rw [← hk, ← pow_add, pow_succ, Nat.mul_two]
  rw [hat, hsq]

/-- How a run of the squaring chain ends: the error is `nil` when `x^(2^n) = y`, else an
`UnsatisfiedConstraintError` with `CID: n − 1`. -/
def ChainEnd {q : Nat} (n : Nat) (x y : ZMod q) (e : Option Err) : Prop :=
  (x ^ 2 ^ n = y → e = none) ∧
    (x ^ 2 ^ n ≠ y → ∃ inner, e = some (Err.unsatisfiedConstraint ((n : Int) - 1) inner))

theorem chain_run {q : Nat} (n : Nat) (hn : n + 2 < 536870912) (x y : ZMod q)
    (cpuCount fuel m k : Nat) (st : SolveState q) (hk : k + m + 1 = n)
    (inv : ChainInv n x y k st) :
    ∃ st' e, (squaringChain q n).levelsLoop exampleLayout cpuCount fuel
        ((List.range' k (m + 1)).map fun (i : Nat) => [(i : Int)]) st = .ret (st', e) ∧
      ChainEnd n x y e ∧ st'.s.values.length = n + 2 ∧ st'.s.nbSolved = n + 2 ∧
      st'.s.values[1]? = some y ∧ ∀ i : Nat, i < n → st'.s.values[i + 2]? = some (x ^ 2 ^ i) := by
  induction m generalizing k st with
  | zero =>
    have hlast := chain_last n hn x y fuel k (by omega) st inv
    have hkn : ((k : Nat) : Int) = (n : Int) - 1 := by omega
    simp only [Nat.zero_add, List.range', List.map_cons, List.map_nil, R1CS.levelsLoop,
      List.length_cons, List.length_nil, Nat.one_le_ofNat, if_true, R1CS.solveTask, hlast,
      Outcome.bind_ret]
    by_cases heq : x ^ 2 ^ n = y
    · simp only [heq, if_true]
      refine ⟨_, _, rfl, ⟨fun _ => rfl, fun h => absurd heq h⟩, inv.values_length,
        by rw [inv.nbSolved]; omega, inv.y_value, fun i hi => inv.v_value i (by omega)⟩
    · simp only [heq, if_false]
      refine ⟨_, _, rfl, ⟨fun h => absurd h heq, fun _ => ⟨_, by rw [hkn]⟩⟩, inv.values_length,
        by rw [inv.nbSolved]; omega, inv.y_value, fun i hi => inv.v_value i (by omega)⟩
  | succ m ih =>
    obtain ⟨st1, hat, inv1⟩ := chain_step n hn x y fuel k (by omega) st inv
    obtain ⟨st', e, hrun, hrest⟩ := ih (k + 1) st1 (by omega) inv1
    refine ⟨st', e, ?_, hrest⟩
    rw [List.range'_succ, List.map_cons]
    simp only [R1CS.levelsLoop, List.length_cons, List.length_nil, Nat.zero_add,
      Nat.one_le_ofNat, if_true, R1CS.solveTask, hat, Outcome.bind_ret]
    exact hrun

/-- C23. The squaring chain of `n ≥ 1` constraints `v_i · v_i = v_{i+1}` (wire IDs below
`2^29`), with the witness `y`, `x` and zeroed buffers: `Solve` returns; it returns without
error exactly when `y = x^(2^n)`; the internal wire `v_i` holds `x^(2^i)`; and when
`y ≠ x^(2^n)` the error is an `UnsatisfiedConstraintError` with `CID: n − 1`. -/
theorem squaring_chain {q : Nat} (n : Nat) (hn1 : 1 ≤ n) (hn : n + 2 < 536870912)
    (x y : ZMod q) (cpuCount fuel : Nat) :
    ∃ res, (squaringChain q n).Solve exampleLayout cpuCount fuel [y, x]
        (List.replicate n 0) (List.replicate n 0) (List.replicate n 0) ⟨[]⟩ = .ret res ∧
      (res.err = none ↔ y = x ^ 2 ^ n) ∧
      (∀ i : Nat, 1 ≤ i → i < n → res.values[squaringWire n i]? = some (x ^ 2 ^ i)) ∧
      (y ≠ x ^ 2 ^ n →
        ∃ inner, res.err = some (Err.unsatisfiedConstraint ((n : Int) - 1) inner)) ∧
      res.values[squaringWire n n]? = some y ∧ res.values[squaringWire n 0]? = some x := by
  have hN : (squaringChain q n).NbPublicVariables + (squaringChain q n).NbSecretVariables
      + (squaringChain q n).NbInternalVariables = ((n + 2 : Nat) : Int) := by
    simp only [squaringChain]
    omega
  have hclen : (squaringChain q n).Constraints.length = n := by
    simp [squaringChain]
  obtain ⟨s1, hinit, hval, hslen, hsol, hnb, _, _, _⟩ := initSolution_ret (n + 2)
    ([0, 1, 2, -1] : List (ZMod q)) [] [] [y, x] (by simp; omega) (by simp)
  have hvlen : s1.values.length = n + 2 := by
    rw [hval]; simp; omega
  have inv0 : ChainInv n x y 0 ⟨s1, List.replicate n 0, List.replicate n 0,
      List.replicate n 0⟩ := by
    refine ⟨hvlen, hslen, by rw [hnb]; rfl, by rw [hval]; rfl, by rw [hval]; rfl,
      by rw [hsol 1 (by omega)]; rfl, ?_, ?_, ?_, by simp, by simp, by simp, ?_⟩
    · intro i hi
      have : i = 0 := by omega
      subst this
      rw [hval]; simp
    · intro i hi
      have : i = 0 := by omega
      subst this
      rw [hsol 2 (by omega)]; rfl
    · intro i hi1 hi2
      rw [hsol (i + 2) (by omega)]
      simp only [List.length_cons, List.length_nil, Option.some.injEq, decide_eq_false_iff_not]
      omega
    · intro j _ hj
      simp only [List.getElem?_replicate, hj, if_true, and_self]
  obtain ⟨m, hm⟩ : ∃ m, n = m + 1 := ⟨n - 1, by omega⟩
  obtain ⟨st', e, hrun, hend, hlen', hnb', hy', hv'⟩ := chain_run n hn x y cpuCount fuel m 0
    ⟨s1, List.replicate n 0, List.replicate n 0, List.replicate n 0⟩ (by omega) inv0
  have hlevels : (squaringChain q n).Levels
      = (List.range' 0 (m + 1)).map fun (i : Nat) => [(i : Int)] := by
    simp only [squaringChain, List.range_eq_range', hm]
  have hwn : squaringWire n n = 1 := by unfold squaringWire; rw [if_pos rfl]
  have hw0 : squaringWire n 0 = 2 := by unfold squaringWire; rw [if_neg (by omega)]
  have hwi : ∀ i, i < n → squaringWire n i = i + 2 := by
    intro i hi; unfold squaringWire; rw [if_neg (by omega)]
  have hfacts : (∀ i : Nat, 1 ≤ i → i < n →
        st'.s.values[squaringWire n i]? = some (x ^ 2 ^ i)) ∧
      st'.s.values[squaringWire n n]? = some y ∧ st'.s.values[squaringWire n 0]? = some x := by
    refine ⟨fun i _ hi => by rw [hwi i hi]; exact hv' i hi, by rw [hwn]; exact hy', ?_⟩
    rw [hw0]
    have := hv' 0 (by omega)
    simpa using this
  unfold R1CS.Solve
  simp only
  rw [hN, newSolution_ret _ _ _ _ _ (by omega), Outcome.bind_ret]
  have hmiss : missingHintNames ([] : List (Nat × HintFunction))
      (squaringChain q n).MHintsDependencies = [] := rfl
  have hw : ¬ ((([y, x] : List (ZMod q)).length : Int)
      ≠ (squaringChain q n).NbPublicVariables - 1 + (squaringChain q n).NbSecretVariables) := by
    simp [squaringChain]
  have hbuf : ¬ ((List.replicate n (0 : ZMod q)).length ≠ (squaringChain q n).Constraints.length
      ∨ (List.replicate n (0 : ZMod q)).length ≠ (squaringChain q n).Constraints.length
      ∨ (List.replicate n (0 : ZMod q)).length ≠ (squaringChain q n).Constraints.length) := by
    rw [hclen]; simp
  simp only [hmiss, if_true, hw, hbuf, if_false, Int.toNat_ofNat]
  have hinit' : initSolution (freshSolution (n + 2) [] (squaringChain q n).MHints
      (squaringChain q n).Coefficients) [y, x] = .ret s1 := hinit
  rw [hinit', Outcome.bind_ret]
  unfold R1CS.parallelSolve
  rw [hlevels, hrun, Outcome.bind_ret]
  simp only
  by_cases heq : x ^ 2 ^ n = y
  · have he : e = none := hend.1 heq
    subst he
    have hvalid : st'.s.isValid = true := by
      unfold solution.isValid uint64ToInt
      rw [hnb', hlen']
      have h1 : (n + 2) % 18446744073709551616 = n + 2 := Nat.mod_eq_of_lt (by omega)
      simp only [h1]
      rw [if_pos (by omega)]
      simp
    simp only [hvalid, if_true]
    exact ⟨_, rfl, ⟨fun _ => heq.symm, fun _ => rfl⟩, hfacts.1, fun h => absurd heq.symm h,
      hfacts.2⟩
  · obtain ⟨inner, he⟩ := hend.2 heq
    subst he
    simp only
    exact ⟨_, rfl, ⟨fun h => by simp at h, fun h => absurd h.symm heq⟩, hfacts.1,
      fun _ => ⟨inner, rfl⟩, hfacts.2⟩

/-- Witness for C23: two squarings of `x = 2` in the field with 13 elements, `y = 3`. -/
theorem squaring_chain_witness :
    ∃ res, (squaringChain 13 2).Solve exampleLayout 4 0 [3, 2]
        (List.replicate 2 0) (List.replicate 2 0) (List.replicate 2 0) ⟨[]⟩ = .ret res ∧
      (res.err = none ↔ (3 : ZMod 13) = 2 ^ 2 ^ 2) ∧
      (∀ i : Nat, 1 ≤ i → i < 2 → res.values[squaringWire 2 i]? = some ((2 : ZMod 13) ^ 2 ^ i)) ∧
      ((3 : ZMod 13) ≠ 2 ^ 2 ^ 2 →
        ∃ inner, res.err = some (Err.unsatisfiedConstraint (((2 : Nat) : Int) - 1) inner)) ∧
      res.values[squaringWire 2 2]? = some 3 ∧ res.values[squaringWire 2 0]? = some 2 :=
  squaring_chain 2 (by decide) (by decide) 2 3 4 0

/-! ## Determinism of a level under level safety -/

/-- Two calls end the same way: both return, with related results, or both panic with
the same message, or both run out of fuel. -/
def Corr {α β : Type} (R : α → β → Prop) : Outcome α → Outcome β → Prop
  | .ret a, .ret b => R a b
  | .panic m, .panic m' => m = m'
  | .outOfFuel, .outOfFuel => True
  | _, _ => False

theorem Corr.bind {α β γ δ : Type} {R : α → β → Prop} {S : γ → δ → Prop} {x : Outcome α}
    {y : Outcome β} {f : α → Outcome γ} {g : β → Outcome δ} (h : Corr R x y)
    (hfg : ∀ a b, R a b → Corr S (f a) (g b)) : Corr S (x.bind f) (y.bind g) := by
  cases x with
  | ret a =>
    cases y with
    | ret b => exact hfg a b h
    | panic m => exact False.elim h
    | outOfFuel => exact False.elim h
  | panic m =>
    cases y with
    | ret b => exact False.elim h
    | panic m' => exact h
    | outOfFuel => exact False.elim h
  | outOfFuel =>
    cases y with
    | ret b => exact False.elim h
    | panic m' => exact False.elim h
    | outOfFuel => exact h

theorem Corr.bind_same {α γ δ : Type} {S : γ → δ → Prop} (x : Outcome α)
    {f : α → Outcome γ} {g : α → Outcome δ} (hfg : ∀ a, Corr S (f a) (g a)) :
    Corr S (x.bind f) (x.bind g) := by
  cases x with
  | ret a => exact hfg a
  | panic m => exact rfl
  | outOfFuel => exact trivial

theorem Corr.mono {α β : Type} {R R' : α → β → Prop} {x : Outcome α} {y : Outcome β}
    (h : Corr R x y) (hR : ∀ a b, R a b → R' a b) : Corr R' x y := by
  cases x <;> cases y <;> first | exact hR _ _ h | exact h

theorem Corr.of_ret {α β : Type} {R : α → β → Prop} {x : Outcome α} {y : Outcome β} {a : α}
    (h : Corr R x y) (hx : x = .ret a) : ∃ b, y = .ret b ∧ R a b := by
  subst hx
  cases y with
  | ret b => exact ⟨b, rfl, h⟩
  | panic m => exact False.elim h
  | outOfFuel => exact False.elim h

/-- Two states agree on the wires in `F` (and on what no assignment changes). -/
structure Agree {q : Nat} (F : Nat → Prop) (s s' : solution q) : Prop where
  coefficients : s.coefficients = s'.coefficients
  mHints : s.mHints = s'.mHints
  mHintsFunctions : s.mHintsFunctions = s'.mHintsFunctions
  wires : ∀ w : Nat, F w → s.solved[w]? = s'.solved[w]? ∧ s.values[w]? = s'.values[w]?

/-- From `s` to `r` no wire outside `F` changed. -/
def Within {q : Nat} (F : Nat → Prop) (s r : solution q) : Prop :=
  ∀ w : Nat, ¬ F w → r.solved[w]? = s.solved[w]? ∧ r.values[w]? = s.values[w]?

/-- Two runs from states `s`, `s'` that agree on `F` end in states `r`, `r'` that agree on
`F`, with no wire outside `F` touched. -/
structure Post {q : Nat} (F : Nat → Prop) (s s' r r' : solution q) : Prop where
  agree : Agree F r r'
  left : Within F s r
  right : Within F s' r'
  mHints : r.mHints = s.mHints

theorem Agree.symm {q : Nat} {F : Nat → Prop} {s s' : solution q} (h : Agree F s s') :
    Agree F s' s :=
  ⟨h.coefficients.symm, h.mHints.symm, h.mHintsFunctions.symm,
    fun w hw => ⟨(h.wires w hw).1.symm, (h.wires w hw).2.symm⟩⟩

theorem post_refl {q : Nat} {F : Nat → Prop} {s s' : solution q} (h : Agree F s s') :
    Post F s s' s s' :=
  ⟨h, fun _ _ => ⟨rfl, rfl⟩, fun _ _ => ⟨rfl, rfl⟩, rfl⟩

theorem post_trans {q : Nat} {F : Nat → Prop} {s s' r r' t t' : solution q}
    (h1 : Post F s s' r r') (h2 : Post F r r' t t') : Post F s s' t t' :=
  ⟨h2.agree,
    fun w hw => ⟨(h2.left w hw).1.trans (h1.left w hw).1, (h2.left w hw).2.trans (h1.left w hw).2⟩,
    fun w hw => ⟨(h2.right w hw).1.trans (h1.right w hw).1,
      (h2.right w hw).2.trans (h1.right w hw).2⟩,
    h2.mHints.trans h1.mHints⟩

theorem set_agree {q : Nat} {F : Nat → Prop} {s s' : solution q} (h : Agree F s s') (id : Int)
    (v : ZMod q) (hid : 0 ≤ id → F id.toNat) :
    Corr (Post F s s') (s.set id v) (s'.set id v) := by
  unfold solution.set
  by_cases hneg : id < 0
  · simp only [hneg, if_true]
    exact rfl
  · simp only [hneg, if_false, idx]
    have hF := hid (by omega)
    obtain ⟨hs, hv⟩ := h.wires _ hF
    rw [← hs, ← hv]
    cases hsol : s.solved[id.toNat]? with
    | none => exact rfl
    | some b =>
      cases b with
      | true => exact rfl
      | false =>
        simp only [Outcome.bind_ret, Bool.false_eq_true, if_false]
        cases hval : s.values[id.toNat]? with
        | none => exact rfl
        | some x =>
          simp only [Outcome.bind_ret]
          have h1 : id.toNat < s.solved.length := by
            by_contra hc
            rw [List.getElem?_eq_none (by omega)] at hsol
            exact Option.noConfusion hsol
          have h2 : id.toNat < s.values.length := by
            by_contra hc
            rw [List.getElem?_eq_none (by omega)] at hval
            exact Option.noConfusion hval
          have h1' : id.toNat < s'.solved.length := by
            by_contra hc
            rw [hs, List.getElem?_eq_none (by omega)] at hsol
            exact Option.noConfusion hsol
          have h2' : id.toNat < s'.values.length := by
            by_contra hc
            rw [hv, List.getElem?_eq_none (by omega)] at hval
            exact Option.noConfusion hval
          refine ⟨⟨h.coefficients, h.mHints, h.mHintsFunctions, ?_⟩, ?_, ?_, rfl⟩
          · intro w hw
            by_cases hwi : id.toNat = w
            · subst hwi
              simp only [List.getElem?_set_self h1, List.getElem?_set_self h2,
                List.getElem?_set_self h1', List.getElem?_set_self h2', and_self]
            · simp only [List.getElem?_set_ne hwi]
              exact h.wires w hw
          · intro w hw
            have hwi : id.toNat ≠ w := fun e => hw (e ▸ hF)
            simp only [List.getElem?_set_ne hwi, and_self]
          · intro w hw
            have hwi : id.toNat ≠ w := fun e => hw (e ▸ hF)
            simp only [List.getElem?_set_ne hwi, and_self]

theorem accumulateInto_agree {q : Nat} {F : Nat → Prop} {s s' : solution q} (h : Agree F s s')
    (L : TermLayout) (t : Term) (r : ZMod q) (ht : F (L.WireID t)) :
    s.accumulateInto L t r = s'.accumulateInto L t r := by
  simp only [solution.accumulateInto, idx, h.coefficients, (h.wires _ ht).2]

theorem computeTerm_agree {q : Nat} {F : Nat → Prop} {s s' : solution q} (h : Agree F s s')
    (L : TermLayout) (t : Term) (ht : F (L.WireID t)) :
    s.computeTerm L t = s'.computeTerm L t := by
  simp only [solution.computeTerm, idx, h.coefficients, (h.wires _ ht).2, (h.wires _ ht).1]

/-- The wires of a hint input lie in `F`. -/
def InputIn (L : TermLayout) (F : Nat → Prop) : HintInput → Prop
  | .linExp l => ∀ t ∈ l, F (L.WireID t)
  | .term t => F (L.WireID t)
  | .bigInt _ => True
  | .bigIntPtr _ => True

/-- The output wires and the input wires of a descriptor lie in `F`. -/
def HintIn (L : TermLayout) (F : Nat → Prop) (h : Hint) : Prop :=
  (∀ w ∈ h.Wires, 0 ≤ w → F w.toNat) ∧ ∀ inp ∈ h.Inputs, InputIn L F inp

/-- The set `F` is closed under the hint map: the descriptor of a wire in `F` has its
wires in `F`. -/
def Closed (L : TermLayout) (F : Nat → Prop) (m : List (Int × Hint)) : Prop :=
  ∀ w : Nat, F w → ∀ h, m.lookup (w : Int) = some h → HintIn L F h

/-- The relation `Post` on the states, and the same error. -/
def PairPost {q : Nat} (F : Nat → Prop) (s s' : solution q)
    (r r' : solution q × Option Err) : Prop :=
  Post F s s' r.1 r'.1 ∧ r.2 = r'.2

/-- The recursive call behaves the same on states that agree on `F`. -/
def RecFrame {q : Nat} (L : TermLayout) (F : Nat → Prop)
    (recurse : solution q → Nat → Hint → Outcome (solution q × Option Err)) : Prop :=
  ∀ (s s' : solution q) (vID : Nat) (h : Hint), Agree F s s' → Closed L F s.mHints → F vID →
    HintIn L F h → Corr (PairPost F s s') (recurse s vID h) (recurse s' vID h)

theorem idx_agree {α : Type} {l l' : List α} {i : Nat} (h : l[i]? = l'[i]?) :
    idx l' i = idx l i := by
  unfold idx
  rw [h]

theorem recursiveSolve_agree {q : Nat} (L : TermLayout) (F : Nat → Prop)
    (recurse : solution q → Nat → Hint → Outcome (solution q × Option Err))
    (hrec : RecFrame L F recurse) (s s' : solution q) (t : Term) (h : Agree F s s')
    (hcl : Closed L F s.mHints) (ht : F (L.WireID t)) :
    Corr (PairPost F s s') (recursiveSolve L recurse s t) (recursiveSolve L recurse s' t) := by
  unfold recursiveSolve
  simp only
  rw [idx_agree (h.wires _ ht).1, ← h.mHints]
  refine Corr.bind_same _ (fun b => ?_)
  cases b with
  | true => exact ⟨post_refl h, rfl⟩
  | false =>
    simp only [Bool.false_eq_true, if_false]
    cases hl : s.mHints.lookup (L.WireID t : Int) with
    | none => exact rfl
    | some hint => exact hrec s s' _ hint h hcl ht (hcl _ ht hint hl)

/-- The relation `Post` on the states, and the same accumulator and error. -/
def TriPost {q : Nat} {α : Type} (F : Nat → Prop) (s s' : solution q)
    (r r' : solution q × α × Option Err) : Prop :=
  Post F s s' r.1 r'.1 ∧ r.2 = r'.2

theorem hintLinExpLoop_agree {q : Nat} (L : TermLayout) (F : Nat → Prop)
    (recurse : solution q → Nat → Hint → Outcome (solution q × Option Err))
    (hrec : RecFrame L F recurse) (l : List Term) (s s' : solution q) (v : ZMod q)
    (h : Agree F s s') (hcl : Closed L F s.mHints) (hl : ∀ t ∈ l, F (L.WireID t)) :
    Corr (TriPost F s s') (hintLinExpLoop L recurse l s v) (hintLinExpLoop L recurse l s' v) := by
  induction l generalizing s s' v with
  | nil => exact ⟨post_refl h, rfl⟩
  | cons t l ih =>
    simp only [hintLinExpLoop]
    have ht := hl t (List.mem_cons_self _ _)
    refine Corr.bind (recursiveSolve_agree L F recurse hrec s s' t h hcl ht) ?_
    rintro r r' ⟨hpost, he⟩
    rw [← he]
    cases r.2 with
    | some err => exact ⟨hpost, rfl⟩
    | none =>
      simp only
      rw [← accumulateInto_agree hpost.agree L t v ht]
      refine Corr.bind_same _ (fun v' => ?_)
      refine (ih r.1 r'.1 v' hpost.agree (by rw [hpost.mHints]; exact hcl)
        (fun u hu => hl u (List.mem_cons_of_mem _ hu))).mono ?_
      rintro a b ⟨hp, hab⟩
      exact ⟨post_trans hpost hp, hab⟩

theorem hintInputsLoop_agree {q : Nat} (L : TermLayout) (F : Nat → Prop)
    (recurse : solution q → Nat → Hint → Outcome (solution q × Option Err))
    (hrec : RecFrame L F recurse) (ins : List HintInput) (s s' : solution q)
    (inputs : List Int) (h : Agree F s s') (hcl : Closed L F s.mHints)
    (hins : ∀ inp ∈ ins, InputIn L F inp) :
    Corr (TriPost F s s') (hintInputsLoop L recurse ins s inputs)
      (hintInputsLoop L recurse ins s' inputs) := by
  induction ins generalizing s s' inputs with
  | nil => exact ⟨post_refl h, rfl⟩
  | cons inp ins ih =>
    have hinp := hins inp (List.mem_cons_self _ _)
    have hrest : ∀ i ∈ ins, InputIn L F i := fun i hi => hins i (List.mem_cons_of_mem _ hi)
    cases inp with
    | bigInt v =>
      simp only [hintInputsLoop]
      exact ih s s' _ h hcl hrest
    | bigIntPtr v =>
      simp only [hintInputsLoop]
      exact ih s s' _ h hcl hrest
    | linExp l =>
      simp only [hintInputsLoop]
      refine Corr.bind (hintLinExpLoop_agree L F recurse hrec l s s' 0 h hcl hinp) ?_
      rintro r r' ⟨hpost, he⟩
      rw [← he]
      cases r.2.2 with
      | some err => exact ⟨hpost, rfl⟩
      | none =>
        simp only
        refine (ih r.1 r'.1 _ hpost.agree (by rw [hpost.mHints]; exact hcl) hrest).mono ?_
        rintro a b ⟨hp, hab⟩
        exact ⟨post_trans hpost hp, hab⟩
    | term t =>
      simp only [hintInputsLoop]
      refine Corr.bind (recursiveSolve_agree L F recurse hrec s s' t h hcl hinp) ?_
      rintro r r' ⟨hpost, he⟩
      rw [← he]
      cases r.2 with
      | some err => exact ⟨hpost, rfl⟩
      | none =>
        simp only
        rw [← computeTerm_agree hpost.agree L t hinp]
        refine Corr.bind_same _ (fun v => ?_)
        refine (ih r.1 r'.1 _ hpost.agree (by rw [hpost.mHints]; exact hcl) hrest).mono ?_
        rintro a b ⟨hp, hab⟩
        exact ⟨post_trans hpost hp, hab⟩

theorem setHintOutputs_agree {q : Nat} (F : Nat → Prop) (ws : List Int) (i : Nat)
    (outputs : List Int) (s s' : solution q) (h : Agree F s s')
    (hws : ∀ w ∈ ws, 0 ≤ w → F w.toNat) :
    Corr (Post F s s') (setHintOutputs ws i outputs s) (setHintOutputs ws i outputs s') := by
  induction ws generalizing i s s' with
  | nil => exact post_refl h
  | cons w ws ih =>
    simp only [setHintOutputs]
    refine Corr.bind (set_agree h w _ (hws w (List.mem_cons_self _ _))) ?_
    intro r r' hpost
    exact (ih (i + 1) r r' hpost.agree (fun u hu => hws u (List.mem_cons_of_mem _ hu))).mono
      (fun a b hp => post_trans hpost hp)

theorem solveWithHint_agree {q : Nat} (L : TermLayout) (F : Nat → Prop) (fuel : Nat) :
    RecFrame L F (solution.solveWithHint L fuel : solution q → Nat → Hint → _) := by
  induction fuel with
  | zero =>
    intro s s' vID h _ _ _ _
    exact trivial
  | succ fuel ih =>
    intro s s' vID h hag hcl hv hh
    simp only [solution.solveWithHint]
    rw [idx_agree (hag.wires _ hv).1, ← hag.mHintsFunctions]
    refine Corr.bind_same _ (fun b => ?_)
    cases b with
    | true => exact ⟨post_refl hag, rfl⟩
    | false =>
      simp only [Bool.false_eq_true, if_false]
      cases s.mHintsFunctions.lookup h.ID with
      | none => exact ⟨post_refl hag, rfl⟩
      | some f =>
        simp only
        refine Corr.bind (hintInputsLoop_agree L F _ ih h.Inputs s s' [] hag hcl hh.2) ?_
        rintro r r' ⟨hpost, he⟩
        rw [← he]
        cases r.2.2 with
        | some err => exact ⟨hpost, rfl⟩
        | none =>
          simp only
          refine Corr.bind_same _ (fun out => ?_)
          refine Corr.bind (setHintOutputs_agree F h.Wires 0 out.2.1 r.1 r'.1 hpost.agree hh.1) ?_
          intro t t' hp
          exact ⟨post_trans hpost hp, rfl⟩

/-- The relation `Post` on the states of `processLExp`, the same accumulator, `loc`,
`termToCompute` and error, and a `termToCompute` in `F` once `loc` is set. -/
def LPost {q : Nat} (L : TermLayout) (F : Nat → Prop) (s s' : solution q)
    (p p' : LExpState q) : Prop :=
  Post F s s' p.s p'.s ∧ p.val = p'.val ∧ p.loc = p'.loc ∧
    p.termToCompute = p'.termToCompute ∧ p.err = p'.err ∧
    (p.loc ≠ 0 → F (L.WireID p.termToCompute))

theorem processLExp_agree {q : Nat} (L : TermLayout) (F : Nat → Prop) (fuel : Nat)
    (cs : R1CS q) (k : Nat) (hcs : Closed L F cs.MHints) (l : List Term) (s s' : solution q)
    (val : ZMod q) (loc : Nat) (ttc : Term) (h : Agree F s s') (hcl : Closed L F s.mHints)
    (hl : ∀ t ∈ l, F (L.WireID t)) (httc : loc ≠ 0 → F (L.WireID ttc)) :
    Corr (LPost L F s s') (processLExp L fuel cs k l s val loc ttc)
      (processLExp L fuel cs k l s' val loc ttc) := by
  induction l generalizing s s' val loc ttc with
  | nil => exact ⟨post_refl h, rfl, rfl, rfl, rfl, httc⟩
  | cons t l ih =>
    have ht := hl t (List.mem_cons_self _ _)
    have hrest : ∀ u ∈ l, F (L.WireID u) := fun u hu => hl u (List.mem_cons_of_mem _ hu)
    simp only [processLExp]
    rw [idx_agree (h.wires _ ht).1]
    refine Corr.bind_same _ (fun b => ?_)
    cases b with
    | true =>
      simp only [if_true]
      rw [← accumulateInto_agree h L t val ht]
      exact Corr.bind_same _ (fun v => ih s s' v loc ttc h hcl hrest httc)
    | false =>
      simp only [Bool.false_eq_true, if_false]
      cases hlk : cs.MHints.lookup (L.WireID t : Int) with
      | none =>
        simp only
        by_cases hloc : loc = 0
        · simp only [hloc, ne_eq, not_true_eq_false, if_false]
          exact ih s s' val k t h hcl hrest (fun _ => ht)
        · simp only [hloc, ne_eq, not_false_eq_true, if_true]
          exact rfl
      | some hint =>
        simp only
        refine Corr.bind (solveWithHint_agree L F fuel s s' _ hint h hcl ht
          (hcs _ ht hint hlk)) ?_
        rintro r r' ⟨hpost, he⟩
        rw [← he]
        cases r.2 with
        | some err => exact ⟨hpost, rfl, rfl, rfl, rfl, httc⟩
        | none =>
          simp only
          rw [← accumulateInto_agree hpost.agree L t val ht]
          refine Corr.bind_same _ (fun v => ?_)
          refine (ih r.1 r'.1 v loc ttc hpost.agree (by rw [hpost.mHints]; exact hcl) hrest
            httc).mono ?_
          rintro a b ⟨hp, h1, h2, h3, h4, h5⟩
          exact ⟨post_trans hpost hp, h1, h2, h3, h4, h5⟩

/-- The relation `Post` on the states, and the same `a`, `b`, `c` and error. -/
def CPost {q : Nat} (F : Nat → Prop) (s s' : solution q) (r r' : ConstraintResult q) : Prop :=
  Post F s s' r.s r'.s ∧ r.a = r'.a ∧ r.b = r'.b ∧ r.c = r'.c ∧ r.err = r'.err

theorem instantiate_agree {q : Nat} (L : TermLayout) (F : Nat → Prop) (cs : R1CS q)
    (s s' : solution q) (ttc : Term) (a b c wire : ZMod q) (h : Agree F s s')
    (ht : F (L.WireID ttc)) :
    Corr (CPost F s s') (cs.instantiate L s ttc a b c wire)
      (cs.instantiate L s' ttc a b c wire) := by
  unfold R1CS.instantiate
  refine Corr.bind_same _ (fun w => ?_)
  refine Corr.bind (set_agree h _ w (fun _ => by rw [Int.toNat_ofNat]; exact ht)) ?_
  intro r r' hp
  exact ⟨hp, rfl, rfl, rfl, rfl⟩

theorem solveUnknown_agree {q : Nat} (L : TermLayout) (F : Nat → Prop) (cs : R1CS q)
    (s s' : solution q) (loc : Nat) (ttc : Term) (a b c : ZMod q) (h : Agree F s s')
    (ht : loc ≠ 0 → F (L.WireID ttc)) :
    Corr (CPost F s s') (cs.solveUnknown L s loc ttc a b c)
      (cs.solveUnknown L s' loc ttc a b c) := by
  have hret : ∀ (e : Option Err), Corr (CPost F s s')
      (.ret ⟨s, a, b, c, e⟩ : Outcome (ConstraintResult q)) (.ret ⟨s', a, b, c, e⟩) :=
    fun e => ⟨post_refl h, rfl, rfl, rfl, rfl⟩
  unfold R1CS.solveUnknown
  simp only
  by_cases h0 : loc = 0
  · simp only [h0, if_true]
    split_ifs
    · exact hret _
    · exact hret _
  · have hF := ht h0
    simp only [h0, if_false]
    split_ifs
    all_goals first
      | exact hret _
      | exact instantiate_agree L F cs s s' ttc _ _ _ _ h hF

theorem solveConstraint_agree {q : Nat} (L : TermLayout) (F : Nat → Prop) (fuel : Nat)
    (cs : R1CS q) (hcs : Closed L F cs.MHints) (r : R1C) (s s' : solution q) (a b c : ZMod q)
    (h : Agree F s s') (hcl : Closed L F s.mHints)
    (hr : ∀ t ∈ r.L ++ r.R ++ r.O, F (L.WireID t)) :
    Corr (CPost F s s') (cs.solveConstraint L fuel r s a b c)
      (cs.solveConstraint L fuel r s' a b c) := by
  have mL : ∀ t ∈ r.L, F (L.WireID t) := fun t ht => hr t (by simp [ht])
  have mR : ∀ t ∈ r.R, F (L.WireID t) := fun t ht => hr t (by simp [ht])
  have mO : ∀ t ∈ r.O, F (L.WireID t) := fun t ht => hr t (by simp [ht])
  unfold R1CS.solveConstraint
  refine Corr.bind (processLExp_agree L F fuel cs 1 hcs r.L s s' a 0 0 h hcl mL
    (fun h0 => absurd rfl h0)) ?_
  rintro p1 p1' ⟨hp1, hv1, hl1, ht1, he1, hF1⟩
  rw [← hv1, ← hl1, ← ht1, ← he1]
  cases p1.err with
  | some err => exact ⟨hp1, rfl, rfl, rfl, rfl⟩
  | none =>
    simp only
    refine Corr.bind (processLExp_agree L F fuel cs 2 hcs r.R p1.s p1'.s b p1.loc
      p1.termToCompute hp1.agree (by rw [hp1.mHints]; exact hcl) mR hF1) ?_
    rintro p2 p2' ⟨hp2, hv2, hl2, ht2, he2, hF2⟩
    rw [← hv2, ← hl2, ← ht2, ← he2]
    cases p2.err with
    | some err => exact ⟨post_trans hp1 hp2, rfl, rfl, rfl, rfl⟩
    | none =>
      simp only
      refine Corr.bind (processLExp_agree L F fuel cs 3 hcs r.O p2.s p2'.s c p2.loc
        p2.termToCompute hp2.agree (by rw [hp2.mHints, hp1.mHints]; exact hcl) mO hF2) ?_
      rintro p3 p3' ⟨hp3, hv3, hl3, ht3, he3, hF3⟩
      rw [← hv3, ← hl3, ← ht3, ← he3]
      cases p3.err with
      | some err => exact ⟨post_trans (post_trans hp1 hp2) hp3, rfl, rfl, rfl, rfl⟩
      | none =>
        simp only
        refine (solveUnknown_agree L F cs p3.s p3'.s p3.loc p3.termToCompute p1.val p2.val
          p3.val hp3.agree hF3).mono ?_
        rintro x y ⟨hp, h1, h2, h3, h4⟩
        exact ⟨post_trans (post_trans (post_trans hp1 hp2) hp3) hp, h1, h2, h3, h4⟩

theorem agree_refl {q : Nat} (F : Nat → Prop) (s : solution q) : Agree F s s :=
  ⟨rfl, rfl, rfl, fun _ _ => ⟨rfl, rfl⟩⟩

/-- The relation between the results of `solveAt` on two states: `Post` on the solutions,
the same error, and the same values written to `a[i]`, `b[i]`, `c[i]`. -/
def SPost {q : Nat} (F : Nat → Prop) (i : Nat) (st st' : SolveState q)
    (x y : SolveState q × Option Err) : Prop :=
  Post F st.s st'.s x.1.s y.1.s ∧ x.2 = y.2 ∧ ∃ a1 b1 c1 : ZMod q,
    x.1.a = st.a.set i a1 ∧ y.1.a = st'.a.set i a1 ∧
    x.1.b = st.b.set i b1 ∧ y.1.b = st'.b.set i b1 ∧
    x.1.c = st.c.set i c1 ∧ y.1.c = st'.c.set i c1

theorem solveAt_agree {q : Nat} (L : TermLayout) (F : Nat → Prop) (fuel : Nat)
    (cs : R1CS q) (hcs : Closed L F cs.MHints) (i : Int) (st st' : SolveState q)
    (h : Agree F st.s st'.s) (hcl : Closed L F st.s.mHints)
    (hcov : ∀ r, cs.Constraints[i.toNat]? = some r → ∀ t ∈ r.L ++ r.R ++ r.O, F (L.WireID t))
    (ha : st.a[i.toNat]? = st'.a[i.toNat]?) (hb : st.b[i.toNat]? = st'.b[i.toNat]?)
    (hc : st.c[i.toNat]? = st'.c[i.toNat]?) :
    Corr (SPost F i.toNat st st') (cs.solveAt L fuel i st) (cs.solveAt L fuel i st') := by
  unfold R1CS.solveAt
  by_cases hneg : i < 0
  · simp only [hneg, if_true]
    exact rfl
  · simp only [hneg, if_false]
    rw [idx_agree ha, idx_agree hb, idx_agree hc]
    cases hr : cs.Constraints[i.toNat]? with
    | none =>
      simp only [idx, hr, Outcome.bind_panic]
      exact rfl
    | some r =>
      simp only [idx, hr, Outcome.bind_ret]
      refine Corr.bind_same _ (fun ai => ?_)
      refine Corr.bind_same _ (fun bi => ?_)
      refine Corr.bind_same _ (fun ci => ?_)
      refine Corr.bind (solveConstraint_agree L F fuel cs hcs r st.s st'.s ai bi ci h hcl
        (hcov r hr)) ?_
      rintro x y ⟨hp, h1, h2, h3, h4⟩
      exact ⟨hp, h4, x.a, x.b, x.c, rfl, by rw [h1], rfl, by rw [h2], rfl, by rw [h3]⟩

theorem solveAt_extends {q : Nat} (L : TermLayout) (fuel : Nat) (cs : R1CS q) (i : Int)
    (st st1 : SolveState q) (e : Option Err) (h : cs.solveAt L fuel i st = .ret (st1, e)) :
    0 ≤ i ∧ st.s.Extends st1.s := by
  obtain ⟨hi, r, ai, bi, ci, res, _, _, _, _, hres, _, hst⟩ :=
    solveAt_spec L fuel cs i st st1 e h
  subst hst
  exact ⟨hi, solveConstraint_extends L fuel cs r st.s ai bi ci res hres⟩

theorem solution_ext {q : Nat} (s1 s2 : solution q) (h1 : s1.values = s2.values)
    (h2 : s1.coefficients = s2.coefficients) (h3 : s1.solved = s2.solved)
    (h4 : s1.nbSolved = s2.nbSolved) (h5 : s1.mHintsFunctions = s2.mHintsFunctions)
    (h6 : s1.mHints = s2.mHints) : s1 = s2 := by
  cases s1
  cases s2
  simp only at h1 h2 h3 h4 h5 h6
  subst h1 h2 h3 h4 h5 h6
  rfl

/-- An extension that stays within `F` leaves a state that agrees with the original on
every set `G` whose wires shared with `F` were solved. -/
theorem agree_of_extends {q : Nat} {F G : Nat → Prop} {s r : solution q} (e : s.Extends r)
    (hw : Within F s r) (hshare : ∀ w, F w → G w → s.solved[w]? = some true) :
    Agree G s r := by
  refine ⟨e.coefficients.symm, e.mHints.symm, e.mHintsFunctions.symm, ?_⟩
  intro w hG
  by_cases hF : F w
  · have hs := hshare w hF hG
    obtain ⟨h1, h2⟩ := e.frozen w hs
    exact ⟨by rw [hs, h1], h2.symm⟩
  · obtain ⟨h1, h2⟩ := hw w hF
    exact ⟨h1.symm, h2.symm⟩

theorem solveAt_swap {q : Nat} (L : TermLayout) (fuel : Nat) (cs : R1CS q)
    (Fi Fj : Nat → Prop) (i j : Int) (hij : i ≠ j) (st A AB : SolveState q)
    (hcsi : Closed L Fi cs.MHints) (hcsj : Closed L Fj cs.MHints)
    (hm : st.s.mHints = cs.MHints)
    (hcovi : ∀ r, cs.Constraints[i.toNat]? = some r →
      ∀ t ∈ r.L ++ r.R ++ r.O, Fi (L.WireID t))
    (hcovj : ∀ r, cs.Constraints[j.toNat]? = some r →
      ∀ t ∈ r.L ++ r.R ++ r.O, Fj (L.WireID t))
    (hshare : ∀ w, Fi w → Fj w → st.s.solved[w]? = some true) (hC : st.s.Counted)
    (h1 : cs.solveAt L fuel i st = .ret (A, none))
    (h2 : cs.solveAt L fuel j A = .ret (AB, none)) :
    ∃ B, cs.solveAt L fuel j st = .ret (B, none) ∧ cs.solveAt L fuel i B = .ret (AB, none) := by
  obtain ⟨hi0, eA⟩ := solveAt_extends L fuel cs i st A none h1
  obtain ⟨hj0, eAB⟩ := solveAt_extends L fuel cs j A AB none h2
  have hne : i.toNat ≠ j.toNat := toNat_ne_of_ne hi0 hj0 hij
  -- the run of `i` on `st` stays within `Fi`
  obtain ⟨y, hy, hpost, _, a2, b2, c2, hAa, _, hAb, _, hAc, _⟩ :=
    (solveAt_agree L Fi fuel cs hcsi i st st (agree_refl _ _) (by rw [hm]; exact hcsi) hcovi
      rfl rfl rfl).of_ret h1
  simp only at hpost hAa hAb hAc
  have hwi : Within Fi st.s A.s := hpost.left
  have agA : Agree Fj st.s A.s := agree_of_extends eA hwi hshare
  -- the run of `j` on `A` and on `st`
  obtain ⟨yB, hB, hpostj, hej, a1, b1, c1, hABa, hBa, hABb, hBb, hABc, hBc⟩ :=
    (solveAt_agree L Fj fuel cs hcsj j A st agA.symm
      (by rw [eA.mHints, hm]; exact hcsj) hcovj
      (by rw [hAa, List.getElem?_set_ne hne]) (by rw [hAb, List.getElem?_set_ne hne])
      (by rw [hAc, List.getElem?_set_ne hne])).of_ret h2
  simp only at hpostj hej hABa hBa hABb hBb hABc hBc
  obtain ⟨B, eb⟩ := yB
  simp only at hpostj hej hBa hBb hBc
  subst hej
  obtain ⟨_, eB⟩ := solveAt_extends L fuel cs j st B none hB
  have hwj : Within Fj st.s B.s := hpostj.right
  have agB : Agree Fi st.s B.s :=
    agree_of_extends eB hwj (fun w hj hi => hshare w hi hj)
  -- the run of `i` on `st` and on `B`
  obtain ⟨z, hz, hposti, hei, a3, b3, c3, hAa3, hza, hAb3, hzb, hAc3, hzc⟩ :=
    (solveAt_agree L Fi fuel cs hcsi i st B agB (by rw [hm]; exact hcsi) hcovi
      (by rw [hBa, List.getElem?_set_ne (Ne.symm hne)])
      (by rw [hBb, List.getElem?_set_ne (Ne.symm hne)])
      (by rw [hBc, List.getElem?_set_ne (Ne.symm hne)])).of_ret h1
  simp only at hposti hei hAa3 hza hAb3 hzb hAc3 hzc
  obtain ⟨Z, ez⟩ := z
  simp only at hposti hei hza hzb hzc
  subst hei
  obtain ⟨_, eZ⟩ := solveAt_extends L fuel cs i B Z none hz
  refine ⟨B, hB, ?_⟩
  rw [hz]
  have hwire : ∀ w : Nat, Z.s.solved[w]? = AB.s.solved[w]? ∧ Z.s.values[w]? = AB.s.values[w]? := by
    intro w
    by_cases hFi : Fi w
    · by_cases hFj : Fj w
      · have hs := hshare w hFi hFj
        obtain ⟨a1s, a1v⟩ := eA.frozen w hs
        obtain ⟨a2s, a2v⟩ := eAB.frozen w a1s
        obtain ⟨b1s, b1v⟩ := eB.frozen w hs
        obtain ⟨b2s, b2v⟩ := eZ.frozen w b1s
        exact ⟨by rw [b2s, a2s], by rw [b2v, b1v, a2v, a1v]⟩
      · obtain ⟨h3, h4⟩ := hpostj.left w hFj
        obtain ⟨h5, h6⟩ := hposti.agree.wires w hFi
        exact ⟨by rw [h3, h5], by rw [h4, h6]⟩
    · by_cases hFj : Fj w
      · obtain ⟨h3, h4⟩ := hpostj.agree.wires w hFj
        obtain ⟨h5, h6⟩ := hposti.right w hFi
        exact ⟨by rw [h5, h3], by rw [h6, h4]⟩
      · obtain ⟨h3, h4⟩ := hpostj.left w hFj
        obtain ⟨h5, h6⟩ := hwi w hFi
        obtain ⟨h7, h8⟩ := hposti.right w hFi
        obtain ⟨h9, h10⟩ := hwj w hFj
        exact ⟨by rw [h7, h9, h3, h5], by rw [h8, h10, h4, h6]⟩
  have hsol : Z.s.solved = AB.s.solved := List.ext_getElem? (fun w => (hwire w).1)
  have hval : Z.s.values = AB.s.values := List.ext_getElem? (fun w => (hwire w).2)
  have hcZ := (eZ.counted (eB.counted hC)).2.2
  have hcAB := (eAB.counted (eA.counted hC)).2.2
  have hs : Z.s = AB.s := solution_ext _ _ hval
    (by rw [eZ.coefficients, eB.coefficients, eAB.coefficients, eA.coefficients]) hsol
    (by rw [hcZ, hcAB, hsol])
    (by rw [eZ.mHintsFunctions, eB.mHintsFunctions, eAB.mHintsFunctions, eA.mHintsFunctions])
    (by rw [eZ.mHints, eB.mHints, eAB.mHints, eA.mHints])
  have hZ : Z = AB := by
    cases Z
    cases AB
    simp only at hs hza hzb hzc hABa hABb hABc
    simp only [SolveState.mk.injEq]
    refine ⟨hs, ?_, ?_, ?_⟩
    · rw [hza, hBa, hABa, hAa3]
      exact List.set_comm _ _ _ (Ne.symm hne)
    · rw [hzb, hBb, hABb, hAb3]
      exact List.set_comm _ _ _ (Ne.symm hne)
    · rw [hzc, hBc, hABc, hAc3]
      exact List.set_comm _ _ _ (Ne.symm hne)
  rw [hZ]

/-- Level safety with respect to footprints `F i` of the constraints of a level: `F i`
holds the wires of the constraint `i` and is closed under the hint map, and a wire in the
footprints of two different constraints of the level is solved before the level (so that
each wire is written by one constraint at most). -/
def LevelSafe {q : Nat} (L : TermLayout) (cs : R1CS q) (F : Int → Nat → Prop)
    (level : List Int) (s : solution q) : Prop :=
  s.mHints = cs.MHints ∧
    (∀ i ∈ level, Closed L (F i) cs.MHints ∧
      ∀ r, cs.Constraints[i.toNat]? = some r → ∀ t ∈ r.L ++ r.R ++ r.O, F i (L.WireID t)) ∧
    (∀ i ∈ level, ∀ j ∈ level, i ≠ j → ∀ w, F i w → F j w → s.solved[w]? = some true)

theorem LevelSafe.subset {q : Nat} {L : TermLayout} {cs : R1CS q} {F : Int → Nat → Prop}
    {l l' : List Int} {s s' : solution q} (h : LevelSafe L cs F l s) (hsub : ∀ i ∈ l', i ∈ l)
    (e : s.Extends s') : LevelSafe L cs F l' s' :=
  ⟨e.mHints.trans h.1, fun i hi => h.2.1 i (hsub i hi),
    fun i hi j hj hij w hwi hwj =>
      (e.frozen w (h.2.2 i (hsub i hi) j (hsub j hj) hij w hwi hwj)).1⟩

theorem solveTask_cons_ret {q : Nat} (L : TermLayout) (fuel : Nat) (cs : R1CS q) (i : Int)
    (l : List Int) (st stF : SolveState q) :
    cs.solveTask L fuel (i :: l) st = .ret (stF, none) ↔
      ∃ A, cs.solveAt L fuel i st = .ret (A, none) ∧ cs.solveTask L fuel l A = .ret (stF, none) := by
  constructor
  · intro h
    simp only [R1CS.solveTask] at h
    obtain ⟨r, hr, h⟩ := Outcome.bind_eq_ret h
    cases he : r.2 with
    | some err => simp [he] at h
    | none =>
      simp only [he] at h
      exact ⟨r.1, by rw [hr, ← he], h⟩
  · rintro ⟨A, hA, h⟩
    simp only [R1CS.solveTask, hA, Outcome.bind_ret]
    exact h

theorem solveTask_perm {q : Nat} (L : TermLayout) (fuel : Nat) (cs : R1CS q)
    (F : Int → Nat → Prop) (l l' : List Int) (hp : l.Perm l') (st stF : SolveState q)
    (hsafe : LevelSafe L cs F l st.s) (hC : st.s.Counted)
    (h : cs.solveTask L fuel l st = .ret (stF, none)) :
    cs.solveTask L fuel l' st = .ret (stF, none) := by
  induction hp generalizing st with
  | nil => exact h
  | cons a _ ih =>
    obtain ⟨A, hA, hrest⟩ := (solveTask_cons_ret L fuel cs a _ st stF).mp h
    obtain ⟨_, eA⟩ := solveAt_extends L fuel cs a st A none hA
    exact (solveTask_cons_ret L fuel cs a _ st stF).mpr ⟨A, hA,
      ih A (hsafe.subset (fun i hi => List.mem_cons_of_mem _ hi) eA) (eA.counted hC) hrest⟩
  | swap a b l =>
    obtain ⟨A, hA, hrestA⟩ := (solveTask_cons_ret L fuel cs b _ st stF).mp h
    obtain ⟨AB, hAB, hrestAB⟩ := (solveTask_cons_ret L fuel cs a _ A stF).mp hrestA
    by_cases hab : b = a
    · rw [← hab] at hAB ⊢
      exact (solveTask_cons_ret L fuel cs b _ st stF).mpr ⟨A, hA,
        (solveTask_cons_ret L fuel cs b _ A stF).mpr ⟨AB, hAB, hrestAB⟩⟩
    · have hb : b ∈ b :: a :: l := List.mem_cons_self _ _
      have ha : a ∈ b :: a :: l := List.mem_cons_of_mem _ (List.mem_cons_self _ _)
      obtain ⟨B, hB, hBA⟩ := solveAt_swap L fuel cs (F b) (F a) b a hab st A AB
        (hsafe.2.1 b hb).1 (hsafe.2.1 a ha).1 hsafe.1 (hsafe.2.1 b hb).2 (hsafe.2.1 a ha).2
        (hsafe.2.2 b hb a ha hab) hC hA hAB
      exact (solveTask_cons_ret L fuel cs a _ st stF).mpr ⟨B, hB,
        (solveTask_cons_ret L fuel cs b _ B stF).mpr ⟨AB, hBA, hrestAB⟩⟩
  | trans p1 _ ih1 ih2 =>
    exact ih2 st (hsafe.subset (fun i hi => p1.mem_iff.mpr hi) (solution.Extends.refl _)) hC
      (ih1 st hsafe hC h)

theorem solveTask_append_inv {q : Nat} (L : TermLayout) (fuel : Nat) (cs : R1CS q)
    (l1 l2 : List Int) (st st2 : SolveState q)
    (h : cs.solveTask L fuel (l1 ++ l2) st = .ret (st2, none)) :
    ∃ st1, cs.solveTask L fuel l1 st = .ret (st1, none) ∧
      cs.solveTask L fuel l2 st1 = .ret (st2, none) := by
  induction l1 generalizing st with
  | nil => exact ⟨st, rfl, h⟩
  | cons i l1 ih =>
    rw [List.cons_append] at h
    obtain ⟨A, hA, hrest⟩ := (solveTask_cons_ret L fuel cs i _ st st2).mp h
    obtain ⟨st1, h1, h2⟩ := ih A hrest
    exact ⟨st1, (solveTask_cons_ret L fuel cs i _ st st1).mpr ⟨A, hA, h1⟩, h2⟩

theorem dispatchLoop_complete {q : Nat} (L : TermLayout) (fuel : Nat) (cs : R1CS q)
    (level : List Int) (per n i : Nat) (extra : Int) (off : Nat) (st st' : SolveState q)
    (errs : List Err) (hextra : 0 ≤ extra)
    (hbound : i * per + off + (n * per + min n extra.toNat) ≤ level.length)
    (h : cs.solveTask L fuel ((level.drop (i * per + off)).take (n * per + min n extra.toNat)) st
      = .ret (st', none)) :
    cs.dispatchLoop L fuel level per n i extra off st errs = .ret (st', errs) := by
  induction n generalizing i extra off st errs with
  | zero =>
    simp only [Nat.zero_mul, Nat.zero_min, Nat.add_zero, List.take_zero, R1CS.solveTask,
      Outcome.ret.injEq, Prod.mk.injEq, and_true] at h
    subst h
    rfl
  | succ n ih =>
    have hsi : (i + 1) * per = i * per + per := Nat.succ_mul i per
    have hsn : (n + 1) * per = n * per + per := Nat.succ_mul n per
    by_cases hpos : extra > 0
    · have hlen : (n + 1) * per + min (n + 1) extra.toNat
          = (per + 1) + (n * per + min n (extra - 1).toNat) := by omega
      rw [hlen, List.take_add] at h
      obtain ⟨st1, h1, h2⟩ := solveTask_append_inv L fuel cs _ _ st st' h
      rw [List.drop_drop] at h2
      have hstart : i * per + off + (per + 1) = (i + 1) * per + (off + 1) := by omega
      rw [hstart] at h2
      have hrest := ih (i + 1) (extra - 1) (off + 1) st1 errs (by omega) (by omega) h2
      have hslice : sliceRange level (i * per + off) (i * per + off + per + 1)
          = .ret ((level.drop (i * per + off)).take (per + 1)) := by
        unfold sliceRange
        rw [if_pos (by omega)]
        congr 2
        omega
      simp only [R1CS.dispatchLoop, hpos, if_true, hslice, Outcome.bind_ret, h1,
        Option.toList_none, List.append_nil]
      exact hrest
    · have hlen : (n + 1) * per + min (n + 1) extra.toNat
          = per + (n * per + min n extra.toNat) := by omega
      rw [hlen, List.take_add] at h
      obtain ⟨st1, h1, h2⟩ := solveTask_append_inv L fuel cs _ _ st st' h
      rw [List.drop_drop] at h2
      have hstart : i * per + off + per = (i + 1) * per + off := by omega
      rw [hstart] at h2
      have hrest := ih (i + 1) extra off st1 errs hextra (by omega) h2
      have hslice : sliceRange level (i * per + off) (i * per + off + per)
          = .ret ((level.drop (i * per + off)).take per) := by
        unfold sliceRange
        rw [if_pos (by omega)]
        congr 2
        omega
      simp only [R1CS.dispatchLoop, hpos, if_false, hslice, Outcome.bind_ret, h1,
        Option.toList_none, List.append_nil]
      exact hrest

theorem dispatchLevel_complete {q : Nat} (L : TermLayout) (fuel : Nat) (cs : R1CS q)
    (level : List Int) (nbTasks : Nat) (hnb : 1 ≤ nbTasks) (st st' : SolveState q)
    (h : cs.solveTask L fuel level st = .ret (st', none)) :
    cs.dispatchLevel L fuel level nbTasks st = .ret (st', []) := by
  unfold R1CS.dispatchLevel
  rw [if_neg (by omega)]
  simp only
  have hdm := Nat.div_add_mod level.length nbTasks
  have hml := Nat.mod_lt level.length (show 0 < nbTasks by omega)
  by_cases hper : level.length / nbTasks < 1
  · rw [if_pos hper]
    have hex : (level.length : Int) - ((level.length * 1 : Nat) : Int) = 0 := by simp
    rw [hex]
    apply dispatchLoop_complete L fuel cs level 1 level.length 0 0 0 st st' [] (by omega)
    · simp
    · simpa using h
  · rw [if_neg hper]
    generalize hd : level.length / nbTasks = d at hdm
    generalize hm : level.length % nbTasks = m at hdm hml
    have hex : (level.length : Int) - ((nbTasks * d : Nat) : Int) = (m : Int) := by omega
    rw [hex]
    have htot : nbTasks * d + min nbTasks (m : Int).toNat = level.length := by
      simp only [Int.toNat_ofNat]
      omega
    apply dispatchLoop_complete L fuel cs level d nbTasks 0 m 0 st st' [] (by omega)
    · simp only [Nat.zero_mul, Nat.add_zero, Nat.zero_add]
      omega
    · simp only [Nat.zero_mul, Nat.add_zero, List.drop_zero]
      rw [htot, List.take_length]
      exact h

theorem levelsLoop_single {q : Nat} (L : TermLayout) (cpuCount fuel : Nat) (cs : R1CS q)
    (hcpu : 1 ≤ cpuCount) (level : List Int) (st stF : SolveState q) :
    cs.levelsLoop L cpuCount fuel [level] st = .ret (stF, none) ↔
      cs.solveTask L fuel level st = .ret (stF, none) := by
  constructor
  · intro h
    have := levelsLoop_success L cpuCount fuel cs [level] st stF h
    simpa using this
  · intro h
    by_cases h50 : level.length ≤ 50
    · simp only [R1CS.levelsLoop, h50, if_true, h, Outcome.bind_ret]
    · have hW : 1 ≤ taskCount cpuCount level.length := by
        rw [taskCount_eq]; omega
      simp only [R1CS.levelsLoop, h50, if_false,
        dispatchLevel_complete L fuel cs level _ hW st stF h, Outcome.bind_ret]

/-- C28, amended. Under level safety (each wire that two constraints of the level reach,
directly or through hint descriptors, is solved before the level), from a state with a
consistent solved counter: the level succeeds with state and buffers `stF` in one order
of its constraints exactly when it does so in any other order, and exactly when the loop
of `parallelSolve` over this level does so on any number `cpuCount ≥ 1` of CPUs. -/
theorem level_order_independent {q : Nat} (L : TermLayout) (fuel : Nat) (cs : R1CS q)
    (F : Int → Nat → Prop) (level level' : List Int) (hp : level.Perm level')
    (st stF : SolveState q) (hsafe : LevelSafe L cs F level st.s) (hC : st.s.Counted) :
    (cs.solveTask L fuel level st = .ret (stF, none) ↔
        cs.solveTask L fuel level' st = .ret (stF, none)) ∧
      ∀ cpuCount : Nat, 1 ≤ cpuCount →
        (cs.levelsLoop L cpuCount fuel [level'] st = .ret (stF, none) ↔
          cs.solveTask L fuel level st = .ret (stF, none)) := by
  have hiff : cs.solveTask L fuel level st = .ret (stF, none) ↔
      cs.solveTask L fuel level' st = .ret (stF, none) :=
    ⟨solveTask_perm L fuel cs F level level' hp st stF hsafe hC,
      solveTask_perm L fuel cs F level' level hp.symm st stF
        (hsafe.subset (fun i hi => hp.mem_iff.mpr hi) (solution.Extends.refl _)) hC⟩
  exact ⟨hiff, fun cpuCount hcpu =>
    (levelsLoop_single L cpuCount fuel cs hcpu level' st stF).trans hiff.symm⟩

theorem closed_nil (L : TermLayout) (F : Nat → Prop) : Closed L F [] := by
  intro w _ h hl
  simp at hl

theorem exampleTwoOpen_safe :
    LevelSafe exampleLayout exampleTwoOpen exampleTwoOpenFootprint [0, 1]
      exampleTwoOpenStart.s := by
  refine ⟨rfl, ?_, ?_⟩
  · intro i hi
    refine ⟨closed_nil _ _, ?_⟩
    simp only [List.mem_cons, List.mem_singleton, List.not_mem_nil, or_false] at hi
    rcases hi with rfl | rfl
    · intro r hr t ht
      have hr' : r = ⟨[mkTerm 1 1], [mkTerm 1 1], [mkTerm 1 2]⟩ := by
        have : exampleTwoOpen.Constraints[(0 : Int).toNat]?
            = some ⟨[mkTerm 1 1], [mkTerm 1 1], [mkTerm 1 2]⟩ := rfl
        rw [this] at hr
        exact (Option.some.inj hr).symm
      subst hr'
      simp only [List.cons_append, List.nil_append, List.mem_cons, List.not_mem_nil,
        or_false] at ht
      rcases ht with rfl | rfl | rfl <;> (unfold exampleTwoOpenFootprint; decide)
    · intro r hr t ht
      have hr' : r = ⟨[mkTerm 1 1], [mkTerm 1 0], [mkTerm 1 3]⟩ := by
        have : exampleTwoOpen.Constraints[(1 : Int).toNat]?
            = some ⟨[mkTerm 1 1], [mkTerm 1 0], [mkTerm 1 3]⟩ := rfl
        rw [this] at hr
        exact (Option.some.inj hr).symm
      subst hr'
      simp only [List.cons_append, List.nil_append, List.mem_cons, List.not_mem_nil,
        or_false] at ht
      rcases ht with rfl | rfl | rfl <;> (unfold exampleTwoOpenFootprint; decide)
  · intro i hi j hj hij w hwi hwj
    simp only [List.mem_cons, List.mem_singleton, List.not_mem_nil, or_false] at hi hj
    have hw1 : w = 1 := by
      rcases hi with rfl | rfl <;> rcases hj with rfl | rfl
      · exact absurd rfl hij
      · simp only [exampleTwoOpenFootprint, if_true, one_ne_zero, if_false] at hwi hwj
        omega
      · simp only [exampleTwoOpenFootprint, if_true, one_ne_zero, if_false] at hwi hwj
        omega
      · exact absurd rfl hij
    subst hw1
    rfl

/-- Witness for C28, amended: the level `[0, 1]` of `exampleTwoOpen` with `x = 3` ends in
`exampleTwoOpenEnd`, and so does the level in the order `[1, 0]`. -/
theorem level_order_independent_witness :
    exampleTwoOpen.solveTask exampleLayout 0 [1, 0] exampleTwoOpenStart
      = .ret (exampleTwoOpenEnd, none) :=
  (level_order_independent exampleLayout 0 exampleTwoOpen exampleTwoOpenFootprint [0, 1] [1, 0]
    (List.Perm.swap 1 0 []) exampleTwoOpenStart exampleTwoOpenEnd exampleTwoOpen_safe
    ⟨rfl, by decide, rfl⟩).1.mp rfl

theorem exampleOrder_safe :
    LevelSafe exampleLayout exampleOrderA exampleOrderFootprint [0, 1]
      (⟨[1, 0], [0, 1, 2, -1], [true, false], 1, [], []⟩ : solution 13) := by
  refine ⟨rfl, ?_, ?_⟩
  · intro i hi
    refine ⟨closed_nil _ _, ?_⟩
    simp only [List.mem_cons, List.mem_singleton, List.not_mem_nil, or_false] at hi
    rcases hi with rfl | rfl
    · intro r hr t ht
      have hr' : r = ⟨[mkTerm 1 0], [mkTerm 1 0], [mkTerm 2 0]⟩ := by
        have : exampleOrderA.Constraints[(0 : Int).toNat]?
            = some ⟨[mkTerm 1 0], [mkTerm 1 0], [mkTerm 2 0]⟩ := rfl
        rw [this] at hr
        exact (Option.some.inj hr).symm
      subst hr'
      simp only [List.cons_append, List.nil_append, List.mem_cons, List.not_mem_nil,
        or_false] at ht
      rcases ht with rfl | rfl | rfl <;> (unfold exampleOrderFootprint; decide)
    · intro r hr t ht
      have hr' : r = ⟨[mkTerm 1 0], [mkTerm 1 0], [mkTerm 1 1]⟩ := by
        have : exampleOrderA.Constraints[(1 : Int).toNat]?
            = some ⟨[mkTerm 1 0], [mkTerm 1 0], [mkTerm 1 1]⟩ := rfl
        rw [this] at hr
        exact (Option.some.inj hr).symm
      subst hr'
      simp only [List.cons_append, List.nil_append, List.mem_cons, List.not_mem_nil,
        or_false] at ht
      rcases ht with rfl | rfl | rfl <;> (unfold exampleOrderFootprint; decide)
  · intro i hi j hj hij w hwi hwj
    simp only [List.mem_cons, List.mem_singleton, List.not_mem_nil, or_false] at hi hj
    have hw0 : w = 0 := by
      rcases hi with rfl | rfl <;> rcases hj with rfl | rfl
      · exact absurd rfl hij
      · simp only [exampleOrderFootprint, if_true] at hwi
        exact hwi
      · simp only [exampleOrderFootprint, if_true] at hwj
        exact hwj
      · exact absurd rfl hij
    subst hw0
    rfl

/-- Counterexample to C28 as stated: the level of `exampleOrderA` is safe (the only wire
its two constraints share is the one-wire), and it fails in both orders, but it leaves
different states: with the assertion first the wire `w1` is left at `0`, unsolved; with
the assertion last `w1 = 1` is solved. -/
theorem level_order_counterexample :
    (exampleOrderA.Solve exampleLayout 4 0 [] [0, 0] [0, 0] [0, 0] ⟨[]⟩).map SolveResult.observe
        = .ret ⟨[1, 0], some (Err.unsatisfiedConstraint 0 (Err.notEqual 1 1 2)), [1, 0], [1, 0],
            [2, 0], [true, false], 1⟩
      ∧ (exampleOrderB.Solve exampleLayout 4 0 [] [0, 0] [0, 0] [0, 0] ⟨[]⟩).map
            SolveResult.observe
          = .ret ⟨[1, 1], some (Err.unsatisfiedConstraint 0 (Err.notEqual 1 1 2)), [1, 1],
              [1, 1], [2, 1], [true, true], 2⟩
      ∧ LevelSafe exampleLayout exampleOrderA exampleOrderFootprint [0, 1]
          (⟨[1, 0], [0, 1, 2, -1], [true, false], 1, [], []⟩ : solution 13) := by
  refine ⟨by decide, by decide, exampleOrder_safe⟩

/-! ## Scheduling of a level: channel capacity and the size of a task -/

/-- C31. Backpressure, for `cpuCount ≥ 1` (the capacity of `chTasks`): for every level
size `n` the dispatcher returns having pushed at most `cpuCount` tasks; for a parallelised
level (`n > 50`) the task count `W` satisfies `W ≤ ⌈n/50⌉ ≤ n`, so `n / W ≥ 1` and the
fallback branch `nbIterationsPerCpus < 1` is never taken: the level is dispatched by the
loop over `W` tasks of `n / W` constraints with `n − W·(n / W)` extra ones. -/
theorem levelTasks_capacity (cpuCount n : Nat) (hcpu : 1 ≤ cpuCount) :
    (∃ ts, levelTasks cpuCount n = .ret ts ∧ ts.length ≤ cpuCount) ∧
      (50 < n → taskCount cpuCount n ≤ (n + 49) / 50 ∧ (n + 49) / 50 ≤ n ∧
        ¬ n / taskCount cpuCount n < 1) ∧
      ∀ (q : Nat) (L : TermLayout) (fuel : Nat) (cs : R1CS q) (level : List Int)
        (st : SolveState q), level.length = n → 50 < n →
        cs.dispatchLevel L fuel level (taskCount cpuCount n) st
          = cs.dispatchLoop L fuel level (n / taskCount cpuCount n) (taskCount cpuCount n) 0
              ((n : Int) - ((taskCount cpuCount n * (n / taskCount cpuCount n) : Nat) : Int))
              0 st [] := by
  refine ⟨?_, ?_, ?_⟩
  · by_cases hn : n ≤ 50
    · refine ⟨[], ?_, by simp⟩
      unfold levelTasks
      rw [if_pos hn]
    · obtain ⟨_, _, hts⟩ := levelTasks_parallel cpuCount n hcpu (by omega)
      refine ⟨_, hts, ?_⟩
      rw [List.length_map, List.length_range, taskCount_eq]
      omega
  · intro hn
    obtain ⟨_, hper, _⟩ := levelTasks_parallel cpuCount n hcpu hn
    rw [taskCount_eq]
    rw [taskCount_eq] at hper
    refine ⟨by omega, by omega, by omega⟩
  · intro q L fuel cs level st hlen hn
    subst hlen
    obtain ⟨hW, hper, _⟩ := levelTasks_parallel cpuCount level.length hcpu hn
    unfold R1CS.dispatchLevel
    rw [if_neg (by omega)]
    simp only
    rw [if_neg (by omega)]

/-- Witness for C31: a level of 103 constraints on 4 CPUs. -/
theorem levelTasks_capacity_witness :
    ∃ ts, levelTasks 4 103 = .ret ts ∧ ts.length ≤ 4 :=
  (levelTasks_capacity 4 103 (by decide)).1

/-- Counterexample to C32 as stated: a level of 51 constraints on 2 CPUs is parallelised
into the tasks `level[0:26]` and `level[26:51]`, of 26 and 25 constraints. -/
theorem levelTasks_min_work_counterexample :
    levelTasks 2 51 = .ret [(0, 26), (26, 51)] := by
  decide

/-- C32, amended. `minWorkPerCPU = 50` is the threshold above which a level is
parallelised, not a lower bound on a task: for `cpuCount ≥ 1` and a level of `n > 50`
constraints every task dispatched holds at least `⌊n/W⌋ ≥ 25` constraints, where
`W = min(⌈n/50⌉, cpuCount)`, and at least `50` when `n ≥ 50·cpuCount`. -/
theorem levelTasks_min_work (cpuCount n : Nat) (hcpu : 1 ≤ cpuCount) (hn : 50 < n) :
    ∃ ts, levelTasks cpuCount n = .ret ts ∧
      ∀ t ∈ ts, t.1 ≤ t.2 ∧ n / min ((n + 49) / 50) cpuCount ≤ t.2 - t.1 ∧
        25 ≤ t.2 - t.1 ∧ (50 * cpuCount ≤ n → 50 ≤ t.2 - t.1) := by
  obtain ⟨hW1, hper, hts⟩ := levelTasks_parallel cpuCount n hcpu hn
  refine ⟨_, hts, ?_⟩
  intro t ht
  rw [List.mem_map] at ht
  obtain ⟨j, _, rfl⟩ := ht
  have hW := taskCount_eq cpuCount n
  rw [← hW]
  generalize taskCount cpuCount n = W at hW hW1 hper
  have h25 : 25 ≤ n / W := (Nat.le_div_iff_mul_le (by omega)).mpr (by omega)
  have h50 : 50 * cpuCount ≤ n → 50 ≤ n / W := fun h =>
    (Nat.le_div_iff_mul_le (by omega)).mpr (by omega)
  simp only [chunkEnd]
  refine ⟨by omega, by omega, by omega, fun h => ?_⟩
  have := h50 h
  omega

/-- Witness for C32, amended: a level of 103 constraints on 2 CPUs. -/
theorem levelTasks_min_work_witness :
    ∃ ts, levelTasks 2 103 = .ret ts ∧
      ∀ t ∈ ts, t.1 ≤ t.2 ∧ 103 / min ((103 + 49) / 50) 2 ≤ t.2 - t.1 ∧
        25 ≤ t.2 - t.1 ∧ (50 * 2 ≤ 103 → 50 ≤ t.2 - t.1) :=
  levelTasks_min_work 2 103 (by decide) (by decide)

/-! ## The scratch space of IsZero -/

/-- C33. `IsZero` uses its input as scratch space: for a modulus `q > 0`, every input
value `a = inputs[0]` (reduced or not) and a non-empty `results` (a slice of integers
distinct from the inputs), `IsZero` returns without error, `inputs[0]` holds `1` whatever
`a` was, `results[0]` holds `(1 − a^(q−1) mod q) mod q` computed from the original `a`,
and no other element is written. -/
theorem IsZero_scratch (q : Nat) (hq : 0 < q) (inputs results : List Int) (a : Int)
    (ha : inputs[0]? = some a) (hr : 0 < results.length) :
    IsZero q inputs results
        = .ret (inputs.set 0 1, results.set 0 ((1 - a ^ (q - 1) % (q : Int)) % (q : Int)), none)
      ∧ (inputs.set 0 1)[0]? = some 1
      ∧ (results.set 0 ((1 - a ^ (q - 1) % (q : Int)) % (q : Int)))[0]?
          = some ((1 - a ^ (q - 1) % (q : Int)) % (q : Int)) := by
  have hexp : ((q : Int) - 1).toNat = q - 1 := by omega
  have habs : |(q : Int)| = q := abs_of_nonneg (by omega)
  have hb : bigExp a ((q : Int) - 1) q = a ^ (q - 1) % (q : Int) := by
    unfold bigExp; rw [hexp, habs]
  have hr0 : results[0]? = some (results.getD 0 0) := by
    rw [List.getElem?_eq_getElem hr, List.getD_eq_getElem _ _ hr]
  have hi : 0 < inputs.length := by
    by_contra hc
    rw [List.getElem?_eq_none (by omega)] at ha
    exact Option.noConfusion ha
  refine ⟨?_, ?_, ?_⟩
  · simp only [IsZero, idx, hr0, ha, Outcome.bind_ret, hb]
  · rw [List.getElem?_set_self hi]
  · rw [List.getElem?_set_self hr]

/-- Witness for C33 at `q = 7`: the input `3` is overwritten with `1` and the result is
`(1 − 3^6 mod 7) mod 7 = 0`. -/
theorem IsZero_scratch_witness :
    IsZero 7 [3, 4] [9]
        = .ret ([3, 4].set 0 1,
            [9].set 0 ((1 - 3 ^ (7 - 1) % ((7 : Nat) : Int)) % ((7 : Nat) : Int)), none)
      ∧ ([(3 : Int), 4].set 0 1)[0]? = some 1
      ∧ ([(9 : Int)].set 0 ((1 - 3 ^ (7 - 1) % ((7 : Nat) : Int)) % ((7 : Nat) : Int)))[0]?
          = some ((1 - 3 ^ (7 - 1) % ((7 : Nat) : Int)) % ((7 : Nat) : Int)) :=
  IsZero_scratch 7 (by decide) [3, 4] [9] 3 rfl (by decide)

/-! ## Hint failure: what solveWithHint has written when it returns an error -/

/-- A wire that is not solved in `r` has in `r` the value it had in `s`. -/
def solution.Untouched {q : Nat} (s r : solution q) : Prop :=
  ∀ i : Nat, r.solved[i]? ≠ some true → r.values[i]? = s.values[i]?

theorem untouched_refl {q : Nat} (s : solution q) : s.Untouched s := fun _ _ => rfl

theorem untouched_trans {q : Nat} {s1 s2 s3 : solution q} (h12 : s1.Untouched s2)
    (e23 : s2.Extends s3) (h23 : s2.Untouched s3) : s1.Untouched s3 := by
  intro i hi
  have h2 : s2.solved[i]? ≠ some true := fun h => hi (e23.frozen i h).1
  rw [h23 i hi, h12 i h2]

theorem set_ret {q : Nat} (s : solution q) (id : Int) (value : ZMod q) (hid : 0 ≤ id)
    (hs : s.solved[id.toNat]? = some false) (hv : id.toNat < s.values.length)
    (hn : s.nbSolved + 1 < 18446744073709551616) :
    s.set id value = .ret { s with
      values := s.values.set id.toNat value
      solved := s.solved.set id.toNat true
      nbSolved := s.nbSolved + 1 } := by
  have hval : s.values[id.toNat]? = some (s.values.getD id.toNat 0) := by
    rw [List.getElem?_eq_getElem hv, List.getD_eq_getElem _ _ hv]
  have hid' : ¬ id < 0 := by omega
  unfold solution.set idx
  simp only [hid', if_false, hs, hval, Outcome.bind_ret, Bool.false_eq_true,
    Nat.mod_eq_of_lt hn]

theorem set_other {q : Nat} {s s' : solution q} {id : Int} {value : ZMod q}
    (h : s.set id value = .ret s') (j : Nat) (hj : id.toNat ≠ j) :
    s'.solved[j]? = s.solved[j]? ∧ s'.values[j]? = s.values[j]? := by
  unfold solution.set at h
  by_cases hid : id < 0
  · simp [hid] at h
  · simp only [hid, if_false] at h
    obtain ⟨b, hb, h⟩ := Outcome.bind_eq_ret h
    cases b with
    | true => simp at h
    | false =>
      simp only [Bool.false_eq_true, if_false] at h
      obtain ⟨v0, hv0, h⟩ := Outcome.bind_eq_ret h
      simp only [Outcome.ret.injEq] at h
      subst h
      simp only [List.getElem?_set_ne hj, and_self]

theorem set_untouched {q : Nat} {s s' : solution q} {id : Int} {value : ZMod q}
    (h : s.set id value = .ret s') : s.Untouched s' := by
  intro i hi
  obtain ⟨_, _, _, hs', _⟩ := solution.set_spec h
  have hne : id.toNat ≠ i := by
    intro e
    rw [e] at hs'
    exact hi hs'
  exact (set_other h i hne).2

theorem setHintOutputs_other {q : Nat} (ws : List Int) (i : Nat) (outputs : List Int)
    (s s' : solution q) (h : setHintOutputs ws i outputs s = .ret s') (j : Nat)
    (hj : ∀ w ∈ ws, w.toNat ≠ j) :
    s'.solved[j]? = s.solved[j]? ∧ s'.values[j]? = s.values[j]? := by
  induction ws generalizing i s with
  | nil =>
    simp only [setHintOutputs, Outcome.ret.injEq] at h
    subst h
    exact ⟨rfl, rfl⟩
  | cons w ws ih =>
    simp only [setHintOutputs] at h
    obtain ⟨s1, hs1, h⟩ := Outcome.bind_eq_ret h
    have h1 := set_other hs1 j (hj w (List.mem_cons_self _ _))
    have h2 := ih (i + 1) s1 h (fun w' hw' => hj w' (List.mem_cons_of_mem _ hw'))
    exact ⟨h2.1.trans h1.1, h2.2.trans h1.2⟩

theorem setHintOutputs_untouched {q : Nat} (ws : List Int) (i : Nat) (outputs : List Int)
    (s s' : solution q) (h : setHintOutputs ws i outputs s = .ret s') : s.Untouched s' := by
  induction ws generalizing i s with
  | nil =>
    simp only [setHintOutputs, Outcome.ret.injEq] at h
    subst h
    exact untouched_refl s
  | cons w ws ih =>
    simp only [setHintOutputs] at h
    obtain ⟨s1, hs1, h⟩ := Outcome.bind_eq_ret h
    exact untouched_trans (set_untouched hs1) (setHintOutputs_spec ws (i + 1) outputs s1 s' h).1
      (ih (i + 1) s1 h)

theorem setHintOutputs_ret {q : Nat} (ws : List Int) (i : Nat) (outputs : List Int)
    (s : solution q)
    (hws : ∀ w ∈ ws, 0 ≤ w ∧ s.solved[w.toNat]? = some false ∧ w.toNat < s.values.length)
    (hnd : ws.Nodup) (hn : s.nbSolved + ws.length < 18446744073709551616) :
    ∃ s', setHintOutputs ws i outputs s = .ret s' ∧ s'.nbSolved = s.nbSolved + ws.length ∧
      (∀ (k : Nat) (hk : k < ws.length), s'.solved[ws[k].toNat]? = some true ∧
        s'.values[ws[k].toNat]? = some (((outputs.getD (i + k) 0 : Int)) : ZMod q)) := by
  induction ws generalizing i s with
  | nil => exact ⟨s, rfl, rfl, fun k hk => absurd hk (by simp)⟩
  | cons w ws ih =>
    obtain ⟨hw0, hws0, hwv⟩ := hws w (List.mem_cons_self _ _)
    simp only [List.length_cons] at hn
    have hset := set_ret s w (((outputs.getD i 0 : Int)) : ZMod q) hw0 hws0 hwv (by omega)
    have hne : ∀ w' ∈ ws, w'.toNat ≠ w.toNat := by
      intro w' hw' e
      have h0 := (hws w' (List.mem_cons_of_mem _ hw')).1
      have : w' = w := by omega
      subst this
      exact (List.nodup_cons.mp hnd).1 hw'
    obtain ⟨s', hs', hnb, hall⟩ := ih (i + 1)
      { s with
        values := s.values.set w.toNat (((outputs.getD i 0 : Int)) : ZMod q)
        solved := s.solved.set w.toNat true
        nbSolved := s.nbSolved + 1 }
      (by
        intro w' hw'
        obtain ⟨h0, h1, h2⟩ := hws w' (List.mem_cons_of_mem _ hw')
        refine ⟨h0, ?_, ?_⟩
        · simp only [List.getElem?_set_ne (Ne.symm (hne w' hw'))]
          exact h1
        · simpa using h2)
      (List.nodup_cons.mp hnd).2 (by simp only; omega)
    refine ⟨s', ?_, ?_, ?_⟩
    · simp only [setHintOutputs, hset, Outcome.bind_ret]
      exact hs'
    · rw [hnb]
      simp only [List.length_cons]
      omega
    · intro k hk
      cases k with
      | zero =>
        have hfr := setHintOutputs_other ws (i + 1) outputs _ s' hs' w.toNat hne
        simp only [List.getElem_cons_zero, Nat.add_zero]
        rw [hfr.1, hfr.2]
        have hlt : w.toNat < s.solved.length := by
          by_contra hc
          rw [List.getElem?_eq_none (by omega)] at hws0
          exact Option.noConfusion hws0
        simp [List.getElem?_set_self hlt, List.getElem?_set_self hwv]
      | succ k =>
        simp only [List.length_cons, Nat.add_lt_add_iff_right] at hk
        have := hall k hk
        simp only [List.getElem_cons_succ]
        rw [show i + (k + 1) = i + 1 + k by omega]
        exact this

theorem recursiveSolve_untouched {q : Nat} (L : TermLayout)
    (recurse : solution q → Nat → Hint → Outcome (solution q × Option Err))
    (hfr : ∀ s vID h r, recurse s vID h = .ret r → s.Untouched r.1)
    (s : solution q) (t : Term) (r : solution q × Option Err)
    (h : recursiveSolve L recurse s t = .ret r) : s.Untouched r.1 := by
  unfold recursiveSolve at h
  obtain ⟨b, _, h⟩ := Outcome.bind_eq_ret h
  cases b with
  | true =>
    simp only [if_true, Outcome.ret.injEq] at h
    subst h
    exact untouched_refl s
  | false =>
    simp only [Bool.false_eq_true, if_false] at h
    cases hl : s.mHints.lookup (L.WireID t : Int) with
    | none => simp [hl] at h
    | some hint =>
      simp only [hl] at h
      exact hfr _ _ _ _ h

theorem hintLinExpLoop_untouched {q : Nat} (L : TermLayout)
    (recurse : solution q → Nat → Hint → Outcome (solution q × Option Err))
    (hrec : ∀ s vID h r, recurse s vID h = .ret r → HintPost s vID h r)
    (hfr : ∀ s vID h r, recurse s vID h = .ret r → s.Untouched r.1)
    (l : List Term) (s : solution q) (v : ZMod q) (r : solution q × ZMod q × Option Err)
    (h : hintLinExpLoop L recurse l s v = .ret r) : s.Untouched r.1 := by
  induction l generalizing s v with
  | nil =>
    simp only [hintLinExpLoop, Outcome.ret.injEq] at h
    subst h
    exact untouched_refl s
  | cons t l ih =>
    simp only [hintLinExpLoop] at h
    obtain ⟨r1, hr1, h⟩ := Outcome.bind_eq_ret h
    have u1 := recursiveSolve_untouched L recurse hfr s t r1 hr1
    cases he : r1.2 with
    | some err =>
      simp only [he, Outcome.ret.injEq] at h
      subst h
      exact u1
    | none =>
      simp only [he] at h
      obtain ⟨v', _, h⟩ := Outcome.bind_eq_ret h
      exact untouched_trans u1 (hintLinExpLoop_extends L recurse hrec l r1.1 v' r h)
        (ih r1.1 v' h)

theorem hintInputsLoop_untouched {q : Nat} (L : TermLayout)
    (recurse : solution q → Nat → Hint → Outcome (solution q × Option Err))
    (hrec : ∀ s vID h r, recurse s vID h = .ret r → HintPost s vID h r)
    (hfr : ∀ s vID h r, recurse s vID h = .ret r → s.Untouched r.1)
    (ins : List HintInput) (s : solution q) (inputs : List Int)
    (r : solution q × List Int × Option Err)
    (h : hintInputsLoop L recurse ins s inputs = .ret r) : s.Untouched r.1 := by
  induction ins generalizing s inputs with
  | nil =>
    simp only [hintInputsLoop, Outcome.ret.injEq] at h
    subst h
    exact untouched_refl s
  | cons i ins ih =>
    cases i with
    | bigInt v => simp only [hintInputsLoop] at h; exact ih s _ h
    | bigIntPtr v => simp only [hintInputsLoop] at h; exact ih s _ h
    | linExp t =>
      simp only [hintInputsLoop] at h
      obtain ⟨r1, hr1, h⟩ := Outcome.bind_eq_ret h
      have u1 := hintLinExpLoop_untouched L recurse hrec hfr t s 0 r1 hr1
      cases he : r1.2.2 with
      | some err =>
        simp only [he, Outcome.ret.injEq] at h
        subst h
        exact u1
      | none =>
        simp only [he] at h
        exact untouched_trans u1 (hintInputsLoop_extends L recurse hrec ins r1.1 _ r h)
          (ih r1.1 _ h)
    | term t =>
      simp only [hintInputsLoop] at h
      obtain ⟨r1, hr1, h⟩ := Outcome.bind_eq_ret h
      have u1 := recursiveSolve_untouched L recurse hfr s t r1 hr1
      cases he : r1.2 with
      | some err =>
        simp only [he, Outcome.ret.injEq] at h
        subst h
        exact u1
      | none =>
        simp only [he] at h
        obtain ⟨v', _, h⟩ := Outcome.bind_eq_ret h
        exact untouched_trans u1 (hintInputsLoop_extends L recurse hrec ins r1.1 _ r h)
          (ih r1.1 _ h)

theorem solveWithHint_untouched {q : Nat} (L : TermLayout) (fuel : Nat) (s : solution q)
    (vID : Nat) (h : Hint) (r : solution q × Option Err)
    (hr : s.solveWithHint L fuel vID h = .ret r) : s.Untouched r.1 := by
  induction fuel generalizing s vID h r with
  | zero => simp [solution.solveWithHint] at hr
  | succ fuel ih =>
    simp only [solution.solveWithHint] at hr
    obtain ⟨b, hb, hr⟩ := Outcome.bind_eq_ret hr
    cases b with
    | true =>
      simp only [if_true, Outcome.ret.injEq] at hr
      subst hr
      exact untouched_refl s
    | false =>
      simp only [Bool.false_eq_true, if_false] at hr
      cases hf : s.mHintsFunctions.lookup h.ID with
      | none =>
        simp only [hf, Outcome.ret.injEq] at hr
        subst hr
        exact untouched_refl s
      | some f =>
        simp only [hf] at hr
        obtain ⟨r1, hr1, hr⟩ := Outcome.bind_eq_ret hr
        have u1 := hintInputsLoop_untouched L _
          (fun s vID h r hh => solveWithHint_spec L fuel s vID h r hh)
          (fun s vID h r hh => ih s vID h r hh) h.Inputs s [] r1 hr1
        cases he : r1.2.2 with
        | some err =>
          simp only [he, Outcome.ret.injEq] at hr
          subst hr
          exact u1
        | none =>
          simp only [he] at hr
          obtain ⟨out, _, hr⟩ := Outcome.bind_eq_ret hr
          obtain ⟨s', hs', hr⟩ := Outcome.bind_eq_ret hr
          simp only [Outcome.ret.injEq] at hr
          subst hr
          exact untouched_trans u1 (setHintOutputs_spec h.Wires 0 out.2.1 r1.1 s' hs').1
            (setHintOutputs_untouched h.Wires 0 out.2.1 r1.1 s' hs')

/-- Each output wire of a descriptor of the hint map is a key bound to that descriptor. -/
def HintsShared (mHints : List (Int × Hint)) : Prop :=
  ∀ e ∈ mHints, ∀ w ∈ e.2.Wires, mHints.lookup w = some e.2

instance (mHints : List (Int × Hint)) : Decidable (HintsShared mHints) :=
  inferInstanceAs (Decidable (∀ e ∈ mHints, ∀ w ∈ e.2.Wires, mHints.lookup w = some e.2))

/-- The input reads the wire `u`. -/
def HintInput.reads (L : TermLayout) (u : Nat) : HintInput → Prop
  | .linExp l => ∃ t ∈ l, L.WireID t = u
  | .term t => L.WireID t = u
  | .bigInt _ => False
  | .bigIntPtr _ => False

/-- The descriptor reads the wire `u` in one of its inputs. -/
def Hint.reads (L : TermLayout) (h : Hint) (u : Nat) : Prop :=
  ∃ i ∈ h.Inputs, i.reads L u

/-- The wires of `B` are blocked: none is solved in `s`, and each is the output of a
descriptor that reads a wire of `B` or of `C`. -/
def Blocked {q : Nat} (L : TermLayout) (B C : Nat → Prop) (s : solution q) : Prop :=
  ∀ w, B w → s.solved[w]? ≠ some true ∧
    ∃ g u, s.mHints.lookup (w : Int) = some g ∧ g.reads L u ∧ (B u ∨ C u)

/-- The output wires of `g` that are not solved in `s`. -/
def Pending {q : Nat} (g : Hint) (s : solution q) (u : Nat) : Prop :=
  (u : Int) ∈ g.Wires ∧ s.solved[u]? ≠ some true

/-- What the recursive call guarantees for blocked wires: a call for the descriptor `g`
of the wire `v` leaves unsolved every wire of a set that is blocked up to the pending
outputs of `g`. -/
def KeepsBlocked {q : Nat} (L : TermLayout)
    (recurse : solution q → Nat → Hint → Outcome (solution q × Option Err)) : Prop :=
  ∀ (B : Nat → Prop) (s : solution q) (v : Nat) (g : Hint) (r : solution q × Option Err),
    HintsWF s.mHints → HintsShared s.mHints → s.mHints.lookup (v : Int) = some g →
    Blocked L B (Pending g s) s → recurse s v g = .ret r → ∀ w, B w → r.1.solved[w]? ≠ some true

theorem recursiveSolve_blocked {q : Nat} (L : TermLayout)
    (recurse : solution q → Nat → Hint → Outcome (solution q × Option Err))
    (hblk : KeepsBlocked L recurse) (g : Hint) (B C : Nat → Prop) (s0 s : solution q)
    (hm : s.mHints = s0.mHints) (hwf : HintsWF s0.mHints) (hsh : HintsShared s0.mHints)
    (hown : ∀ w ∈ g.Wires, s0.mHints.lookup w = some g)
    (hC : ∀ u, C u → (u : Int) ∈ g.Wires)
    (hB : Blocked L B C s0)
    (hinv : ∀ w, B w ∨ C w → s.solved[w]? ≠ some true)
    (t : Term) (hread : g.reads L (L.WireID t)) (r : solution q × Option Err)
    (h : recursiveSolve L recurse s t = .ret r) :
    ∀ w, B w ∨ C w → r.1.solved[w]? ≠ some true := by
  unfold recursiveSolve at h
  obtain ⟨b, hb, h⟩ := Outcome.bind_eq_ret h
  rw [idx_eq_ret] at hb
  cases b with
  | true =>
    simp only [if_true, Outcome.ret.injEq] at h
    subst h
    exact hinv
  | false =>
    simp only [Bool.false_eq_true, if_false] at h
    cases hl : s.mHints.lookup (L.WireID t : Int) with
    | none => simp [hl] at h
    | some g' =>
      simp only [hl] at h
      refine hblk (fun w => B w ∨ C w) s (L.WireID t) g' r (by rw [hm]; exact hwf)
        (by rw [hm]; exact hsh) hl ?_ h
      intro w hw
      refine ⟨hinv w hw, ?_⟩
      have hpend : Pending g' s (L.WireID t) := by
        refine ⟨?_, by rw [hb]; simp⟩
        have := hwf _ (mem_of_lookup _ _ _ (by rw [← hm]; exact hl))
        exact this
      rcases hw with hw | hw
      · obtain ⟨_, gw, u, h1, h2, h3⟩ := hB w hw
        exact ⟨gw, u, by rw [hm]; exact h1, h2, Or.inl h3⟩
      · exact ⟨g, L.WireID t, by rw [hm]; exact hown _ (hC w hw), hread, Or.inr hpend⟩

theorem hintLinExpLoop_blocked {q : Nat} (L : TermLayout)
    (recurse : solution q → Nat → Hint → Outcome (solution q × Option Err))
    (hrec : ∀ s vID h r, recurse s vID h = .ret r → HintPost s vID h r)
    (hblk : KeepsBlocked L recurse) (g : Hint) (B C : Nat → Prop) (s0 : solution q)
    (hwf : HintsWF s0.mHints) (hsh : HintsShared s0.mHints)
    (hown : ∀ w ∈ g.Wires, s0.mHints.lookup w = some g)
    (hC : ∀ u, C u → (u : Int) ∈ g.Wires)
    (hB : Blocked L B C s0)
    (l : List Term) (hread : ∀ t ∈ l, g.reads L (L.WireID t)) (s : solution q) (v : ZMod q)
    (hm : s.mHints = s0.mHints)
    (hinv : ∀ w, B w ∨ C w → s.solved[w]? ≠ some true)
    (r : solution q × ZMod q × Option Err)
    (h : hintLinExpLoop L recurse l s v = .ret r) :
    ∀ w, B w ∨ C w → r.1.solved[w]? ≠ some true := by
  induction l generalizing s v with
  | nil =>
    simp only [hintLinExpLoop, Outcome.ret.injEq] at h
    subst h
    exact hinv
  | cons t l ih =>
    simp only [hintLinExpLoop] at h
    obtain ⟨r1, hr1, h⟩ := Outcome.bind_eq_ret h
    have k1 := recursiveSolve_blocked L recurse hblk g B C s0 s hm hwf hsh hown hC hB hinv t
      (hread t (List.mem_cons_self _ _)) r1 hr1
    have e1 := recursiveSolve_extends L recurse hrec s t r1 hr1
    cases he : r1.2 with
    | some err =>
      simp only [he, Outcome.ret.injEq] at h
      subst h
      exact k1
    | none =>
      simp only [he] at h
      obtain ⟨v', _, h⟩ := Outcome.bind_eq_ret h
      exact ih (fun t ht => hread t (List.mem_cons_of_mem _ ht)) r1.1 v'
        (e1.mHints.trans hm) k1 h

theorem hintInputsLoop_blocked {q : Nat} (L : TermLayout)
    (recurse : solution q → Nat → Hint → Outcome (solution q × Option Err))
    (hrec : ∀ s vID h r, recurse s vID h = .ret r → HintPost s vID h r)
    (hblk : KeepsBlocked L recurse) (g : Hint) (B C : Nat → Prop) (s0 : solution q)
    (hwf : HintsWF s0.mHints) (hsh : HintsShared s0.mHints)
    (hown : ∀ w ∈ g.Wires, s0.mHints.lookup w = some g)
    (hC : ∀ u, C u → (u : Int) ∈ g.Wires)
    (hB : Blocked L B C s0)
    (ins : List HintInput) (hsub : ∀ i ∈ ins, i ∈ g.Inputs) (s : solution q)
    (inputs : List Int) (hm : s.mHints = s0.mHints)
    (hinv : ∀ w, B w ∨ C w → s.solved[w]? ≠ some true)
    (r : solution q × List Int × Option Err)
    (h : hintInputsLoop L recurse ins s inputs = .ret r) :
    ∀ w, B w ∨ C w → r.1.solved[w]? ≠ some true := by
  induction ins generalizing s inputs with
  | nil =>
    simp only [hintInputsLoop, Outcome.ret.injEq] at h
    subst h
    exact hinv
  | cons i ins ih =>
    have hsub' : ∀ j ∈ ins, j ∈ g.Inputs := fun j hj => hsub j (List.mem_cons_of_mem _ hj)
    have hi := hsub i (List.mem_cons_self _ _)
    cases i with
    | bigInt v => simp only [hintInputsLoop] at h; exact ih hsub' s _ hm hinv h
    | bigIntPtr v => simp only [hintInputsLoop] at h; exact ih hsub' s _ hm hinv h
    | linExp t =>
      simp only [hintInputsLoop] at h
      obtain ⟨r1, hr1, h⟩ := Outcome.bind_eq_ret h
      have k1 := hintLinExpLoop_blocked L recurse hrec hblk g B C s0 hwf hsh hown hC hB t
        (fun u hu => ⟨_, hi, u, hu, rfl⟩) s 0 hm hinv r1 hr1
      have e1 := hintLinExpLoop_extends L recurse hrec t s 0 r1 hr1
      cases he : r1.2.2 with
      | some err =>
        simp only [he, Outcome.ret.injEq] at h
        subst h
        exact k1
      | none =>
        simp only [he] at h
        exact ih hsub' r1.1 _ (e1.mHints.trans hm) k1 h
    | term t =>
      simp only [hintInputsLoop] at h
      obtain ⟨r1, hr1, h⟩ := Outcome.bind_eq_ret h
      have k1 := recursiveSolve_blocked L recurse hblk g B C s0 s hm hwf hsh hown hC hB hinv t
        ⟨_, hi, rfl⟩ r1 hr1
      have e1 := recursiveSolve_extends L recurse hrec s t r1 hr1
      cases he : r1.2 with
      | some err =>
        simp only [he, Outcome.ret.injEq] at h
        subst h
        exact k1
      | none =>
        simp only [he] at h
        obtain ⟨v', _, h⟩ := Outcome.bind_eq_ret h
        exact ih hsub' r1.1 _ (e1.mHints.trans hm) k1 h

theorem hintInputsLoop_reads {q : Nat} (L : TermLayout)
    (recurse : solution q → Nat → Hint → Outcome (solution q × Option Err))
    (hrec : ∀ s vID h r, recurse s vID h = .ret r → HintPost s vID h r)
    (ins : List HintInput) (s : solution q) (acc : List Int) (s1 : solution q)
    (inputs : List Int) (hwf : HintsWF s.mHints)
    (h : hintInputsLoop L recurse ins s acc = .ret (s1, inputs, none)) :
    ∀ i ∈ ins, ∀ u, i.reads L u → s1.solved[u]? = some true := by
  induction ins generalizing s acc with
  | nil => intro i hi; simp at hi
  | cons inp ins ih =>
    cases inp with
    | bigInt v =>
      simp only [hintInputsLoop] at h
      intro i hi u hu
      rcases List.mem_cons.mp hi with rfl | hi
      · exact absurd hu (by simp [HintInput.reads])
      · exact ih s _ hwf h i hi u hu
    | bigIntPtr v =>
      simp only [hintInputsLoop] at h
      intro i hi u hu
      rcases List.mem_cons.mp hi with rfl | hi
      · exact absurd hu (by simp [HintInput.reads])
      · exact ih s _ hwf h i hi u hu
    | linExp l =>
      simp only [hintInputsLoop] at h
      obtain ⟨r, hr, h⟩ := Outcome.bind_eq_ret h
      have e1 := hintLinExpLoop_extends L recurse hrec l s 0 r hr
      cases he : r.2.2 with
      | some err => simp [he] at h
      | none =>
        simp only [he] at h
        have e2 := hintInputsLoop_extends L recurse hrec ins r.1 _ _ h
        have hr' : hintLinExpLoop L recurse l s 0 = .ret (r.1, r.2.1, none) := by
          rw [hr, ← he]
        obtain ⟨hws, _⟩ := hintLinExpLoop_value L recurse hrec l s 0 r.1 r.2.1 hwf hr'
        intro i hi u hu
        rcases List.mem_cons.mp hi with rfl | hi
        · obtain ⟨t, ht, rfl⟩ := hu
          exact (e2.frozen _ (hws t ht)).1
        · exact ih r.1 _ (by rw [e1.mHints]; exact hwf) h i hi u hu
    | term t =>
      simp only [hintInputsLoop] at h
      obtain ⟨r, hr, h⟩ := Outcome.bind_eq_ret h
      have e1 := recursiveSolve_extends L recurse hrec s t r hr
      cases he : r.2 with
      | some err => simp [he] at h
      | none =>
        simp only [he] at h
        obtain ⟨v, hv, h⟩ := Outcome.bind_eq_ret h
        have e2 := hintInputsLoop_extends L recurse hrec ins r.1 _ _ h
        have hr' : recursiveSolve L recurse s t = .ret (r.1, none) := by
          rw [hr, ← he]
        have hts := recursiveSolve_solved L recurse hrec s t r.1 hwf hr'
        intro i hi u hu
        rcases List.mem_cons.mp hi with rfl | hi
        · simp only [HintInput.reads] at hu
          subst hu
          exact (e2.frozen _ hts).1
        · exact ih r.1 _ (by rw [e1.mHints]; exact hwf) h i hi u hu

theorem solveWithHint_blocked {q : Nat} (L : TermLayout) (fuel : Nat) :
    KeepsBlocked L (solution.solveWithHint (q := q) L fuel) := by
  induction fuel with
  | zero =>
    intro B s v g r _ _ _ _ hr
    simp [solution.solveWithHint] at hr
  | succ fuel ih =>
    intro B s v g r hwf hsh hl hB hr
    have hrec : ∀ (s : solution q) vID h r, s.solveWithHint L fuel vID h = .ret r →
        HintPost s vID h r := fun s vID h r hh => solveWithHint_spec L fuel s vID h r hh
    have hown : ∀ w ∈ g.Wires, s.mHints.lookup w = some g :=
      fun w hw => hsh _ (mem_of_lookup _ _ _ hl) w hw
    simp only [solution.solveWithHint] at hr
    obtain ⟨b, hb, hr⟩ := Outcome.bind_eq_ret hr
    cases b with
    | true =>
      simp only [if_true, Outcome.ret.injEq] at hr
      subst hr
      exact fun w hw => (hB w hw).1
    | false =>
      simp only [Bool.false_eq_true, if_false] at hr
      cases hf : s.mHintsFunctions.lookup g.ID with
      | none =>
        simp only [hf, Outcome.ret.injEq] at hr
        subst hr
        exact fun w hw => (hB w hw).1
      | some f =>
        simp only [hf] at hr
        obtain ⟨r1, hr1, hr⟩ := Outcome.bind_eq_ret hr
        have k1 := hintInputsLoop_blocked L _ hrec ih g B (Pending g s) s hwf hsh hown
          (fun u hu => hu.1) hB g.Inputs (fun i hi => hi) s [] rfl
          (fun w hw => hw.elim (fun h => (hB w h).1) (fun h => h.2)) r1 hr1
        cases he : r1.2.2 with
        | some err =>
          simp only [he, Outcome.ret.injEq] at hr
          subst hr
          exact fun w hw => k1 w (Or.inl hw)
        | none =>
          simp only [he] at hr
          obtain ⟨out, _, hr⟩ := Outcome.bind_eq_ret hr
          obtain ⟨s', hs', hr⟩ := Outcome.bind_eq_ret hr
          simp only [Outcome.ret.injEq] at hr
          subst hr
          have hr1' : hintInputsLoop L (solution.solveWithHint L fuel) g.Inputs s []
              = .ret (r1.1, r1.2.1, none) := by rw [hr1, ← he]
          have hreads := hintInputsLoop_reads L _ hrec g.Inputs s [] r1.1 r1.2.1 hwf hr1'
          obtain ⟨_, hpos⟩ := setHintOutputs_spec g.Wires 0 out.2.1 r1.1 s' hs'
          intro w hw
          have hne : ∀ w' ∈ g.Wires, w'.toNat ≠ w := by
            intro w' hw' e
            have h0 := (hpos w' hw').1
            have hcast : ((w : Nat) : Int) = w' := by omega
            obtain ⟨_, gw, u, h1, h2, h3⟩ := hB w hw
            rw [hcast, hown w' hw', Option.some.injEq] at h1
            subst h1
            obtain ⟨i, hi, hiu⟩ := h2
            exact k1 u h3 (hreads i hi u hiu)
          rw [(setHintOutputs_other g.Wires 0 out.2.1 r1.1 s' hs' w hne).1]
          exact k1 w (Or.inl hw)

theorem recursiveSolve_solved_state {q : Nat} (L : TermLayout)
    (recurse : solution q → Nat → Hint → Outcome (solution q × Option Err))
    (s : solution q) (t : Term) (r : solution q × Option Err)
    (hs : s.solved[L.WireID t]? = some true)
    (h : recursiveSolve L recurse s t = .ret r) : r = (s, none) := by
  simp only [recursiveSolve, idx, hs, Outcome.bind_ret, if_true, Outcome.ret.injEq] at h
  exact h.symm

theorem hintLinExpLoop_solved_state {q : Nat} (L : TermLayout)
    (recurse : solution q → Nat → Hint → Outcome (solution q × Option Err))
    (l : List Term) (s : solution q) (v : ZMod q) (r : solution q × ZMod q × Option Err)
    (hs : ∀ t ∈ l, s.solved[L.WireID t]? = some true)
    (h : hintLinExpLoop L recurse l s v = .ret r) : r.1 = s ∧ r.2.2 = none := by
  induction l generalizing v with
  | nil =>
    simp only [hintLinExpLoop, Outcome.ret.injEq] at h
    subst h
    exact ⟨rfl, rfl⟩
  | cons t l ih =>
    simp only [hintLinExpLoop] at h
    obtain ⟨r1, hr1, h⟩ := Outcome.bind_eq_ret h
    have := recursiveSolve_solved_state L recurse s t r1 (hs t (List.mem_cons_self _ _)) hr1
    subst this
    simp only at h
    obtain ⟨v', _, h⟩ := Outcome.bind_eq_ret h
    exact ih v' (fun t ht => hs t (List.mem_cons_of_mem _ ht)) h

theorem hintInputsLoop_solved_state {q : Nat} (L : TermLayout)
    (recurse : solution q → Nat → Hint → Outcome (solution q × Option Err))
    (ins : List HintInput) (s : solution q) (acc : List Int)
    (r : solution q × List Int × Option Err)
    (hs : ∀ i ∈ ins, ∀ u, i.reads L u → s.solved[u]? = some true)
    (h : hintInputsLoop L recurse ins s acc = .ret r) : r.1 = s := by
  induction ins generalizing acc with
  | nil =>
    simp only [hintInputsLoop, Outcome.ret.injEq] at h
    subst h
    rfl
  | cons i ins ih =>
    have hs' : ∀ j ∈ ins, ∀ u, j.reads L u → s.solved[u]? = some true :=
      fun j hj => hs j (List.mem_cons_of_mem _ hj)
    have hi := hs i (List.mem_cons_self _ _)
    cases i with
    | bigInt v => simp only [hintInputsLoop] at h; exact ih _ hs' h
    | bigIntPtr v => simp only [hintInputsLoop] at h; exact ih _ hs' h
    | linExp l =>
      simp only [hintInputsLoop] at h
      obtain ⟨r1, hr1, h⟩ := Outcome.bind_eq_ret h
      obtain ⟨h1, h2⟩ := hintLinExpLoop_solved_state L recurse l s 0 r1
        (fun t ht => hi _ ⟨t, ht, rfl⟩) hr1
      simp only [h2, h1] at h
      exact ih _ hs' h
    | term t =>
      simp only [hintInputsLoop] at h
      obtain ⟨r1, hr1, h⟩ := Outcome.bind_eq_ret h
      have := recursiveSolve_solved_state L recurse s t r1 (hi _ rfl) hr1
      subst this
      simp only at h
      obtain ⟨v', _, h⟩ := Outcome.bind_eq_ret h
      exact ih _ hs' h

/-- C34. `solveWithHint` is not atomic on hint failure. When the hint function returns an
error `e` (the wire `vID` unsolved, the function registered, the inputs computed in the
state `s1`, which is `s` when every wire the descriptor reads is solved, and the output
wires assignable), `solveWithHint` returns `e` after it assigned every output wire:
`values[Wires[k]] = outputs[k] mod q`, the flag set, `nbSolved` larger by the number of
outputs, nothing else written. The earlier exits write no output wire: on a solved wire
and on a missing hint function the state is returned as it was; on an error from a
recursively solved input the state is the one that input left, in which, the hint map
being keyed by output wires, the output wires of the descriptor have the flags and values
they had. -/
theorem solveWithHint_not_atomic {q : Nat} (L : TermLayout) (fuel : Nat) (s : solution q)
    (vID : Nat) (h : Hint) :
    (∀ (f : HintFunction) (s1 : solution q) (ins ins' outs : List Int) (e : Err),
        s.solved[vID]? = some false → s.mHintsFunctions.lookup h.ID = some f →
        hintInputsLoop L (solution.solveWithHint L fuel) h.Inputs s [] = .ret (s1, ins, none) →
        f q ins (List.replicate h.Wires.length 0) = .ret (ins', outs, some e) →
        (∀ w ∈ h.Wires,
          0 ≤ w ∧ s1.solved[w.toNat]? = some false ∧ w.toNat < s1.values.length) →
        h.Wires.Nodup → s1.nbSolved + h.Wires.length < 18446744073709551616 →
        ∃ s2, s.solveWithHint L (fuel + 1) vID h = .ret (s2, some e) ∧
          s2.nbSolved = s1.nbSolved + h.Wires.length ∧
          (∀ (k : Nat) (hk : k < h.Wires.length),
            s2.solved[h.Wires[k].toNat]? = some true ∧
              s2.values[h.Wires[k].toNat]? = some (((outs.getD k 0 : Int)) : ZMod q)) ∧
          (∀ j : Nat, (∀ w ∈ h.Wires, w.toNat ≠ j) →
            s2.solved[j]? = s1.solved[j]? ∧ s2.values[j]? = s1.values[j]?) ∧
          ((∀ u, h.reads L u → s.solved[u]? = some true) → s1 = s)) ∧
      (s.solved[vID]? = some true → s.solveWithHint L (fuel + 1) vID h = .ret (s, none)) ∧
      (s.solved[vID]? = some false → s.mHintsFunctions.lookup h.ID = none →
        s.solveWithHint L (fuel + 1) vID h = .ret (s, some Err.missingHintFunction)) ∧
      (∀ (f : HintFunction) (r : solution q) (ins : List Int) (e : Err),
        s.solved[vID]? = some false → s.mHintsFunctions.lookup h.ID = some f →
        hintInputsLoop L (solution.solveWithHint L fuel) h.Inputs s [] = .ret (r, ins, some e) →
        s.solveWithHint L (fuel + 1) vID h = .ret (r, some e) ∧
          (HintsWF s.mHints → HintsShared s.mHints → s.mHints.lookup (vID : Int) = some h →
            ∀ u : Nat, (u : Int) ∈ h.Wires →
              r.solved[u]? = s.solved[u]? ∧ r.values[u]? = s.values[u]?)) := by
  have hrec : ∀ (s : solution q) vID h r, s.solveWithHint L fuel vID h = .ret r →
      HintPost s vID h r := fun s vID h r hh => solveWithHint_spec L fuel s vID h r hh
  refine ⟨?_, ?_, ?_, ?_⟩
  · intro f s1 ins ins' outs e hs hf hin hcall hws hnd hn
    obtain ⟨s2, hset, hnb, hall⟩ := setHintOutputs_ret h.Wires 0 outs s1 hws hnd hn
    refine ⟨s2, ?_, hnb, ?_, ?_, ?_⟩
    · simp only [solution.solveWithHint, idx, hs, Outcome.bind_ret, Bool.false_eq_true,
        if_false, hf, hin, hcall, hset]
    · intro k hk
      have := hall k hk
      rw [Nat.zero_add] at this
      exact this
    · intro j hj
      exact setHintOutputs_other h.Wires 0 outs s1 s2 hset j hj
    · intro hsol
      exact hintInputsLoop_solved_state L _ h.Inputs s [] (s1, ins, none)
        (fun i hi u hu => hsol u ⟨i, hi, hu⟩) hin
  · intro hs
    simp only [solution.solveWithHint, idx, hs, Outcome.bind_ret, if_true]
  · intro hs hf
    simp only [solution.solveWithHint, idx, hs, Outcome.bind_ret, Bool.false_eq_true,
      if_false, hf]
  · intro f r ins e hs hf hin
    refine ⟨?_, ?_⟩
    · simp only [solution.solveWithHint, idx, hs, Outcome.bind_ret, Bool.false_eq_true,
        if_false, hf, hin]
    · intro hwf hsh hl u hu
      have hown : ∀ w ∈ h.Wires, s.mHints.lookup w = some h :=
        fun w hw => hsh _ (mem_of_lookup _ _ _ hl) w hw
      have e1 := hintInputsLoop_extends L _ hrec h.Inputs s [] _ hin
      have u1 := hintInputsLoop_untouched L _ hrec
        (fun s vID h r hh => solveWithHint_untouched L fuel s vID h r hh) h.Inputs s [] _ hin
      have k1 := hintInputsLoop_blocked L _ hrec (solveWithHint_blocked L fuel) h
        (fun _ => False) (Pending h s) s hwf hsh hown (fun u hu => hu.1)
        (fun w hw => False.elim hw) h.Inputs (fun i hi => hi) s [] rfl
        (fun w hw => hw.elim False.elim (fun h => h.2)) _ hin
      simp only at e1 u1 k1
      by_cases hsol : s.solved[u]? = some true
      · obtain ⟨h1, h2⟩ := e1.frozen u hsol
        exact ⟨h1.trans hsol.symm, h2⟩
      · have hr : r.solved[u]? ≠ some true := k1 u (Or.inr ⟨hu, hsol⟩)
        refine ⟨?_, u1 u hr⟩
        by_cases hlt : u < s.solved.length
        · have hlt' : u < r.solved.length := by rw [e1.solved_length]; exact hlt
          rw [List.getElem?_eq_getElem hlt] at hsol ⊢
          rw [List.getElem?_eq_getElem hlt'] at hr ⊢
          simp only [Option.some.injEq, Bool.not_eq_true, ne_eq] at hsol hr
          rw [hsol, hr]
        · have hlen := e1.solved_length
          rw [List.getElem?_eq_none (by omega), List.getElem?_eq_none (by omega)]

/-- Witness for C34 on `exampleNestedHints`: the failing hint of `w2` returns its error
after `w2` was assigned `0`; and `IsZero` for `w3`, whose input `w2` is solved
recursively by the failing hint, returns that error with `w3` unassigned. -/
theorem solveWithHint_not_atomic_witness :
    (∃ s2, exampleNestedHints.solveWithHint exampleLayout (0 + 1) 2
          ⟨9, [2], [.linExp [mkTerm 1 1]]⟩ = .ret (s2, some (Err.hintFunction "boom")) ∧
        s2.nbSolved = 2 + 1 ∧ s2.solved[2]? = some true ∧ s2.values[2]? = some 0) ∧
      ∃ r, exampleNestedHints.solveWithHint exampleLayout (1 + 1) 3
          ⟨7, [3], [.linExp [mkTerm 1 2]]⟩ = .ret (r, some (Err.hintFunction "boom")) ∧
        r.solved[3]? = some false ∧ r.values[3]? = some 0 ∧ r.solved[2]? = some true := by
  constructor
  · obtain ⟨s2, h1, h2, h3, _⟩ :=
      (solveWithHint_not_atomic exampleLayout 0 exampleNestedHints 2
        ⟨9, [2], [.linExp [mkTerm 1 1]]⟩).1 failingHint exampleNestedHints [3] [3] [0]
        (Err.hintFunction "boom") rfl rfl rfl rfl
        (by
          intro w hw
          simp only [List.mem_singleton] at hw
          subst hw
          decide)
        (by decide) (by decide)
    exact ⟨s2, h1, h2, (h3 0 (by decide)).1, (h3 0 (by decide)).2⟩
  · obtain ⟨h1, h2⟩ :=
      (solveWithHint_not_atomic exampleLayout 1 exampleNestedHints 3
        ⟨7, [3], [.linExp [mkTerm 1 2]]⟩).2.2.2 IsZero
        { exampleNestedHints with solved := [true, true, true, false], nbSolved := 3 } []
        (Err.hintFunction "boom") rfl rfl rfl
    have h3 := h2 (by decide) (by decide) rfl 3 (by decide)
    exact ⟨_, h1, h3.1, h3.2, rfl⟩

/-! ## Restricted round trip of the hint map, with the bytes consumed -/

/-- The descriptor that the map binds to the key `k` (the Go expression `*m[k]`), if the
key is present and its pointer is not nil. -/
def MHints.descriptor (m : MHints) (k : Int) : Option Hint :=
  (mapGet m.entries k).bind fun p => m.heap[p]?

theorem lookup_of_mem_nodup {β : Type} (l : List (Int × β)) (k : Int) (b : β)
    (hnodup : (l.map Prod.fst).Nodup) (h : (k, b) ∈ l) : l.lookup k = some b := by
  induction l with
  | nil => simp at h
  | cons e l ih =>
    obtain ⟨k0, b0⟩ := e
    simp only [List.map_cons, List.nodup_cons] at hnodup
    rw [List.lookup_cons]
    rcases List.mem_cons.mp h with heq | hmem
    · simp only [Prod.mk.injEq] at heq
      obtain ⟨rfl, rfl⟩ := heq
      simp
    · have hne : k ≠ k0 := by
        intro e
        subst e
        exact hnodup.1 (List.mem_map.mpr ⟨(k, b), hmem, rfl⟩)
      have hb : (k == k0) = false := by simpa using hne
      rw [hb]
      exact ih hnodup.2 hmem

theorem lookup_none_of_not_mem {β : Type} (l : List (Int × β)) (k : Int)
    (h : k ∉ l.map Prod.fst) : l.lookup k = none := by
  cases hl : l.lookup k with
  | none => rfl
  | some b => exact absurd (List.mem_map.mpr ⟨(k, b), mem_of_lookup l k b hl, rfl⟩) h

/-- C35. Restricted round trip of the hint map: for every hint map (distinct keys, no nil
descriptor, descriptors that are Go values) whose descriptor inputs are linear
expressions and non-negative big integers, by value or by reference, and for every order
in which the encoder visits the entries, `encodeMHints` returns, `decodeMHints` of its
bytes returns without panic (no read out of bounds), the final value of `bytes_used` is
exactly the length of the encoding, the decoded map has the same keys, and every key is
bound to a descriptor equal to the original one (same ID, wires and inputs, variant by
variant). -/
theorem hint_roundtrip_exact (m : MHints) (order : List (Int × Option Nat))
    (hperm : order.Perm m.entries) (hnodup : (m.entries.map Prod.fst).Nodup)
    (hlen : m.entries.length < 9223372036854775808)
    (hheap : ∀ h ∈ m.heap, Hint.wf h) (hkeys : ∀ e ∈ m.entries, isInt64 e.1)
    (hvalid : ∀ e ∈ m.entries, ∃ p h, e.2 = some p ∧ m.heap[p]? = some h)
    (hres : ∀ h ∈ m.heap, ∀ i ∈ h.Inputs, HintInput.restricted i) :
    ∃ bytes d, encodeMHints (MHints.mk m.heap order) = some bytes
      ∧ decodeMHintsUsed bytes = some (d, bytes.length)
      ∧ decodeMHints bytes = some d
      ∧ (∀ k, k ∈ d.entries.map Prod.fst ↔ k ∈ m.entries.map Prod.fst)
      ∧ ∀ k, d.descriptor k = m.descriptor k := by
  have hvalid2 : ∀ e ∈ order, ∃ p h, e.2 = some p ∧ m.heap[p]? = some h :=
    fun e he => hvalid e (hperm.mem_iff.mp he)
  obtain ⟨bytes, henc⟩ := encodeMHintsLoop_isSome m.heap hres order hvalid2 []
    (int_to_byte (order.length : Int))
  have henc2 : encodeMHints (MHints.mk m.heap order) = some bytes := henc
  have hlen2 : order.length < 9223372036854775808 := by rw [hperm.length_eq]; exact hlen
  have hkeys2 : ∀ e ∈ order, isInt64 e.1 := fun e he => hkeys e (hperm.mem_iff.mp he)
  have hdec := decodeMHintsUsed_encodeMHints (MHints.mk m.heap order) bytes hlen2 hheap hkeys2
    henc2
  obtain ⟨body, hbody⟩ := encodeMHintsLoop_isSome m.heap hres order hvalid2 [] []
  have hnodup2 : (([] ++ order).map Prod.fst).Nodup := by
    simpa using (hperm.map Prod.fst).nodup_iff.mpr hnodup
  obtain ⟨check', inv⟩ := replay_inv m.heap order [] [] (MHints.mk [] []) body hbody hnodup2
    (replayInv_init m.heap)
  simp only [List.nil_append] at inv
  have hk : ∀ k, k ∈ (replay m.heap order [] (MHints.mk [] [])).entries.map Prod.fst
      ↔ k ∈ m.entries.map Prod.fst := by
    intro k
    rw [inv.keys]
    exact (hperm.map Prod.fst).mem_iff
  refine ⟨bytes, replay m.heap order [] (MHints.mk [] []), henc2, hdec, ?_, hk, ?_⟩
  · simp only [decodeMHints, hdec, Option.map_some']
  · intro k
    by_cases hmem : k ∈ m.entries.map Prod.fst
    · obtain ⟨e, he, hek⟩ := List.mem_map.mp hmem
      obtain ⟨k', v⟩ := e
      simp only at hek
      subst hek
      obtain ⟨p, h, hv, hp⟩ := hvalid _ he
      simp only at hv
      subst hv
      obtain ⟨k0, p', h', _, h2, _, h4, h5⟩ := inv.ptr k' (some p) (hperm.mem_iff.mpr he)
      simp only [Option.some_bind, hp, Option.some.injEq] at h4
      subst h4
      rw [normHint_restricted h (hres h (List.getElem?_mem hp))] at h5
      have hm : mapGet m.entries k' = some p := by
        unfold mapGet
        rw [lookup_of_mem_nodup _ _ _ hnodup he]
      simp only [MHints.descriptor, h2, hm, Option.some_bind, h5, hp]
    · have hd : k ∉ (replay m.heap order [] (MHints.mk [] [])).entries.map Prod.fst :=
        fun h => hmem ((hk k).mp h)
      simp only [MHints.descriptor, mapGet, lookup_none_of_not_mem _ _ hmem,
        lookup_none_of_not_mem _ _ hd, Option.none_bind]

/-- Witness for C35: a shared descriptor with a linear expression and two non-negative
integers, visited in the order 6, 5. -/
theorem hint_roundtrip_exact_witness :
    ∃ bytes d, encodeMHints (MHints.mk [Hint.mk 7 [5, 6] [.bigInt 3, .linExp [1, 2], .bigIntPtr 0]]
          [(6, some 0), (5, some 0)]) = some bytes
      ∧ decodeMHintsUsed bytes = some (d, bytes.length)
      ∧ decodeMHints bytes = some d
      ∧ (∀ k, k ∈ d.entries.map Prod.fst ↔ k ∈ [((5 : Int), some 0), (6, some 0)].map Prod.fst)
      ∧ ∀ k, d.descriptor k
          = (MHints.mk [Hint.mk 7 [5, 6] [.bigInt 3, .linExp [1, 2], .bigIntPtr 0]]
              [(5, some 0), (6, some 0)]).descriptor k :=
  hint_roundtrip_exact
    (MHints.mk [Hint.mk 7 [5, 6] [.bigInt 3, .linExp [1, 2], .bigIntPtr 0]]
      [(5, some 0), (6, some 0)])
    [(6, some 0), (5, some 0)]
    (by decide) (by decide) (by decide) (by decide) (by decide)
    (by
      intro e he
      simp only [List.mem_cons, List.mem_singleton, List.not_mem_nil, or_false] at he
      rcases he with rfl | rfl <;> exact ⟨0, _, rfl, rfl⟩)
    (by decide)

/-! ## One constraint: what was written when the second unknown is met -/

/-- The wire is an output wire of a descriptor of the hint map. -/
def HintOutput (m : List (Int × Hint)) (w : Nat) : Prop :=
  ∃ e ∈ m, (w : Int) ∈ e.2.Wires

/-- Every output wire of a descriptor of the map is in `P`. -/
def Covers (P : Nat → Prop) (m : List (Int × Hint)) : Prop :=
  ∀ e ∈ m, ∀ w ∈ e.2.Wires, 0 ≤ w → P w.toNat

/-- The state `r` has the flags and the values of `s` on every wire outside `P`. -/
def solution.SameOutside {q : Nat} (P : Nat → Prop) (s r : solution q) : Prop :=
  ∀ w : Nat, ¬ P w → r.solved[w]? = s.solved[w]? ∧ r.values[w]? = s.values[w]?

theorem sameOutside_refl {q : Nat} (P : Nat → Prop) (s : solution q) : s.SameOutside P s :=
  fun _ _ => ⟨rfl, rfl⟩

theorem sameOutside_trans {q : Nat} {P : Nat → Prop} {s1 s2 s3 : solution q}
    (h12 : s1.SameOutside P s2) (h23 : s2.SameOutside P s3) : s1.SameOutside P s3 :=
  fun w hw => ⟨(h23 w hw).1.trans (h12 w hw).1, (h23 w hw).2.trans (h12 w hw).2⟩

theorem covers_hintOutput (m m' : List (Int × Hint)) :
    Covers (fun w => HintOutput m w ∨ HintOutput m' w) m
      ∧ Covers (fun w => HintOutput m w ∨ HintOutput m' w) m' := by
  constructor
  · intro e he w hw h0
    refine Or.inl ⟨e, he, ?_⟩
    rw [Int.toNat_of_nonneg h0]
    exact hw
  · intro e he w hw h0
    refine Or.inr ⟨e, he, ?_⟩
    rw [Int.toNat_of_nonneg h0]
    exact hw

theorem setHintOutputs_outside {q : Nat} (P : Nat → Prop) (ws : List Int) (i : Nat)
    (outputs : List Int) (s s' : solution q) (hP : ∀ w ∈ ws, 0 ≤ w → P w.toNat)
    (h : setHintOutputs ws i outputs s = .ret s') : s.SameOutside P s' := by
  intro w hw
  obtain ⟨_, hpos⟩ := setHintOutputs_spec ws i outputs s s' h
  refine setHintOutputs_other ws i outputs s s' h w ?_
  intro w' hw' e
  apply hw
  rw [← e]
  exact hP w' hw' (hpos w' hw').1

/-- What the recursive call guarantees outside `P`: a call for a descriptor whose output
wires are in `P`, in a state whose hint map has all its output wires in `P`, writes
nothing outside `P`. -/
def KeepsOutside {q : Nat} (P : Nat → Prop)
    (recurse : solution q → Nat → Hint → Outcome (solution q × Option Err)) : Prop :=
  ∀ (s : solution q) (v : Nat) (h : Hint) (r : solution q × Option Err),
    (∀ w ∈ h.Wires, 0 ≤ w → P w.toNat) → Covers P s.mHints → recurse s v h = .ret r →
    s.SameOutside P r.1

theorem recursiveSolve_outside {q : Nat} (L : TermLayout) (P : Nat → Prop)
    (recurse : solution q → Nat → Hint → Outcome (solution q × Option Err))
    (hout : KeepsOutside P recurse) (s : solution q) (t : Term)
    (r : solution q × Option Err) (hc : Covers P s.mHints)
    (h : recursiveSolve L recurse s t = .ret r) : s.SameOutside P r.1 := by
  unfold recursiveSolve at h
  obtain ⟨b, _, h⟩ := Outcome.bind_eq_ret h
  cases b with
  | true =>
    simp only [if_true, Outcome.ret.injEq] at h
    subst h
    exact sameOutside_refl P s
  | false =>
    simp only [Bool.false_eq_true, if_false] at h
    cases hl : s.mHints.lookup (L.WireID t : Int) with
    | none => simp [hl] at h
    | some hint =>
      simp only [hl] at h
      exact hout s _ hint r (hc _ (mem_of_lookup _ _ _ hl)) hc h

theorem hintLinExpLoop_outside {q : Nat} (L : TermLayout) (P : Nat → Prop)
    (recurse : solution q → Nat → Hint → Outcome (solution q × Option Err))
    (hrec : ∀ s vID h r, recurse s vID h = .ret r → HintPost s vID h r)
    (hout : KeepsOutside P recurse)
    (l : List Term) (s : solution q) (v : ZMod q) (r : solution q × ZMod q × Option Err)
    (hc : Covers P s.mHints)
    (h : hintLinExpLoop L recurse l s v = .ret r) : s.SameOutside P r.1 := by
  induction l generalizing s v with
  | nil =>
    simp only [hintLinExpLoop, Outcome.ret.injEq] at h
    subst h
    exact sameOutside_refl P s
  | cons t l ih =>
    simp only [hintLinExpLoop] at h
    obtain ⟨r1, hr1, h⟩ := Outcome.bind_eq_ret h
    have o1 := recursiveSolve_outside L P recurse hout s t r1 hc hr1
    have e1 := recursiveSolve_extends L recurse hrec s t r1 hr1
    cases he : r1.2 with
    | some err =>
      simp only [he, Outcome.ret.injEq] at h
      subst h
      exact o1
    | none =>
      simp only [he] at h
      obtain ⟨v', _, h⟩ := Outcome.bind_eq_ret h
      exact sameOutside_trans o1 (ih r1.1 v' (by rw [e1.mHints]; exact hc) h)

theorem hintInputsLoop_outside {q : Nat} (L : TermLayout) (P : Nat → Prop)
    (recurse : solution q → Nat → Hint → Outcome (solution q × Option Err))
    (hrec : ∀ s vID h r, recurse s vID h = .ret r → HintPost s vID h r)
    (hout : KeepsOutside P recurse)
    (ins : List HintInput) (s : solution q) (inputs : List Int)
    (r : solution q × List Int × Option Err) (hc : Covers P s.mHints)
    (h : hintInputsLoop L recurse ins s inputs = .ret r) : s.SameOutside P r.1 := by
  induction ins generalizing s inputs with
  | nil =>
    simp only [hintInputsLoop, Outcome.ret.injEq] at h
    subst h
    exact sameOutside_refl P s
  | cons i ins ih =>
    cases i with
    | bigInt v => simp only [hintInputsLoop] at h; exact ih s _ hc h
    | bigIntPtr v => simp only [hintInputsLoop] at h; exact ih s _ hc h
    | linExp t =>
      simp only [hintInputsLoop] at h
      obtain ⟨r1, hr1, h⟩ := Outcome.bind_eq_ret h
      have o1 := hintLinExpLoop_outside L P recurse hrec hout t s 0 r1 hc hr1
      have e1 := hintLinExpLoop_extends L recurse hrec t s 0 r1 hr1
      cases he : r1.2.2 with
      | some err =>
        simp only [he, Outcome.ret.injEq] at h
        subst h
        exact o1
      | none =>
        simp only [he] at h
        exact sameOutside_trans o1 (ih r1.1 _ (by rw [e1.mHints]; exact hc) h)
    | term t =>
      simp only [hintInputsLoop] at h
      obtain ⟨r1, hr1, h⟩ := Outcome.bind_eq_ret h
      have o1 := recursiveSolve_outside L P recurse hout s t r1 hc hr1
      have e1 := recursiveSolve_extends L recurse hrec s t r1 hr1
      cases he : r1.2 with
      | some err =>
        simp only [he, Outcome.ret.injEq] at h
        subst h
        exact o1
      | none =>
        simp only [he] at h
        obtain ⟨v', _, h⟩ := Outcome.bind_eq_ret h
        exact sameOutside_trans o1 (ih r1.1 _ (by rw [e1.mHints]; exact hc) h)

theorem solveWithHint_outside {q : Nat} (L : TermLayout) (P : Nat → Prop) (fuel : Nat) :
    KeepsOutside P (solution.solveWithHint (q := q) L fuel) := by
  induction fuel with
  | zero =>
    intro s v h r _ _ hr
    simp [solution.solveWithHint] at hr
  | succ fuel ih =>
    intro s v h r hP hc hr
    simp only [solution.solveWithHint] at hr
    obtain ⟨b, hb, hr⟩ := Outcome.bind_eq_ret hr
    cases b with
    | true =>
      simp only [if_true, Outcome.ret.injEq] at hr
      subst hr
      exact sameOutside_refl P s
    | false =>
      simp only [Bool.false_eq_true, if_false] at hr
      cases hf : s.mHintsFunctions.lookup h.ID with
      | none =>
        simp only [hf, Outcome.ret.injEq] at hr
        subst hr
        exact sameOutside_refl P s
      | some f =>
        simp only [hf] at hr
        obtain ⟨r1, hr1, hr⟩ := Outcome.bind_eq_ret hr
        have o1 := hintInputsLoop_outside L P _
          (fun s vID h r hh => solveWithHint_spec L fuel s vID h r hh) ih h.Inputs s [] r1 hc
          hr1
        cases he : r1.2.2 with
        | some err =>
          simp only [he, Outcome.ret.injEq] at hr
          subst hr
          exact o1
        | none =>
          simp only [he] at hr
          obtain ⟨out, _, hr⟩ := Outcome.bind_eq_ret hr
          obtain ⟨s', hs', hr⟩ := Outcome.bind_eq_ret hr
          simp only [Outcome.ret.injEq] at hr
          subst hr
          exact sameOutside_trans o1 (setHintOutputs_outside P h.Wires 0 out.2.1 r1.1 s' hP hs')

theorem processLExp_outside {q : Nat} (L : TermLayout) (P : Nat → Prop) (fuel : Nat)
    (cs : R1CS q) (k : Nat) (l : List Term) (s : solution q) (val : ZMod q) (loc : Nat)
    (ttc : Term) (p : LExpState q) (hcs : Covers P cs.MHints) (hc : Covers P s.mHints)
    (h : processLExp L fuel cs k l s val loc ttc = .ret p) : s.SameOutside P p.s := by
  induction l generalizing s val loc ttc with
  | nil =>
    simp only [processLExp, Outcome.ret.injEq] at h
    subst h
    exact sameOutside_refl P s
  | cons t l ih =>
    simp only [processLExp] at h
    obtain ⟨b, hb, h⟩ := Outcome.bind_eq_ret h
    cases b with
    | true =>
      simp only [if_true] at h
      obtain ⟨v, _, h⟩ := Outcome.bind_eq_ret h
      exact ih s v loc ttc hc h
    | false =>
      simp only [Bool.false_eq_true, if_false] at h
      cases hl : cs.MHints.lookup (L.WireID t : Int) with
      | none =>
        simp only [hl] at h
        by_cases hloc : loc = 0
        · simp only [hloc, ne_eq, not_true_eq_false, if_false] at h
          exact ih s val k t hc h
        · simp [hloc] at h
      | some hint =>
        simp only [hl] at h
        obtain ⟨r, hr, h⟩ := Outcome.bind_eq_ret h
        have o1 := solveWithHint_outside L P fuel s _ hint r
          (hcs _ (mem_of_lookup _ _ _ hl)) hc hr
        have e1 := (solveWithHint_spec L fuel s _ hint r hr).1
        cases he : r.2 with
        | some err =>
          simp only [he, Outcome.ret.injEq] at h
          subst h
          exact o1
        | none =>
          simp only [he] at h
          obtain ⟨v, _, h⟩ := Outcome.bind_eq_ret h
          exact sameOutside_trans o1 (ih r.1 v loc ttc (by rw [e1.mHints]; exact hc) h)

/-- The walk of `L`, then `R`, then `O` by `solveConstraint` meets, in the state `s'`, a
term whose wire is not solved and has no hint descriptor, an unknown having been recorded
before (`loc ≠ 0`). -/
def SecondUnknown {q : Nat} (L : TermLayout) (fuel : Nat) (cs : R1CS q) (r : R1C)
    (s : solution q) (a b c : ZMod q) (s' : solution q) : Prop :=
  (∃ l1 t p, Meets L fuel cs 1 r.L s a 0 0 l1 t p ∧
      cs.MHints.lookup (L.WireID t : Int) = none ∧ p.loc ≠ 0 ∧ p.s = s') ∨
    (∃ p1, processLExp L fuel cs 1 r.L s a 0 0 = .ret p1 ∧ p1.err = none ∧
      ((∃ l1 t p, Meets L fuel cs 2 r.R p1.s b p1.loc p1.termToCompute l1 t p ∧
          cs.MHints.lookup (L.WireID t : Int) = none ∧ p.loc ≠ 0 ∧ p.s = s') ∨
        ∃ p2, processLExp L fuel cs 2 r.R p1.s b p1.loc p1.termToCompute = .ret p2 ∧
          p2.err = none ∧
          ∃ l1 t p, Meets L fuel cs 3 r.O p2.s c p2.loc p2.termToCompute l1 t p ∧
            cs.MHints.lookup (L.WireID t : Int) = none ∧ p.loc ≠ 0 ∧ p.s = s'))

theorem secondUnknown_state {q : Nat} (L : TermLayout) (fuel : Nat) (cs : R1CS q) (r : R1C)
    (s : solution q) (a b c : ZMod q) (s' : solution q)
    (h : SecondUnknown L fuel cs r s a b c s') :
    cs.solveConstraint L fuel r s a b c = .panic "found more than one wire to instantiate" ∧
      s.Extends s' ∧
      ∀ w : Nat, ¬ HintOutput cs.MHints w → ¬ HintOutput s.mHints w →
        s'.solved[w]? = s.solved[w]? ∧ s'.values[w]? = s.values[w]? := by
  obtain ⟨hcs, hc⟩ := covers_hintOutput cs.MHints s.mHints
  have key : ∀ (k : Nat) (hk : k ≠ 0) (l : List Term) (s0 : solution q) (val : ZMod q)
      (loc : Nat) (ttc : Term) (l1 : List Term) (t : Term) (p : LExpState q),
      s0.mHints = s.mHints → Meets L fuel cs k l s0 val loc ttc l1 t p →
      s0.Extends p.s ∧
        s0.SameOutside (fun w => HintOutput cs.MHints w ∨ HintOutput s.mHints w) p.s := by
    intro k hk l s0 val loc ttc l1 t p hm hmeet
    obtain ⟨_, hp, _, _⟩ := hmeet
    exact ⟨(processLExp_spec L fuel cs k hk l1 s0 val loc ttc p hp).1,
      processLExp_outside L _ fuel cs k l1 s0 val loc ttc p hcs (by rw [hm]; exact hc) hp⟩
  have fin : ∀ s1 : solution q,
      s.SameOutside (fun w => HintOutput cs.MHints w ∨ HintOutput s.mHints w) s1 →
      ∀ w : Nat, ¬ HintOutput cs.MHints w → ¬ HintOutput s.mHints w →
        s1.solved[w]? = s.solved[w]? ∧ s1.values[w]? = s.values[w]? :=
    fun s1 h w h1 h2 => h w (fun hh => hh.elim h1 h2)
  rcases h with ⟨l1, t, p, hmeet, hl, hloc, rfl⟩ | ⟨p1, hp1, he1, h⟩
  · obtain ⟨e, o⟩ := key 1 (by decide) r.L s a 0 0 l1 t p rfl hmeet
    refine ⟨?_, e, fin _ o⟩
    rw [solveConstraint_panic_iff]
    exact Or.inl (processLExp_second_unknown L fuel cs 1 r.L s a 0 0 l1 t p hmeet hl hloc)
  · have e1 := (processLExp_spec L fuel cs 1 (by decide) r.L s a 0 0 p1 hp1).1
    have o1 := processLExp_outside L _ fuel cs 1 r.L s a 0 0 p1 hcs hc hp1
    rcases h with ⟨l1, t, p, hmeet, hl, hloc, rfl⟩ | ⟨p2, hp2, he2, l1, t, p, hmeet, hl, hloc, rfl⟩
    · obtain ⟨e, o⟩ := key 2 (by decide) r.R p1.s b p1.loc p1.termToCompute l1 t p e1.mHints
        hmeet
      refine ⟨?_, e1.trans e, fin _ (sameOutside_trans o1 o)⟩
      rw [solveConstraint_panic_iff]
      exact Or.inr ⟨p1, hp1, he1, Or.inl
        (processLExp_second_unknown L fuel cs 2 r.R p1.s b p1.loc p1.termToCompute l1 t p
          hmeet hl hloc)⟩
    · have e2 := (processLExp_spec L fuel cs 2 (by decide) r.R p1.s b p1.loc
        p1.termToCompute p2 hp2).1
      have o2 := processLExp_outside L _ fuel cs 2 r.R p1.s b p1.loc p1.termToCompute p2 hcs
        (by rw [e1.mHints]; exact hc) hp2
      obtain ⟨e, o⟩ := key 3 (by decide) r.O p2.s c p2.loc p2.termToCompute l1 t p
        (e2.mHints.trans e1.mHints) hmeet
      refine ⟨?_, (e1.trans e2).trans e, fin _ (sameOutside_trans (sameOutside_trans o1 o2) o)⟩
      rw [solveConstraint_panic_iff]
      exact Or.inr ⟨p1, hp1, he1, Or.inr ⟨p2, hp2, he2,
        processLExp_second_unknown L fuel cs 3 r.O p2.s c p2.loc p2.termToCompute l1 t p
          hmeet hl hloc⟩⟩

theorem exampleTwoUnknowns_second :
    SecondUnknown exampleLayout 1 exampleTwoUnknowns
      ⟨[mkTerm 1 2], [mkTerm 1 3], [mkTerm 1 4]⟩ exampleTwoUnknownsState 0 0 0
      exampleTwoUnknownsMet := by
  refine Or.inr ⟨⟨_, 1, 0, 0, none⟩, rfl, rfl, Or.inr ⟨⟨_, 0, 2, mkTerm 1 3, none⟩, rfl, rfl,
    [], mkTerm 1 4, ⟨_, 0, 2, mkTerm 1 3, none⟩, ⟨⟨[], rfl⟩, rfl, rfl, rfl⟩, rfl, ?_, rfl⟩⟩
  decide

/-- Counterexample to C29 as stated: in `exampleTwoUnknowns` the walk of `L` meets the
hint output `w2`, which `solveWithHint` assigns in place (`w2 = 1`, flag set, `nbSolved`
from 2 to 3); the walk of `R` records the unknown `w3`; the walk of `O` meets the second
unknown `w4` and `solveConstraint` panics, with `w2` assigned. -/
theorem two_unknowns_counterexample :
    exampleTwoUnknowns.solveConstraint exampleLayout 1
        ⟨[mkTerm 1 2], [mkTerm 1 3], [mkTerm 1 4]⟩ exampleTwoUnknownsState 0 0 0
        = .panic "found more than one wire to instantiate"
      ∧ exampleTwoUnknownsState.solved[2]? = some false
      ∧ exampleTwoUnknownsState.values[2]? = some 0
      ∧ exampleTwoUnknownsState.nbSolved = 2
      ∧ SecondUnknown exampleLayout 1 exampleTwoUnknowns
          ⟨[mkTerm 1 2], [mkTerm 1 3], [mkTerm 1 4]⟩ exampleTwoUnknownsState 0 0 0
          exampleTwoUnknownsMet
      ∧ exampleTwoUnknownsMet.solved[2]? = some true
      ∧ exampleTwoUnknownsMet.values[2]? = some 1
      ∧ exampleTwoUnknownsMet.nbSolved = 3 :=
  ⟨rfl, rfl, rfl, rfl, exampleTwoUnknowns_second, rfl, rfl, rfl⟩

/-- C29, amended. A constraint with two unknowns is fatal. (1) If `processLExp`, walking a
linear expression with `loc ≠ 0` by then (an unknown was recorded, in this expression or
in one walked before), meets a term whose wire is not solved and has no hint descriptor,
it panics with `found more than one wire to instantiate`. (2) Conversely this panic is
raised only there, or comes out of a hint call. (3) `loc` leaves `0` only at a term whose
wire is not solved and has no hint descriptor. (4) `solveConstraint` raises this panic
exactly when its walk of `L`, then `R`, then `O` does. (5) When the walk of
`solveConstraint` meets such a second unknown in the state `s'`, `solveConstraint`
panics, and `s'` is the state it was given but for output wires of hint descriptors,
written by `solveWithHint` earlier in the walk: no flag was reset, no solved wire
changed, and every wire that is not an output wire of a descriptor (of the system or of
the solution) has the flag and the value it had. -/
theorem two_unknowns_panic {q : Nat} (L : TermLayout) (fuel : Nat) (cs : R1CS q) :
    (∀ (k : Nat) (l : List Term) (s : solution q) (val : ZMod q) (loc : Nat) (ttc : Term)
        (l1 : List Term) (t : Term) (p : LExpState q),
        Meets L fuel cs k l s val loc ttc l1 t p →
        cs.MHints.lookup (L.WireID t : Int) = none → p.loc ≠ 0 →
        processLExp L fuel cs k l s val loc ttc
          = .panic "found more than one wire to instantiate") ∧
      (∀ (k : Nat) (l : List Term) (s : solution q) (val : ZMod q) (loc : Nat) (ttc : Term),
        processLExp L fuel cs k l s val loc ttc
          = .panic "found more than one wire to instantiate" →
        ∃ l1 t p, Meets L fuel cs k l s val loc ttc l1 t p ∧
          ((cs.MHints.lookup (L.WireID t : Int) = none ∧ p.loc ≠ 0) ∨
            ∃ hint, cs.MHints.lookup (L.WireID t : Int) = some hint ∧
              p.s.solveWithHint L fuel (L.WireID t) hint
                = .panic "found more than one wire to instantiate")) ∧
      (∀ (k : Nat) (l : List Term) (s : solution q) (val : ZMod q) (ttc : Term)
        (p : LExpState q), processLExp L fuel cs k l s val 0 ttc = .ret p → p.loc ≠ 0 →
        ∃ l1 t p1, Meets L fuel cs k l s val 0 ttc l1 t p1 ∧
          cs.MHints.lookup (L.WireID t : Int) = none ∧ p1.loc = 0) ∧
      (∀ (r : R1C) (s : solution q) (a b c : ZMod q),
        cs.solveConstraint L fuel r s a b c = .panic "found more than one wire to instantiate" ↔
          (processLExp L fuel cs 1 r.L s a 0 0
              = .panic "found more than one wire to instantiate"
            ∨ ∃ p1, processLExp L fuel cs 1 r.L s a 0 0 = .ret p1 ∧ p1.err = none ∧
              (processLExp L fuel cs 2 r.R p1.s b p1.loc p1.termToCompute
                  = .panic "found more than one wire to instantiate"
                ∨ ∃ p2, processLExp L fuel cs 2 r.R p1.s b p1.loc p1.termToCompute = .ret p2 ∧
                  p2.err = none ∧
                  processLExp L fuel cs 3 r.O p2.s c p2.loc p2.termToCompute
                    = .panic "found more than one wire to instantiate"))) ∧
      (∀ (r : R1C) (s : solution q) (a b c : ZMod q) (s' : solution q),
        SecondUnknown L fuel cs r s a b c s' →
        cs.solveConstraint L fuel r s a b c
            = .panic "found more than one wire to instantiate" ∧
          s.Extends s' ∧
          ∀ w : Nat, ¬ HintOutput cs.MHints w → ¬ HintOutput s.mHints w →
            s'.solved[w]? = s.solved[w]? ∧ s'.values[w]? = s.values[w]?) :=
  ⟨processLExp_second_unknown L fuel cs, processLExp_panic L fuel cs,
    processLExp_loc L fuel cs, solveConstraint_panic_iff L fuel cs,
    secondUnknown_state L fuel cs⟩

/-- Witness for C29, amended: the wire `w3` of `exampleDiv` is not solved and has no hint;
the constraint `w3 · w3 = 0` names it in `L` and again in `R`, and `solveConstraint`
panics. In `exampleTwoUnknowns` the second unknown is met in `exampleTwoUnknownsMet`: the
solve panics, and the wires `w3` and `w4`, which are not hint outputs, are as they were. -/
theorem two_unknowns_panic_witness :
    exampleDiv.solveConstraint exampleLayout 1 ⟨[mkTerm 1 3], [mkTerm 1 3], []⟩
          exampleZeroState 0 0 0
        = .panic "found more than one wire to instantiate"
      ∧ exampleTwoUnknowns.solveConstraint exampleLayout 1
          ⟨[mkTerm 1 2], [mkTerm 1 3], [mkTerm 1 4]⟩ exampleTwoUnknownsState 0 0 0
          = .panic "found more than one wire to instantiate"
      ∧ exampleTwoUnknownsState.Extends exampleTwoUnknownsMet
      ∧ ∀ w : Nat, ¬ HintOutput exampleTwoUnknowns.MHints w →
          ¬ HintOutput exampleTwoUnknownsState.mHints w →
          exampleTwoUnknownsMet.solved[w]? = exampleTwoUnknownsState.solved[w]? ∧
            exampleTwoUnknownsMet.values[w]? = exampleTwoUnknownsState.values[w]? :=
  ⟨((two_unknowns_panic exampleLayout 1 exampleDiv).2.2.2.1
      ⟨[mkTerm 1 3], [mkTerm 1 3], []⟩ exampleZeroState 0 0 0).mpr
    (Or.inr ⟨⟨exampleZeroState, 0, 1, mkTerm 1 3, none⟩, rfl, rfl,
      Or.inl ((two_unknowns_panic exampleLayout 1 exampleDiv).1 2 [mkTerm 1 3]
        exampleZeroState 0 1 (mkTerm 1 3) [] (mkTerm 1 3)
        ⟨exampleZeroState, 0, 1, mkTerm 1 3, none⟩
        ⟨⟨[], rfl⟩, rfl, rfl, by decide⟩ (by decide) (by decide))⟩),
    (two_unknowns_panic exampleLayout 1 exampleTwoUnknowns).2.2.2.2
      ⟨[mkTerm 1 2], [mkTerm 1 3], [mkTerm 1 4]⟩ exampleTwoUnknownsState 0 0 0
      exampleTwoUnknownsMet exampleTwoUnknowns_second⟩

/-! ## Sharing of descriptors across the round trip: the encoder returns -/

/-- The inputs that `encodeMHints` has a case for: every dynamic type of an input but a
single term. -/
def HintInput.encodable : HintInput → Prop
  | .bigInt _ => True
  | .bigIntPtr _ => True
  | .linExp _ => True
  | .term _ => False

instance (i : HintInput) : Decidable (HintInput.encodable i) :=
  match i with
  | .bigInt _ => inferInstanceAs (Decidable True)
  | .bigIntPtr _ => inferInstanceAs (Decidable True)
  | .linExp _ => inferInstanceAs (Decidable True)
  | .term _ => inferInstanceAs (Decidable False)

theorem encodeHintInputs_returns (ins : List HintInput)
    (hres : ∀ i ∈ ins, HintInput.encodable i) (acc : List Nat) :
    ∃ out, encodeHintInputs ins acc = some out := by
  induction ins generalizing acc with
  | nil => exact ⟨acc, rfl⟩
  | cons i ins ih =>
    have hi := hres i (List.mem_cons_self _ _)
    have hrest : ∀ j ∈ ins, HintInput.encodable j :=
      fun j hj => hres j (List.mem_cons_of_mem _ hj)
    cases i with
    | bigInt v => simp only [encodeHintInputs, encodeHintInput]; exact ih hrest _
    | bigIntPtr v => simp only [encodeHintInputs, encodeHintInput]; exact ih hrest _
    | linExp l => simp only [encodeHintInputs, encodeHintInput]; exact ih hrest _
    | term t => simp [HintInput.encodable] at hi

theorem encodeMHintsLoop_returns (heap : List Hint)
    (hres : ∀ h ∈ heap, ∀ i ∈ h.Inputs, HintInput.encodable i)
    (es : List (Int × Option Nat))
    (hvalid : ∀ e ∈ es, ∃ p h, e.2 = some p ∧ heap[p]? = some h)
    (check : List (Option Nat × Int)) (acc : List Nat) :
    ∃ out, encodeMHintsLoop heap es check acc = some out := by
  induction es generalizing check acc with
  | nil => exact ⟨acc, rfl⟩
  | cons e es ih =>
    obtain ⟨k, v⟩ := e
    obtain ⟨p, h, hv, hp⟩ := hvalid (k, v) (List.mem_cons_self _ _)
    have hvalid2 : ∀ e ∈ es, ∃ p h, e.2 = some p ∧ heap[p]? = some h :=
      fun e he => hvalid e (List.mem_cons_of_mem _ he)
    simp only at hv
    subst hv
    unfold encodeMHintsLoop
    cases hc : check.lookup (some p) with
    | some lastKey => exact ih hvalid2 _ _
    | none =>
      obtain ⟨hb, hhb⟩ := encodeHintInputs_returns h.Inputs (hres h (List.getElem?_mem hp))
        (h.Wires.foldl (fun hintBinary w => hintBinary ++ int_to_byte w)
            (hintID_to_byte (h.ID % 4294967296) ++ int_to_byte (h.Wires.length : Int))
          ++ int_to_byte (h.Inputs.length : Int))
      have hh : encodeHint h = some hb := hhb
      simp only [Option.some_bind, hp, hh]
      exact ih hvalid2 _ _

/-- Counterexample to C3 as stated: the wires `5` and `6` share a descriptor whose input
is a single term; `encodeMHints` panics (`unknown type`) in either visiting order, so
there is no decoded map in which the two wires could share a descriptor. -/
theorem hint_sharing_counterexample :
    encodeMHints (MHints.mk [Hint.mk 1 [5, 6] [.term 3]] [(5, some 0), (6, some 0)]) = none
      ∧ encodeMHints (MHints.mk [Hint.mk 1 [5, 6] [.term 3]] [(6, some 0), (5, some 0)]) = none
      ∧ (encodeMHints (MHints.mk [Hint.mk 1 [5, 6] [.term 3]] [(5, some 0), (6, some 0)])).bind
          decodeMHints = none := by
  refine ⟨by decide, by decide, by decide⟩

/-- C3 (amended). Sharing of descriptors survives the codec: for every hint map (distinct
keys, no nil descriptor, descriptors that are Go values) none of whose descriptors has a
single-term input, and for every order in which the encoder visits the entries,
`encodeMHints` returns and `decodeMHints` of its bytes returns a map in which no key of
the map is bound to nil and two keys are bound to the same decoded descriptor instance
exactly when they were bound to the same instance before encoding. -/
theorem hint_sharing_preserved (m : MHints) (order : List (Int × Option Nat))
    (hperm : order.Perm m.entries) (hnodup : (m.entries.map Prod.fst).Nodup)
    (hlen : m.entries.length < 9223372036854775808)
    (hheap : ∀ h ∈ m.heap, Hint.wf h) (hkeys : ∀ e ∈ m.entries, isInt64 e.1)
    (hvalid : ∀ e ∈ m.entries, ∃ p h, e.2 = some p ∧ m.heap[p]? = some h)
    (hterm : ∀ h ∈ m.heap, ∀ i ∈ h.Inputs, HintInput.encodable i) :
    ∃ bytes d, encodeMHints (MHints.mk m.heap order) = some bytes
      ∧ decodeMHints bytes = some d
      ∧ (∀ w v, (w, v) ∈ m.entries → ∃ p, mapGet d.entries w = some p ∧ p < d.heap.length)
      ∧ ∀ w1 v1 w2 v2, (w1, v1) ∈ m.entries → (w2, v2) ∈ m.entries →
          (mapGet d.entries w1 = mapGet d.entries w2 ↔ v1 = v2) := by
  have hvalid2 : ∀ e ∈ order, ∃ p h, e.2 = some p ∧ m.heap[p]? = some h :=
    fun e he => hvalid e (hperm.mem_iff.mp he)
  obtain ⟨bytes, henc⟩ := encodeMHintsLoop_returns m.heap hterm order hvalid2 []
    (int_to_byte (order.length : Int))
  have henc2 : encodeMHints (MHints.mk m.heap order) = some bytes := henc
  have hlen2 : order.length < 9223372036854775808 := by rw [hperm.length_eq]; exact hlen
  have hkeys2 : ∀ e ∈ order, isInt64 e.1 := fun e he => hkeys e (hperm.mem_iff.mp he)
  have hdec := decodeMHintsUsed_encodeMHints (MHints.mk m.heap order) bytes hlen2 hheap hkeys2
    henc2
  obtain ⟨body, hbody⟩ := encodeMHintsLoop_returns m.heap hterm order hvalid2 [] []
  have hnodup2 : (([] ++ order).map Prod.fst).Nodup := by
    simpa using (hperm.map Prod.fst).nodup_iff.mpr hnodup
  obtain ⟨check', inv⟩ := replay_inv m.heap order [] [] (MHints.mk [] []) body hbody hnodup2
    (replayInv_init m.heap)
  simp only [List.nil_append] at inv
  refine ⟨bytes, replay m.heap order [] (MHints.mk [] []), henc2, ?_, ?_, ?_⟩
  · simp only [decodeMHints, hdec, Option.map_some']
  · intro w v hmem
    obtain ⟨k0, p, h, _, h2, _, _, _⟩ := inv.ptr w v (hperm.mem_iff.mpr hmem)
    exact ⟨p, h2, inv.bound w p h2⟩
  · intro w1 v1 w2 v2 hm1 hm2
    obtain ⟨k1, p1, h1, c1, g1, f1, _, _⟩ := inv.ptr w1 v1 (hperm.mem_iff.mpr hm1)
    obtain ⟨k2, p2, h2, c2, g2, f2, _, _⟩ := inv.ptr w2 v2 (hperm.mem_iff.mpr hm2)
    constructor
    · intro heq
      rw [g1, g2, Option.some.injEq] at heq
      subst heq
      exact inv.inj v1 v2 k1 k2 p1 c1 c2 f1 f2
    · intro heq
      subst heq
      rw [c1, Option.some.injEq] at c2
      subst c2
      rw [g1, g2, ← f1, ← f2]

/-- Witness for C3 (amended): wires 5 and 6 share a descriptor with a negative constant,
wire 7 has its own; the encoder visits the entries in the order 6, 7, 5. -/
theorem hint_sharing_preserved_witness :
    ∃ bytes d, encodeMHints (MHints.mk [Hint.mk 7 [5, 6] [.bigInt (-3)], Hint.mk 8 [7] [.linExp [1]]]
          [(6, some 0), (7, some 1), (5, some 0)]) = some bytes
      ∧ decodeMHints bytes = some d
      ∧ (∀ w v, (w, v) ∈ [((5 : Int), some 0), (6, some 0), (7, some 1)] →
          ∃ p, mapGet d.entries w = some p ∧ p < d.heap.length)
      ∧ ∀ w1 v1 w2 v2, (w1, v1) ∈ [((5 : Int), some 0), (6, some 0), (7, some 1)] →
          (w2, v2) ∈ [((5 : Int), some 0), (6, some 0), (7, some 1)] →
          (mapGet d.entries w1 = mapGet d.entries w2 ↔ v1 = v2) :=
  hint_sharing_preserved
    (MHints.mk [Hint.mk 7 [5, 6] [.bigInt (-3)], Hint.mk 8 [7] [.linExp [1]]]
      [(5, some 0), (6, some 0), (7, some 1)])
    [(6, some 0), (7, some 1), (5, some 0)]
    (by decide) (by decide) (by decide) (by decide) (by decide)
    (by
      intro e he
      simp only [List.mem_cons, List.mem_singleton, List.not_mem_nil, or_false] at he
      rcases he with rfl | rfl | rfl
      · exact ⟨0, _, rfl, rfl⟩
      · exact ⟨0, _, rfl, rfl⟩
      · exact ⟨1, _, rfl, rfl⟩)
    (by decide)

end Gnark
